import Mathlib

/-!
# Projection and control loop of the CAD core of smtrat

Shallow embedding of
* `src/lib/datastructures/cad/projection/Projection_NO.h`
  (`Projection<Incrementality::NONE, Backtracking::ORDERED, Settings>`),
* `src/lib/datastructures/cad/helper/CADCore.h` (the three `CADCore` heuristics),
* `src/smtrat-cad/projection/Projection_utils.h` (`canBeForwarded`).

Stateful code is written in state-passing style.  An `assert` that fails and an access that
the C++ standard leaves undefined (index out of range, `back()` of an empty vector) are the
two ways in which an operation does not complete; they are kept apart as `Fault.assertion`
and `Fault.undefined`.
-/

namespace smtrat
namespace cad

/-- Ways in which an operation of the source does not complete. -/
inductive Fault where
  /-- An `assert(...)` of the source evaluated to false. -/
  | assertion
  /-- An access without defined behaviour: index out of range or `back()` of an empty vector. -/
  | undefined
  deriving DecidableEq, Repr

/-- Variables (`carl::Variable`) are identified by a natural number. -/
abbrev Variable := Nat

/-- The type `carl::Bitset` (also used as `SampleLiftedWith` and `ConstraintSelection`):
a finite set of bit positions. `set(i)` is `insert i`, `test(i)` is membership. -/
abbrev Bitset := Finset Nat

/-- The external polynomial kernel and projection operator, as used by `Projection_NO.h`.
`projectUnary p v` and `projectBinary p q v` list, in order, the polynomials that
`mOperator(Settings::projectionOperator, p, v, cb)` resp. `mOperator(.., p, q, v, cb)` pass to
the callback `cb`. -/
structure Kernel (UPoly : Type) where
  isZero : UPoly → Bool
  isNumber : UPoly → Bool
  isConstant : UPoly → Bool
  mainVar : UPoly → Variable
  switchVariable : UPoly → Variable → UPoly
  projectUnary : UPoly → Variable → List UPoly
  projectBinary : UPoly → UPoly → Variable → List UPoly

section Development

set_option linter.unusedSectionVars false

variable {UPoly : Type} [DecidableEq UPoly]
/-- Modelled from the spec: `BaseProjection::canBePurged` is declared in `BaseProjection.h`,
which is not part of the sources.  The spec says "if p is a numeric constant or identically
zero it is dropped (purged)"; `Projection_utils.h` has the same test as `canBeRemoved`. -/
def canBePurged (K : Kernel UPoly) (p : UPoly) : Bool :=
  K.isZero p || K.isNumber p

/-- The function `canBeForwarded(level, p)` of `Projection_utils.h`: `p.isConstant()`. -/
def canBeForwarded (K : Kernel UPoly) (_level : Nat) (p : UPoly) : Bool :=
  K.isConstant p

/-- The call `std::map::find` on an id map: the id stored for `p`, if any. -/
def mapFind : List (UPoly × Nat) → UPoly → Option Nat
  | [], _ => none
  | (q, i) :: rest, p => if q = p then some i else mapFind rest p

/-- The call `std::map::emplace(p, id)`: adds the binding unless the key is present. -/
def mapEmplace (m : List (UPoly × Nat)) (p : UPoly) (id : Nat) : List (UPoly × Nat) :=
  match mapFind m p with
  | some _ => m
  | none => m ++ [(p, id)]

/-- The call `std::map::erase(it)` where `it` points to the binding of `p`. -/
def mapErase (m : List (UPoly × Nat)) (p : UPoly) : List (UPoly × Nat) :=
  m.filter (fun e => decide (e.1 ≠ p))

/-- Modelled from the spec: the element type of `mLiftingQueues` is declared in
`BaseProjection.h`, which is not part of the sources.  The spec calls a lifting queue a
"subset of currently-stored polynomial ids" that is scanned "in insertion order";
`insert(id)` adds `id` at the end unless it is present. -/
def queueInsert (q : List Nat) (id : Nat) : List Nat :=
  if id ∈ q then q else q ++ [id]

/-- Modelled from the spec: `erase(id)` on a lifting queue (see `queueInsert`) removes `id`. -/
def queueErase (q : List Nat) (id : Nat) : List Nat :=
  q.filter (fun i => decide (i ≠ id))

/-- One projection level: the entries `mPolynomialIDs[level]`, `mPolynomials[level]` and
`mLiftingQueues[level]` of the three parallel vectors, which `reset` resizes together. -/
structure Level (UPoly : Type) where
  /-- Field `mPolynomialIDs[level]`: maps polynomials to their id. -/
  mPolynomialIDs : List (UPoly × Nat)
  /-- Field `mPolynomials[level]`: polynomials with their origin, in insertion order. -/
  mPolynomials : List (UPoly × Nat)
  /-- Field `mLiftingQueues[level]`. -/
  mLiftingQueue : List Nat
  deriving DecidableEq, Repr

/-- The level without polynomials. -/
def Level.nil : Level UPoly := ⟨[], [], []⟩

/-- State of `Projection<Incrementality::NONE, Backtracking::ORDERED, Settings>`. -/
structure Projection (UPoly : Type) where
  /-- The variable ordering held by `BaseProjection`. -/
  mVars : List Variable
  /-- The per-level data, indexed by level. -/
  levels : List (Level UPoly)
  deriving DecidableEq, Repr

/-- The number of levels, `dim()`. -/
def Projection.dim (s : Projection UPoly) : Nat := s.mVars.length

/-- The variable of a level, `var(level)`; only used for `level < dim()`. -/
def Projection.var (s : Projection UPoly) (level : Nat) : Variable := s.mVars.getD level 0

/-- Reading `mPolynomials[level]` (and its companions); out of range is undefined. -/
def Projection.level (s : Projection UPoly) (level : Nat) : Except Fault (Level UPoly) :=
  match s.levels[level]? with
  | some l => .ok l
  | none => .error Fault.undefined

/-- Writing the data of one level. -/
def Projection.setLevel (s : Projection UPoly) (level : Nat) (l : Level UPoly) :
    Projection UPoly :=
  { s with levels := s.levels.set level l }

/-- The method `reset(vars)`: `dim()` empty levels. -/
def reset (vars : List Variable) : Projection UPoly :=
  ⟨vars, List.replicate vars.length Level.nil⟩

/-- The method `size(level)`, total: an absent level counts as empty. -/
def Projection.size (s : Projection UPoly) (level : Nat) : Nat :=
  match s.levels[level]? with
  | some l => l.mPolynomials.length
  | none => 0

/-- The lifting queue of a level, total: an absent level has the empty queue. -/
def Projection.liftingQueue (s : Projection UPoly) (level : Nat) : List Nat :=
  match s.levels[level]? with
  | some l => l.mLiftingQueue
  | none => []

/-- The stored (polynomial, origin) list of a level, total. -/
def Projection.polys (s : Projection UPoly) (level : Nat) : List (UPoly × Nat) :=
  match s.levels[level]? with
  | some l => l.mPolynomials
  | none => []

/-- The private method `insertPolynomial(level, p, origin)`. -/
def insertPolynomial (s : Projection UPoly) (level : Nat) (p : UPoly) (origin : Nat) :
    Except Fault (Projection UPoly) :=
  match s.level level with
  | .error e => .error e
  | .ok l =>
    let id := l.mPolynomials.length
    .ok (s.setLevel level
      ⟨mapEmplace l.mPolynomialIDs p id, l.mPolynomials ++ [(p, origin)],
        queueInsert l.mLiftingQueue id⟩)

/-- The private method `removePolynomial(level)`: removes the last polynomial of the level. -/
def removePolynomialLevel (s : Projection UPoly) (level : Nat) :
    Except Fault (Projection UPoly) :=
  match s.level level with
  | .error e => .error e
  | .ok l =>
    match l.mPolynomials.getLast? with
    | none => .error Fault.undefined
    | some (q, _) =>
      match mapFind l.mPolynomialIDs q with
      | none => .error Fault.assertion
      | some id =>
        .ok (s.setLevel level
          ⟨mapErase l.mPolynomialIDs q, l.mPolynomials.dropLast, queueErase l.mLiftingQueue id⟩)

/-- Sequential execution of a callback over the produced items, stopping at the first fault. -/
def foldE {σ α : Type} (f : σ → α → Except Fault σ) : List α → σ → Except Fault σ
  | [], s => .ok s
  | a :: rest, s =>
    match f s a with
    | .ok s' => foldE f rest s'
    | .error e => .error e

/-- The private method `addToProjection(level, p, origin)`.  The first argument bounds the
recursion depth; `addToProjection` below supplies `dim() - level`, which is never exhausted
because every recursive call is guarded by `level < dim() - 1`.  With no depth left the
level is `>= dim()`, where the source purges or fails `assert(level < dim())`.
The comparison `level < dim() - 1` is on `std::size_t`; it differs from the truncated
subtraction used here only for `dim() = 0`, where `assert(level < dim())` fails. -/
def addToProjectionAux (K : Kernel UPoly) :
    Nat → Nat → UPoly → Nat → Projection UPoly → Except Fault (Projection UPoly)
  | 0, _, p, _, s => if canBePurged K p then .ok s else .error Fault.assertion
  | k + 1, level, p, origin, s =>
    if canBePurged K p then .ok s
    else if 0 < level ∧ level < s.dim - 1 ∧ canBeForwarded K level p = true then
      addToProjectionAux K k (level + 1) (K.switchVariable p (s.var (level + 1))) origin s
    else if ¬ level < s.dim then .error Fault.assertion
    else if K.mainVar p ≠ s.var level then .error Fault.assertion
    else
      match s.level level with
      | .error e => .error e
      | .ok l =>
        match mapFind l.mPolynomialIDs p with
        | some id =>
          -- We already have this polynomial.
          if 0 < level then
            match l.mPolynomials[id]? with
            | none => .error Fault.undefined
            | some e => if e.2 ≤ origin then .ok s else .error Fault.assertion
          else .ok s
        | none =>
          -- Change origin to the id of this polynomial
          let origin := if level = 0 then l.mPolynomials.length else origin
          let projected : Except Fault (Projection UPoly) :=
            if level < s.dim - 1 then
              match foldE (fun st np => addToProjectionAux K k (level + 1) np origin st)
                  (K.projectUnary p (s.var (level + 1))) s with
              | .error e => .error e
              | .ok s1 =>
                foldE (fun st it =>
                    foldE (fun st' np =>
                        addToProjectionAux K k (level + 1) np (max origin it.2) st')
                      (K.projectBinary p it.1 (s.var (level + 1))) st)
                  l.mPolynomials s1
            else .ok s
          match projected with
          | .error e => .error e
          | .ok s2 => insertPolynomial s2 level p origin

/-- The private method `addToProjection(level, p, origin)`. -/
def addToProjection (K : Kernel UPoly) (level : Nat) (p : UPoly) (origin : Nat)
    (s : Projection UPoly) : Except Fault (Projection UPoly) :=
  addToProjectionAux K (s.dim - level) level p origin s

/-- The method `addPolynomial(p, cid)`. -/
def addPolynomial (K : Kernel UPoly) (p : UPoly) (cid : Nat) (s : Projection UPoly) :
    Except Fault (Projection UPoly) :=
  match s.mVars[0]? with
  | none => .error Fault.undefined
  | some v0 =>
    if K.mainVar p ≠ v0 then .error Fault.assertion
    else addToProjection K 0 p cid s

/-- The loop `while (mPolynomials[level].back().second == origin)` of `removePolynomial`.
The first argument bounds the number of iterations; `removePolynomial` supplies
`size(level) + 1`, which is never exhausted because every iteration removes one entry and
`back()` of the emptied vector is undefined. -/
def removeWhile (level origin : Nat) :
    Nat → Projection UPoly → Bitset → Except Fault (Projection UPoly × Bitset)
  | 0, _, _ => .error Fault.undefined
  | n + 1, s, removed =>
    match s.level level with
    | .error e => .error e
    | .ok l =>
      match l.mPolynomials.getLast? with
      | none => .error Fault.undefined
      | some e =>
        if e.2 = origin then
          match removePolynomialLevel s level with
          | .error f => .error f
          | .ok s' => removeWhile level origin n s' (insert (s'.size level) removed)
        else .ok (s, removed)

/-- One iteration of the loop over the levels `1 .. dim()-1` of `removePolynomial`; the
second component collects the calls of `mRemoveCallback` in order. -/
def removeAtLevel (origin : Nat) (acc : Projection UPoly × List (Nat × Bitset)) (level : Nat) :
    Except Fault (Projection UPoly × List (Nat × Bitset)) :=
  match acc.1.level level with
  | .error e => .error e
  | .ok l =>
    if l.mPolynomials.isEmpty then .ok acc
    else
      match removeWhile level origin (l.mPolynomials.length + 1) acc.1 ∅ with
      | .error e => .error e
      | .ok (s', removed) =>
        match s'.level level with
        | .error e => .error e
        | .ok l' =>
          match l'.mPolynomials.getLast? with
          | none => .error Fault.undefined
          | some e =>
            if e.2 < origin then .ok (s', acc.2 ++ [(level, removed)])
            else .error Fault.assertion

/-- The method `removePolynomial(p, cid)`.  The result holds the new state and the list of
calls `mRemoveCallback(level, mask)` in the order in which they are made. -/
def removePolynomial (p : UPoly) (cid : Nat) (s : Projection UPoly) :
    Except Fault (Projection UPoly × List (Nat × Bitset)) :=
  match s.level 0 with
  | .error e => .error e
  | .ok l0 =>
    match l0.mPolynomials.getLast? with
    | none => .error Fault.undefined
    | some e =>
      if e.1 ≠ p then .error Fault.assertion
      else if e.2 ≠ cid then .error Fault.assertion
      else
        match removePolynomialLevel s 0 with
        | .error f => .error f
        | .ok s1 =>
          let origin := s1.size 0
          foldE (removeAtLevel origin) (List.range' 1 (s1.dim - 1)) (s1, [(0, {origin})])

/-- The method `empty(level)`, total: an absent level counts as empty. -/
def Projection.empty (s : Projection UPoly) (level : Nat) : Bool :=
  decide (s.size level = 0)

/-- The method `getPolynomialById(level, id)` with its two assertions. -/
def getPolynomialById (s : Projection UPoly) (level id : Nat) : Except Fault UPoly :=
  match s.levels[level]? with
  | none => .error Fault.assertion
  | some l =>
    match l.mPolynomials[id]? with
    | none => .error Fault.assertion
    | some e => .ok e.1

/-- The method `projectNewPolynomial(level, ps)`: `return false;`.  The second component is
the state after the call. -/
def projectNewPolynomial (s : Projection UPoly) (_level : Nat) (_ps : Bitset) :
    Bool × Projection UPoly :=
  (false, s)

/-- The loop `for (const auto& pid: mLiftingQueues[level])` of
`getPolyForLifting(level, slw)` over the remaining queue entries: the first `pid` with
`!slw.test(pid)` is marked in `slw`, and `mPolynomials[level][pid].first` is returned; an
index out of range is undefined. -/
def scanQueue (polys : List (UPoly × Nat)) : List Nat → Bitset →
    Except Fault (Option UPoly × Bitset)
  | [], slw => .ok (none, slw)
  | pid :: rest, slw =>
    if pid ∉ slw then
      match polys[pid]? with
      | none => .error Fault.undefined
      | some e => .ok (some e.1, insert pid slw)
    else scanQueue polys rest slw

/-- The method `getPolyForLifting(level, slw)` (first overload).  The result holds the
returned optional polynomial, the vector `slw` after the call and the state after the
call. -/
def getPolyForLifting (s : Projection UPoly) (level : Nat) (slw : Bitset) :
    Except Fault (Option UPoly × Bitset × Projection UPoly) :=
  match s.level level with
  | .error e => .error e
  | .ok l =>
    match scanQueue l.mPolynomials l.mLiftingQueue slw with
    | .error e => .error e
    | .ok r => .ok (r.1, r.2, s)

/-- The points of `addToProjection` that a run passes, in order: a polynomial is purged
(line 51) or forwarded (line 53) or found to be stored already (line 60), the assertion on
the origins is evaluated (line 63), the operator is invoked on one polynomial (line 72) or on
two (line 77), a polynomial is inserted (line 83). -/
inductive ProjEvent (UPoly : Type) where
  | purge (level : Nat) (p : UPoly)
  | forward (level : Nat) (p : UPoly)
  | duplicate (level : Nat) (p : UPoly)
  | originCheck (level : Nat) (stored : Nat) (origin : Nat)
  | unary (level : Nat) (p : UPoly)
  | binary (level : Nat) (p q : UPoly)
  | insert (level : Nat) (p : UPoly) (origin : Nat)
  deriving DecidableEq, Repr

/-- Sequential execution of a callback that also extends the list of events; the events
recorded before a fault are kept. -/
def foldTr {σ α ε : Type} (f : σ → List ε → α → Except Fault σ × List ε) :
    List α → σ → List ε → Except Fault σ × List ε
  | [], s, log => (.ok s, log)
  | a :: rest, s, log =>
    match f s log a with
    | (.ok s', log') => foldTr f rest s' log'
    | (.error e, log') => (.error e, log')

/-- The private method `addToProjection(level, p, origin)` as `addToProjectionAux`, with the
list of the events of the run as an additional result (the events are appended to the list
that is passed in). -/
def addToProjectionTr (K : Kernel UPoly) :
    Nat → Nat → UPoly → Nat → Projection UPoly → List (ProjEvent UPoly) →
      Except Fault (Projection UPoly) × List (ProjEvent UPoly)
  | 0, level, p, _, s, log =>
    if canBePurged K p then (.ok s, log ++ [.purge level p]) else (.error Fault.assertion, log)
  | k + 1, level, p, origin, s, log =>
    if canBePurged K p then (.ok s, log ++ [.purge level p])
    else if 0 < level ∧ level < s.dim - 1 ∧ canBeForwarded K level p = true then
      addToProjectionTr K k (level + 1) (K.switchVariable p (s.var (level + 1))) origin s
        (log ++ [.forward level p])
    else if ¬ level < s.dim then (.error Fault.assertion, log)
    else if K.mainVar p ≠ s.var level then (.error Fault.assertion, log)
    else
      match s.level level with
      | .error e => (.error e, log)
      | .ok l =>
        match mapFind l.mPolynomialIDs p with
        | some id =>
          if 0 < level then
            match l.mPolynomials[id]? with
            | none => (.error Fault.undefined, log ++ [.duplicate level p])
            | some e =>
              if e.2 ≤ origin then
                (.ok s, log ++ [.duplicate level p, .originCheck level e.2 origin])
              else
                (.error Fault.assertion,
                  log ++ [.duplicate level p, .originCheck level e.2 origin])
          else (.ok s, log ++ [.duplicate level p])
        | none =>
          let origin := if level = 0 then l.mPolynomials.length else origin
          let projected : Except Fault (Projection UPoly) × List (ProjEvent UPoly) :=
            if level < s.dim - 1 then
              match foldTr (fun st lg np => addToProjectionTr K k (level + 1) np origin st lg)
                  (K.projectUnary p (s.var (level + 1))) s (log ++ [.unary level p]) with
              | (.error e, lg) => (.error e, lg)
              | (.ok s1, lg) =>
                foldTr (fun st lg' it =>
                    foldTr (fun st' lg'' np =>
                        addToProjectionTr K k (level + 1) np (max origin it.2) st' lg'')
                      (K.projectBinary p it.1 (s.var (level + 1))) st
                      (lg' ++ [.binary level p it.1]))
                  l.mPolynomials s1 lg
            else (.ok s, log)
          match projected with
          | (.error e, lg) => (.error e, lg)
          | (.ok s2, lg) =>
            match insertPolynomial s2 level p origin with
            | .error e => (.error e, lg)
            | .ok s3 => (.ok s3, lg ++ [.insert level p origin])

/-- The method `addPolynomial(p, cid)` with the list of the events of the run. -/
def addPolynomialTr (K : Kernel UPoly) (p : UPoly) (cid : Nat) (s : Projection UPoly) :
    Except Fault (Projection UPoly) × List (ProjEvent UPoly) :=
  match s.mVars[0]? with
  | none => (.error Fault.undefined, [])
  | some v0 =>
    if K.mainVar p ≠ v0 then (.error Fault.assertion, [])
    else addToProjectionTr K (s.dim - 0) 0 p cid s []

/-- The level from which `addToProjection(level, p, origin)` does not forward any further,
with the polynomial as it arrives there: the polynomial is forwarded while it is not purged,
the level is interior and the polynomial is constant in the variable of the level. -/
def forwardTarget (K : Kernel UPoly) (s : Projection UPoly) : Nat → Nat → UPoly → Nat × UPoly
  | 0, level, p => (level, p)
  | k + 1, level, p =>
    if canBePurged K p then (level, p)
    else if 0 < level ∧ level < s.dim - 1 ∧ canBeForwarded K level p = true then
      forwardTarget K s k (level + 1) (K.switchVariable p (s.var (level + 1)))
    else (level, p)

/-- The id that `mPolynomialIDs[level]` holds for a polynomial, if any. -/
def Projection.idOf (s : Projection UPoly) (level : Nat) (p : UPoly) : Option Nat :=
  match s.levels[level]? with
  | some l => mapFind l.mPolynomialIDs p
  | none => none

/-- The level at which an event of `addToProjection` takes place. -/
def ProjEvent.level : ProjEvent UPoly → Nat
  | .purge level _ => level
  | .forward level _ => level
  | .duplicate level _ => level
  | .originCheck level _ _ => level
  | .unary level _ => level
  | .binary level _ _ => level
  | .insert level _ _ => level

/-- The events of a run of `addToProjection` that take place at the given level. -/
def eventsAt (L : Nat) (log : List (ProjEvent UPoly)) : List (ProjEvent UPoly) :=
  log.filter (fun ev => decide (ev.level = L))

/-- A number of successive calls `getPolyForLifting(level, slw)` with the same vector `slw`:
the optional polynomials returned, in order, and `slw` after the last call. -/
def liftingCalls (s : Projection UPoly) (level : Nat) :
    Nat → Bitset → Except Fault (List (Option UPoly) × Bitset)
  | 0, slw => .ok ([], slw)
  | n + 1, slw =>
    match getPolyForLifting s level slw with
    | .error e => .error e
    | .ok r =>
      match liftingCalls s level n r.2.1 with
      | .error e => .error e
      | .ok rest => .ok (r.1 :: rest.1, rest.2)

/-- The type `Answer` returned by the control loop and by `checkFullSamples`. -/
inductive Answer where
  | SAT
  | UNSAT
  | UNKNOWN
  deriving DecidableEq, Repr

/-- The operations of the `CAD` object that `CADCore.h` calls.  The classes behind
`cad.mLifting`, `cad.mProjection` and `cad.checkFullSamples` are not part of the sources, so
their behaviour is a parameter: `P` is the state of `cad.mProjection`, `T` the state of
`cad.mLifting` (the sample tree with its queues, and the samples' `liftedWith` vectors),
`It` the type of the sample iterators. -/
structure CADOps (P T It UPoly : Type) where
  /-- The call `cad.dim()`. -/
  dim : Nat
  /-- The call `cad.idLP(level)`. -/
  idLP : Nat → Nat
  /-- The call `cad.mLifting.resetFullSamples()`. -/
  resetFullSamples : T → T
  /-- The call `cad.mLifting.restoreRemovedSamples()`. -/
  restoreRemovedSamples : T → T
  /-- The call `cad.checkFullSamples(assignment)`. -/
  checkFullSamples : P → T → Answer × T
  /-- The call `cad.mLifting.hasNextSample()`. -/
  hasNextSample : T → Bool
  /-- The call `cad.mLifting.hasFullSamples()`. -/
  hasFullSamples : T → Bool
  /-- The call `cad.mLifting.getNextSample()`. -/
  getNextSample : T → It
  /-- The call `it.depth()`. -/
  depth : T → It → Nat
  /-- The call `s.hasConflictWithConstraint()` on the sample `*it`. -/
  hasConflictWithConstraint : T → It → Bool
  /-- The call `cad.mLifting.removeNextSample()`. -/
  removeNextSample : T → T
  /-- The call `cad.mProjection.getPolyForLifting(level, s.liftedWith())` on the sample `*it`;
  the sample's `liftedWith` vector lives in the sample tree. -/
  getPolyForLifting : P → Nat → T → It → Option Nat × P × T
  /-- The call `cad.mProjection.getPolynomialById(level, id)`. -/
  getPolynomialById : P → Nat → Nat → UPoly
  /-- The call `cad.mLifting.liftSample(it, poly, polyID)`. -/
  liftSample : T → It → UPoly → Nat → T
  /-- The call `cad.mProjection.projectNewPolynomial()`. -/
  projectNewPolynomial : P → Bitset × P
  /-- The call `cad.mProjection.empty(level)`. -/
  empty : P → Nat → Bool
  /-- The call `cad.mLifting.addTrivialSample(it)`. -/
  addTrivialSample : T → It → Bool × T

/-- A call made by the control loop, with its result. -/
inductive Call (It UPoly : Type) where
  | resetFullSamples
  | restoreRemovedSamples
  | checkFullSamples (res : Answer)
  | hasNextSample (res : Bool)
  | hasFullSamples (res : Bool)
  | getNextSample (it : It)
  | hasConflictWithConstraint (it : It) (res : Bool)
  | removeNextSample
  | getPolyForLifting (level : Nat) (it : It) (res : Option Nat)
  | getPolynomialById (level : Nat) (id : Nat)
  | liftSample (it : It) (poly : UPoly) (polyID : Nat)
  | projectNewPolynomial (res : Bitset)
  | empty (level : Nat) (res : Bool)
  | addTrivialSample (it : It) (res : Bool)
  deriving DecidableEq

/-- One entry of the call history: the states in which the call is made, and the call. -/
structure Step (P T It UPoly : Type) where
  /-- The state of `cad.mProjection` before the call. -/
  proj : P
  /-- The state of `cad.mLifting` before the call. -/
  tree : T
  /-- The call and its result. -/
  call : Call It UPoly

/-- The states and the call history of a run. -/
structure World (P T It UPoly : Type) where
  proj : P
  tree : T
  history : List (Step P T It UPoly)

/-- Appends a call, made in the current states, to the history and installs the states
produced by the call. -/
def World.record {P T It : Type} (w : World P T It UPoly) (c : Call It UPoly) (p : P) (t : T) :
    World P T It UPoly :=
  ⟨p, t, w.history ++ [⟨w.proj, w.tree, c⟩]⟩

/-- The effect of one pass through a loop body: the loop is left with a result (an answer,
or a failed `assert`), or the next pass starts. -/
inductive Pass (P T It UPoly : Type) where
  | done (res : Except Fault Answer) (w : World P T It UPoly)
  | next (w : World P T It UPoly)

/-- Iteration of a loop body.  The loops of `CADCore.h` are `while (true)` loops without a
bound, so the number of passes is limited by the first argument; `none` means that the limit
was reached before the loop was left. -/
def runLoop {P T It : Type} (body : World P T It UPoly → Pass P T It UPoly) :
    Nat → World P T It UPoly → Option (Except Fault Answer × World P T It UPoly)
  | 0, _ => none
  | n + 1, w =>
    match body w with
    | .done res w' => some (res, w')
    | .next w' => runLoop body n w'

/-- The lines shared by the three loop bodies: `checkFullSamples` and the return on `SAT`.
The second component tells whether the body goes on. -/
def checkStep {P T It : Type} (ops : CADOps P T It UPoly) (w : World P T It UPoly) :
    Answer × World P T It UPoly :=
  let r := ops.checkFullSamples w.proj w.tree
  (r.1, w.record (.checkFullSamples r.1) w.proj r.2)

/-- The lines `auto it = getNextSample(); Sample& s = *it; assert(0 <= it.depth() &&
it.depth() < cad.dim()); if (s.hasConflictWithConstraint()) { removeNextSample(); continue; }`
shared by the three loop bodies.  The result is the finished pass, or the iterator and the
world with which the body goes on. -/
def fetchStep {P T It : Type} (ops : CADOps P T It UPoly) (w : World P T It UPoly) :
    Pass P T It UPoly ⊕ (It × World P T It UPoly) :=
  let it := ops.getNextSample w.tree
  let w1 := w.record (.getNextSample it) w.proj w.tree
  if ¬ ops.depth w1.tree it < ops.dim then .inl (.done (.error Fault.assertion) w1)
  else
    let c := ops.hasConflictWithConstraint w1.tree it
    let w2 := w1.record (.hasConflictWithConstraint it c) w1.proj w1.tree
    if c then .inl (.next (w2.record .removeNextSample w2.proj (ops.removeNextSample w2.tree)))
    else .inr (it, w2)

/-- The lines `auto polyID = getPolyForLifting(idLP(it.depth() + 1), s.liftedWith());
if (polyID) { poly = getPolynomialById(..); liftSample(it, poly, *polyID); }` shared by the
three loop bodies.  The result is the world after lifting, or the world in which no
polynomial was found. -/
def liftStep {P T It : Type} (ops : CADOps P T It UPoly) (it : It) (w : World P T It UPoly) :
    World P T It UPoly ⊕ World P T It UPoly :=
  let level := ops.idLP (ops.depth w.tree it + 1)
  let r := ops.getPolyForLifting w.proj level w.tree it
  let w1 := w.record (.getPolyForLifting level it r.1) r.2.1 r.2.2
  match r.1 with
  | some polyID =>
    let poly := ops.getPolynomialById w1.proj level polyID
    let w2 := w1.record (.getPolynomialById level polyID) w1.proj w1.tree
    .inl (w2.record (.liftSample it poly polyID) w2.proj (ops.liftSample w2.tree it poly polyID))
  | none => .inr w1

/-- The body of the `while (true)` loop of `CADCore<CoreHeuristic::BySample>`. -/
def bySampleBody {P T It : Type} (ops : CADOps P T It UPoly) (w : World P T It UPoly) :
    Pass P T It UPoly :=
  let (res, w1) := checkStep ops w
  if res = Answer.SAT then .done (.ok Answer.SAT) w1
  else
    let b := ops.hasNextSample w1.tree
    let w2 := w1.record (.hasNextSample b) w1.proj w1.tree
    if ¬ b then .done (.ok Answer.UNSAT) w2   -- break; return Answer::UNSAT
    else
      match fetchStep ops w2 with
      | .inl pass => pass
      | .inr (it, w3) =>
        match liftStep ops it w3 with
        | .inl w4 => .next w4
        | .inr w4 =>
          let w5 := w4.record .removeNextSample w4.proj (ops.removeNextSample w4.tree)
          let b' := ops.hasNextSample w5.tree
          let w6 := w5.record (.hasNextSample b') w5.proj w5.tree
          if ¬ b' then
            let g := ops.projectNewPolynomial w6.proj
            let w7 := w6.record (.projectNewPolynomial g.1) g.2 w6.tree
            if g.1.Nonempty then
              .next (w7.record .restoreRemovedSamples w7.proj (ops.restoreRemovedSamples w7.tree))
            else .next w7
          else .next w6

/-- The body of the `while (true)` loop of `CADCore<CoreHeuristic::PreferProjection>`. -/
def preferProjectionBody {P T It : Type} (ops : CADOps P T It UPoly) (w : World P T It UPoly) :
    Pass P T It UPoly :=
  let (res, w1) := checkStep ops w
  if res = Answer.SAT then .done (.ok Answer.SAT) w1
  else
    let b := ops.hasNextSample w1.tree
    let w2 := w1.record (.hasNextSample b) w1.proj w1.tree
    if ¬ b then .done (.ok Answer.UNSAT) w2
    else
      match fetchStep ops w2 with
      | .inl pass => pass
      | .inr (it, w3) =>
        match liftStep ops it w3 with
        | .inl w4 => .next w4
        | .inr w4 =>
          let g := ops.projectNewPolynomial w4.proj
          let w5 := w4.record (.projectNewPolynomial g.1) g.2 w4.tree
          if g.1.Nonempty then
            .next (w5.record .restoreRemovedSamples w5.proj (ops.restoreRemovedSamples w5.tree))
          else
            let level := ops.idLP (ops.depth w5.tree it + 1)
            let e := ops.empty w5.proj level
            let w6 := w5.record (.empty level e) w5.proj w5.tree
            if e then
              let a := ops.addTrivialSample w6.tree it
              let w7 := w6.record (.addTrivialSample it a.1) w6.proj a.2
              if ¬ a.1 then
                .next (w7.record .removeNextSample w7.proj (ops.removeNextSample w7.tree))
              else .next w7
            else .next (w6.record .removeNextSample w6.proj (ops.removeNextSample w6.tree))

/-- The condition `hasNextSample() || hasFullSamples()` of the inner `while` loop of
`CADCore<CoreHeuristic::PreferSampling>`; the operator `||` calls `hasFullSamples` only if
`hasNextSample` returned false. -/
def samplingCond {P T It : Type} (ops : CADOps P T It UPoly) (w : World P T It UPoly) :
    Bool × World P T It UPoly :=
  let b := ops.hasNextSample w.tree
  let w1 := w.record (.hasNextSample b) w.proj w.tree
  if b then (true, w1)
  else
    let f := ops.hasFullSamples w1.tree
    (f, w1.record (.hasFullSamples f) w1.proj w1.tree)

/-- One evaluation of the condition of the inner `while` loop of
`CADCore<CoreHeuristic::PreferSampling>` with what follows it: the body of the inner loop if
the condition holds, and otherwise the end of the pass through the outer loop
(`projectNewPolynomial`, the return of `UNSAT`) and the beginning of the next one
(`restoreRemovedSamples`). -/
def preferSamplingBody {P T It : Type} (ops : CADOps P T It UPoly)
    (w : World P T It UPoly) : Pass P T It UPoly :=
  let c := samplingCond ops w
  if c.1 then
    let (res, w3) := checkStep ops c.2
    if res = Answer.SAT then .done (.ok Answer.SAT) w3
    else
      match fetchStep ops w3 with
      | .inl pass => pass
      | .inr (it, w4) =>
        match liftStep ops it w4 with
        | .inl w5 => .next w5
        | .inr w5 =>
          let a := ops.addTrivialSample w5.tree it
          let w6 := w5.record (.addTrivialSample it a.1) w5.proj a.2
          if ¬ a.1 then
            .next (w6.record .removeNextSample w6.proj (ops.removeNextSample w6.tree))
          else .next w6
  else
    let r := ops.projectNewPolynomial c.2.proj
    let w3 := c.2.record (.projectNewPolynomial r.1) r.2 c.2.tree
    if r.1 = ∅ then .done (.ok Answer.UNSAT) w3
    else .next (w3.record .restoreRemovedSamples w3.proj (ops.restoreRemovedSamples w3.tree))

/-- The world in which a heuristic starts. -/
def World.start {P T It : Type} (p : P) (t : T) : World P T It UPoly := ⟨p, t, []⟩

/-- The function `CADCore<CoreHeuristic::BySample>::operator()`. -/
def bySample {P T It : Type} (ops : CADOps P T It UPoly) (fuel : Nat) (p : P) (t : T) :
    Option (Except Fault Answer × World P T It UPoly) :=
  let w0 : World P T It UPoly := World.start p t
  let w1 := w0.record .resetFullSamples w0.proj (ops.resetFullSamples w0.tree)
  let w2 := w1.record .restoreRemovedSamples w1.proj (ops.restoreRemovedSamples w1.tree)
  runLoop (bySampleBody ops) fuel w2

/-- The function `CADCore<CoreHeuristic::PreferProjection>::operator()`. -/
def preferProjection {P T It : Type} (ops : CADOps P T It UPoly) (fuel : Nat) (p : P) (t : T) :
    Option (Except Fault Answer × World P T It UPoly) :=
  let w0 : World P T It UPoly := World.start p t
  let w1 := w0.record .resetFullSamples w0.proj (ops.resetFullSamples w0.tree)
  let w2 := w1.record .restoreRemovedSamples w1.proj (ops.restoreRemovedSamples w1.tree)
  runLoop (preferProjectionBody ops) fuel w2

/-- The function `CADCore<CoreHeuristic::PreferSampling>::operator()`. -/
def preferSampling {P T It : Type} (ops : CADOps P T It UPoly) (fuel : Nat) (p : P) (t : T) :
    Option (Except Fault Answer × World P T It UPoly) :=
  let w0 : World P T It UPoly := World.start p t
  let w1 := w0.record .resetFullSamples w0.proj (ops.resetFullSamples w0.tree)
  let w2 := w1.record .restoreRemovedSamples w1.proj (ops.restoreRemovedSamples w1.tree)
  runLoop (preferSamplingBody ops) fuel w2

/-- The operations in which every answer `UNKNOWN` of `checkFullSamples` is replaced by
`UNSAT`, everything else being the same. -/
def CADOps.unknownAsUnsat {P T It : Type} (ops : CADOps P T It UPoly) : CADOps P T It UPoly :=
  { ops with
    checkFullSamples := fun p t =>
      (if (ops.checkFullSamples p t).1 = Answer.UNKNOWN then Answer.UNSAT
        else (ops.checkFullSamples p t).1, (ops.checkFullSamples p t).2) }

/-- What a run leaves behind apart from the call history: its result and the final states of
the projection and of the sample tree. -/
def outcome {P T It : Type} (run : Option (Except Fault Answer × World P T It UPoly)) :
    Option (Except Fault Answer × P × T) :=
  run.map (fun r => (r.1, r.2.proj, r.2.tree))

/-- The id map that belongs to a list of stored polynomials: the i-th polynomial has id
`n + i`. -/
def idsFrom (n : Nat) : List (UPoly × Nat) → List (UPoly × Nat)
  | [] => []
  | e :: rest => (e.1, n) :: idsFrom (n + 1) rest

/-- The level data that belongs to a list of stored polynomials. -/
def mkLevel (polys : List (UPoly × Nat)) : Level UPoly :=
  ⟨idsFrom 0 polys, polys, List.range polys.length⟩

/-- A level is well formed: the id map and the lifting queue are the ones that belong to the
stored list, and the stored polynomials are pairwise distinct. -/
def WFLevel (l : Level UPoly) : Prop :=
  l = mkLevel l.mPolynomials ∧ (l.mPolynomials.map Prod.fst).Nodup

/-- Structural well-formedness of a state. -/
def Good (s : Projection UPoly) : Prop :=
  s.levels.length = s.mVars.length ∧ ∀ l ∈ s.levels, WFLevel l

/-- The state `s'` extends `s` by entries of origin `n` at levels `>= lo` only. -/
def Ext (n lo : Nat) (s s' : Projection UPoly) : Prop :=
  s'.mVars = s.mVars ∧ s'.levels.length = s.levels.length ∧
  ∀ L, ∃ ext, s'.polys L = s.polys L ++ ext ∧ (∀ e ∈ ext, e.2 = n) ∧ (L < lo → ext = [])

/-- Well-formedness together with an upper bound on all stored origins. -/
def Bounded (n : Nat) (s : Projection UPoly) : Prop :=
  Good s ∧ ∀ L, ∀ e ∈ s.polys L, e.2 ≤ n

/-- The polynomials that `addToProjection` hands to level `level + 1` while it processes a new
polynomial `p` whose origin (line 71, after the level-0 adjustment) is `origin`, each with
the origin passed along, in the order of the calls: first the results of the unary
projection, then, for each stored entry in insertion order, the results of the binary
projection. -/
def handedOn (K : Kernel UPoly) (v : Variable) (p : UPoly) (origin : Nat)
    (stored : List (UPoly × Nat)) : List (UPoly × Nat) :=
  (K.projectUnary p v).map (fun np => (np, origin)) ++
    (stored.map
      (fun it => (K.projectBinary p it.1 v).map (fun np => (np, max origin it.2)))).flatten

/-- The statement proved about `addToProjectionAux` with recursion depth `k`. -/
def AuxSound (K : Kernel UPoly) (n k : Nat) : Prop :=
  ∀ (level : Nat) (p : UPoly) (o : Nat) (s s' : Projection UPoly),
    Bounded n s → (level = 0 → n = s.size 0) → (level ≠ 0 → o = n) →
    addToProjectionAux K k level p o s = .ok s' →
    Bounded n s' ∧ Ext n level s s' ∧
      (s' = s ∨ 0 < level ∨ s'.polys level = s.polys level ++ [(p, n)])

/-- The stored list of a level after the removal loop for origin `n`: the entries of origin
`n` at the end of the list are dropped. -/
def strip (n : Nat) (polys : List (UPoly × Nat)) : List (UPoly × Nat) :=
  polys.rdropWhile (fun e => decide (e.2 = n))

/-- The condition under which the removal loop for origin `n` completes at a level with the
stored list `polys`: the level is empty, or an entry of origin smaller than `n` stops it. -/
def LevelOK (n : Nat) (polys : List (UPoly × Nat)) : Prop :=
  polys = [] ∨ ∃ e, (strip n polys).getLast? = some e ∧ e.2 < n

/-- The calls of the removal callback made for the levels `a .. a+m-1`. -/
def callbacks (n : Nat) (t : Projection UPoly) (a m : Nat) : List (Nat × Bitset) :=
  ((List.range' a m).filter (fun L => decide (t.polys L ≠ []))).map
    (fun L => (L, Finset.Ico (strip n (t.polys L)).length (t.polys L).length))

/-- The invariant of the states reachable from `reset`: the levels are well formed, the
level-0 origins are the indices, every origin is smaller than `size(0)`, and the origins of
each level are non-decreasing in insertion order. -/
def Inv (s : Projection UPoly) : Prop :=
  Good s ∧ (s.polys 0).map Prod.snd = List.range (s.size 0) ∧
    (∀ L, ∀ e ∈ s.polys L, e.2 < s.size 0) ∧
    (∀ L, ((s.polys L).map Prod.snd).Pairwise (· ≤ ·))

/-- The states reachable from `reset` by `addPolynomial` and `removePolynomial` calls that
complete (a `removePolynomial` call that completes has passed the assertions of its
precondition). -/
inductive Reachable (K : Kernel UPoly) : Projection UPoly → Prop where
  | reset (vars : List Variable) : Reachable K (reset vars)
  | add {s s' : Projection UPoly} (p : UPoly) (cid : Nat) :
      Reachable K s → addPolynomial K p cid s = .ok s' → Reachable K s'
  | remove {s s' : Projection UPoly} (p : UPoly) (cid : Nat) (log : List (Nat × Bitset)) :
      Reachable K s → removePolynomial p cid s = .ok (s', log) → Reachable K s'

/-- The projection operator respects the main-variable discipline: every polynomial it
produces for the variable `v`, and every polynomial switched to `v`, is purged or has main
variable `v`.  Under this condition the assertion `p.mainVar() == var(level)` of
`addToProjection` holds for every polynomial passed on during the recursion. -/
def Disciplined (K : Kernel UPoly) : Prop :=
  (∀ p v, ∀ np ∈ K.projectUnary p v, canBePurged K np = true ∨ K.mainVar np = v) ∧
  (∀ p q v, ∀ np ∈ K.projectBinary p q v, canBePurged K np = true ∨ K.mainVar np = v) ∧
  (∀ p v, canBePurged K (K.switchVariable p v) = true ∨ K.mainVar (K.switchVariable p v) = v)

/-- Every stored polynomial is not purgeable, has the variable of its level as main variable
and, at an interior level, is not constant in that variable: the conditions under which
`addToProjection` inserts a polynomial. -/
def StoredOK (K : Kernel UPoly) (s : Projection UPoly) : Prop :=
  ∀ L e, e ∈ s.polys L →
    canBePurged K e.1 = false ∧ K.mainVar e.1 = s.var L ∧
    (0 < L → L < s.dim - 1 → canBeForwarded K L e.1 = false)

/-- The states in which `addToProjection` is called while `addPolynomial` runs on a
reachable state with `size(0) = n`: the reachable state itself, and every state produced by
a completed recursive call, which is a call for a level `>= 1` with origin `n`. -/
inductive CallState (K : Kernel UPoly) (n : Nat) : Projection UPoly → Prop where
  | start {s : Projection UPoly} : Reachable K s → n = s.size 0 → CallState K n s
  | step {s s' : Projection UPoly} (k level : Nat) (p : UPoly) :
      CallState K n s → 1 ≤ level → addToProjectionAux K k level p n s = .ok s' →
      CallState K n s'

/-- The way in which a pass through a loop body ends, with the states it leaves behind and
without the call history. -/
inductive PassStates (P T : Type) where
  | done (res : Except Fault Answer) (p : P) (t : T)
  | next (p : P) (t : T)

/-- The end of a pass without the call history. -/
def Pass.states {P T It : Type} : Pass P T It UPoly → PassStates P T
  | .done r w => .done r w.proj w.tree
  | .next w => .next w.proj w.tree

/-- The effect of `fetchStep` on the states; `k` is the rest of the loop body. -/
def fetchStates {P T It : Type} (ops : CADOps P T It UPoly) (p : P) (t : T)
    (k : It → PassStates P T) : PassStates P T :=
  if ¬ ops.depth t (ops.getNextSample t) < ops.dim then .done (.error Fault.assertion) p t
  else if ops.hasConflictWithConstraint t (ops.getNextSample t) = true then
    .next p (ops.removeNextSample t)
  else k (ops.getNextSample t)

/-- The effect of `liftStep` on the states; `k` is the rest of the loop body, entered if no
polynomial was found. -/
def liftStates {P T It : Type} (ops : CADOps P T It UPoly) (p : P) (t : T) (it : It)
    (k : P → T → PassStates P T) : PassStates P T :=
  match (ops.getPolyForLifting p (ops.idLP (ops.depth t it + 1)) t it).1 with
  | some polyID =>
    .next (ops.getPolyForLifting p (ops.idLP (ops.depth t it + 1)) t it).2.1
      (ops.liftSample (ops.getPolyForLifting p (ops.idLP (ops.depth t it + 1)) t it).2.2 it
        (ops.getPolynomialById (ops.getPolyForLifting p (ops.idLP (ops.depth t it + 1)) t it).2.1
          (ops.idLP (ops.depth t it + 1)) polyID) polyID)
  | none =>
    k (ops.getPolyForLifting p (ops.idLP (ops.depth t it + 1)) t it).2.1
      (ops.getPolyForLifting p (ops.idLP (ops.depth t it + 1)) t it).2.2

/-- The effect of one pass through the loop body of `BySample` on the states. -/
def bySampleStates {P T It : Type} (ops : CADOps P T It UPoly) (p : P) (t : T) :
    PassStates P T :=
  if (ops.checkFullSamples p t).1 = Answer.SAT then
    .done (.ok Answer.SAT) p (ops.checkFullSamples p t).2
  else if ¬ ops.hasNextSample (ops.checkFullSamples p t).2 = true then
    .done (.ok Answer.UNSAT) p (ops.checkFullSamples p t).2
  else
    fetchStates ops p (ops.checkFullSamples p t).2 (fun it =>
      liftStates ops p (ops.checkFullSamples p t).2 it (fun p' t' =>
        if ¬ ops.hasNextSample (ops.removeNextSample t') = true then
          if (ops.projectNewPolynomial p').1.Nonempty then
            .next (ops.projectNewPolynomial p').2
              (ops.restoreRemovedSamples (ops.removeNextSample t'))
          else .next (ops.projectNewPolynomial p').2 (ops.removeNextSample t')
        else .next p' (ops.removeNextSample t')))

/-- The effect of one pass through the loop body of `PreferProjection` on the states. -/
def preferProjectionStates {P T It : Type} (ops : CADOps P T It UPoly) (p : P) (t : T) :
    PassStates P T :=
  if (ops.checkFullSamples p t).1 = Answer.SAT then
    .done (.ok Answer.SAT) p (ops.checkFullSamples p t).2
  else if ¬ ops.hasNextSample (ops.checkFullSamples p t).2 = true then
    .done (.ok Answer.UNSAT) p (ops.checkFullSamples p t).2
  else
    fetchStates ops p (ops.checkFullSamples p t).2 (fun it =>
      liftStates ops p (ops.checkFullSamples p t).2 it (fun p' t' =>
        if (ops.projectNewPolynomial p').1.Nonempty then
          .next (ops.projectNewPolynomial p').2 (ops.restoreRemovedSamples t')
        else if ops.empty (ops.projectNewPolynomial p').2 (ops.idLP (ops.depth t' it + 1))
            = true then
          if ¬ (ops.addTrivialSample t' it).1 = true then
            .next (ops.projectNewPolynomial p').2
              (ops.removeNextSample (ops.addTrivialSample t' it).2)
          else .next (ops.projectNewPolynomial p').2 (ops.addTrivialSample t' it).2
        else .next (ops.projectNewPolynomial p').2 (ops.removeNextSample t')))

/-- The effect of one pass through `preferSamplingBody` on the states. -/
def preferSamplingStates {P T It : Type} (ops : CADOps P T It UPoly) (p : P) (t : T) :
    PassStates P T :=
  if ops.hasNextSample t = true ∨ ops.hasFullSamples t = true then
    if (ops.checkFullSamples p t).1 = Answer.SAT then
      .done (.ok Answer.SAT) p (ops.checkFullSamples p t).2
    else
      fetchStates ops p (ops.checkFullSamples p t).2 (fun it =>
        liftStates ops p (ops.checkFullSamples p t).2 it (fun p' t' =>
          if ¬ (ops.addTrivialSample t' it).1 = true then
            .next p' (ops.removeNextSample (ops.addTrivialSample t' it).2)
          else .next p' (ops.addTrivialSample t' it).2))
  else if (ops.projectNewPolynomial p).1 = ∅ then
    .done (.ok Answer.UNSAT) (ops.projectNewPolynomial p).2 t
  else .next (ops.projectNewPolynomial p).2 (ops.restoreRemovedSamples t)

/-- Iteration of a loop body given by its effect on the states, for at most the given number
of passes. -/
def runStates {P T : Type} (body : P → T → PassStates P T) :
    Nat → P → T → Option (Except Fault Answer × P × T)
  | 0, _, _ => none
  | n + 1, p, t =>
    match body p t with
    | .done res p' t' => some (res, p', t')
    | .next p' t' => runStates body n p' t'

/-- The situation of the worked example with one variable, in terms of the calls the loops
make.  The run starts with the sample tree `t0` (after `resetFullSamples` and
`restoreRemovedSamples`), which holds only the root sample: the root is the next sample
before and after the first `checkFullSamples` call (which leaves the tree `t1`), it has depth
0 and no conflict.  Level `idLP(1)` of the projection holds a polynomial the root has not been
lifted with, so `getPolyForLifting` finds its id (leaving `p2` and `t2`); lifting the root with
it creates a full sample (tree `t3`), for which `checkFullSamples` answers `SAT`. -/
structure ScenarioA {P T It : Type} (ops : CADOps P T It UPoly) (p : P) (t0 t1 : T) (it : It)
    (id : Nat) (p2 : P) (t2 t3 : T) : Prop where
  dim_one : ops.dim = 1
  root_pending : ops.hasNextSample t0 = true
  first_check : (ops.checkFullSamples p t0).2 = t1
  root_next : ops.hasNextSample t1 = true
  root_is_next : ops.getNextSample t1 = it
  root_depth : ops.depth t1 it = 0
  root_free : ops.hasConflictWithConstraint t1 it = false
  poly_found : ops.getPolyForLifting p (ops.idLP 1) t1 it = (some id, p2, t2)
  lifted : ops.liftSample t2 it (ops.getPolynomialById p2 (ops.idLP 1) id) id = t3
  full_exists : ops.hasFullSamples t3 = true
  full_sat : (ops.checkFullSamples p2 t3).1 = Answer.SAT

/-- The world in which the loop of a heuristic starts: the calls `resetFullSamples` and
`restoreRemovedSamples` of the first two lines have been made. -/
def World.init {P T It : Type} (ops : CADOps P T It UPoly) (p : P) (t : T) :
    World P T It UPoly :=
  (((World.start p t : World P T It UPoly).record .resetFullSamples p
    (ops.resetFullSamples t)).record .restoreRemovedSamples p
      (ops.restoreRemovedSamples (ops.resetFullSamples t)))

/-- The world at the end of a pass. -/
def Pass.world {P T It : Type} : Pass P T It UPoly → World P T It UPoly
  | .done _ w => w
  | .next w => w

/-- The world after at most `n` passes through a loop body: the world in which the loop was
left, if it was left during these passes, and the world at the end of the `n`-th pass
otherwise.  Its history holds every call made until then. -/
def worldAfter {P T It : Type} (body : World P T It UPoly → Pass P T It UPoly) :
    Nat → World P T It UPoly → World P T It UPoly
  | 0, w => w
  | n + 1, w =>
    match body w with
    | .done _ w' => w'
    | .next w' => worldAfter body n w'

/-- The calls of `fetchStep`, made in the states `p` and `t`; `k` gives the calls of the rest
of the loop body. -/
def fetchTrace {P T It : Type} (ops : CADOps P T It UPoly) (p : P) (t : T)
    (k : It → List (Step P T It UPoly)) : List (Step P T It UPoly) :=
  ⟨p, t, .getNextSample (ops.getNextSample t)⟩ ::
    if ¬ ops.depth t (ops.getNextSample t) < ops.dim then []
    else
      ⟨p, t, .hasConflictWithConstraint (ops.getNextSample t)
          (ops.hasConflictWithConstraint t (ops.getNextSample t))⟩ ::
        if ops.hasConflictWithConstraint t (ops.getNextSample t) = true then
          [⟨p, t, .removeNextSample⟩]
        else k (ops.getNextSample t)

/-- The calls of `liftStep`, made for the sample `it` in the states `p` and `t`; `k` gives
the calls of the rest of the loop body, made if no polynomial was found. -/
def liftTrace {P T It : Type} (ops : CADOps P T It UPoly) (p : P) (t : T) (it : It)
    (k : P → T → List (Step P T It UPoly)) : List (Step P T It UPoly) :=
  ⟨p, t, .getPolyForLifting (ops.idLP (ops.depth t it + 1)) it
      (ops.getPolyForLifting p (ops.idLP (ops.depth t it + 1)) t it).1⟩ ::
    match (ops.getPolyForLifting p (ops.idLP (ops.depth t it + 1)) t it).1 with
    | some polyID =>
      [⟨(ops.getPolyForLifting p (ops.idLP (ops.depth t it + 1)) t it).2.1,
          (ops.getPolyForLifting p (ops.idLP (ops.depth t it + 1)) t it).2.2,
          .getPolynomialById (ops.idLP (ops.depth t it + 1)) polyID⟩,
        ⟨(ops.getPolyForLifting p (ops.idLP (ops.depth t it + 1)) t it).2.1,
          (ops.getPolyForLifting p (ops.idLP (ops.depth t it + 1)) t it).2.2,
          .liftSample it
            (ops.getPolynomialById
              (ops.getPolyForLifting p (ops.idLP (ops.depth t it + 1)) t it).2.1
              (ops.idLP (ops.depth t it + 1)) polyID) polyID⟩]
    | none =>
      k (ops.getPolyForLifting p (ops.idLP (ops.depth t it + 1)) t it).2.1
        (ops.getPolyForLifting p (ops.idLP (ops.depth t it + 1)) t it).2.2

/-- The calls of one pass through the loop body of `BySample` that starts in the states `p`
and `t`, each with the states in which it is made. -/
def bySampleTrace {P T It : Type} (ops : CADOps P T It UPoly) (p : P) (t : T) :
    List (Step P T It UPoly) :=
  ⟨p, t, .checkFullSamples (ops.checkFullSamples p t).1⟩ ::
    if (ops.checkFullSamples p t).1 = Answer.SAT then []
    else
      ⟨p, (ops.checkFullSamples p t).2,
          .hasNextSample (ops.hasNextSample (ops.checkFullSamples p t).2)⟩ ::
        if ¬ ops.hasNextSample (ops.checkFullSamples p t).2 = true then []
        else
          fetchTrace ops p (ops.checkFullSamples p t).2 (fun it =>
            liftTrace ops p (ops.checkFullSamples p t).2 it (fun p' t' =>
              ⟨p', t', .removeNextSample⟩ ::
              ⟨p', ops.removeNextSample t',
                  .hasNextSample (ops.hasNextSample (ops.removeNextSample t'))⟩ ::
                if ¬ ops.hasNextSample (ops.removeNextSample t') = true then
                  ⟨p', ops.removeNextSample t',
                      .projectNewPolynomial (ops.projectNewPolynomial p').1⟩ ::
                    if (ops.projectNewPolynomial p').1.Nonempty then
                      [⟨(ops.projectNewPolynomial p').2, ops.removeNextSample t',
                        .restoreRemovedSamples⟩]
                    else []
                else []))

/-- The calls of one pass through the loop body of `PreferProjection` that starts in the
states `p` and `t`, each with the states in which it is made. -/
def preferProjectionTrace {P T It : Type} (ops : CADOps P T It UPoly) (p : P) (t : T) :
    List (Step P T It UPoly) :=
  ⟨p, t, .checkFullSamples (ops.checkFullSamples p t).1⟩ ::
    if (ops.checkFullSamples p t).1 = Answer.SAT then []
    else
      ⟨p, (ops.checkFullSamples p t).2,
          .hasNextSample (ops.hasNextSample (ops.checkFullSamples p t).2)⟩ ::
        if ¬ ops.hasNextSample (ops.checkFullSamples p t).2 = true then []
        else
          fetchTrace ops p (ops.checkFullSamples p t).2 (fun it =>
            liftTrace ops p (ops.checkFullSamples p t).2 it (fun p' t' =>
              ⟨p', t', .projectNewPolynomial (ops.projectNewPolynomial p').1⟩ ::
                if (ops.projectNewPolynomial p').1.Nonempty then
                  [⟨(ops.projectNewPolynomial p').2, t', .restoreRemovedSamples⟩]
                else
                  ⟨(ops.projectNewPolynomial p').2, t',
                      .empty (ops.idLP (ops.depth t' it + 1))
                        (ops.empty (ops.projectNewPolynomial p').2
                          (ops.idLP (ops.depth t' it + 1)))⟩ ::
                    if ops.empty (ops.projectNewPolynomial p').2
                        (ops.idLP (ops.depth t' it + 1)) = true then
                      ⟨(ops.projectNewPolynomial p').2, t',
                          .addTrivialSample it (ops.addTrivialSample t' it).1⟩ ::
                        if ¬ (ops.addTrivialSample t' it).1 = true then
                          [⟨(ops.projectNewPolynomial p').2, (ops.addTrivialSample t' it).2,
                            .removeNextSample⟩]
                        else []
                    else [⟨(ops.projectNewPolynomial p').2, t', .removeNextSample⟩]))

/-- The calls of the condition of the inner loop of `PreferSampling`, evaluated in the
states `p` and `t`. -/
def samplingCondTrace {P T It : Type} (ops : CADOps P T It UPoly) (p : P) (t : T) :
    List (Step P T It UPoly) :=
  ⟨p, t, .hasNextSample (ops.hasNextSample t)⟩ ::
    if ops.hasNextSample t = true then []
    else [⟨p, t, .hasFullSamples (ops.hasFullSamples t)⟩]

/-- The calls of one pass through `preferSamplingBody` that starts in the states `p` and
`t`, each with the states in which it is made. -/
def preferSamplingTrace {P T It : Type} (ops : CADOps P T It UPoly) (p : P) (t : T) :
    List (Step P T It UPoly) :=
  samplingCondTrace ops p t ++
    if ops.hasNextSample t = true ∨ ops.hasFullSamples t = true then
      ⟨p, t, .checkFullSamples (ops.checkFullSamples p t).1⟩ ::
        if (ops.checkFullSamples p t).1 = Answer.SAT then []
        else
          fetchTrace ops p (ops.checkFullSamples p t).2 (fun it =>
            liftTrace ops p (ops.checkFullSamples p t).2 it (fun p' t' =>
              ⟨p', t', .addTrivialSample it (ops.addTrivialSample t' it).1⟩ ::
                if ¬ (ops.addTrivialSample t' it).1 = true then
                  [⟨p', (ops.addTrivialSample t' it).2, .removeNextSample⟩]
                else []))
    else
      ⟨p, t, .projectNewPolynomial (ops.projectNewPolynomial p).1⟩ ::
        if (ops.projectNewPolynomial p).1 = ∅ then []
        else [⟨(ops.projectNewPolynomial p).2, t, .restoreRemovedSamples⟩]

/-- Every call of a history satisfies a condition `ok`, which may depend on the calls made
before it. -/
def EachCall {σ : Type} (ok : List σ → σ → Prop) (h : List σ) : Prop :=
  ∀ pre st post, h = pre ++ st :: post → ok pre st

/-- Every call of the list `ext`, made after the history `h`, satisfies the condition
`ok`. -/
def EachFrom {σ : Type} (ok : List σ → σ → Prop) (h ext : List σ) : Prop :=
  ∀ pre st post, ext = pre ++ st :: post → ok (h ++ pre) st

/-- The condition on a `liftSample` call of a history: the two calls before it are the
`getPolyForLifting` call for the same sample and the level `idLP(depth + 1)`, which returned
the id passed to `liftSample`, and the `getPolynomialById` call for this level and id, which
returned the polynomial passed to `liftSample`; the states in which `liftSample` is called
are the ones that the `getPolyForLifting` call left. -/
def LiftOk {P T It : Type} (ops : CADOps P T It UPoly) (pre : List (Step P T It UPoly))
    (st : Step P T It UPoly) : Prop :=
  ∀ it poly id, st.call = .liftSample it poly id →
    ∃ pre' p0 t0,
      pre = pre' ++
        [⟨p0, t0, .getPolyForLifting (ops.idLP (ops.depth t0 it + 1)) it (some id)⟩,
          ⟨st.proj, st.tree, .getPolynomialById (ops.idLP (ops.depth t0 it + 1)) id⟩] ∧
      ops.getPolyForLifting p0 (ops.idLP (ops.depth t0 it + 1)) t0 it =
        (some id, st.proj, st.tree) ∧
      poly = ops.getPolynomialById st.proj (ops.idLP (ops.depth t0 it + 1)) id

/-- The condition on a `getNextSample` call of a history: the call before it is a
`hasNextSample` call in the same states that returned true. -/
def NextOk {P T It : Type} (ops : CADOps P T It UPoly) (pre : List (Step P T It UPoly))
    (st : Step P T It UPoly) : Prop :=
  ∀ it, st.call = .getNextSample it →
    ops.hasNextSample st.tree = true ∧ it = ops.getNextSample st.tree ∧
      pre.getLast? = some ⟨st.proj, st.tree, .hasNextSample true⟩

/-- The condition on a `projectNewPolynomial` call of a history of `BySample`: there is no
next sample in the state in which it is made, and the three calls before it are a
`getPolyForLifting` call that found nothing, the `removeNextSample` call that dropped the
sample and the `hasNextSample` call that returned false. -/
def BySampleProjectOk {P T It : Type} (ops : CADOps P T It UPoly)
    (pre : List (Step P T It UPoly)) (st : Step P T It UPoly) : Prop :=
  ∀ g, st.call = .projectNewPolynomial g →
    ops.hasNextSample st.tree = false ∧
    pre.getLast? = some ⟨st.proj, st.tree, .hasNextSample false⟩ ∧
    ∃ t', pre.dropLast.getLast? = some ⟨st.proj, t', .removeNextSample⟩ ∧
      st.tree = ops.removeNextSample t' ∧
      ∃ s level it, pre.dropLast.dropLast.getLast? = some s ∧
        s.call = .getPolyForLifting level it none

/-- The condition on a `restoreRemovedSamples` call of a history: it is the second call of
the run, after `resetFullSamples`, or the call before it is a `projectNewPolynomial` call
that reported new polynomials. -/
def RestoreOk {P T It : Type} (pre : List (Step P T It UPoly)) (st : Step P T It UPoly) :
    Prop :=
  st.call = .restoreRemovedSamples →
    (∃ s, pre = [s] ∧ s.call = .resetFullSamples) ∨
      ∃ s g, pre.getLast? = some s ∧ s.call = .projectNewPolynomial g ∧ g.Nonempty

/-- The conditions on the calls of a history of `BySample`. -/
def BySampleOk {P T It : Type} (ops : CADOps P T It UPoly) (pre : List (Step P T It UPoly))
    (st : Step P T It UPoly) : Prop :=
  NextOk ops pre st ∧ BySampleProjectOk ops pre st ∧ RestoreOk pre st ∧
    ∀ it r, st.call ≠ .addTrivialSample it r

/-- The sample tree that a pass leaves behind. -/
def PassStates.tree {P T : Type} : PassStates P T → T
  | .done _ _ t => t
  | .next _ t => t

/-- The projection that a pass leaves behind. -/
def PassStates.proj {P T : Type} : PassStates P T → P
  | .done _ p _ => p
  | .next p _ => p

/-- The pairs of a sample and a polynomial id with which `liftSample` is called in a history,
in the order of the calls. -/
def liftCalls {P T It : Type} (h : List (Step P T It UPoly)) : List (It × Nat) :=
  h.filterMap (fun st =>
    match st.call with
    | .liftSample it _ id => some (it, id)
    | _ => none)

/-- What the control loop needs of the `liftedWith` vectors, which live in the samples of the
sample tree (the classes of the sample tree are not part of the sources): `lw t it` is the
vector of the sample `it` in the tree `t`.  A `getPolyForLifting` call that returns an id is
made with the vector of the sample, which does not contain the id before the call and
contains it afterwards (lines 145 and 147 of `Projection_NO.h`), and no operation of the
control loop clears a bit of a vector. -/
structure LiftedWith {P T It : Type} (ops : CADOps P T It UPoly) (lw : T → It → Bitset) :
    Prop where
  get_some : ∀ p level t it id, (ops.getPolyForLifting p level t it).1 = some id →
    id ∉ lw t it ∧ id ∈ lw (ops.getPolyForLifting p level t it).2.2 it
  get_mono : ∀ p level t it it', lw t it' ⊆ lw (ops.getPolyForLifting p level t it).2.2 it'
  lift_mono : ∀ t it poly id it', lw t it' ⊆ lw (ops.liftSample t it poly id) it'
  check_mono : ∀ p t it', lw t it' ⊆ lw (ops.checkFullSamples p t).2 it'
  remove_mono : ∀ t it', lw t it' ⊆ lw (ops.removeNextSample t) it'
  restore_mono : ∀ t it', lw t it' ⊆ lw (ops.restoreRemovedSamples t) it'
  trivial_mono : ∀ t it it', lw t it' ⊆ lw (ops.addTrivialSample t it).2 it'

/-- What a pass that starts with the tree `t0` does to the `liftedWith` vectors: no bit is
cleared, and `liftSample` is called at most once, with an id that the vector of the sample
did not contain at the start of the pass and contains at its end. -/
def PassLifts {P T It : Type} (lw : T → It → Bitset) (t0 : T)
    (tr : List (Step P T It UPoly)) (ps : PassStates P T) : Prop :=
  (∀ it, lw t0 it ⊆ lw ps.tree it) ∧
    (liftCalls tr = [] ∨
      ∃ it id, liftCalls tr = [(it, id)] ∧ id ∉ lw t0 it ∧ id ∈ lw ps.tree it)

/-- The calls of a pass through the loop body of `PreferProjection` in which no polynomial
is found for the next sample, up to the `projectNewPolynomial` call: `res` is the answer of
`checkFullSamples` and `t1` the tree it leaves, `it` the next sample, `p2` and `t2` the
states that the `getPolyForLifting` call leaves, and `g` the result of
`projectNewPolynomial`. -/
def shortageCalls {P T It : Type} (ops : CADOps P T It UPoly) (w : World P T It UPoly)
    (res : Answer) (t1 : T) (it : It) (p2 : P) (t2 : T) (g : Bitset) :
    List (Step P T It UPoly) :=
  [⟨w.proj, w.tree, .checkFullSamples res⟩, ⟨w.proj, t1, .hasNextSample true⟩,
    ⟨w.proj, t1, .getNextSample it⟩, ⟨w.proj, t1, .hasConflictWithConstraint it false⟩,
    ⟨w.proj, t1, .getPolyForLifting (ops.idLP (ops.depth t1 it + 1)) it none⟩,
    ⟨p2, t2, .projectNewPolynomial g⟩]

/-- The calls in which `BySample` and `PreferProjection` differ when the projection is not
incremental and no visited level is empty: the queries `hasNextSample` and `empty`, and
`projectNewPolynomial`. -/
def Call.isQuery {It : Type} : Call It UPoly → Bool
  | .hasNextSample _ => true
  | .projectNewPolynomial _ => true
  | .empty _ _ => true
  | _ => false

/-- The calls of a history without the queries `hasNextSample`, `empty` and
`projectNewPolynomial`, each with the states in which it is made: the operations on the
sample tree (among them `getNextSample`, `liftSample` and `removeNextSample`), the calls of
the oracle `checkFullSamples`, and the calls that fetch a polynomial for lifting. -/
def keptCalls {P T It : Type} (h : List (Step P T It UPoly)) : List (Step P T It UPoly) :=
  h.filter (fun st => !st.call.isQuery)

/-- A `restoreRemovedSamples` call has been made and no `projectNewPolynomial` call after
it: in `PreferSampling`, the outer iteration that begins with this call has not reached its
`projectNewPolynomial` call. -/
def Restored {P T It : Type} (h : List (Step P T It UPoly)) : Prop :=
  ∃ pre r mid, h = pre ++ r :: mid ∧ r.call = .restoreRemovedSamples ∧
    ∀ s ∈ mid, ∀ g, s.call ≠ .projectNewPolynomial g

/-- No `projectNewPolynomial` call of the history reported nothing new. -/
def NoEnd {P T It : Type} (h : List (Step P T It UPoly)) : Prop :=
  ∀ s ∈ h, s.call ≠ .projectNewPolynomial ∅

/-- The conditions on the calls of a history of `PreferSampling`: a `projectNewPolynomial`
call is made in a state with neither a next sample nor a full sample, right after the two
queries of the loop condition, in an outer iteration that began with
`restoreRemovedSamples`; and no call is made after a `projectNewPolynomial` call that
reported nothing new. -/
def PreferSamplingOk {P T It : Type} (ops : CADOps P T It UPoly)
    (pre : List (Step P T It UPoly)) (st : Step P T It UPoly) : Prop :=
  (∀ g, st.call = .projectNewPolynomial g →
    ops.hasNextSample st.tree = false ∧ ops.hasFullSamples st.tree = false ∧
    pre.getLast? = some ⟨st.proj, st.tree, .hasFullSamples false⟩ ∧
    pre.dropLast.getLast? = some ⟨st.proj, st.tree, .hasNextSample false⟩ ∧
    Restored pre) ∧ NoEnd pre

/-- Names of the polynomials of the worked examples, over the variables `x` (variable 0) and
`y` (variable 1): `one` is the number 1, `circle` is `x^2 + y^2 - 1`, `line` is `x - y`,
`xvar` is `x`, `xsq` is `x^2 + 1`, `ysq` is `y^2 - 1`, `yres` is `2*y^2 - 1` and `yvar` is `y`. -/
inductive TName where
  | one
  | circle
  | line
  | xvar
  | xsq
  | ysq
  | yres
  | yvar
  deriving DecidableEq, Repr

/-- A polynomial of the worked examples: its name and its main variable. -/
abbrev TPoly := TName × Variable

/-- The kernel of the worked examples.  The unary projection of the circle yields its
leading coefficient 1, its trailing coefficient and its discriminant (both `y^2 - 1` up to a
factor); that of the line yields 1 and `y`; that of `x` yields 1.  The binary projection of the
circle and the line yields their resultant `2*y^2 - 1`. -/
def tK : Kernel TPoly where
  isZero _ := false
  isNumber p := decide (p.1 = TName.one)
  isConstant p := decide (p.1 = TName.one)
  mainVar p := p.2
  switchVariable p v := (p.1, v)
  projectUnary p v :=
    match p.1 with
    | .circle => [(.one, v), (.ysq, v), (.ysq, v)]
    | .line => [(.one, v), (.yvar, v)]
    | .xvar => [(.one, v)]
    | _ => []
  projectBinary p q v :=
    match p.1, q.1 with
    | .line, .circle => [(.yres, v)]
    | .circle, .line => [(.yres, v)]
    | _, _ => []

/-- The state after `reset([x, y]); addPolynomial(circle, 0)`. -/
def exCircle : Projection TPoly :=
  ⟨[0, 1], [mkLevel [((.circle, 0), 0)], mkLevel [((.ysq, 1), 0)]]⟩

/-- The state after `reset([x, y]); addPolynomial(circle, 0); addPolynomial(line, 1)`. -/
def exCircleLine : Projection TPoly :=
  ⟨[0, 1], [mkLevel [((.circle, 0), 0), ((.line, 0), 1)],
    mkLevel [((.ysq, 1), 0), ((.yvar, 1), 1), ((.yres, 1), 1)]]⟩

/-- The state after `reset([x, y]); addPolynomial(x, 0)`: level 1 is empty. -/
def exX : Projection TPoly :=
  ⟨[0, 1], [mkLevel [((.xvar, 0), 0)], mkLevel []]⟩

/-- The state after `reset([x]); addPolynomial(x^2 + 1, 5)`. -/
def exOne : Projection TPoly :=
  ⟨[0], [mkLevel [((.xsq, 0), 0)]]⟩

/-- The sample tree of the worked example for the control loop (one variable, one
polynomial without real roots): whether the root sample is pending, whether it has been
lifted with the polynomial, and whether the full sample created by lifting is queued. -/
structure ToyTree where
  pending : Bool
  lifted : Bool
  full : Bool
  deriving DecidableEq, Repr

/-- The operations of the worked example for the control loop: `dim() = 1`, level 0 holds
the single polynomial `x^2 + 1`, lifting the root creates one full sample, and
`checkFullSamples` consumes the queued full sample and reports the answer of the oracle for
it (`UNSAT` if no full sample is queued).  The projection is not incremental.  The second
argument tells whether the root sample has a conflict with a constraint. -/
def toyOps (oracle : Answer) (conflict : Bool) : CADOps Unit ToyTree Unit TPoly where
  dim := 1
  idLP l := l - 1
  resetFullSamples t := t
  restoreRemovedSamples t := t
  checkFullSamples _ t := if t.full then (oracle, { t with full := false }) else (Answer.UNSAT, t)
  hasNextSample t := t.pending
  hasFullSamples t := t.full
  getNextSample _ := ()
  depth _ _ := 0
  hasConflictWithConstraint _ _ := conflict
  removeNextSample t := { t with pending := false }
  getPolyForLifting p _ t _ :=
    if t.lifted then (none, p, t) else (some 0, p, { t with lifted := true })
  getPolynomialById _ _ _ := (TName.xsq, 0)
  liftSample t _ _ _ := { t with full := true }
  projectNewPolynomial p := (∅, p)
  empty _ _ := false
  addTrivialSample t _ := (false, t)

/-- The sample tree with which the worked example starts: only the root sample. -/
def toyStart : ToyTree := ⟨true, false, false⟩

/-- Whether the calls made after the last `removeNextSample` call contain a
`projectNewPolynomial` call that reported nothing new. -/
def projectedNothingAfterLastRemoval {It : Type} [DecidableEq It]
    (calls : List (Call It UPoly)) : Bool :=
  ((calls.reverse.takeWhile (fun c => decide (c ≠ Call.removeNextSample))).contains
    (Call.projectNewPolynomial ∅))

/-- The world in which a run ends (the start world if the run does not end). -/
def finalWorld (run : Option (Except Fault Answer × World Unit ToyTree Unit TPoly)) :
    World Unit ToyTree Unit TPoly :=
  match run with
  | some r => r.2
  | none => World.start () toyStart

/-- Names of the polynomials of the worked examples for forwarding, over the ordering `x`
(variable 0), `y` (variable 1), `z` (variable 2) and, in the second example, `u`
(variable 3): `one` is the number 1, `xa` is `x - a` where `a` is a variable that is not in
the ordering, `par` is `a`, and `zp` is `z^2 - 2`. -/
inductive PName where
  | one
  | xa
  | par
  | zp
  deriving DecidableEq, Repr

/-- A polynomial of the worked examples for forwarding: its name and its main variable. -/
abbrev PPoly := PName × Variable

/-- The kernel of the worked examples for forwarding.  The polynomial `a` has degree 0 in
every variable of the ordering and is not a number; `z^2 - 2` has degree 0 in every variable
but `z`.  The unary projection of `x - a` yields its leading coefficient 1 and its trailing
coefficient `a` (up to sign). -/
def pK : Kernel PPoly where
  isZero _ := false
  isNumber p := decide (p.1 = PName.one)
  isConstant p :=
    match p.1 with
    | .one => true
    | .xa => false
    | .par => true
    | .zp => decide (p.2 ≠ 2)
  mainVar p := p.2
  switchVariable p v := (p.1, v)
  projectUnary p v :=
    match p.1 with
    | .xa => [(.one, v), (.par, v)]
    | _ => []
  projectBinary _ _ _ := []

/-- The state after `reset([x, y, z]); addPolynomial(x - a, 0)`: the coefficient `a` is stored
at level 2. -/
def exParam : Projection PPoly :=
  ⟨[0, 1, 2], [mkLevel [((.xa, 0), 0)], mkLevel [], mkLevel [((.par, 2), 0)]]⟩

/-- The sample tree of the worked example with an empty projection level (variables `x`,
`y`, one constraint `x > 0`): the lifting queue, whose entries are the root sample (`false`,
depth 0) and the sample for `y` below it (`true`, depth 1), the `liftedWith` sets of the two
samples, whether the sample below the root exists, and whether a full sample is queued for
checking. -/
structure PlaneTree where
  queue : List Bool
  rootLiftedWith : Bitset
  childLiftedWith : Bitset
  hasChild : Bool
  full : Bool
  deriving DecidableEq

/-- The operations of the worked example with an empty projection level.  The projection
is the one of `Projection_NO.h` (the polynomial found for lifting is the first id of the
lifting queue of the level that is not in the sample's `liftedWith`; nothing is projected
incrementally), with `dim() = 2` and `idLP(l) = 2 - l`.  Lifting the root creates the sample
below it; lifting that sample with the polynomial `x` of level 0 creates full samples, among
them one with `x > 0`, for which `checkFullSamples` answers `SAT`.  `addTrivialSample` adds the
sample below the root if the root has none. -/
def planeOps : CADOps (Projection TPoly) PlaneTree Bool TPoly where
  dim := 2
  idLP l := 2 - l
  resetFullSamples t := { t with full := false }
  restoreRemovedSamples t := t
  checkFullSamples _ t :=
    if t.full then (Answer.SAT, { t with full := false }) else (Answer.UNSAT, t)
  hasNextSample t := !t.queue.isEmpty
  hasFullSamples t := t.full
  getNextSample t := t.queue.headD false
  depth _ it := if it then 1 else 0
  hasConflictWithConstraint _ _ := false
  removeNextSample t := { t with queue := t.queue.tail }
  getPolyForLifting s level t it :=
    match (s.liftingQueue level).find?
        (fun pid => decide (pid ∉ (if it then t.childLiftedWith else t.rootLiftedWith))) with
    | some pid =>
      (some pid, s,
        if it then { t with childLiftedWith := insert pid t.childLiftedWith }
        else { t with rootLiftedWith := insert pid t.rootLiftedWith })
    | none => (none, s, t)
  getPolynomialById s level id := ((s.polys level).getD id ((TName.one, 0), 0)).1
  liftSample t it _ _ :=
    if it then { t with full := true } else { t with hasChild := true, queue := true :: t.queue }
  projectNewPolynomial s := (∅, s)
  empty s level := s.empty level
  addTrivialSample t it :=
    if it = false ∧ t.hasChild = false then
      (true, { t with hasChild := true, queue := true :: t.queue })
    else (false, t)

/-- The sample tree with which the worked example with an empty projection level starts:
only the root sample. -/
def planeStart : PlaneTree := ⟨[false], ∅, ∅, false, false⟩

/-- The calls of the first two passes of `BySample` on the worked example for the control
loop, with an oracle that rejects the full sample: the root is lifted in the first pass and
dropped in the second one, which ends with a `projectNewPolynomial` call. -/
def exToyRun : List (Step Unit ToyTree Unit TPoly) :=
  (worldAfter (bySampleBody (toyOps Answer.UNSAT false)) 2
    (World.init (toyOps Answer.UNSAT false) () toyStart)).history

/-- A sample tree of the worked example for the control loop in which only a full sample is
queued: the root has been lifted and is not pending. -/
def toyOnlyFull : ToyTree := ⟨false, true, true⟩

/-- The `liftedWith` vectors of the two samples of the worked example with an empty
projection level. -/
def planeLiftedWith (t : PlaneTree) (it : Bool) : Bitset :=
  if it then t.childLiftedWith else t.rootLiftedWith

/-- The calls of the first three passes of `PreferProjection` on the worked example with an
empty projection level: a trivial sample is added below the root and lifted with the
polynomial `x`. -/
def exPlaneRun : List (Step (Projection TPoly) PlaneTree Bool TPoly) :=
  (worldAfter (preferProjectionBody planeOps) 2 (World.init planeOps exX planeStart)).history

/-- The calls of the run of `PreferSampling` on the worked example for the control loop,
with an oracle that rejects the full sample: the root is lifted, then dropped, and the third
evaluation of the loop condition leads to the `projectNewPolynomial` call that ends the
run. -/
def exSamplingRun : List (Step Unit ToyTree Unit TPoly) :=
  (worldAfter (preferSamplingBody (toyOps Answer.UNSAT false)) 3
    (World.init (toyOps Answer.UNSAT false) () toyStart)).history

end Development

end cad

/-!
# Auxiliary methods of the virtual substitution and the variable bounds

Shallow embedding of
* `vs::simplify` of `src/lib/misc/VS_Tools.cpp`,
* the classes `Bound`, `Variable` and `VariableBounds` of `src/lib/VariableBounds.h`.

Objects that the source allocates with `new` and shares through pointers live in lists
(the heaps); a pointer is an index into the list.
-/

namespace vs

/-- The inner loop `while( cons != (*conj).end() )` of `simplify` over one conjunction.
`kept` holds the constraints before the iterator `cons` (those that were not erased), the
list argument the constraints from `cons` on.  The result is the flag `conjInconsistent` and
the conjunction after the loop.  The constraint class is not part of the sources;
`isConsistent` gives the result of `Constraint::isConsistent()`. -/
def scanConjunction {C : Type} (isConsistent : C → Nat) (kept : List C) :
    List C → Bool × List C
  | [] => (false, kept)
  | c :: rest =>
    if isConsistent c = 0 then (true, kept ++ c :: rest)
    else if isConsistent c = 1 then scanConjunction isConsistent kept rest
    else scanConjunction isConsistent (kept ++ [c]) rest

/-- The outer loop `while( conj != _toSimplify.end() )` of `simplify`.  `done` holds the
conjunctions before the iterator `conj`, the list argument the conjunctions from `conj`
on. -/
def simplifyLoop {C : Type} (isConsistent : C → Nat) :
    Bool → List (List C) → List (List C) → List (List C)
  | _, done, [] => done
  | containsEmptyDisjunction, done, conj :: rest =>
    let r := scanConjunction isConsistent [] conj
    let conjEmpty := r.2.isEmpty
    let done' :=
      if r.1 || (containsEmptyDisjunction && conjEmpty) then done else done ++ [r.2]
    let flag' :=
      if !containsEmptyDisjunction && conjEmpty then true else containsEmptyDisjunction
    simplifyLoop isConsistent flag' done' rest

/-- The function `vs::simplify(_toSimplify)`; the result is the disjunction after the
call. -/
def simplify {C : Type} (isConsistent : C → Nat) (toSimplify : List (List C)) :
    List (List C) :=
  simplifyLoop isConsistent false [] toSimplify

/-- The disjunction described by the doc comment of `simplify`: of the conjunctions that
are empty only the first one is kept. -/
def keepFirstEmpty {C : Type} : List (List C) → List (List C)
  | [] => []
  | c :: rest =>
    if c.isEmpty then c :: rest.filter (fun d => !d.isEmpty) else c :: keepFirstEmpty rest

/-- A conjunction contains no inconsistent constraint. -/
def noInconsistent {C : Type} (isConsistent : C → Nat) (conj : List C) : Bool :=
  conj.all (fun c => decide (isConsistent c ≠ 0))

/-- The constraints of a conjunction that are not (trivially) consistent. -/
def dropConsistent {C : Type} (isConsistent : C → Nat) (conj : List C) : List C :=
  conj.filter (fun c => decide (isConsistent c ≠ 1))

/-- Constraints of the worked example: a constraint is its own consistency value. -/
def exConsistency : Fin 3 → Nat := fun c => c.val

/-- The disjunction of the worked example: a conjunction with an undecided and a consistent
constraint, one with an inconsistent constraint, one with consistent constraints only, and
an empty one. -/
def exDisjunction : List (List (Fin 3)) := [[2, 1], [0, 2], [1, 1], []]

end vs

namespace vb

/-- The enumeration `Bound::Type`. -/
inductive BoundType where
  | STRICT_LOWER_BOUND
  | WEAK_LOWER_BOUND
  | EQUAL_BOUND
  | WEAK_UPPER_BOUND
  | STRICT_UPPER_BOUND
  deriving DecidableEq, Repr

/-- The values of the enumerators of `Bound::Type`. -/
def BoundType.toNat : BoundType → Nat
  | .STRICT_LOWER_BOUND => 0
  | .WEAK_LOWER_BOUND => 1
  | .EQUAL_BOUND => 2
  | .WEAK_UPPER_BOUND => 3
  | .STRICT_UPPER_BOUND => 4

/-- An object of the class `Bound<T>`.  The limit is `none` for the null pointer (an
infinite bound), the variable is a pointer into the heap of variables, and an origin
`const T*` is a number, `none` being the null pointer.  The set of origins is kept as a list
without repetitions; the methods modelled here do not observe its order. -/
structure Bound where
  mType : BoundType
  mpLimit : Option ℚ
  mpVariable : Nat
  mpOrigins : List (Option Nat)
  deriving DecidableEq

/-- The constructor `Bound( _limit, _variable, _type )`. -/
def Bound.create (limit : Option ℚ) (var : Nat) (type : BoundType) : Bound :=
  ⟨type, limit, var, if limit.isNone then [none] else []⟩

/-- The method `isInfinite()`. -/
def Bound.isInfinite (b : Bound) : Bool := b.mpLimit.isNone

/-- The method `isUpperBound()`: `mType > WEAK_LOWER_BOUND`. -/
def Bound.isUpperBound (b : Bound) : Bool :=
  decide (BoundType.WEAK_LOWER_BOUND.toNat < b.mType.toNat)

/-- The method `isLowerBound()`: `mType < WEAK_UPPER_BOUND`. -/
def Bound.isLowerBound (b : Bound) : Bool :=
  decide (b.mType.toNat < BoundType.WEAK_UPPER_BOUND.toNat)

/-- The method `isActive()`. -/
def Bound.isActive (b : Bound) : Bool := !b.mpOrigins.isEmpty

/-- The method `activate( _origin )`: the result of the call and the bound after it. -/
def Bound.activate (b : Bound) (origin : Option Nat) : Bool × Bound :=
  let origins := if origin ∈ b.mpOrigins then b.mpOrigins else b.mpOrigins ++ [origin]
  (decide (origins.length = 1), { b with mpOrigins := origins })

/-- The method `deactivate( _origin )` with its assertion. -/
def Bound.deactivate (b : Bound) (origin : Option Nat) : Except cad.Fault (Bool × Bound) :=
  if origin ∉ b.mpOrigins then .error cad.Fault.assertion
  else
    let origins := b.mpOrigins.filter (fun o => decide (o ≠ origin))
    .ok (origins.isEmpty, { b with mpOrigins := origins })

/-- The operator `Bound<T>::operator<`.  Reading the limit of an infinite bound (`limit()`
dereferences the null pointer) is undefined; the code does not do it. -/
def Bound.lt (a b : Bound) : Except cad.Fault Bool :=
  if a.isUpperBound && b.isUpperBound then
    if a.isInfinite then .ok false
    else if b.isInfinite then .ok true
    else
      match a.mpLimit, b.mpLimit with
      | some la, some lb =>
        if la < lb then .ok true
        else if la = lb then
          if a.mType = .STRICT_UPPER_BOUND then .ok (decide (b.mType ≠ .STRICT_UPPER_BOUND))
          else if a.mType = .EQUAL_BOUND then .ok (decide (b.mType = .WEAK_UPPER_BOUND))
          else .ok false
        else .ok false
      | _, _ => .error cad.Fault.undefined
  else if ¬ (a.isLowerBound && b.isLowerBound) then .error cad.Fault.assertion
  else if b.isInfinite then .ok false
  else if a.isInfinite then .ok true
  else
    match a.mpLimit, b.mpLimit with
    | some la, some lb =>
      if la < lb then .ok true
      else if la = lb then
        if a.mType = .WEAK_LOWER_BOUND then .ok (decide (b.mType ≠ .WEAK_LOWER_BOUND))
        else if a.mType = .EQUAL_BOUND then .ok (decide (b.mType = .STRICT_LOWER_BOUND))
        else .ok false
      else .ok false
    | _, _ => .error cad.Fault.undefined

/-- The rank of the type of an upper bound among the upper bounds with the same limit:
a strict bound comes before an equal bound, an equal bound before a weak bound. -/
def upperRank : BoundType → Nat
  | .STRICT_UPPER_BOUND => 0
  | .EQUAL_BOUND => 1
  | _ => 2

/-- The rank of the type of a lower bound among the lower bounds with the same limit:
a weak bound comes before an equal bound, an equal bound before a strict bound. -/
def lowerRank : BoundType → Nat
  | .WEAK_LOWER_BOUND => 0
  | .EQUAL_BOUND => 1
  | _ => 2

/-- The comparison that the doc comment of `operator<` describes: A is not infinite and B
is, or A is smaller than B as rationals, or they are equal as rationals and A is an equal
bound but B is not. -/
def docLess (a b : Bound) : Bool :=
  match a.mpLimit, b.mpLimit with
  | some _, none => true
  | some la, some lb =>
    decide (la < lb) ||
      (decide (la = lb) && decide (a.mType = .EQUAL_BOUND) && decide (b.mType ≠ .EQUAL_BOUND))
  | none, _ => false

/-- The enumeration `Constraint::Relation`. -/
inductive Relation where
  | EQ
  | NEQ
  | LESS
  | GREATER
  | LEQ
  | GEQ
  deriving DecidableEq, Repr

/-- What `VariableBounds` reads of a constraint (the class `Constraint` is not part of the
sources): its identity as a pointer, `relation()`, `variables()` in the order of the set,
`maxDegree( var )`, the coefficient `lhs().lterm()->coeff()` and `constantPart()`. -/
structure Constraint where
  id : Nat
  relation : Relation
  vars : List Nat
  maxDegree : Nat → Nat
  coeff : ℚ
  constantPart : ℚ

/-- An object of the class `Variable<T>`: the two flags, the pointers to the supremum and
the infimum, and the two sets of bound pointers, each as the list of its elements in the
order of `boundPointerComp`. -/
structure Variable where
  mUpdatedExactInterval : Bool
  mUpdatedDoubleInterval : Bool
  mpSupremum : Nat
  mpInfimum : Nat
  mUpperbounds : List Nat
  mLowerbounds : List Nat
  deriving DecidableEq

/-- An object of the class `VariableBounds<T>` with the objects it owns: the pointer to a
conflicting variable (`none` is the null pointer), the map from arithmetic variables to
variable objects, the map from constraints to bounds, and the heaps of the variable objects
and of the bounds.  The two interval maps are updated on demand by methods that are not
modelled. -/
structure VariableBounds where
  mpConflictingVariable : Option Nat
  mpVariableMap : List (Nat × Nat)
  mpConstraintBoundMap : List (Nat × Nat)
  varHeap : List Variable
  boundHeap : List Bound
  deriving DecidableEq

/-- The constructor `VariableBounds()`. -/
def VariableBounds.create : VariableBounds := ⟨none, [], [], [], []⟩

/-- The method `isConflicting()`. -/
def VariableBounds.isConflicting (vb : VariableBounds) : Bool :=
  vb.mpConflictingVariable.isSome

/-- Lookup in one of the two maps. -/
def lookup (m : List (Nat × Nat)) (key : Nat) : Option Nat :=
  (m.find? (fun e => decide (e.1 = key))).map Prod.snd

/-- The call `std::set::insert` on a set of bound pointers ordered by `boundPointerComp`,
for a pointer to a new bound: the pointer to the element of the set that is equivalent to
the new bound (the new pointer if it was inserted), whether it was inserted, and the set
after the call. -/
def boundSetInsert (heap : List Bound) (newPtr : Nat) :
    List Nat → Except cad.Fault (Nat × Bool × List Nat)
  | [] => .ok (newPtr, true, [newPtr])
  | x :: rest =>
    match heap[newPtr]?, heap[x]? with
    | some nb, some xb =>
      match nb.lt xb with
      | .error e => .error e
      | .ok true => .ok (newPtr, true, newPtr :: x :: rest)
      | .ok false =>
        match xb.lt nb with
        | .error e => .error e
        | .ok false => .ok (x, false, x :: rest)
        | .ok true =>
          match boundSetInsert heap newPtr rest with
          | .error e => .error e
          | .ok r => .ok (r.1, r.2.1, x :: r.2.2)
    | _, _ => .error cad.Fault.undefined

/-- The constructor `Variable()`, for the object at the address `this`: the object and
the heap of bounds after the two infinite bounds were allocated. -/
def Variable.create (heap : List Bound) (this : Nat) : Variable × List Bound :=
  (⟨true, true, heap.length, heap.length + 1, [heap.length], [heap.length + 1]⟩,
    heap ++ [Bound.create none this .STRICT_UPPER_BOUND,
      Bound.create none this .STRICT_LOWER_BOUND])

/-- The method `Variable<T>::conflicting()`. -/
def Variable.conflicting (heap : List Bound) (v : Variable) : Except cad.Fault Bool :=
  match heap[v.mpSupremum]?, heap[v.mpInfimum]? with
  | some sup, some inf =>
    if sup.isInfinite || inf.isInfinite then .ok false
    else
      match sup.mpLimit, inf.mpLimit with
      | some ls, some li =>
        if ls < li then .ok true
        else if li = ls then
          .ok (decide (inf.mType = .STRICT_LOWER_BOUND) ||
            decide (sup.mType = .STRICT_UPPER_BOUND))
        else .ok false
      | _, _ => .error cad.Fault.undefined
  | _, _ => .error cad.Fault.undefined

/-- The first bound of a list of pointers that is active. -/
def firstActive (heap : List Bound) : List Nat → Option Nat
  | [] => none
  | x :: rest =>
    match heap[x]? with
    | some b => if b.isActive then some x else firstActive heap rest
    | none => none

/-- The method `Variable<T>::updateBounds( _changedBound )`: the result and the variable
after the call. -/
def Variable.updateBounds (heap : List Bound) (v : Variable) (changedBound : Bound) :
    Except cad.Fault (Bool × Variable) :=
  let v1 := { v with mUpdatedExactInterval := true, mUpdatedDoubleInterval := true }
  let v2 :=
    if changedBound.isUpperBound then
      match firstActive heap v1.mUpperbounds with
      | some b => { v1 with mpSupremum := b }
      | none => v1
    else v1
  let v3 :=
    if changedBound.isLowerBound then
      match firstActive heap v2.mLowerbounds.reverse with
      | some b => { v2 with mpInfimum := b }
      | none => v2
    else v2
  match v3.conflicting heap with
  | .error e => .error e
  | .ok c => .ok (c, v3)

/-- The type of the bound that `Variable<T>::addBound` creates for a relation and a
coefficient; `none` is the branch `assert( false )`. -/
def boundTypeOf (rel : Relation) (coeff : ℚ) : Option BoundType :=
  if rel = .EQ then some .EQUAL_BOUND
  else if (rel = .GEQ ∧ coeff < 0) ∨ (rel = .LEQ ∧ coeff > 0) then some .WEAK_UPPER_BOUND
  else if (rel = .LEQ ∧ coeff < 0) ∨ (rel = .GEQ ∧ coeff > 0) then some .WEAK_LOWER_BOUND
  else if (rel = .GREATER ∧ coeff < 0) ∨ (rel = .LESS ∧ coeff > 0) then
    some .STRICT_UPPER_BOUND
  else if (rel = .LESS ∧ coeff < 0) ∨ (rel = .GREATER ∧ coeff > 0) then
    some .STRICT_LOWER_BOUND
  else none

/-- The method `Variable<T>::addBound( _constraint, _var, _origin )` for the variable
object at the address `this`: the pointer to the bound, the variable and the heap of bounds
after the call.  The new bound is allocated at the end of the heap and deleted again if the
set holds an equivalent bound. -/
def Variable.addBound (heap : List Bound) (this : Nat) (v : Variable) (c : Constraint)
    (var : Nat) (origin : Option Nat) : Except cad.Fault (Nat × Variable × List Bound) :=
  if ¬ (c.vars.length = 1 ∧ c.maxDegree var = 1) then .error cad.Fault.assertion
  else
    match boundTypeOf c.relation c.coeff with
    | none => .error cad.Fault.assertion
    | some type =>
      let newPtr := heap.length
      let heap1 := heap ++ [Bound.create (some (-c.constantPart / c.coeff)) this type]
      let inserted : Except cad.Fault (Nat × Bool × Variable) :=
        if type = .EQUAL_BOUND then
          match boundSetInsert heap1 newPtr v.mUpperbounds with
          | .error e => .error e
          | .ok r =>
            if r.2.1 then
              match boundSetInsert heap1 newPtr v.mLowerbounds with
              | .error e => .error e
              | .ok r' =>
                .ok (r.1, true, { v with mUpperbounds := r.2.2, mLowerbounds := r'.2.2 })
            else .ok (r.1, false, v)
        else if type = .WEAK_UPPER_BOUND ∨ type = .STRICT_UPPER_BOUND then
          match boundSetInsert heap1 newPtr v.mUpperbounds with
          | .error e => .error e
          | .ok r => .ok (r.1, r.2.1, if r.2.1 then { v with mUpperbounds := r.2.2 } else v)
        else
          match boundSetInsert heap1 newPtr v.mLowerbounds with
          | .error e => .error e
          | .ok r => .ok (r.1, r.2.1, if r.2.1 then { v with mLowerbounds := r.2.2 } else v)
      match inserted with
      | .error e => .error e
      | .ok r =>
        let heap2 := if r.2.1 then heap1 else heap
        match heap2[r.1]? with
        | none => .error cad.Fault.undefined
        | some b => .ok (r.1, r.2.2, heap2.set r.1 (b.activate origin).2)

/-- The lines `if( variable->updateBounds( *bound ) ) mpConflictingVariable =
bound->pVariable();` of `VariableBounds<T>::addBound`. -/
def VariableBounds.updateAfterAdd (vb : VariableBounds) (boundPtr : Nat) :
    Except cad.Fault VariableBounds :=
  match vb.boundHeap[boundPtr]? with
  | none => .error cad.Fault.undefined
  | some bound =>
    match vb.varHeap[bound.mpVariable]? with
    | none => .error cad.Fault.undefined
    | some v =>
      match v.updateBounds vb.boundHeap bound with
      | .error e => .error e
      | .ok r =>
        .ok { vb with
          varHeap := vb.varHeap.set bound.mpVariable r.2
          mpConflictingVariable :=
            if r.1 then some bound.mpVariable else vb.mpConflictingVariable }

/-- The method `VariableBounds<T>::addBound( _constraint, _origin )`: the result and the
object after the call.  A variable object that the source allocates and does not use is
not allocated. -/
def VariableBounds.addBound (vb : VariableBounds) (c : Constraint) (origin : Option Nat) :
    Except cad.Fault (Bool × VariableBounds) :=
  if c.relation ≠ .NEQ ∧ c.vars.length = 1 then
    match c.vars.head? with
    | none => .error cad.Fault.undefined
    | some var =>
      if c.maxDegree var = 1 then
        match lookup vb.mpConstraintBoundMap c.id with
        | some boundPtr =>
          match vb.boundHeap[boundPtr]? with
          | none => .error cad.Fault.undefined
          | some bound =>
            let a := bound.activate origin
            let vb1 := { vb with boundHeap := vb.boundHeap.set boundPtr a.2 }
            if a.1 then
              match vb1.updateAfterAdd boundPtr with
              | .error e => .error e
              | .ok vb2 => .ok (true, vb2)
            else .ok (true, vb1)
        | none =>
          let found : Nat × VariableBounds :=
            match lookup vb.mpVariableMap var with
            | some varPtr => (varPtr, vb)
            | none =>
              let created := Variable.create vb.boundHeap vb.varHeap.length
              (vb.varHeap.length,
                { vb with
                  varHeap := vb.varHeap ++ [created.1]
                  boundHeap := created.2
                  mpVariableMap := vb.mpVariableMap ++ [(var, vb.varHeap.length)] })
          match found.2.varHeap[found.1]? with
          | none => .error cad.Fault.undefined
          | some v =>
            match v.addBound found.2.boundHeap found.1 c var origin with
            | .error e => .error e
            | .ok r =>
              let vb1 := { found.2 with
                varHeap := found.2.varHeap.set found.1 r.2.1
                boundHeap := r.2.2
                mpConstraintBoundMap := found.2.mpConstraintBoundMap ++ [(c.id, r.1)] }
              match vb1.updateAfterAdd r.1 with
              | .error e => .error e
              | .ok vb2 => .ok (true, vb2)
      else
        match lookup vb.mpVariableMap var with
        | some _ => .ok (false, vb)
        | none =>
          let created := Variable.create vb.boundHeap vb.varHeap.length
          .ok (false,
            { vb with
              varHeap := vb.varHeap ++ [created.1]
              boundHeap := created.2
              mpVariableMap := vb.mpVariableMap ++ [(var, vb.varHeap.length)] })
  else
    .ok (false,
      c.vars.foldl (fun acc sym =>
        match lookup acc.mpVariableMap sym with
        | some _ => acc
        | none =>
          let created := Variable.create acc.boundHeap acc.varHeap.length
          { acc with
            varHeap := acc.varHeap ++ [created.1]
            boundHeap := created.2
            mpVariableMap := acc.mpVariableMap ++ [(sym, acc.varHeap.length)] }) vb)

/-- The method `VariableBounds<T>::removeBound( _constraint, _origin )`: the result and
the object after the call. -/
def VariableBounds.removeBound (vb : VariableBounds) (c : Constraint) (origin : Option Nat) :
    Except cad.Fault (Nat × VariableBounds) :=
  if c.relation ≠ .NEQ ∧ c.vars.length = 1 then
    match c.vars.head? with
    | none => .error cad.Fault.undefined
    | some var =>
      if c.maxDegree var = 1 then
        match lookup vb.mpConstraintBoundMap c.id with
        | none => .error cad.Fault.assertion
        | some boundPtr =>
          match vb.boundHeap[boundPtr]? with
          | none => .error cad.Fault.undefined
          | some bound =>
            match bound.deactivate origin with
            | .error e => .error e
            | .ok d =>
              let vb1 := { vb with boundHeap := vb.boundHeap.set boundPtr d.2 }
              if d.1 then
                match vb1.varHeap[bound.mpVariable]? with
                | none => .error cad.Fault.undefined
                | some v =>
                  match v.updateBounds vb1.boundHeap d.2 with
                  | .error e => .error e
                  | .ok r =>
                    .ok (2, { vb1 with
                      varHeap := vb1.varHeap.set bound.mpVariable r.2
                      mpConflictingVariable :=
                        if r.1 then some bound.mpVariable else none })
              else .ok (1, vb1)
      else .ok (0, vb)
  else .ok (0, vb)

/-- A call of `addBound` or `removeBound`. -/
inductive Op where
  | add (c : Constraint) (origin : Option Nat)
  | remove (c : Constraint) (origin : Option Nat)

/-- A sequence of `addBound` and `removeBound` calls. -/
def run : List Op → VariableBounds → Except cad.Fault VariableBounds
  | [], vb => .ok vb
  | .add c o :: rest, vb =>
    match vb.addBound c o with
    | .error e => .error e
    | .ok r => run rest r.2
  | .remove c o :: rest, vb =>
    match vb.removeBound c o with
    | .error e => .error e
    | .ok r => run rest r.2

/-- The property "the variable object is conflicting", evaluated with `conflicting()`. -/
def VariableBounds.someConflicting (vb : VariableBounds) : Bool :=
  vb.varHeap.any (fun v =>
    match v.conflicting vb.boundHeap with
    | .ok c => c
    | .error _ => false)

/-- The constraint `x - 1 >= 0` of the worked example, with `x` the variable 0. -/
def exGeOne : Constraint := ⟨0, .GEQ, [0], fun _ => 1, 1, -1⟩

/-- The constraint `x <= 0` of the worked example. -/
def exLeZero : Constraint := ⟨1, .LEQ, [0], fun _ => 1, 1, 0⟩

/-- The constraint `y - 5 <= 0` of the worked example, with `y` the variable 1. -/
def exYLeFive : Constraint := ⟨2, .LEQ, [1], fun _ => 1, 1, -5⟩

/-- The calls of the worked example: `x >= 1` and `x <= 0` are added (a conflict on `x`),
then `y <= 5` is added and removed again. -/
def exCalls : List Op :=
  [.add exGeOne (some 10), .add exLeZero (some 11), .add exYLeFive (some 12),
    .remove exYLeFive (some 12)]

/-- The state after the three `addBound` calls of the worked example (the initial state if
they do not complete). -/
def exAfterAdds : VariableBounds :=
  match run (exCalls.take 3) VariableBounds.create with
  | .ok vb => vb
  | .error _ => VariableBounds.create

/-- The state in which the calls of the worked example end (the initial state if they do
not complete). -/
def exFinal : VariableBounds :=
  match run exCalls VariableBounds.create with
  | .ok vb => vb
  | .error _ => VariableBounds.create

/-- An equal bound with the limit 3 (a bound of the variable 0, with one origin). -/
def exEqualThree : Bound := ⟨.EQUAL_BOUND, some 3, 0, [some 7]⟩

/-- A strict upper bound with the limit 3. -/
def exStrictUpperThree : Bound := ⟨.STRICT_UPPER_BOUND, some 3, 0, [some 8]⟩

/-- A weak upper bound with the limit 3. -/
def exWeakUpperThree : Bound := ⟨.WEAK_UPPER_BOUND, some 3, 0, [some 9]⟩

/-- A weak lower bound with the limit 2. -/
def exWeakLowerTwo : Bound := ⟨.WEAK_LOWER_BOUND, some 2, 0, [some 6]⟩

/-- The infinite lower bound that the constructor of a variable creates. -/
def exMinusInfinity : Bound := Bound.create none 0 .STRICT_LOWER_BOUND

end vb


/-!
## The bit strings of odd and of even parity
-/

namespace vs

/-- The statement `_strings[pos] <<= 1` on a `bitset<N>`, a bit string being the number
whose binary digits it holds: the bits move up by one position and the bit that leaves the
`N` positions is lost. -/
def shiftLeftOne (N : Nat) (x : Nat) : Nat := (2 * x) % 2 ^ N

/-- The statement `_strings[pos].flip(0)` (on a bit set with at least one position). -/
def flipZero (x : Nat) : Nat := if x % 2 = 0 then x + 1 else x - 1

/-- A loop `for( ; pos < _strings.size(); ++pos )` that applies `f` to `_strings[pos]`. -/
def mapFrom (pos : Nat) (f : Nat → Nat) (strings : List Nat) : List Nat :=
  strings.take pos ++ (strings.drop pos).map f

mutual
/-- The function `getOddBitStrings( _length, _strings )` with its assertion: the vector
after the call.  The constant `MAX_PRODUCT_SPLIT_NUMBER` is not defined in the sources and
is the parameter `N`.  The second loop starts where the first one stopped. -/
def getOddBitStrings (N : Nat) : Nat → List Nat → Except cad.Fault (List Nat)
  | 0, _ => .error cad.Fault.assertion
  | 1, strings => .ok (strings ++ [1 % 2 ^ N])
  | n + 2, strings =>
    match getEvenBitStrings N (n + 1) strings with
    | .error e => .error e
    | .ok s1 =>
      match getOddBitStrings N (n + 1)
          (mapFrom strings.length (fun x => flipZero (shiftLeftOne N x)) s1) with
      | .error e => .error e
      | .ok s2 => .ok (mapFrom (max strings.length s1.length) (shiftLeftOne N) s2)
/-- The function `getEvenBitStrings( _length, _strings )` with its assertion: the vector
after the call. -/
def getEvenBitStrings (N : Nat) : Nat → List Nat → Except cad.Fault (List Nat)
  | 0, _ => .error cad.Fault.assertion
  | 1, strings => .ok (strings ++ [0])
  | n + 2, strings =>
    match getEvenBitStrings N (n + 1) strings with
    | .error e => .error e
    | .ok s1 =>
      match getOddBitStrings N (n + 1) (mapFrom strings.length (shiftLeftOne N) s1) with
      | .error e => .error e
      | .ok s2 =>
        .ok (mapFrom (max strings.length s1.length) (fun x => flipZero (shiftLeftOne N x)) s2)
end

/-- The number of set bits among the positions `0 .. w - 1` of a bit string
(`bitset<w>::count()`). -/
def bitCount : Nat → Nat → Nat
  | 0, _ => 0
  | w + 1, x => x % 2 + bitCount w (x / 2)

/-- The bit strings of length `k + 1` with an odd number of set bits and those with an even
number of set bits, in the order in which the two functions append them. -/
def parityStrings : Nat → List Nat × List Nat
  | 0 => ([1], [0])
  | k + 1 =>
    ((parityStrings k).2.map (fun x => 2 * x + 1) ++ (parityStrings k).1.map (fun x => 2 * x),
     (parityStrings k).2.map (fun x => 2 * x) ++ (parityStrings k).1.map (fun x => 2 * x + 1))

end vs

/-!
## The order of the bounds of a variable
-/

namespace vb

/-- The order of two upper bounds that `operator<` computes: the first bound is finite and
the second is infinite, or both are finite and the limit of the first is smaller, or the
limits are equal and the type of the first comes first in the order strict, equal, weak. -/
def upperLess (a b : Bound) : Prop :=
  a.mpLimit ≠ none ∧ (b.mpLimit = none ∨
    ∃ la lb, a.mpLimit = some la ∧ b.mpLimit = some lb ∧
      (la < lb ∨ (la = lb ∧ upperRank a.mType < upperRank b.mType)))

/-- The order of two lower bounds that `operator<` computes: the second bound is finite and
the first is infinite, or both are finite and the limit of the first is smaller, or the
limits are equal and the type of the first comes first in the order weak, equal, strict. -/
def lowerLess (a b : Bound) : Prop :=
  b.mpLimit ≠ none ∧ (a.mpLimit = none ∨
    ∃ la lb, a.mpLimit = some la ∧ b.mpLimit = some lb ∧
      (la < lb ∨ (la = lb ∧ lowerRank a.mType < lowerRank b.mType)))

/-- A bound as the class `Variable` creates it: the constructor creates the two infinite
bounds, which are strict, and `addBound` creates finite bounds, so an equal bound is
finite. -/
def Bound.equalIsFinite (b : Bound) : Prop :=
  b.mType = .EQUAL_BOUND → b.mpLimit ≠ none

/-- An infinite equal bound.  The public constructor of `Bound` accepts it; the class
`Variable` does not create one. -/
def exInfiniteEqual : Bound := Bound.create none 0 .EQUAL_BOUND

end vb

/-!
## The module for equalities between uninterpreted variables
-/

namespace uf

/-- What the module reads of a `carl::UEquality` whose two sides are variables: the two
variables and `negated()`. -/
structure UEquality (V : Type) where
  lhs : V
  rhs : V
  negated : Bool
  deriving DecidableEq

/-- The operations of the class `UnionFind` that the module calls.  The class is not part of
the sources, so its behaviour is a parameter: `UF` is the state of the structure and `R`
the type of what `find` returns.  The module calls `find` on a reference that is not
constant, so `find` returns the state after the call as well. -/
structure UnionFindOps (UF V R : Type) where
  introduce_variable : UF → V → UF
  init : UF → List V → UF
  merge : UF → V → V → UF
  find : UF → V → R × UF

/-- The members of `UnionFindModule` that the four methods use: the set `variables` (as the
list of its elements in the order of insertion), `union_find`, `history` and `reset`. -/
structure UnionFindModule (UF V : Type) where
  vars : List V
  union_find : UF
  history : List (UEquality V)
  reset : Bool

/-- A module object before the first call.  The header that declares the members is not
part of the sources, so the structure behind `union_find` and the value of `reset` at the
start are parameters. -/
def UnionFindModule.create {UF V : Type} (u0 : UF) (reset0 : Bool) : UnionFindModule UF V :=
  ⟨[], u0, [], reset0⟩

/-- The statement `if (const auto& [it, inserted] = variables.emplace(v); inserted)
union_find.introduce_variable(v);`. -/
def emplaceVariable {UF V R : Type} [DecidableEq V] (ops : UnionFindOps UF V R)
    (m : UnionFindModule UF V) (v : V) : UnionFindModule UF V :=
  if v ∈ m.vars then m
  else { m with vars := m.vars ++ [v], union_find := ops.introduce_variable m.union_find v }

/-- The loop of `addCore` that merges the two sides of every equality of the history that
is not negated. -/
def mergeHistory {UF V R : Type} (ops : UnionFindOps UF V R) :
    UF → List (UEquality V) → UF
  | u, [] => u
  | u, eq :: rest =>
    mergeHistory ops (if !eq.negated then ops.merge u eq.lhs eq.rhs else u) rest

/-- The method `UnionFindModule::addCore` for an equality between two variables: the result
and the module after the call. -/
def addCore {UF V R : Type} [DecidableEq V] (ops : UnionFindOps UF V R)
    (m : UnionFindModule UF V) (ueq : UEquality V) : Bool × UnionFindModule UF V :=
  let m1 := emplaceVariable ops m ueq.lhs
  let m2 := emplaceVariable ops m1 ueq.rhs
  let m4 :=
    if !ueq.negated then
      let m3 :=
        if m2.reset then
          { m2 with
            union_find := mergeHistory ops (ops.init m2.union_find m2.vars) m2.history,
            reset := false }
        else m2
      { m3 with union_find := ops.merge m3.union_find ueq.lhs ueq.rhs }
    else m2
  (true, { m4 with history := m4.history ++ [ueq] })

/-- The method `UnionFindModule::removeCore`: the last element of the history that equals
the equality is erased.  If there is none, `std::find` returns `rend()` and the call of
`erase` is undefined. -/
def removeCore {UF V : Type} [DecidableEq V] (m : UnionFindModule UF V) (ueq : UEquality V) :
    Except cad.Fault (UnionFindModule UF V) :=
  if ueq ∈ m.history then
    .ok { m with history := (m.history.reverse.erase ueq).reverse, reset := true }
  else .error cad.Fault.undefined

/-- The function `isConsistent( union_find, inequalities )`: the result and the structure
after the calls of `find`. -/
def isConsistent {UF V R : Type} [DecidableEq R] (ops : UnionFindOps UF V R) :
    UF → List (UEquality V) → Bool × UF
  | u, [] => (true, u)
  | u, ueq :: rest =>
    let l := ops.find u ueq.lhs
    let r := ops.find l.2 ueq.rhs
    if r.1 = l.1 then (false, r.2) else isConsistent ops r.2 rest

/-- The method `UnionFindModule::checkCore`: the answer and the module after the call. -/
def checkCore {UF V R : Type} [DecidableEq R] (ops : UnionFindOps UF V R)
    (m : UnionFindModule UF V) : cad.Answer × UnionFindModule UF V :=
  let c := isConsistent ops m.union_find (m.history.filter (fun ueq => ueq.negated))
  (if !c.1 then .UNSAT else .SAT, { m with union_find := c.2 })

/-- A call of `addCore` or of `removeCore`. -/
inductive CoreCall (V : Type) where
  | add (ueq : UEquality V)
  | remove (ueq : UEquality V)

/-- A sequence of calls of `addCore` and `removeCore`. -/
def runCalls {UF V R : Type} [DecidableEq V] (ops : UnionFindOps UF V R) :
    List (CoreCall V) → UnionFindModule UF V → Except cad.Fault (UnionFindModule UF V)
  | [], m => .ok m
  | .add ueq :: rest, m => runCalls ops rest (addCore ops m ueq).2
  | .remove ueq :: rest, m =>
    match removeCore m ueq with
    | .error e => .error e
    | .ok m1 => runCalls ops rest m1

/-- The condition of the specification for the answer UNSAT: an asserted negated equality
whose two sides are connected by the asserted equalities that are not negated. -/
def SpecUnsat {V : Type} (asserted : List (UEquality V)) : Prop :=
  ∃ d ∈ asserted, d.negated = true ∧
    Relation.EqvGen (fun x y => ∃ q ∈ asserted, q.negated = false ∧ q.lhs = x ∧ q.rhs = y)
      d.lhs d.rhs

/-- A union-find structure for the worked example: the state is the function that gives
every variable its representative, at the start the identity, and `merge` gives the class
of the first variable the representative of the second. -/
def quickFind : UnionFindOps (Nat → Nat) Nat Nat where
  introduce_variable := fun u _ => u
  init := fun _ _ => id
  merge := fun u a b => fun x => if u x = u a then u b else u x
  find := fun u v => (u v, u)

end uf

namespace cad

section Development

set_option linter.unusedSectionVars false

variable {UPoly : Type} [DecidableEq UPoly]

theorem idsFrom_append (n : Nat) (xs ys : List (UPoly × Nat)) :
    idsFrom n (xs ++ ys) = idsFrom n xs ++ idsFrom (n + xs.length) ys := by
  induction xs generalizing n with
  | nil => simp [idsFrom]
  | cons e rest ih =>
    simp [idsFrom, ih, Nat.add_assoc, Nat.add_comm 1]

theorem mapFind_append (m₁ m₂ : List (UPoly × Nat)) (p : UPoly) :
    mapFind (m₁ ++ m₂) p = (mapFind m₁ p).orElse (fun _ => mapFind m₂ p) := by
  induction m₁ with
  | nil => simp [mapFind]
  | cons e rest ih =>
    obtain ⟨q, i⟩ := e
    by_cases h : q = p <;> simp [mapFind, h, ih]

theorem mapFind_idsFrom_none (n : Nat) (xs : List (UPoly × Nat)) (p : UPoly) :
    mapFind (idsFrom n xs) p = none ↔ p ∉ xs.map Prod.fst := by
  induction xs generalizing n with
  | nil => simp [idsFrom, mapFind]
  | cons e rest ih =>
    by_cases h : e.1 = p
    · simp [idsFrom, mapFind, h]
    · have h' : ¬ p = e.1 := fun c => h c.symm
      simp [idsFrom, mapFind, h, h', ih]

theorem mapFind_idsFrom_some (n : Nat) (xs : List (UPoly × Nat)) (p : UPoly) (i : Nat)
    (h : mapFind (idsFrom n xs) p = some i) :
    n ≤ i ∧ ∃ e, xs[i - n]? = some e ∧ e.1 = p := by
  induction xs generalizing n with
  | nil => simp [idsFrom, mapFind] at h
  | cons e rest ih =>
    by_cases hq : e.1 = p
    · simp [idsFrom, mapFind, hq] at h
      subst h
      simp [hq]
    · simp [idsFrom, mapFind, hq] at h
      obtain ⟨h1, e', h2, h3⟩ := ih (n + 1) h
      refine ⟨by omega, e', ?_, h3⟩
      have : i - n = (i - (n + 1)) + 1 := by omega
      rw [this]
      simpa using h2

theorem mapErase_idsFrom_last (n : Nat) (xs : List (UPoly × Nat)) (e : UPoly × Nat)
    (h : e.1 ∉ xs.map Prod.fst) :
    mapErase (idsFrom n (xs ++ [e])) e.1 = idsFrom n xs := by
  induction xs generalizing n with
  | nil => simp [idsFrom, mapErase]
  | cons x rest ih =>
    simp only [List.map_cons, List.mem_cons, not_or] at h
    have hx : ¬ x.1 = e.1 := fun c => h.1 c.symm
    have := ih (n + 1) h.2
    simp only [mapErase] at this ⊢
    simp only [List.cons_append, idsFrom, List.filter_cons, ne_eq, hx, not_false_eq_true,
      decide_True, if_true]
    exact congrArg _ this

theorem mapFind_idsFrom_last (n : Nat) (xs : List (UPoly × Nat)) (e : UPoly × Nat)
    (h : e.1 ∉ xs.map Prod.fst) :
    mapFind (idsFrom n (xs ++ [e])) e.1 = some (n + xs.length) := by
  rw [idsFrom_append, mapFind_append, (mapFind_idsFrom_none n xs e.1).2 h]
  simp [idsFrom, mapFind]

theorem queueErase_range_succ (n : Nat) : queueErase (List.range (n + 1)) n = List.range n := by
  unfold queueErase
  rw [List.range_succ, List.filter_append]
  simp
  intro a ha
  omega

theorem queueInsert_range (n : Nat) : queueInsert (List.range n) n = List.range (n + 1) := by
  simp [queueInsert, List.range_succ]

theorem level_ok_iff (s : Projection UPoly) (L : Nat) (l : Level UPoly) :
    s.level L = .ok l ↔ s.levels[L]? = some l := by
  unfold Projection.level
  cases h : s.levels[L]? <;> simp

theorem level_error (s : Projection UPoly) (L : Nat) (e : Fault) (h : s.level L = .error e) :
    s.levels[L]? = none := by
  unfold Projection.level at h
  cases h' : s.levels[L]? <;> simp_all

theorem polys_of_get (s : Projection UPoly) (L : Nat) (l : Level UPoly)
    (h : s.levels[L]? = some l) : s.polys L = l.mPolynomials := by
  simp [Projection.polys, h]

theorem size_eq_length_polys (s : Projection UPoly) (L : Nat) :
    s.size L = (s.polys L).length := by
  unfold Projection.size Projection.polys
  cases s.levels[L]? <;> simp

theorem Good.wf {s : Projection UPoly} (hs : Good s) {L : Nat} {l : Level UPoly}
    (h : s.levels[L]? = some l) : WFLevel l :=
  hs.2 l (List.mem_iff_getElem?.2 ⟨L, h⟩)

theorem Good.get_eq {s : Projection UPoly} (hs : Good s) {L : Nat} {l : Level UPoly}
    (h : s.levels[L]? = some l) : l = mkLevel (s.polys L) := by
  rw [polys_of_get s L l h]
  exact (hs.wf h).1

theorem Good.nodup {s : Projection UPoly} (hs : Good s) (L : Nat) :
    ((s.polys L).map Prod.fst).Nodup := by
  unfold Projection.polys
  cases h : s.levels[L]? with
  | none => simp
  | some l => exact (hs.wf h).2

theorem Good.get_of_lt {s : Projection UPoly} (hs : Good s) {L : Nat} (h : L < s.dim) :
    s.levels[L]? = some (mkLevel (s.polys L)) := by
  have hlt : L < s.levels.length := by rw [hs.1]; exact h
  obtain ⟨l, hl⟩ : ∃ l, s.levels[L]? = some l := ⟨s.levels[L], List.getElem?_eq_getElem hlt⟩
  rw [hl, ← hs.get_eq hl]

theorem polys_eq_nil_of_ge {s : Projection UPoly} (hs : Good s) {L : Nat} (h : s.dim ≤ L) :
    s.polys L = [] := by
  have : s.levels[L]? = none := by
    apply List.getElem?_eq_none
    rw [hs.1]; exact h
  simp [Projection.polys, this]

/-- Two well-formed states with the same variables and the same stored lists are equal. -/
theorem Good.ext {s t : Projection UPoly} (hs : Good s) (ht : Good t)
    (hv : s.mVars = t.mVars) (hp : ∀ L, s.polys L = t.polys L) : s = t := by
  have hlev : s.levels = t.levels := by
    apply List.ext_getElem?
    intro L
    by_cases h : L < s.dim
    · have h' : L < t.dim := by unfold Projection.dim at *; rw [← hv]; exact h
      rw [hs.get_of_lt h, ht.get_of_lt h', hp L]
    · have h1 : s.levels[L]? = none := by
        apply List.getElem?_eq_none; rw [hs.1]; exact Nat.le_of_not_lt h
      have h2 : t.levels[L]? = none := by
        apply List.getElem?_eq_none; rw [ht.1, ← hv]; exact Nat.le_of_not_lt h
      rw [h1, h2]
  cases s with
  | mk sv sl =>
    cases t with
    | mk tv tl => exact congrArg₂ Projection.mk hv hlev

theorem polys_setLevel (s : Projection UPoly) (L L' : Nat) (l : Level UPoly)
    (h : L < s.levels.length) :
    (s.setLevel L l).polys L' = if L = L' then l.mPolynomials else s.polys L' := by
  unfold Projection.polys Projection.setLevel
  simp only [List.getElem?_set]
  by_cases hL : L = L'
  · subst hL
    simp [h]
  · simp [hL]

theorem good_setLevel {s : Projection UPoly} (hs : Good s) (L : Nat) (polys : List (UPoly × Nat))
    (hn : (polys.map Prod.fst).Nodup) : Good (s.setLevel L (mkLevel polys)) := by
  refine ⟨by simp [Projection.setLevel, hs.1], ?_⟩
  intro l hl
  rcases List.mem_or_eq_of_mem_set hl with h | h
  · exact hs.2 l h
  · subst h
    exact ⟨rfl, hn⟩

theorem Ext.refl (n lo : Nat) (s : Projection UPoly) : Ext n lo s s :=
  ⟨rfl, rfl, fun _ => ⟨[], by simp, by simp, fun _ => rfl⟩⟩

theorem Ext.trans {n lo : Nat} {s t u : Projection UPoly} (h1 : Ext n lo s t)
    (h2 : Ext n lo t u) : Ext n lo s u := by
  refine ⟨h2.1.trans h1.1, h2.2.1.trans h1.2.1, fun L => ?_⟩
  obtain ⟨e1, a1, b1, c1⟩ := h1.2.2 L
  obtain ⟨e2, a2, b2, c2⟩ := h2.2.2 L
  refine ⟨e1 ++ e2, by rw [a2, a1, List.append_assoc], ?_, ?_⟩
  · intro e he
    rcases List.mem_append.1 he with h | h
    · exact b1 e h
    · exact b2 e h
  · intro hL
    rw [c1 hL, c2 hL]; rfl

theorem Ext.mono {n lo lo' : Nat} {s t : Projection UPoly} (h : Ext n lo' s t)
    (hle : lo ≤ lo') : Ext n lo s t := by
  refine ⟨h.1, h.2.1, fun L => ?_⟩
  obtain ⟨e1, a1, b1, c1⟩ := h.2.2 L
  exact ⟨e1, a1, b1, fun hL => c1 (Nat.lt_of_lt_of_le hL hle)⟩

theorem Ext.polys_below {n lo : Nat} {s t : Projection UPoly} (h : Ext n lo s t) {L : Nat}
    (hL : L < lo) : t.polys L = s.polys L := by
  obtain ⟨e1, a1, _, c1⟩ := h.2.2 L
  rw [a1, c1 hL, List.append_nil]

theorem Ext.dim {n lo : Nat} {s t : Projection UPoly} (h : Ext n lo s t) : t.dim = s.dim := by
  unfold Projection.dim; rw [h.1]

theorem Ext.var {n lo : Nat} {s t : Projection UPoly} (h : Ext n lo s t) (L : Nat) :
    t.var L = s.var L := by
  unfold Projection.var; rw [h.1]

theorem Bounded.of_ext {n lo : Nat} {s t : Projection UPoly} (hs : Bounded n s) (ht : Good t)
    (h : Ext n lo s t) : Bounded n t := by
  refine ⟨ht, fun L e he => ?_⟩
  obtain ⟨e1, a1, b1, _⟩ := h.2.2 L
  rw [a1] at he
  rcases List.mem_append.1 he with h' | h'
  · exact hs.2 L e h'
  · exact Nat.le_of_eq (b1 e h')

/-- Effect of `insertPolynomial` for a polynomial that is not stored at the level. -/
theorem insertPolynomial_spec {s s' : Projection UPoly} (hs : Good s) {L : Nat} {p : UPoly}
    {o : Nat} (hp : p ∉ (s.polys L).map Prod.fst)
    (h : insertPolynomial s L p o = .ok s') :
    Good s' ∧ s' = s.setLevel L (mkLevel (s.polys L ++ [(p, o)])) ∧ L < s.levels.length := by
  unfold insertPolynomial at h
  cases hl : s.level L with
  | error e => rw [hl] at h; simp at h
  | ok l =>
    rw [hl] at h
    have hget := (level_ok_iff s L l).1 hl
    have hlt : L < s.levels.length := by
      rcases List.getElem?_eq_some.1 hget with ⟨h1, _⟩; exact h1
    have hl' := hs.get_eq hget
    have hpl := polys_of_get s L l hget
    simp only [Except.ok.injEq] at h
    have hnew : (⟨mapEmplace l.mPolynomialIDs p l.mPolynomials.length,
        l.mPolynomials ++ [(p, o)], queueInsert l.mLiftingQueue l.mPolynomials.length⟩ :
        Level UPoly) = mkLevel (s.polys L ++ [(p, o)]) := by
      rw [hpl]
      have h1 : l.mPolynomialIDs = idsFrom 0 l.mPolynomials := by
        conv_lhs => rw [(hs.wf hget).1]
        rfl
      have h2 : l.mLiftingQueue = List.range l.mPolynomials.length := by
        conv_lhs => rw [(hs.wf hget).1]
        rfl
      have h3 : mapFind (idsFrom 0 l.mPolynomials) p = none := by
        rw [mapFind_idsFrom_none, ← hpl]; exact hp
      rw [h1, h2]
      simp only [mkLevel, mapEmplace, h3, queueInsert_range, idsFrom_append,
        List.length_append, List.length_singleton, Nat.zero_add, idsFrom]
    rw [hnew] at h
    refine ⟨?_, h.symm, hlt⟩
    rw [← h]
    apply good_setLevel hs
    rw [List.map_append, List.nodup_append]
    refine ⟨hs.nodup L, by simp, ?_⟩
    intro a ha hb
    simp at hb
    subst hb
    exact hp ha

theorem ext_setLevel_append {s : Projection UPoly} (n L : Nat) (p : UPoly)
    (hlt : L < s.levels.length) :
    Ext n L s (s.setLevel L (mkLevel (s.polys L ++ [(p, n)]))) := by
  refine ⟨rfl, by simp [Projection.setLevel], fun L' => ?_⟩
  rw [polys_setLevel s L L' _ hlt]
  by_cases h : L = L'
  · subst h
    exact ⟨[(p, n)], by simp [mkLevel], by simp, fun hh => absurd hh (Nat.lt_irrefl _)⟩
  · exact ⟨[], by simp [h], by simp, fun _ => rfl⟩

theorem foldE_inv {σ α : Type} (f : σ → α → Except Fault σ) (Pre : σ → Prop)
    (R : σ → σ → Prop) (hrefl : ∀ s, R s s) (htrans : ∀ s t u, R s t → R t u → R s u)
    (l : List α) (hstep : ∀ a ∈ l, ∀ s s', Pre s → f s a = .ok s' → Pre s' ∧ R s s') :
    ∀ s s', Pre s → foldE f l s = .ok s' → Pre s' ∧ R s s' := by
  induction l with
  | nil =>
    intro s s' hs h
    simp only [foldE, Except.ok.injEq] at h
    subst h
    exact ⟨hs, hrefl s⟩
  | cons a rest ih =>
    intro s s' hs h
    simp only [foldE] at h
    cases hf : f s a with
    | error e => rw [hf] at h; simp at h
    | ok t =>
      rw [hf] at h
      obtain ⟨h1, h2⟩ := hstep a (List.mem_cons_self _ _) s t hs hf
      obtain ⟨h3, h4⟩ := ih (fun b hb => hstep b (List.mem_cons_of_mem _ hb)) t s' h1 h
      exact ⟨h3, htrans _ _ _ h2 h4⟩

theorem foldE_append {σ α : Type} (f : σ → α → Except Fault σ) (xs ys : List α) (s : σ) :
    foldE f (xs ++ ys) s =
      match foldE f xs s with
      | .ok s1 => foldE f ys s1
      | .error e => .error e := by
  induction xs generalizing s with
  | nil => simp [foldE]
  | cons a rest ih =>
    simp only [List.cons_append, foldE]
    cases f s a with
    | error e => rfl
    | ok t => exact ih t

theorem foldE_map {σ α β : Type} (f : σ → β → Except Fault σ) (g : α → β) (xs : List α)
    (s : σ) : foldE f (xs.map g) s = foldE (fun st x => f st (g x)) xs s := by
  induction xs generalizing s with
  | nil => simp [foldE]
  | cons a rest ih =>
    simp only [List.map_cons, foldE]
    cases f s (g a) with
    | error e => rfl
    | ok t => exact ih t

theorem foldE_join {σ α : Type} (f : σ → α → Except Fault σ) (xss : List (List α)) (s : σ) :
    foldE f xss.flatten s = foldE (fun st xs => foldE f xs st) xss s := by
  induction xss generalizing s with
  | nil => simp [foldE]
  | cons xs rest ih =>
    simp only [List.flatten_cons, foldE_append, foldE]
    cases foldE f xs s with
    | error e => rfl
    | ok t => exact ih t

/-- The body of `addToProjectionAux` for a polynomial that is neither purged nor forwarded
nor already stored. -/
theorem aux_new_eq (K : Kernel UPoly) (k level : Nat) (p : UPoly) (o : Nat)
    (s : Projection UPoly) (l : Level UPoly)
    (hp : canBePurged K p = false)
    (hf : ¬ (0 < level ∧ level < s.dim - 1 ∧ canBeForwarded K level p = true))
    (hd : level < s.dim) (hv : K.mainVar p = s.var level)
    (hl : s.levels[level]? = some l) (hn : mapFind l.mPolynomialIDs p = none) :
    addToProjectionAux K (k + 1) level p o s =
      match (if level < s.dim - 1 then
          foldE (fun st c => addToProjectionAux K k (level + 1) c.1 c.2 st)
            (handedOn K (s.var (level + 1)) p
              (if level = 0 then l.mPolynomials.length else o) l.mPolynomials) s
        else .ok s) with
      | .error e => .error e
      | .ok s2 => insertPolynomial s2 level p (if level = 0 then l.mPolynomials.length else o)
    := by
  have hl' := (level_ok_iff s level l).2 hl
  simp only [addToProjectionAux, hp, hf, hd, hv, hl', hn, handedOn, foldE_append, foldE_map,
    foldE_join]
  by_cases hlt : level < s.dim - 1
  · simp only [hlt, if_true, if_false, not_true_eq_false, ne_eq, Bool.false_eq_true]
    cases foldE (fun st np => addToProjectionAux K k (level + 1) np
      (if level = 0 then l.mPolynomials.length else o) st)
      (K.projectUnary p (s.var (level + 1))) s <;> rfl
  · simp only [hlt, if_true, if_false, not_true_eq_false, ne_eq, Bool.false_eq_true]

theorem mem_handedOn {K : Kernel UPoly} {v : Variable} {p : UPoly} {origin : Nat}
    {stored : List (UPoly × Nat)} {c : UPoly × Nat} (hc : c ∈ handedOn K v p origin stored) :
    c.2 = origin ∨ ∃ it ∈ stored, c.2 = max origin it.2 := by
  unfold handedOn at hc
  rcases List.mem_append.1 hc with h | h
  · left
    obtain ⟨np, _, rfl⟩ := List.mem_map.1 h
    rfl
  · right
    obtain ⟨xs, hxs, hcx⟩ := List.mem_flatten.1 h
    obtain ⟨it, hit, rfl⟩ := List.mem_map.1 hxs
    obtain ⟨np, _, rfl⟩ := List.mem_map.1 hcx
    exact ⟨it, hit, rfl⟩

theorem aux_new_case (K : Kernel UPoly) (n k : Nat) (ih : AuxSound K n k)
    (level : Nat) (p : UPoly) (o : Nat) (s s' : Projection UPoly)
    (hs : Bounded n s) (h0 : level = 0 → n = s.size 0) (h1 : level ≠ 0 → o = n)
    (hp : canBePurged K p = false)
    (hf : ¬ (0 < level ∧ level < s.dim - 1 ∧ canBeForwarded K level p = true))
    (hnew : p ∉ (s.polys level).map Prod.fst)
    (h : addToProjectionAux K (k + 1) level p o s = .ok s') :
    Bounded n s' ∧ Ext n level s s' ∧ s'.polys level = s.polys level ++ [(p, n)] ∧
      K.mainVar p = s.var level ∧ level < s.dim := by
  have hd : level < s.dim := by
    by_contra hd
    simp [addToProjectionAux, hp, hf, hd] at h
  have hv : K.mainVar p = s.var level := by
    by_contra hv
    simp [addToProjectionAux, hp, hf, hd, hv] at h
  have hl := hs.1.get_of_lt hd
  have hn : mapFind (mkLevel (s.polys level)).mPolynomialIDs p = none := by
    simp only [mkLevel]
    exact (mapFind_idsFrom_none 0 _ p).2 hnew
  rw [aux_new_eq K k level p o s _ hp hf hd hv hl hn] at h
  have hn' : (if level = 0 then (mkLevel (s.polys level)).mPolynomials.length else o) = n := by
    by_cases hz : level = 0
    · simp only [hz, if_true, mkLevel]
      rw [h0 hz, size_eq_length_polys]
    · simp only [hz, if_false]
      exact h1 hz
  rw [hn'] at h
  have hfold : ∀ s2, (if level < s.dim - 1 then
          foldE (fun st c => addToProjectionAux K k (level + 1) c.1 c.2 st)
            (handedOn K (s.var (level + 1)) p n (mkLevel (s.polys level)).mPolynomials) s
        else .ok s) = .ok s2 → Bounded n s2 ∧ Ext n (level + 1) s s2 := by
    intro s2 h2
    split at h2
    · refine foldE_inv _ (Bounded n) (Ext n (level + 1)) (Ext.refl _ _)
        (fun _ _ _ => Ext.trans) _ ?_ s s2 hs h2
      intro c hc st st' hst hstep
      have hc2 : c.2 = n := by
        rcases mem_handedOn hc with h' | ⟨it, hit, h'⟩
        · exact h'
        · rw [h']
          exact Nat.max_eq_left (hs.2 level it hit)
      obtain ⟨a, b, _⟩ := ih (level + 1) c.1 c.2 st st' hst (by simp) (fun _ => hc2) hstep
      exact ⟨a, b⟩
    · simp only [Except.ok.injEq] at h2
      subst h2
      exact ⟨hs, Ext.refl _ _ _⟩
  cases h2 : (if level < s.dim - 1 then
          foldE (fun st c => addToProjectionAux K k (level + 1) c.1 c.2 st)
            (handedOn K (s.var (level + 1)) p n (mkLevel (s.polys level)).mPolynomials) s
        else .ok s) with
  | error e => rw [h2] at h; simp at h
  | ok s2 =>
    rw [h2] at h
    simp only at h
    obtain ⟨hb2, he2⟩ := hfold s2 h2
    have hpol : s2.polys level = s.polys level := he2.polys_below (Nat.lt_succ_self _)
    have hnew2 : p ∉ (s2.polys level).map Prod.fst := by rw [hpol]; exact hnew
    obtain ⟨hg, heq, hlt⟩ := insertPolynomial_spec hb2.1 hnew2 h
    have hext : Ext n level s2 s' := by
      rw [heq]; exact ext_setLevel_append n level p hlt
    have hext' : Ext n level s s' := (he2.mono (Nat.le_succ _)).trans hext
    refine ⟨hs.of_ext hg hext', hext', ?_, hv, hd⟩
    rw [heq, polys_setLevel _ _ _ _ hlt]
    simp [mkLevel, hpol]

theorem aux_sound (K : Kernel UPoly) (n : Nat) : ∀ k, AuxSound K n k := by
  intro k
  induction k with
  | zero =>
    intro level p o s s' hs h0 h1 h
    simp only [addToProjectionAux] at h
    split at h
    · simp only [Except.ok.injEq] at h
      subst h
      exact ⟨hs, Ext.refl _ _ _, Or.inl rfl⟩
    · simp at h
  | succ k ih =>
    intro level p o s s' hs h0 h1 h
    have horig := h
    simp only [addToProjectionAux] at h
    split at h
    · simp only [Except.ok.injEq] at h
      subst h
      exact ⟨hs, Ext.refl _ _ _, Or.inl rfl⟩
    split at h
    · rename_i hfw
      have hne : level ≠ 0 := by omega
      obtain ⟨a, b, _⟩ := ih (level + 1) _ o s s' hs (by simp) (fun _ => h1 hne) h
      exact ⟨a, b.mono (Nat.le_succ _), Or.inr (Or.inl hfw.1)⟩
    split at h
    · simp at h
    split at h
    · simp at h
    split at h
    · simp at h
    rename_i hp hf hd hv _ l hl
    split at h
    · have hss : s' = s := by
        split at h
        · split at h
          · simp at h
          · split at h
            · simp only [Except.ok.injEq] at h; exact h.symm
            · simp at h
        · simp only [Except.ok.injEq] at h; exact h.symm
      subst hss
      exact ⟨hs, Ext.refl _ _ _, Or.inl rfl⟩
    · rename_i hn
      have hget := (level_ok_iff s level l).1 hl
      have hnew : p ∉ (s.polys level).map Prod.fst := by
        have := (hs.1.wf hget).1
        rw [polys_of_get s level l hget]
        rw [this] at hn
        exact (mapFind_idsFrom_none 0 _ p).1 hn
      obtain ⟨a, b, c, _⟩ := aux_new_case K n k ih level p o s s' hs h0 h1
        (by simpa using hp) hf hnew horig
      exact ⟨a, b, Or.inr (Or.inr c)⟩

theorem strip_concat (n : Nat) (xs : List (UPoly × Nat)) (e : UPoly × Nat) :
    strip n (xs ++ [e]) = if e.2 = n then strip n xs else xs ++ [e] := by
  unfold strip
  by_cases h : e.2 = n
  · rw [List.rdropWhile_concat_pos _ _ _ (by simpa using h)]; simp [h]
  · rw [List.rdropWhile_concat_neg _ _ _ (by simpa using h)]; simp [h]

theorem strip_length_le (n : Nat) (xs : List (UPoly × Nat)) :
    (strip n xs).length ≤ xs.length := by
  induction xs using List.reverseRecOn with
  | nil => simp [strip]
  | append_singleton xs e ih =>
    rw [strip_concat]
    split
    · simp; omega
    · simp

theorem removePolynomialLevel_eq {s : Projection UPoly} (hs : Good s) (L : Nat) :
    removePolynomialLevel s L =
      if s.polys L = [] then .error Fault.undefined
      else .ok (s.setLevel L (mkLevel (s.polys L).dropLast)) := by
  unfold removePolynomialLevel
  cases hl : s.level L with
  | error e =>
    have := level_error s L e hl
    have he : e = Fault.undefined := by
      unfold Projection.level at hl
      rw [this] at hl
      simp at hl
      exact hl.symm
    simp [Projection.polys, this, he]
  | ok l =>
    have hget := (level_ok_iff s L l).1 hl
    have hpl := polys_of_get s L l hget
    have hwf := hs.wf hget
    simp only
    rw [hpl]
    rcases List.eq_nil_or_concat l.mPolynomials with h | ⟨init, e, h⟩
    · simp [h]
    · rw [List.concat_eq_append] at h
      have hnd := hwf.2
      rw [h, List.map_append, List.nodup_append] at hnd
      have hnot : e.1 ∉ init.map Prod.fst := by
        intro hmem
        exact hnd.2.2 hmem (by simp)
      have h1 : l.mPolynomialIDs = idsFrom 0 (init ++ [e]) := by
        conv_lhs => rw [hwf.1]
        rw [h]; rfl
      have h2 : l.mLiftingQueue = List.range (init.length + 1) := by
        conv_lhs => rw [hwf.1]
        rw [h]; simp [mkLevel]
      rw [h]
      simp only [List.getLast?_concat, List.dropLast_concat, h1, h2,
        mapFind_idsFrom_last 0 init e hnot, mapErase_idsFrom_last 0 init e hnot, Nat.zero_add,
        queueErase_range_succ]
      simp [mkLevel]

theorem setLevel_self {s : Projection UPoly} (hs : Good s) (L : Nat) :
    s.setLevel L (mkLevel (s.polys L)) = s := by
  have hg : Good (s.setLevel L (mkLevel (s.polys L))) := good_setLevel hs L _ (hs.nodup L)
  apply hg.ext hs rfl
  intro L'
  by_cases hlt : L < s.levels.length
  · rw [polys_setLevel _ _ _ _ hlt]
    by_cases h : L = L'
    · subst h; simp [mkLevel]
    · simp [h]
  · unfold Projection.setLevel Projection.polys
    simp only [List.getElem?_set]
    by_cases h : L = L'
    · subst h
      have : s.levels[L]? = none := List.getElem?_eq_none (Nat.le_of_not_lt hlt)
      simp [hlt, this]
    · simp [h]

theorem setLevel_setLevel (s : Projection UPoly) (L : Nat) (a b : Level UPoly) :
    (s.setLevel L a).setLevel L b = s.setLevel L b := by
  simp [Projection.setLevel, List.set_set]

theorem polys_setLevel_self (s : Projection UPoly) (L : Nat) (polys : List (UPoly × Nat))
    (h : s.polys L ≠ []) : (s.setLevel L (mkLevel polys)).polys L = polys := by
  have hlt : L < s.levels.length := by
    by_contra hc
    apply h
    have : s.levels[L]? = none := List.getElem?_eq_none (Nat.le_of_not_lt hc)
    simp [Projection.polys, this]
  rw [polys_setLevel _ _ _ _ hlt]
  simp [mkLevel]

theorem nodup_dropLast_keys {xs : List (UPoly × Nat)} (h : (xs.map Prod.fst).Nodup) :
    (xs.dropLast.map Prod.fst).Nodup := by
  rcases List.eq_nil_or_concat xs with h' | ⟨init, e, h'⟩
  · subst h'; simp
  · rw [List.concat_eq_append] at h'
    subst h'
    rw [List.dropLast_concat]
    rw [List.map_append, List.nodup_append] at h
    exact h.1

theorem removeWhile_eq (L n : Nat) :
    ∀ (fuel : Nat) (s : Projection UPoly) (removed : Bitset), Good s →
      (s.polys L).length < fuel →
      removeWhile L n fuel s removed =
        if strip n (s.polys L) = [] then .error Fault.undefined
        else .ok (s.setLevel L (mkLevel (strip n (s.polys L))),
          removed ∪ Finset.Ico (strip n (s.polys L)).length (s.polys L).length) := by
  intro fuel
  induction fuel with
  | zero => intro s removed _ h; omega
  | succ fuel ih =>
    intro s removed hs hlen
    unfold removeWhile
    cases hl : s.level L with
    | error e =>
      have := level_error s L e hl
      have he : e = Fault.undefined := by
        unfold Projection.level at hl
        rw [this] at hl
        simp at hl
        exact hl.symm
      simp [Projection.polys, this, he, strip]
    | ok l =>
      have hget := (level_ok_iff s L l).1 hl
      have hpl := polys_of_get s L l hget
      simp only
      rw [← hpl]
      rcases List.eq_nil_or_concat (s.polys L) with h | ⟨init, e, h⟩
      · simp [h, strip]
      · rw [List.concat_eq_append] at h
        have hne : s.polys L ≠ [] := by rw [h]; simp
        rw [h, List.getLast?_concat]
        simp only [strip_concat]
        by_cases hen : e.2 = n
        · simp only [hen, if_true]
          rw [removePolynomialLevel_eq hs L]
          have hcc : init ++ [e] ≠ [] := by simp
          simp only [hne, if_false, h, List.dropLast_concat, hcc]
          have hg1 : Good (s.setLevel L (mkLevel init)) := by
            apply good_setLevel hs
            have := nodup_dropLast_keys (hs.nodup L)
            rw [h, List.dropLast_concat] at this
            exact this
          have hp1 : (s.setLevel L (mkLevel init)).polys L = init :=
            polys_setLevel_self s L init hne
          have hsz : (s.setLevel L (mkLevel init)).size L = init.length := by
            rw [size_eq_length_polys, hp1]
          rw [ih _ _ hg1 (by rw [hp1]; rw [h] at hlen; simp at hlen; omega), hp1, hsz,
            setLevel_setLevel]
          by_cases hst : strip n init = []
          · simp [hst]
          · simp only [hst, if_false, List.length_append, List.length_singleton]
            have hle := strip_length_le n init
            congr 2
            ext x
            simp only [Finset.mem_union, Finset.mem_insert, Finset.mem_Ico]
            by_cases hx : x ∈ removed
            · simp [hx]
            · simp only [hx, or_false, false_or]
              omega
        · simp only [hen, if_false]
          have : init ++ [e] ≠ [] := by simp
          simp only [this, if_false]
          rw [← h, setLevel_self hs]
          simp

theorem mkLevel_polys (xs : List (UPoly × Nat)) : (mkLevel xs).mPolynomials = xs := rfl

theorem removeAtLevel_ok {t : Projection UPoly} (ht : Good t) (n L : Nat)
    (log : List (Nat × Bitset)) (hL : L < t.dim) (hok : LevelOK n (t.polys L)) :
    removeAtLevel n (t, log) L =
      .ok (t.setLevel L (mkLevel (strip n (t.polys L))),
        log ++ (if t.polys L = [] then []
          else [(L, Finset.Ico (strip n (t.polys L)).length (t.polys L).length)])) := by
  have hget := ht.get_of_lt hL
  have hl := (level_ok_iff t L _).2 hget
  unfold removeAtLevel
  simp only [hl]
  by_cases hemp : t.polys L = []
  · have : strip n (t.polys L) = [] := by rw [hemp]; rfl
    rw [this]
    have h2 : t.setLevel L (mkLevel ([] : List (UPoly × Nat))) = t := by
      rw [← hemp]; exact setLevel_self ht L
    simp [mkLevel, hemp] at h2 ⊢
    exact h2.symm
  · rcases hok with h | ⟨e, he, hlt⟩
    · exact absurd h hemp
    · have hne : strip n (t.polys L) ≠ [] := by
        intro hc; rw [hc] at he; simp at he
      have hlt' : L < t.levels.length := by rw [ht.1]; exact hL
      have hlev : (t.setLevel L (mkLevel (strip n (t.polys L)))).level L =
          .ok (mkLevel (strip n (t.polys L))) := by
        rw [level_ok_iff]
        simp [Projection.setLevel, List.getElem?_set, hlt']
      simp only [mkLevel_polys, List.isEmpty_eq_true, hemp, if_false]
      rw [removeWhile_eq L n _ t ∅ ht (Nat.lt_succ_self _)]
      simp only [hne, if_false]
      simp only [hlev, mkLevel_polys, he, hlt, if_true, Finset.empty_union]

theorem removeAtLevel_fail {t : Projection UPoly} (ht : Good t) (n L : Nat)
    (log : List (Nat × Bitset)) (hL : L < t.dim) (hok : ¬ LevelOK n (t.polys L)) :
    ∃ e, removeAtLevel n (t, log) L = .error e := by
  have hget := ht.get_of_lt hL
  have hl := (level_ok_iff t L _).2 hget
  unfold LevelOK at hok
  simp only [not_or] at hok
  obtain ⟨hemp, hno⟩ := hok
  unfold removeAtLevel
  simp only [hl, mkLevel_polys, List.isEmpty_eq_true, hemp, if_false]
  rw [removeWhile_eq L n _ t ∅ ht (Nat.lt_succ_self _)]
  by_cases hne : strip n (t.polys L) = []
  · exact ⟨Fault.undefined, by simp only [hne, if_true]⟩
  · have hlt' : L < t.levels.length := by rw [ht.1]; exact hL
    have hlev : (t.setLevel L (mkLevel (strip n (t.polys L)))).level L =
        .ok (mkLevel (strip n (t.polys L))) := by
      rw [level_ok_iff]
      simp [Projection.setLevel, List.getElem?_set, hlt']
    simp only [hne, if_false, hlev, mkLevel_polys]
    cases hlast : (strip n (t.polys L)).getLast? with
    | none => exact ⟨Fault.undefined, rfl⟩
    | some e =>
      have : ¬ e.2 < n := fun hc => hno ⟨e, hlast, hc⟩
      exact ⟨Fault.assertion, by simp only [this, if_false]⟩

theorem strip_sublist (n : Nat) (xs : List (UPoly × Nat)) : (strip n xs).Sublist xs :=
  (List.rdropWhile_prefix _ xs).sublist

theorem nodup_strip_keys {n : Nat} {xs : List (UPoly × Nat)} (h : (xs.map Prod.fst).Nodup) :
    ((strip n xs).map Prod.fst).Nodup :=
  h.sublist ((strip_sublist n xs).map _)

theorem callbacks_congr (n : Nat) (t t1 : Projection UPoly) (a m : Nat)
    (h : ∀ L, a ≤ L → t1.polys L = t.polys L) : callbacks n t1 a m = callbacks n t a m := by
  unfold callbacks
  have hf : (List.range' a m).filter (fun L => decide (t1.polys L ≠ [])) =
      (List.range' a m).filter (fun L => decide (t.polys L ≠ [])) := by
    apply List.filter_congr
    intro L hL
    rw [h L (List.mem_range'_1.1 hL).1]
  rw [hf]
  apply List.map_congr_left
  intro L hL
  have hL' := (List.mem_range'_1.1 (List.mem_of_mem_filter hL)).1
  rw [h L hL']

theorem callbacks_succ (n : Nat) (t : Projection UPoly) (a m : Nat) :
    callbacks n t a (m + 1) =
      (if t.polys a = [] then []
        else [(a, Finset.Ico (strip n (t.polys a)).length (t.polys a).length)]) ++
        callbacks n t (a + 1) m := by
  unfold callbacks
  rw [List.range'_succ, List.filter_cons]
  by_cases h : t.polys a = [] <;> simp [h]

theorem fold_remove (n : Nat) :
    ∀ (m a : Nat) (t : Projection UPoly) (log : List (Nat × Bitset)), Good t →
      a + m ≤ t.dim →
      ((∀ L, a ≤ L → L < a + m → LevelOK n (t.polys L)) →
        ∃ t', foldE (removeAtLevel n) (List.range' a m) (t, log) =
            .ok (t', log ++ callbacks n t a m) ∧ Good t' ∧ t'.mVars = t.mVars ∧
          ∀ L, t'.polys L = if a ≤ L ∧ L < a + m then strip n (t.polys L) else t.polys L) ∧
      (¬ (∀ L, a ≤ L → L < a + m → LevelOK n (t.polys L)) →
        ∃ e, foldE (removeAtLevel n) (List.range' a m) (t, log) = .error e) := by
  intro m
  induction m with
  | zero =>
    intro a t log ht _
    refine ⟨fun _ => ⟨t, by simp [foldE, callbacks], ht, rfl, fun L => ?_⟩, fun h => ?_⟩
    · have : ¬ (a ≤ L ∧ L < a + 0) := by omega
      rw [if_neg this]
    · exfalso; apply h; intro L h1 h2; omega
  | succ m ih =>
    intro a t log ht hdim
    have hL : a < t.dim := by omega
    rw [List.range'_succ]
    simp only [foldE]
    by_cases hok : LevelOK n (t.polys a)
    · rw [removeAtLevel_ok ht n a log hL hok]
      simp only
      have hlt' : a < t.levels.length := by rw [ht.1]; exact hL
      have ht1 : Good (t.setLevel a (mkLevel (strip n (t.polys a)))) :=
        good_setLevel ht a _ (nodup_strip_keys (ht.nodup a))
      have hp1 : ∀ L, (t.setLevel a (mkLevel (strip n (t.polys a)))).polys L =
          if a = L then strip n (t.polys a) else t.polys L := by
        intro L; rw [polys_setLevel _ _ _ _ hlt']; rfl
      have hp1' : ∀ L, a + 1 ≤ L →
          (t.setLevel a (mkLevel (strip n (t.polys a)))).polys L = t.polys L := by
        intro L hh
        rw [hp1 L]
        have : ¬ a = L := by omega
        simp [this]
      obtain ⟨ih1, ih2⟩ := ih (a + 1) (t.setLevel a (mkLevel (strip n (t.polys a))))
        (log ++ (if t.polys a = [] then []
          else [(a, Finset.Ico (strip n (t.polys a)).length (t.polys a).length)])) ht1
        (by show a + 1 + m ≤ t.mVars.length; unfold Projection.dim at hdim; omega)
      constructor
      · intro hall
        obtain ⟨t', h1, h2, h3, h4⟩ := ih1 (by
          intro L ha hb
          rw [hp1' L ha]
          exact hall L (by omega) (by omega))
        refine ⟨t', ?_, h2, h3, ?_⟩
        · rw [h1, callbacks_congr n t _ (a + 1) m hp1', callbacks_succ, List.append_assoc]
        · intro L
          rw [h4 L]
          by_cases hLa : a = L
          · subst hLa
            have h5 : ¬ (a + 1 ≤ a ∧ a < a + 1 + m) := by omega
            have h6 : a ≤ a ∧ a < a + (m + 1) := by omega
            simp only [h5, h6, if_false, if_true, hp1, and_self]
          · by_cases hr : a + 1 ≤ L ∧ L < a + 1 + m
            · have h6 : a ≤ L ∧ L < a + (m + 1) := by omega
              simp only [hr, h6, if_true, and_self, hp1, hLa, if_false]
            · have h6 : ¬ (a ≤ L ∧ L < a + (m + 1)) := by omega
              simp only [hr, h6, if_false, hp1, hLa]
      · intro hnall
        apply ih2
        intro hall
        apply hnall
        intro L ha hb
        by_cases hLa : a = L
        · subst hLa; exact hok
        · have := hall L (by omega) (by omega)
          rw [hp1' L (by omega)] at this
          exact this
    · obtain ⟨e, he⟩ := removeAtLevel_fail ht n a log hL hok
      rw [he]
      constructor
      · intro hall
        exact absurd (hall a (Nat.le_refl _) (by omega)) hok
      · intro _
        exact ⟨e, rfl⟩

theorem removePolynomial_empty {s : Projection UPoly} (p : UPoly) (cid : Nat)
    (h : s.polys 0 = []) : removePolynomial p cid s = .error Fault.undefined := by
  unfold removePolynomial
  unfold Projection.polys at h
  unfold Projection.level
  cases hl : s.levels[0]? with
  | none => rfl
  | some l =>
    rw [hl] at h
    simp only at h
    simp [h]

theorem removePolynomial_mismatch {s : Projection UPoly} (p : UPoly) (cid : Nat)
    (init : List (UPoly × Nat)) (e : UPoly × Nat)
    (h : s.polys 0 = init ++ [e]) (hne : e ≠ (p, cid)) :
    removePolynomial p cid s = .error Fault.assertion := by
  unfold removePolynomial
  unfold Projection.polys at h
  unfold Projection.level
  cases hl : s.levels[0]? with
  | none => rw [hl] at h; simp at h
  | some l =>
    rw [hl] at h
    simp only at h
    simp only [h, List.getLast?_concat]
    by_cases h1 : e.1 = p
    · have h2 : e.2 ≠ cid := by
        intro hc
        apply hne
        rw [← h1, ← hc]
      simp [h1, h2]
    · simp [h1]

theorem removePolynomial_match {s : Projection UPoly} (hs : Good s) (p : UPoly) (cid : Nat)
    (init : List (UPoly × Nat)) (h : s.polys 0 = init ++ [(p, cid)]) :
    removePolynomial p cid s =
      foldE (removeAtLevel init.length) (List.range' 1 (s.dim - 1))
        (s.setLevel 0 (mkLevel init), [(0, {init.length})]) := by
  have hne : s.polys 0 ≠ [] := by rw [h]; simp
  have hrem := removePolynomialLevel_eq hs 0
  rw [if_neg hne, h, List.dropLast_concat] at hrem
  unfold removePolynomial
  unfold Projection.polys at h
  unfold Projection.level
  cases hl : s.levels[0]? with
  | none => rw [hl] at h; simp at h
  | some l =>
    rw [hl] at h
    simp only at h
    simp only [h, List.getLast?_concat, ne_eq, not_true_eq_false, if_false, hrem]
    have hsz : (s.setLevel 0 (mkLevel init)).size 0 = init.length := by
      rw [size_eq_length_polys, polys_setLevel_self s 0 init hne]
    rw [hsz]
    rfl

theorem inv_reset (vars : List Variable) : Inv (reset vars : Projection UPoly) := by
  have hp : ∀ L, (reset vars : Projection UPoly).polys L = [] := by
    intro L
    unfold Projection.polys reset
    simp only [List.getElem?_replicate]
    by_cases h : L < vars.length
    · simp [h, Level.nil]
    · simp [h]
  refine ⟨⟨by simp [reset], ?_⟩, ?_, ?_, ?_⟩
  · intro l hl
    simp only [reset] at hl
    have := List.eq_of_mem_replicate hl
    subst this
    exact ⟨rfl, by simp [Level.nil]⟩
  · rw [size_eq_length_polys, hp]; rfl
  · intro L e he; rw [hp] at he; simp at he
  · intro L; rw [hp]; simp

theorem Inv.bounded {s : Projection UPoly} (hs : Inv s) : Bounded (s.size 0) s :=
  ⟨hs.1, fun L e he => Nat.le_of_lt (hs.2.2.1 L e he)⟩

/-- Effect of an `addPolynomial` call that completes, on a state that satisfies the
invariant: nothing changes, or the polynomial is appended to level 0 with origin `size(0)`
and all other new entries have that origin, too. -/
theorem addPolynomial_spec (K : Kernel UPoly) {s s' : Projection UPoly} {p : UPoly} {cid : Nat}
    (hs : Inv s) (h : addPolynomial K p cid s = .ok s') :
    Bounded (s.size 0) s' ∧ Ext (s.size 0) 0 s s' ∧
      (s' = s ∨ s'.polys 0 = s.polys 0 ++ [(p, s.size 0)]) := by
  unfold addPolynomial at h
  split at h
  · simp at h
  · split at h
    · simp at h
    · unfold addToProjection at h
      obtain ⟨a, b, c⟩ := aux_sound K (s.size 0) _ 0 p cid s s' hs.bounded (fun _ => rfl)
        (fun hc => absurd rfl hc) h
      refine ⟨a, b, ?_⟩
      rcases c with c | c | c
      · exact Or.inl c
      · exact absurd c (Nat.lt_irrefl 0)
      · exact Or.inr c

theorem sorted_le_last {xs : List (UPoly × Nat)} {e : UPoly × Nat}
    (hsorted : (xs.map Prod.snd).Pairwise (· ≤ ·)) (hlast : xs.getLast? = some e) :
    ∀ x ∈ xs, x.2 ≤ e.2 := by
  obtain ⟨ys, rfl⟩ := List.getLast?_eq_some_iff.1 hlast
  rw [List.map_append, List.pairwise_append] at hsorted
  intro x hx
  rcases List.mem_append.1 hx with h | h
  · exact hsorted.2.2 x.2 (List.mem_map_of_mem _ h) e.2 (by simp)
  · simp at h; rw [h]

theorem inv_add (K : Kernel UPoly) {s s' : Projection UPoly} {p : UPoly} {cid : Nat}
    (hs : Inv s) (h : addPolynomial K p cid s = .ok s') : Inv s' := by
  obtain ⟨hb, hext, hc⟩ := addPolynomial_spec K hs h
  rcases hc with hc | hc
  · rw [hc]; exact hs
  · have hsz : s'.size 0 = s.size 0 + 1 := by
      rw [size_eq_length_polys, hc, size_eq_length_polys]; simp
    refine ⟨hb.1, ?_, ?_, ?_⟩
    · rw [hsz, hc, List.map_append, hs.2.1, List.range_succ]; rfl
    · intro L e he
      rw [hsz]
      exact Nat.lt_succ_of_le (hb.2 L e he)
    · intro L
      obtain ⟨ext, h1, h2, _⟩ := hext.2.2 L
      rw [h1, List.map_append, List.pairwise_append]
      refine ⟨hs.2.2.2 L, ?_, ?_⟩
      · rw [List.pairwise_map]
        apply List.Pairwise.imp_of_mem _ (List.pairwise_of_forall (R := fun _ _ => True)
          (fun _ _ => trivial))
        intro a b ha hb' _
        rw [h2 a ha, h2 b hb']
      · intro a ha b hb'
        obtain ⟨x, hx, rfl⟩ := List.mem_map.1 ha
        obtain ⟨y, hy, rfl⟩ := List.mem_map.1 hb'
        rw [h2 y hy]
        exact Nat.le_of_lt (hs.2.2.1 L x hx)

/-- Effect of a `removePolynomial` call that completes, on a state that satisfies the
invariant. -/
theorem removePolynomial_spec {s s' : Projection UPoly} {p : UPoly} {cid : Nat}
    {log : List (Nat × Bitset)} (hs : Inv s) (h : removePolynomial p cid s = .ok (s', log)) :
    ∃ init, s.polys 0 = init ++ [(p, cid)] ∧ cid = init.length ∧ 0 < s.dim ∧
      Good s' ∧ s'.mVars = s.mVars ∧ s'.polys 0 = init ∧
      (∀ L, 1 ≤ L → s'.polys L = strip cid (s.polys L) ∧ LevelOK cid (s.polys L)) ∧
      log = (0, {cid}) :: callbacks cid s 1 (s.dim - 1) := by
  rcases List.eq_nil_or_concat (s.polys 0) with h0 | ⟨init, e, h0⟩
  · rw [removePolynomial_empty p cid h0] at h; simp at h
  rw [List.concat_eq_append] at h0
  by_cases he : e = (p, cid)
  swap
  · rw [removePolynomial_mismatch p cid init e h0 he] at h; simp at h
  subst he
  have hne : s.polys 0 ≠ [] := by rw [h0]; simp
  have hdim : 0 < s.dim := by
    by_contra hc
    exact hne (polys_eq_nil_of_ge hs.1 (Nat.le_of_not_lt hc))
  have hcid : cid = init.length := by
    have := hs.2.1
    rw [size_eq_length_polys, h0, List.map_append, List.length_append, List.length_singleton,
      List.range_succ] at this
    have h2 := List.append_inj_right' this (by simp)
    simpa using h2
  rw [removePolynomial_match hs.1 p cid init h0] at h
  have hlt0 : 0 < s.levels.length := by rw [hs.1.1]; exact hdim
  have hgt : Good (s.setLevel 0 (mkLevel init)) := by
    apply good_setLevel hs.1
    have := nodup_dropLast_keys (hs.1.nodup 0)
    rw [h0, List.dropLast_concat] at this
    exact this
  have hpt : ∀ L, (s.setLevel 0 (mkLevel init)).polys L =
      if 0 = L then init else s.polys L := by
    intro L; rw [polys_setLevel _ _ _ _ hlt0]; rfl
  have hpt' : ∀ L, 1 ≤ L → (s.setLevel 0 (mkLevel init)).polys L = s.polys L := by
    intro L hL
    rw [hpt L]
    have : ¬ 0 = L := by omega
    simp [this]
  obtain ⟨f1, f2⟩ := fold_remove init.length (s.dim - 1) 1 (s.setLevel 0 (mkLevel init))
    [(0, {init.length})] hgt (by show 1 + (s.mVars.length - 1) ≤ s.mVars.length
                                 unfold Projection.dim at hdim; omega)
  by_cases hall : ∀ L, 1 ≤ L → L < 1 + (s.dim - 1) →
      LevelOK init.length ((s.setLevel 0 (mkLevel init)).polys L)
  swap
  · obtain ⟨e, he⟩ := f2 hall
    rw [he] at h; simp at h
  obtain ⟨t', g1, g2, g3, g4⟩ := f1 hall
  rw [g1] at h
  simp only [Except.ok.injEq, Prod.mk.injEq] at h
  obtain ⟨h1, h2⟩ := h
  subst h1
  refine ⟨init, h0, hcid, hdim, g2, g3, ?_, ?_, ?_⟩
  · rw [g4 0]
    have : ¬ (1 ≤ 0 ∧ 0 < 1 + (s.dim - 1)) := by omega
    rw [if_neg this, hpt 0]; rfl
  · intro L hL
    rw [g4 L, hpt' L hL, hcid]
    by_cases hr : L < 1 + (s.dim - 1)
    · have := hall L hL hr
      rw [hpt' L hL] at this
      rw [if_pos ⟨hL, hr⟩]
      exact ⟨rfl, this⟩
    · have hnil : s.polys L = [] := polys_eq_nil_of_ge hs.1 (by omega)
      have : ¬ (1 ≤ L ∧ L < 1 + (s.dim - 1)) := by omega
      rw [if_neg this, hnil]
      exact ⟨rfl, Or.inl rfl⟩
  · rw [← h2, callbacks_congr _ s _ 1 _ hpt', hcid]; rfl

theorem inv_remove {s s' : Projection UPoly} {p : UPoly} {cid : Nat}
    {log : List (Nat × Bitset)} (hs : Inv s) (h : removePolynomial p cid s = .ok (s', log)) :
    Inv s' := by
  obtain ⟨init, h0, hcid, hdim, hg, hv, hp0, hL, _⟩ := removePolynomial_spec hs h
  have hsz : s'.size 0 = cid := by rw [size_eq_length_polys, hp0, hcid]
  have hsz0 : s.size 0 = cid + 1 := by rw [size_eq_length_polys, h0, hcid]; simp
  have hsnd : init.map Prod.snd = List.range cid := by
    have := hs.2.1
    rw [hsz0, h0, List.map_append, List.range_succ] at this
    exact List.append_inj_left' this (by simp)
  refine ⟨hg, ?_, ?_, ?_⟩
  · rw [hsz, hp0, hsnd]
  · intro L e he
    rw [hsz]
    by_cases hL0 : L = 0
    · subst hL0
      rw [hp0] at he
      have : e.2 ∈ init.map Prod.snd := List.mem_map_of_mem _ he
      rw [hsnd] at this
      exact List.mem_range.1 this
    · obtain ⟨h1, h2⟩ := hL L (by omega)
      rw [h1] at he
      rcases h2 with h2 | ⟨x, hx, hlt⟩
      · rw [h2] at he; simp [strip] at he
      · have hsorted : ((strip cid (s.polys L)).map Prod.snd).Pairwise (· ≤ ·) :=
          (hs.2.2.2 L).sublist ((strip_sublist cid _).map _)
        exact Nat.lt_of_le_of_lt (sorted_le_last hsorted hx e he) hlt
  · intro L
    by_cases hL0 : L = 0
    · subst hL0
      rw [hp0, hsnd]
      exact (List.pairwise_lt_range cid).imp (fun h => Nat.le_of_lt h)
    · rw [(hL L (by omega)).1]
      exact (hs.2.2.2 L).sublist ((strip_sublist cid _).map _)

/-- Every reachable state satisfies the invariant. -/
theorem Reachable.inv {K : Kernel UPoly} {s : Projection UPoly} (h : Reachable K s) :
    Inv s := by
  induction h with
  | reset vars => exact inv_reset vars
  | add p cid _ hadd ih => exact inv_add K ih hadd
  | remove p cid log _ hrem ih => exact inv_remove ih hrem
theorem foldE_total {σ α : Type} (f : σ → α → Except Fault σ) (Pre : σ → Prop) (l : List α)
    (hstep : ∀ a ∈ l, ∀ s, Pre s → ∃ s', f s a = .ok s' ∧ Pre s') :
    ∀ s, Pre s → ∃ s', foldE f l s = .ok s' ∧ Pre s' := by
  induction l with
  | nil => intro s hs; exact ⟨s, rfl, hs⟩
  | cons a rest ih =>
    intro s hs
    obtain ⟨t, h1, h2⟩ := hstep a (List.mem_cons_self _ _) s hs
    obtain ⟨u, h3, h4⟩ := ih (fun b hb => hstep b (List.mem_cons_of_mem _ hb)) t h2
    exact ⟨u, by simp only [foldE, h1, h3], h4⟩

theorem mem_handedOn_fst {K : Kernel UPoly} {v : Variable} {p : UPoly} {origin : Nat}
    {stored : List (UPoly × Nat)} {c : UPoly × Nat} (hc : c ∈ handedOn K v p origin stored) :
    c.1 ∈ K.projectUnary p v ∨ ∃ it ∈ stored, c.1 ∈ K.projectBinary p it.1 v := by
  unfold handedOn at hc
  rcases List.mem_append.1 hc with h | h
  · left
    obtain ⟨np, hnp, rfl⟩ := List.mem_map.1 h
    exact hnp
  · right
    obtain ⟨xs, hxs, hcx⟩ := List.mem_flatten.1 h
    obtain ⟨it, hit, rfl⟩ := List.mem_map.1 hxs
    obtain ⟨np, hnp, rfl⟩ := List.mem_map.1 hcx
    exact ⟨it, hit, hnp⟩

/-- The body of `addToProjectionAux` for a polynomial that is neither purged nor forwarded
and is already stored at the level. -/
theorem aux_stored_eq (K : Kernel UPoly) (k level : Nat) (p : UPoly) (o : Nat)
    (s : Projection UPoly) (l : Level UPoly) (id : Nat)
    (hp : canBePurged K p = false)
    (hf : ¬ (0 < level ∧ level < s.dim - 1 ∧ canBeForwarded K level p = true))
    (hd : level < s.dim) (hv : K.mainVar p = s.var level)
    (hl : s.levels[level]? = some l) (hn : mapFind l.mPolynomialIDs p = some id) :
    addToProjectionAux K (k + 1) level p o s =
      if 0 < level then
        match l.mPolynomials[id]? with
        | none => .error Fault.undefined
        | some e => if e.2 ≤ o then .ok s else .error Fault.assertion
      else .ok s := by
  have hl' := (level_ok_iff s level l).2 hl
  simp only [addToProjectionAux, hp, hf, hd, hv, hl', hn]
  simp

/-- With a disciplined operator `addToProjectionAux` completes on every well-formed state
whose origins are bounded by the origin passed along. -/
theorem aux_total (K : Kernel UPoly) (hK : Disciplined K) (n : Nat) :
    ∀ (k level : Nat) (p : UPoly) (o : Nat) (s : Projection UPoly),
      Bounded n s → (level = 0 → n = s.size 0) → (level ≠ 0 → o = n) →
      level < s.dim → s.dim - level ≤ k →
      (canBePurged K p = true ∨ K.mainVar p = s.var level) →
      ∃ s', addToProjectionAux K k level p o s = .ok s' := by
  intro k
  induction k with
  | zero => intro level p o s _ _ _ hd hk _; omega
  | succ k ih =>
    intro level p o s hs h0 h1 hd hk hmv
    by_cases hp : canBePurged K p = true
    · exact ⟨s, by simp [addToProjectionAux, hp]⟩
    have hv : K.mainVar p = s.var level := by
      rcases hmv with h | h
      · exact absurd h hp
      · exact h
    by_cases hf : 0 < level ∧ level < s.dim - 1 ∧ canBeForwarded K level p = true
    · have hne : level ≠ 0 := by omega
      obtain ⟨s', hs'⟩ := ih (level + 1) (K.switchVariable p (s.var (level + 1))) o s hs
        (by simp) (fun _ => h1 hne) (by omega) (by omega) (hK.2.2 _ _)
      exact ⟨s', by simp [addToProjectionAux, hp, hf, hs']⟩
    have hl := hs.1.get_of_lt hd
    cases hfind : mapFind (mkLevel (s.polys level)).mPolynomialIDs p with
    | some id =>
      have hl' := (level_ok_iff s level _).2 hl
      by_cases hz : 0 < level
      · obtain ⟨_, e, he1, _⟩ := mapFind_idsFrom_some 0 (s.polys level) p id hfind
        have hmem : e ∈ s.polys level := List.mem_iff_getElem?.2 ⟨id, he1⟩
        have hle : e.2 ≤ o := by
          rw [h1 (by omega)]
          exact hs.2 level e hmem
        refine ⟨s, ?_⟩
        simp only [Nat.sub_zero] at he1
        rw [aux_stored_eq K k level p o s _ id (by simpa using hp) hf hd hv hl hfind, if_pos hz,
          mkLevel_polys, he1]
        simp only [hle, if_true]
      · exact ⟨s, by rw [aux_stored_eq K k level p o s _ id (by simpa using hp) hf hd hv hl
          hfind, if_neg hz]⟩
    | none =>
      have hp' : canBePurged K p = false := by simpa using hp
      rw [aux_new_eq K k level p o s _ hp' hf hd hv hl hfind]
      have hn' : (if level = 0 then (mkLevel (s.polys level)).mPolynomials.length else o)
          = n := by
        by_cases hz : level = 0
        · simp only [hz, if_true, mkLevel]
          rw [h0 hz, size_eq_length_polys]
        · simp only [hz, if_false]
          exact h1 hz
      rw [hn']
      have hfold : ∃ s2, (if level < s.dim - 1 then
            foldE (fun st c => addToProjectionAux K k (level + 1) c.1 c.2 st)
              (handedOn K (s.var (level + 1)) p n (mkLevel (s.polys level)).mPolynomials) s
          else .ok s) = .ok s2 ∧ (Bounded n s2 ∧ s2.mVars = s.mVars) := by
        by_cases hlt : level < s.dim - 1
        · rw [if_pos hlt]
          apply foldE_total _ (fun st => Bounded n st ∧ st.mVars = s.mVars) _ _ s ⟨hs, rfl⟩
          intro c hc st hst
          have hc2 : c.2 = n := by
            rcases mem_handedOn hc with h' | ⟨it, hit, h'⟩
            · exact h'
            · rw [h']
              exact Nat.max_eq_left (hs.2 level it hit)
          have hdim : st.dim = s.dim := by unfold Projection.dim; rw [hst.2]
          have hvar : st.var (level + 1) = s.var (level + 1) := by
            unfold Projection.var; rw [hst.2]
          have hc1 : canBePurged K c.1 = true ∨ K.mainVar c.1 = st.var (level + 1) := by
            rw [hvar]
            rcases mem_handedOn_fst hc with h' | ⟨it, _, h'⟩
            · exact hK.1 _ _ _ h'
            · exact hK.2.1 _ _ _ _ h'
          obtain ⟨st', hst'⟩ := ih (level + 1) c.1 c.2 st hst.1 (by simp) (fun _ => hc2)
            (by rw [hdim]; omega) (by rw [hdim]; omega) hc1
          obtain ⟨a, b, _⟩ := aux_sound K n k (level + 1) c.1 c.2 st st' hst.1 (by simp)
            (fun _ => hc2) hst'
          exact ⟨st', hst', a, b.1.trans hst.2⟩
        · rw [if_neg hlt]
          exact ⟨s, rfl, hs, rfl⟩
      obtain ⟨s2, h2, hb2, hv2⟩ := hfold
      rw [h2]
      simp only
      have hd2 : level < s2.dim := by unfold Projection.dim; rw [hv2]; exact hd
      have hl2 := (level_ok_iff s2 level _).2 (hb2.1.get_of_lt hd2)
      unfold insertPolynomial
      rw [hl2]
      exact ⟨_, rfl⟩
theorem strip_append_all (n : Nat) (base ext : List (UPoly × Nat))
    (hext : ∀ e ∈ ext, e.2 = n) (hbase : ∀ e ∈ base, e.2 ≠ n) :
    strip n (base ++ ext) = base := by
  induction ext using List.reverseRecOn with
  | nil =>
    rw [List.append_nil]
    rcases List.eq_nil_or_concat base with h | ⟨init, e, h⟩
    · subst h; rfl
    · rw [List.concat_eq_append] at h
      subst h
      rw [strip_concat, if_neg (hbase e (by simp))]
  | append_singleton xs e ih =>
    rw [← List.append_assoc, strip_concat, if_pos (hext e (by simp))]
    exact ih (fun x hx => hext x (List.mem_append_left _ hx))

/-- Effect of an `addPolynomial` call that completes for a polynomial that is neither
purgeable nor stored at level 0. -/
theorem addPolynomial_new_spec (K : Kernel UPoly) {s s' : Projection UPoly} {p : UPoly}
    {cid : Nat} (hs : Inv s) (hp : canBePurged K p = false)
    (hnew : p ∉ (s.polys 0).map Prod.fst) (h : addPolynomial K p cid s = .ok s') :
    Bounded (s.size 0) s' ∧ Ext (s.size 0) 0 s s' ∧
      s'.polys 0 = s.polys 0 ++ [(p, s.size 0)] := by
  unfold addPolynomial at h
  split at h
  · simp at h
  · rename_i v0 hv0
    split at h
    · simp at h
    · unfold addToProjection at h
      have hd : 0 < s.dim := by
        unfold Projection.dim
        rcases List.getElem?_eq_some.1 hv0 with ⟨h1, _⟩
        exact h1
      obtain ⟨k, hk⟩ : ∃ k, s.dim - 0 = k + 1 := ⟨s.dim - 1, by omega⟩
      rw [hk] at h
      obtain ⟨a, b, c, _⟩ := aux_new_case K (s.size 0) k (aux_sound K (s.size 0) k) 0 p cid s s'
        hs.bounded (fun _ => rfl) (fun hc => absurd rfl hc) hp (by omega) hnew h
      exact ⟨a, b, c⟩

/-- Adding a new polynomial with `cid = size(0)` and removing it again restores the state,
provided no level `>= 1` that was empty before received an entry. -/
theorem roundtrip_state (K : Kernel UPoly) {s s' : Projection UPoly} {p : UPoly}
    (hs : Inv s) (hp : canBePurged K p = false) (hnew : p ∉ (s.polys 0).map Prod.fst)
    (hadd : addPolynomial K p (s.size 0) s = .ok s')
    (hne : ∀ L, 1 ≤ L → s.size L = 0 → s'.size L = 0) :
    ∃ log, removePolynomial p (s.size 0) s' = .ok (s, log) := by
  obtain ⟨hb, hext, h0⟩ := addPolynomial_new_spec K hs hp hnew hadd
  have hn : (s.polys 0).length = s.size 0 := (size_eq_length_polys s 0).symm
  have h0' : s'.polys 0 = s.polys 0 ++ [(p, (s.polys 0).length)] := by rw [hn]; exact h0
  have hmatch := removePolynomial_match hb.1 p (s.polys 0).length (s.polys 0) h0'
  rw [hn] at hmatch
  rw [hmatch]
  have hne0 : s'.polys 0 ≠ [] := by rw [h0]; simp
  have hdim' : 0 < s'.dim := by
    by_contra hc
    exact hne0 (polys_eq_nil_of_ge hb.1 (Nat.le_of_not_lt hc))
  have hlt0 : 0 < s'.levels.length := by rw [hb.1.1]; exact hdim'
  have hgt : Good (s'.setLevel 0 (mkLevel (s.polys 0))) :=
    good_setLevel hb.1 0 _ (hs.1.nodup 0)
  have hpt : ∀ L, (s'.setLevel 0 (mkLevel (s.polys 0))).polys L =
      if 0 = L then s.polys 0 else s'.polys L := by
    intro L; rw [polys_setLevel _ _ _ _ hlt0]; rfl
  have hpt' : ∀ L, 1 ≤ L → (s'.setLevel 0 (mkLevel (s.polys 0))).polys L = s'.polys L := by
    intro L hL
    rw [hpt L]
    have : ¬ 0 = L := by omega
    simp [this]
  have hstrip : ∀ L, 1 ≤ L → strip (s.size 0) (s'.polys L) = s.polys L := by
    intro L _
    obtain ⟨ext, h1, h2, _⟩ := hext.2.2 L
    rw [h1]
    exact strip_append_all _ _ _ h2 (fun e he => Nat.ne_of_lt (hs.2.2.1 L e he))
  obtain ⟨f1, _⟩ := fold_remove (s.size 0) (s'.dim - 1) 1 (s'.setLevel 0 (mkLevel (s.polys 0)))
    [(0, {s.size 0})] hgt (by show 1 + (s'.mVars.length - 1) ≤ s'.mVars.length
                              unfold Projection.dim at hdim'; omega)
  obtain ⟨t', g1, g2, g3, g4⟩ := f1 (by
    intro L hL _
    rw [hpt' L hL]
    by_cases hemp : s.polys L = []
    · left
      have h1 : s.size L = 0 := by rw [size_eq_length_polys, hemp]; rfl
      have h2 := hne L hL h1
      rw [size_eq_length_polys] at h2
      exact List.length_eq_zero.1 h2
    · right
      rw [hstrip L hL]
      obtain ⟨e, he⟩ : ∃ e, (s.polys L).getLast? = some e := by
        cases hl : (s.polys L).getLast? with
        | none => exact absurd (List.getLast?_eq_none_iff.1 hl) hemp
        | some e => exact ⟨e, rfl⟩
      refine ⟨e, he, hs.2.2.1 L e ?_⟩
      obtain ⟨ys, hys⟩ := List.getLast?_eq_some_iff.1 he
      rw [hys]; simp)
  have hts : t' = s := by
    apply g2.ext hs.1 (g3.trans hext.1)
    intro L
    rw [g4 L]
    by_cases hL0 : L = 0
    · subst hL0
      have : ¬ (1 ≤ 0 ∧ 0 < 1 + (s'.dim - 1)) := by omega
      rw [if_neg this, hpt 0]; rfl
    · by_cases hr : L < 1 + (s'.dim - 1)
      · rw [if_pos ⟨by omega, hr⟩, hpt' L (by omega), hstrip L (by omega)]
      · have : ¬ (1 ≤ L ∧ L < 1 + (s'.dim - 1)) := by omega
        rw [if_neg this, hpt' L (by omega)]
        rw [polys_eq_nil_of_ge hb.1 (by omega)]
        have hd : s.dim = s'.dim := hext.dim.symm
        rw [polys_eq_nil_of_ge hs.1 (by omega)]
  rw [hts] at g1
  exact ⟨_, g1⟩

/-- With a disciplined operator `addPolynomial` completes on every state that satisfies the
invariant, for every polynomial whose main variable is the variable of level 0. -/
theorem addPolynomial_total (K : Kernel UPoly) (hK : Disciplined K) {s : Projection UPoly}
    (hs : Inv s) (p : UPoly) (cid : Nat) (hv : s.mVars[0]? = some (K.mainVar p)) :
    ∃ s', addPolynomial K p cid s = .ok s' := by
  unfold addPolynomial
  rw [hv]
  simp only [ne_eq, not_true_eq_false, if_false]
  unfold addToProjection
  have hd : 0 < s.dim := by
    unfold Projection.dim
    rcases List.getElem?_eq_some.1 hv with ⟨h1, _⟩
    exact h1
  apply aux_total K hK (s.size 0) _ 0 p cid s hs.bounded (fun _ => rfl)
    (fun hc => absurd rfl hc) hd (Nat.le_refl _)
  right
  unfold Projection.var
  rcases List.getElem?_eq_some.1 hv with ⟨h1, h2⟩
  rw [List.getD_eq_getElem?_getD, hv]
  rfl
theorem runLoop_done {P T It : Type} (body : World P T It UPoly → Pass P T It UPoly)
    (Q : Except Fault Answer → World P T It UPoly → Prop)
    (hbody : ∀ w r w', body w = .done r w' → Q r w') :
    ∀ (fuel : Nat) (w : World P T It UPoly) r w',
      runLoop body fuel w = some (r, w') → Q r w' := by
  intro fuel
  induction fuel with
  | zero => intro w r w' h; simp [runLoop] at h
  | succ n ih =>
    intro w r w' h
    simp only [runLoop] at h
    cases hb : body w with
    | done res w1 =>
      rw [hb] at h
      simp only [Option.some.injEq, Prod.mk.injEq] at h
      obtain ⟨h1, h2⟩ := h
      subst h1; subst h2
      exact hbody w _ _ hb
    | next w1 =>
      rw [hb] at h
      exact ih w1 r w' h

theorem fetchStep_done {P T It : Type} (ops : CADOps P T It UPoly) (w : World P T It UPoly)
    (r : Except Fault Answer) (w' : World P T It UPoly)
    (h : fetchStep ops w = .inl (.done r w')) : r = .error Fault.assertion := by
  unfold fetchStep at h
  simp only at h
  split at h
  · simp only [Sum.inl.injEq, Pass.done.injEq] at h
    exact h.1.symm
  · split at h <;> simp at h

/-- The last entry of the history after a call was recorded. -/
theorem getLast_record {P T It : Type} (w : World P T It UPoly) (c : Call It UPoly) (p : P)
    (t : T) : (w.record c p t).history.getLast? = some ⟨w.proj, w.tree, c⟩ := by
  simp [World.record]

/-- The three ways in which a pass through a loop body of `CADCore.h` ends the loop. -/
theorem bySampleBody_done {P T It : Type} (ops : CADOps P T It UPoly)
    (w : World P T It UPoly) (r : Except Fault Answer) (w' : World P T It UPoly)
    (h : bySampleBody ops w = .done r w') :
    (r = .ok Answer.SAT ∧ ∃ w1 : World P T It UPoly,
      (ops.checkFullSamples w1.proj w1.tree).1 = Answer.SAT ∧
      w' = w1.record (.checkFullSamples Answer.SAT) w1.proj
        (ops.checkFullSamples w1.proj w1.tree).2)
    ∨ (r = .ok Answer.UNSAT ∧ ∃ w1 : World P T It UPoly, ops.hasNextSample w1.tree = false ∧
      w' = w1.record (.hasNextSample false) w1.proj w1.tree)
    ∨ r = .error Fault.assertion := by
  unfold bySampleBody at h
  simp only at h
  split at h
  · rename_i hsat
    simp only [Pass.done.injEq] at h
    left
    refine ⟨h.1.symm, w, hsat, ?_⟩
    rw [← h.2]
    simp only [checkStep] at hsat ⊢
    rw [hsat]
  · split at h
    · rename_i hb
      simp only [Pass.done.injEq] at h
      right; left
      simp only [Bool.not_eq_true] at hb
      refine ⟨h.1.symm, (checkStep ops w).2, hb, ?_⟩
      rw [← h.2, hb]
    · split at h
      · rename_i pass hpass
        subst h
        right; right
        exact fetchStep_done ops _ _ _ hpass
      · split at h
        · simp at h
        · split at h <;> (try split at h) <;> simp at h

theorem preferProjectionBody_done {P T It : Type} (ops : CADOps P T It UPoly)
    (w : World P T It UPoly) (r : Except Fault Answer) (w' : World P T It UPoly)
    (h : preferProjectionBody ops w = .done r w') :
    (r = .ok Answer.SAT ∧ ∃ w1 : World P T It UPoly,
      (ops.checkFullSamples w1.proj w1.tree).1 = Answer.SAT ∧
      w' = w1.record (.checkFullSamples Answer.SAT) w1.proj
        (ops.checkFullSamples w1.proj w1.tree).2)
    ∨ (r = .ok Answer.UNSAT ∧ ∃ w1 : World P T It UPoly, ops.hasNextSample w1.tree = false ∧
      w' = w1.record (.hasNextSample false) w1.proj w1.tree)
    ∨ r = .error Fault.assertion := by
  unfold preferProjectionBody at h
  simp only at h
  split at h
  · rename_i hsat
    simp only [Pass.done.injEq] at h
    left
    refine ⟨h.1.symm, w, hsat, ?_⟩
    rw [← h.2]
    simp only [checkStep] at hsat ⊢
    rw [hsat]
  · split at h
    · rename_i hb
      simp only [Pass.done.injEq] at h
      right; left
      simp only [Bool.not_eq_true] at hb
      refine ⟨h.1.symm, (checkStep ops w).2, hb, ?_⟩
      rw [← h.2, hb]
    · split at h
      · rename_i pass hpass
        subst h
        right; right
        exact fetchStep_done ops _ _ _ hpass
      · split at h
        · simp at h
        · split at h
          · simp at h
          · split at h
            · split at h <;> simp at h
            · simp at h

theorem samplingCond_false {P T It : Type} (ops : CADOps P T It UPoly)
    (w : World P T It UPoly) (h : (samplingCond ops w).1 = false) :
    ops.hasNextSample w.tree = false ∧ ops.hasFullSamples w.tree = false ∧
      (samplingCond ops w).2 = (w.record (.hasNextSample false) w.proj w.tree).record
          (.hasFullSamples false) w.proj w.tree := by
  unfold samplingCond at h ⊢
  simp only at h ⊢
  by_cases hb : ops.hasNextSample w.tree = true
  · rw [if_pos hb] at h; simp at h
  · rw [if_neg hb] at h ⊢
    simp only [Bool.not_eq_true] at hb
    simp only [World.record] at h
    refine ⟨hb, h, ?_⟩
    simp only [World.record, hb, h]

theorem preferSamplingBody_done {P T It : Type} (ops : CADOps P T It UPoly)
    (w : World P T It UPoly) (r : Except Fault Answer) (w' : World P T It UPoly)
    (h : preferSamplingBody ops w = .done r w') :
    (r = .ok Answer.SAT ∧ ∃ w1 : World P T It UPoly,
      (ops.checkFullSamples w1.proj w1.tree).1 = Answer.SAT ∧
      w' = w1.record (.checkFullSamples Answer.SAT) w1.proj
        (ops.checkFullSamples w1.proj w1.tree).2)
    ∨ (r = .ok Answer.UNSAT ∧ ops.hasNextSample w.tree = false ∧
      ops.hasFullSamples w.tree = false ∧ (ops.projectNewPolynomial w.proj).1 = ∅ ∧
      w' = ((w.record (.hasNextSample false) w.proj w.tree).record
          (.hasFullSamples false) w.proj w.tree).record
          (.projectNewPolynomial ∅) (ops.projectNewPolynomial w.proj).2 w.tree)
    ∨ r = .error Fault.assertion := by
  unfold preferSamplingBody at h
  simp only at h
  by_cases hc : (samplingCond ops w).1 = true
  · rw [if_pos hc] at h
    by_cases hsat : (checkStep ops (samplingCond ops w).2).1 = Answer.SAT
    · rw [if_pos hsat] at h
      simp only [Pass.done.injEq] at h
      left
      refine ⟨h.1.symm, (samplingCond ops w).2, hsat, ?_⟩
      rw [← h.2]
      simp only [checkStep] at hsat ⊢
      rw [hsat]
    · rw [if_neg hsat] at h
      split at h
      · rename_i pass hpass
        subst h
        right; right
        exact fetchStep_done ops _ _ _ hpass
      · split at h
        · simp at h
        · split at h <;> simp at h
  · rw [if_neg hc] at h
    simp only [Bool.not_eq_true] at hc
    obtain ⟨hb, hf, hw⟩ := samplingCond_false ops w hc
    rw [hw] at h
    have hproj : ((w.record (Call.hasNextSample false) w.proj w.tree).record
        (Call.hasFullSamples false) w.proj w.tree).proj = w.proj := rfl
    have htree : ((w.record (Call.hasNextSample false) w.proj w.tree).record
        (Call.hasFullSamples false) w.proj w.tree).tree = w.tree := rfl
    rw [hproj, htree] at h
    by_cases hr : (ops.projectNewPolynomial w.proj).1 = ∅
    · rw [if_pos hr] at h
      simp only [Pass.done.injEq] at h
      right; left
      refine ⟨h.1.symm, hb, hf, hr, ?_⟩
      rw [← h.2, hr]
    · rw [if_neg hr] at h
      simp at h

theorem mapFind_idsFrom_of_get (n : Nat) (xs : List (UPoly × Nat))
    (hnd : (xs.map Prod.fst).Nodup) (i : Nat) (e : UPoly × Nat) (h : xs[i]? = some e) :
    mapFind (idsFrom n xs) e.1 = some (n + i) := by
  induction xs generalizing n i with
  | nil => simp at h
  | cons x rest ih =>
    simp only [List.map_cons, List.nodup_cons] at hnd
    cases i with
    | zero =>
      simp only [List.getElem?_cons_zero, Option.some.injEq] at h
      subst h
      simp [idsFrom, mapFind]
    | succ j =>
      simp only [List.getElem?_cons_succ] at h
      have hmem : e.1 ∈ rest.map Prod.fst :=
        List.mem_map_of_mem _ (List.mem_iff_getElem?.2 ⟨j, h⟩)
      have hne : ¬ x.1 = e.1 := fun hc => hnd.1 (hc ▸ hmem)
      simp only [idsFrom, mapFind, hne, if_false]
      rw [ih (n + 1) hnd.2 j h]
      congr 1
      omega

/-- The worked examples are states of the model. -/
theorem exCircle_add :
    addPolynomial tK ((TName.circle, 0) : TPoly) 0 (reset [0, 1]) = .ok exCircle := rfl

theorem exCircleLine_add :
    addPolynomial tK ((TName.line, 0) : TPoly) 1 exCircle = .ok exCircleLine := rfl

theorem exX_add : addPolynomial tK ((TName.xvar, 0) : TPoly) 0 (reset [0, 1]) = .ok exX := rfl

theorem exOne_add : addPolynomial tK ((TName.xsq, 0) : TPoly) 5 (reset [0]) = .ok exOne := rfl

theorem exCircle_reachable : Reachable tK exCircle :=
  Reachable.add _ _ (Reachable.reset [0, 1]) exCircle_add

theorem exCircleLine_reachable : Reachable tK exCircleLine :=
  Reachable.add _ _ exCircle_reachable exCircleLine_add

theorem exX_reachable : Reachable tK exX :=
  Reachable.add _ _ (Reachable.reset [0, 1]) exX_add

theorem tK_disciplined : Disciplined tK := by
  refine ⟨?_, ?_, ?_⟩
  · intro p v np h
    obtain ⟨nm, w⟩ := p
    cases nm <;> simp [tK] at h
    · rcases h with h | h <;> subst h <;> simp [canBePurged, tK]
    · rcases h with h | h <;> subst h <;> simp [canBePurged, tK]
    · subst h; simp [canBePurged, tK]
  · intro p q v np h
    obtain ⟨nm, w⟩ := p
    obtain ⟨nm', w'⟩ := q
    cases nm <;> cases nm' <;> simp [tK] at h <;> simp [h, tK]
  · intro p v
    right
    rfl

/-- A loop whose body returns `SAT` only directly after a `checkFullSamples` call that
returned `SAT` ends, when it returns `SAT`, with that call. -/
theorem sat_exit {P T It : Type} (ops : CADOps P T It UPoly)
    (body : World P T It UPoly → Pass P T It UPoly)
    (hbody : ∀ w0 r w', body w0 = .done r w' →
      (r = .ok Answer.SAT ∧ ∃ w1 : World P T It UPoly,
        (ops.checkFullSamples w1.proj w1.tree).1 = Answer.SAT ∧
        w' = w1.record (.checkFullSamples Answer.SAT) w1.proj
          (ops.checkFullSamples w1.proj w1.tree).2) ∨ r ≠ .ok Answer.SAT)
    (fuel : Nat) (w0 w : World P T It UPoly)
    (h : runLoop body fuel w0 = some (.ok Answer.SAT, w)) :
    ∃ st, w.history.getLast? = some st ∧ st.call = Call.checkFullSamples Answer.SAT ∧
      ops.checkFullSamples st.proj st.tree = (Answer.SAT, w.tree) ∧ w.proj = st.proj := by
  have hQ := runLoop_done body
    (fun r w' => r = .ok Answer.SAT →
      ∃ st, w'.history.getLast? = some st ∧ st.call = Call.checkFullSamples Answer.SAT ∧
        ops.checkFullSamples st.proj st.tree = (Answer.SAT, w'.tree) ∧ w'.proj = st.proj)
    (by
      intro w1 r w' hb hr
      rcases hbody w1 r w' hb with ⟨_, w2, h1, h2⟩ | h1
      · refine ⟨⟨w2.proj, w2.tree, .checkFullSamples Answer.SAT⟩, ?_, rfl, ?_, ?_⟩
        · rw [h2]; exact getLast_record _ _ _ _
        · rw [h2]
          exact Prod.ext h1 rfl
        · rw [h2]; rfl
      · exact absurd hr h1)
    fuel w0 _ w h
  exact hQ rfl

/-- A loop whose body returns `UNSAT` only in worlds with the property `Q` ends, when it
returns `UNSAT`, in such a world. -/
theorem unsat_exit {P T It : Type} (body : World P T It UPoly → Pass P T It UPoly)
    (Q : World P T It UPoly → Prop)
    (hbody : ∀ w0 r w', body w0 = .done r w' → r = .ok Answer.UNSAT → Q w')
    (fuel : Nat) (w0 w : World P T It UPoly)
    (h : runLoop body fuel w0 = some (.ok Answer.UNSAT, w)) : Q w :=
  runLoop_done body (fun r w' => r = .ok Answer.UNSAT → Q w') hbody fuel w0 _ w h rfl

theorem mem_handedOn_iff (K : Kernel UPoly) (v : Variable) (p : UPoly) (origin : Nat)
    (stored : List (UPoly × Nat)) (c : UPoly × Nat) :
    c ∈ handedOn K v p origin stored ↔
      (c.1 ∈ K.projectUnary p v ∧ c.2 = origin) ∨
      ∃ q oq, (q, oq) ∈ stored ∧ c.1 ∈ K.projectBinary p q v ∧ c.2 = max origin oq := by
  unfold handedOn
  rw [List.mem_append]
  constructor
  · rintro (h | h)
    · left
      obtain ⟨np, hnp, rfl⟩ := List.mem_map.1 h
      exact ⟨hnp, rfl⟩
    · right
      obtain ⟨xs, hxs, hcx⟩ := List.mem_flatten.1 h
      obtain ⟨it, hit, rfl⟩ := List.mem_map.1 hxs
      obtain ⟨np, hnp, rfl⟩ := List.mem_map.1 hcx
      exact ⟨it.1, it.2, hit, hnp, rfl⟩
  · rintro (⟨h1, h2⟩ | ⟨q, oq, h1, h2, h3⟩)
    · left
      exact List.mem_map.2 ⟨c.1, h1, Prod.ext rfl h2.symm⟩
    · right
      apply List.mem_flatten.2
      refine ⟨_, List.mem_map.2 ⟨(q, oq), h1, rfl⟩, ?_⟩
      exact List.mem_map.2 ⟨c.1, h2, Prod.ext rfl h3.symm⟩

theorem exOne_reachable : Reachable tK exOne :=
  Reachable.add _ _ (Reachable.reset [0]) exOne_add

/-! ## Lemmas for the events of `addToProjection` -/

theorem foldTr_fst {σ α ε : Type} (f : σ → List ε → α → Except Fault σ × List ε)
    (g : σ → α → Except Fault σ) (l : List α)
    (h : ∀ a ∈ l, ∀ s log, (f s log a).1 = g s a) :
    ∀ s log, (foldTr f l s log).1 = foldE g l s := by
  induction l with
  | nil => intro s log; rfl
  | cons a rest ih =>
    intro s log
    have ha := h a (List.mem_cons_self _ _) s log
    simp only [foldTr, foldE]
    rcases hf : f s log a with ⟨r, lg⟩
    rw [hf] at ha
    simp only at ha
    rw [← ha]
    cases r with
    | error e => rfl
    | ok s' => exact ih (fun b hb => h b (List.mem_cons_of_mem _ hb)) s' lg

/-- The state computed by `addToProjectionTr` is the one computed by `addToProjectionAux`. -/
theorem addToProjectionTr_fst (K : Kernel UPoly) :
    ∀ (k level : Nat) (p : UPoly) (o : Nat) (s : Projection UPoly)
      (log : List (ProjEvent UPoly)),
      (addToProjectionTr K k level p o s log).1 = addToProjectionAux K k level p o s := by
  intro k
  induction k with
  | zero =>
    intro level p o s log
    simp only [addToProjectionTr, addToProjectionAux]
    split <;> rfl
  | succ k ih =>
    intro level p o s log
    simp only [addToProjectionTr, addToProjectionAux]
    split
    · rfl
    split
    · exact ih _ _ _ _ _
    split
    · rfl
    split
    · rfl
    split
    · rfl
    rename_i l hl
    split
    · split
      · split
        · rfl
        · split <;> rfl
      · rfl
    · generalize (if level = 0 then l.mPolynomials.length else o) = o'
      have hu : ∀ lg, (foldTr (fun st lg np => addToProjectionTr K k (level + 1) np o' st lg)
          (K.projectUnary p (s.var (level + 1))) s lg).1 =
          foldE (fun st np => addToProjectionAux K k (level + 1) np o' st)
            (K.projectUnary p (s.var (level + 1))) s :=
        fun lg => foldTr_fst
          (fun st lg np => addToProjectionTr K k (level + 1) np o' st lg)
          (fun st np => addToProjectionAux K k (level + 1) np o' st) _
          (fun a _ st lg' => ih (level + 1) a o' st lg') s lg
      have hb : ∀ s1 lg, (foldTr (fun st lg' it =>
            foldTr (fun st' lg'' np =>
                addToProjectionTr K k (level + 1) np (max o' it.2) st' lg'')
              (K.projectBinary p it.1 (s.var (level + 1))) st
              (lg' ++ [.binary level p it.1]))
          l.mPolynomials s1 lg).1 =
          foldE (fun st it =>
            foldE (fun st' np => addToProjectionAux K k (level + 1) np (max o' it.2) st')
              (K.projectBinary p it.1 (s.var (level + 1))) st) l.mPolynomials s1 :=
        fun s1 lg => foldTr_fst
          (fun st lg' (it : UPoly × Nat) =>
            foldTr (fun st' lg'' np =>
                addToProjectionTr K k (level + 1) np (max o' it.2) st' lg'')
              (K.projectBinary p it.1 (s.var (level + 1))) st
              (lg' ++ [.binary level p it.1]))
          (fun st (it : UPoly × Nat) =>
            foldE (fun st' np => addToProjectionAux K k (level + 1) np (max o' it.2) st')
              (K.projectBinary p it.1 (s.var (level + 1))) st) _
          (fun (it : UPoly × Nat) _ st lg' => foldTr_fst
            (fun st' lg'' np => addToProjectionTr K k (level + 1) np (max o' it.2) st' lg'')
            (fun st' np => addToProjectionAux K k (level + 1) np (max o' it.2) st') _
            (fun a _ st' lg'' => ih (level + 1) a (max o' it.2) st' lg'') st _) s1 lg
      have hins : ∀ (r : Except Fault (Projection UPoly) × List (ProjEvent UPoly)),
          (match r with
            | (Except.error e, lg) => ((Except.error e : Except Fault (Projection UPoly)), lg)
            | (Except.ok s2, lg) =>
              match insertPolynomial s2 level p o' with
              | Except.error e => (Except.error e, lg)
              | Except.ok s3 => (Except.ok s3, lg ++ [ProjEvent.insert level p o'])).1 =
          match r.1 with
          | Except.error e => Except.error e
          | Except.ok s2 => insertPolynomial s2 level p o' := by
        rintro ⟨r, lg⟩
        cases r with
        | error e => rfl
        | ok s2 =>
          simp only
          cases insertPolynomial s2 level p o' <;> rfl
      rw [hins]
      by_cases hlt : level < s.dim - 1
      · simp only [hlt, if_true]
        have hu' := hu (log ++ [ProjEvent.unary level p])
        rcases hfu : foldTr (fun st lg np => addToProjectionTr K k (level + 1) np o' st lg)
          (K.projectUnary p (s.var (level + 1))) s (log ++ [ProjEvent.unary level p])
          with ⟨r, lg⟩
        rw [hfu] at hu'
        simp only at hu'
        rw [← hu']
        cases r with
        | error e => rfl
        | ok s1 =>
          simp only
          rw [hb s1 lg]
      · simp only [hlt, if_false]

theorem foldTr_inv {σ α ε : Type} (f : σ → List ε → α → Except Fault σ × List ε)
    (Pre : σ → Prop) (A : ε → Prop) (l : List α)
    (hstep : ∀ a ∈ l, ∀ s log, Pre s →
      (∀ s', (f s log a).1 = .ok s' → Pre s') ∧
      ∃ new, (f s log a).2 = log ++ new ∧ ∀ ev ∈ new, A ev) :
    ∀ s log, Pre s →
      (∀ s', (foldTr f l s log).1 = .ok s' → Pre s') ∧
      ∃ new, (foldTr f l s log).2 = log ++ new ∧ ∀ ev ∈ new, A ev := by
  induction l with
  | nil =>
    intro s log hs
    refine ⟨?_, [], by simp [foldTr], by simp⟩
    intro s' h
    simp only [foldTr, Except.ok.injEq] at h
    rw [← h]; exact hs
  | cons a rest ih =>
    intro s log hs
    obtain ⟨h1, new1, h2, h3⟩ := hstep a (List.mem_cons_self _ _) s log hs
    simp only [foldTr]
    rcases hf : f s log a with ⟨r, lg⟩
    rw [hf] at h1 h2
    simp only at h1 h2
    cases r with
    | error e =>
      refine ⟨?_, new1, h2, h3⟩
      intro s' h
      simp at h
    | ok t =>
      simp only
      obtain ⟨g1, new2, g2, g3⟩ := ih (fun b hb => hstep b (List.mem_cons_of_mem _ hb)) t lg
        (h1 t rfl)
      refine ⟨g1, new1 ++ new2, ?_, ?_⟩
      · rw [g2, h2, List.append_assoc]
      · intro ev hev
        rcases List.mem_append.1 hev with h | h
        · exact h3 ev h
        · exact g3 ev h

/-- Every event of a run of `addToProjection` that starts in a well-formed state whose
origins are bounded by the origin passed along has the property `A`, if `A` holds for the
events of each kind at the levels `>= lo`; an evaluated origin assertion holds, and an
insertion uses the origin `n`. -/
theorem tr_events (K : Kernel UPoly) (n lo : Nat) (A : ProjEvent UPoly → Prop)
    (hpurge : ∀ level p, lo ≤ level → A (.purge level p))
    (hforward : ∀ level p, lo ≤ level → A (.forward level p))
    (hdup : ∀ level p, lo ≤ level → A (.duplicate level p))
    (hcheck : ∀ level st, lo ≤ level → 0 < level → st ≤ n → A (.originCheck level st n))
    (hunary : ∀ level p, lo ≤ level → A (.unary level p))
    (hbinary : ∀ level p q, lo ≤ level → A (.binary level p q))
    (hinsert : ∀ level p, lo ≤ level → A (.insert level p n)) :
    ∀ (k level : Nat) (p : UPoly) (o : Nat) (s : Projection UPoly)
      (log : List (ProjEvent UPoly)),
      lo ≤ level → Bounded n s → (level = 0 → n = s.size 0) → (level ≠ 0 → o = n) →
      ∃ new, (addToProjectionTr K k level p o s log).2 = log ++ new ∧ ∀ ev ∈ new, A ev := by
  intro k
  induction k with
  | zero =>
    intro level p o s log hlo _ _ _
    simp only [addToProjectionTr]
    split
    · exact ⟨[.purge level p], rfl, by simpa using hpurge level p hlo⟩
    · exact ⟨[], by simp, by simp⟩
  | succ k ih =>
    intro level p o s log hlo hs h0 h1
    simp only [addToProjectionTr]
    split
    · exact ⟨[.purge level p], rfl, by simpa using hpurge level p hlo⟩
    split
    · rename_i hfw
      have hne : level ≠ 0 := by omega
      obtain ⟨new, g1, g2⟩ := ih (level + 1) (K.switchVariable p (s.var (level + 1))) o s
        (log ++ [.forward level p]) (by omega) hs (by simp) (fun _ => h1 hne)
      refine ⟨.forward level p :: new, ?_, ?_⟩
      · rw [g1]; simp
      · intro ev hev
        rcases List.mem_cons.1 hev with h | h
        · rw [h]; exact hforward level p hlo
        · exact g2 ev h
    split
    · exact ⟨[], by simp, by simp⟩
    split
    · exact ⟨[], by simp, by simp⟩
    split
    · exact ⟨[], by simp, by simp⟩
    rename_i l hl
    have hget := (level_ok_iff s level l).1 hl
    have hpl := polys_of_get s level l hget
    split
    · rename_i id hid
      split
      · rename_i hz
        split
        · exact ⟨[.duplicate level p], rfl, by simpa using hdup level p hlo⟩
        · rename_i e he
          have hmem : e ∈ s.polys level := by
            rw [hpl]; exact List.mem_iff_getElem?.2 ⟨id, he⟩
          have hle : e.2 ≤ n := hs.2 level e hmem
          have ho : o = n := h1 (by omega)
          have hA : ∀ ev ∈ [ProjEvent.duplicate level p, ProjEvent.originCheck level e.2 o],
              A ev := by
            intro ev hev
            simp only [List.mem_cons, List.mem_singleton, List.not_mem_nil, or_false] at hev
            rcases hev with h | h
            · rw [h]; exact hdup level p hlo
            · rw [h, ho]; exact hcheck level e.2 hlo hz hle
          split
          · exact ⟨_, rfl, hA⟩
          · exact ⟨_, rfl, hA⟩
      · exact ⟨[.duplicate level p], rfl, by simpa using hdup level p hlo⟩
    · have hn' : (if level = 0 then l.mPolynomials.length else o) = n := by
        by_cases hz : level = 0
        · simp only [hz, if_true]
          rw [h0 hz, size_eq_length_polys, ← hpl, hz]
        · simp only [hz, if_false]
          exact h1 hz
      rw [hn']
      have hstep : ∀ (np : UPoly) (st : Projection UPoly) (lg : List (ProjEvent UPoly)),
          Bounded n st →
          (∀ s', (addToProjectionTr K k (level + 1) np n st lg).1 = .ok s' → Bounded n s') ∧
          ∃ new, (addToProjectionTr K k (level + 1) np n st lg).2 = lg ++ new ∧
            ∀ ev ∈ new, A ev := by
        intro np st lg hst
        refine ⟨?_, ih (level + 1) np n st lg (by omega) hst (by simp) (fun _ => rfl)⟩
        intro s' hs'
        rw [addToProjectionTr_fst] at hs'
        exact (aux_sound K n k (level + 1) np n st s' hst (by simp) (fun _ => rfl) hs').1
      have hproj : (∀ s2, (if level < s.dim - 1 then
            match foldTr (fun st lg np => addToProjectionTr K k (level + 1) np n st lg)
                (K.projectUnary p (s.var (level + 1))) s (log ++ [.unary level p]) with
            | (.error e, lg) => (.error e, lg)
            | (.ok s1, lg) =>
              foldTr (fun st lg' it =>
                  foldTr (fun st' lg'' np =>
                      addToProjectionTr K k (level + 1) np (max n it.2) st' lg'')
                    (K.projectBinary p it.1 (s.var (level + 1))) st
                    (lg' ++ [.binary level p it.1]))
                l.mPolynomials s1 lg
          else (.ok s, log)).1 = .ok s2 → Bounded n s2) ∧
          ∃ new, (if level < s.dim - 1 then
            match foldTr (fun st lg np => addToProjectionTr K k (level + 1) np n st lg)
                (K.projectUnary p (s.var (level + 1))) s (log ++ [.unary level p]) with
            | (.error e, lg) => (.error e, lg)
            | (.ok s1, lg) =>
              foldTr (fun st lg' it =>
                  foldTr (fun st' lg'' np =>
                      addToProjectionTr K k (level + 1) np (max n it.2) st' lg'')
                    (K.projectBinary p it.1 (s.var (level + 1))) st
                    (lg' ++ [.binary level p it.1]))
                l.mPolynomials s1 lg
          else (.ok s, log)).2 = log ++ new ∧ ∀ ev ∈ new, A ev := by
        by_cases hlt : level < s.dim - 1
        · simp only [hlt, if_true]
          obtain ⟨u1, newu, u2, u3⟩ := foldTr_inv
            (fun st lg np => addToProjectionTr K k (level + 1) np n st lg) (Bounded n) A
            (K.projectUnary p (s.var (level + 1))) (fun np _ st lg hst => hstep np st lg hst)
            s (log ++ [.unary level p]) hs
          rcases hfu : foldTr (fun st lg np => addToProjectionTr K k (level + 1) np n st lg)
            (K.projectUnary p (s.var (level + 1))) s (log ++ [ProjEvent.unary level p])
            with ⟨r, lg⟩
          rw [hfu] at u1 u2
          simp only at u1 u2
          have hAu : ∀ ev ∈ ProjEvent.unary level p :: newu, A ev := by
            intro ev hev
            rcases List.mem_cons.1 hev with h | h
            · rw [h]; exact hunary level p hlo
            · exact u3 ev h
          cases r with
          | error e =>
            refine ⟨by intro s2 h; simp at h, .unary level p :: newu, ?_, hAu⟩
            simp only [u2]; simp
          | ok s1 =>
            simp only
            obtain ⟨b1, newb, b2, b3⟩ := foldTr_inv
              (fun st lg' (it : UPoly × Nat) =>
                foldTr (fun st' lg'' np =>
                    addToProjectionTr K k (level + 1) np (max n it.2) st' lg'')
                  (K.projectBinary p it.1 (s.var (level + 1))) st
                  (lg' ++ [.binary level p it.1])) (Bounded n) A l.mPolynomials
              (by
                intro it hit st lg' hst
                have hmax : max n it.2 = n :=
                  Nat.max_eq_left (hs.2 level it (by rw [hpl]; exact hit))
                beta_reduce
                rw [hmax]
                obtain ⟨c1, newc, c2, c3⟩ := foldTr_inv
                  (fun st' lg'' np => addToProjectionTr K k (level + 1) np n st' lg'')
                  (Bounded n) A (K.projectBinary p it.1 (s.var (level + 1)))
                  (fun np _ st' lg'' hst' => hstep np st' lg'' hst')
                  st (lg' ++ [.binary level p it.1]) hst
                refine ⟨c1, .binary level p it.1 :: newc, ?_, ?_⟩
                · rw [c2]; simp
                · intro ev hev
                  rcases List.mem_cons.1 hev with h | h
                  · rw [h]; exact hbinary level p it.1 hlo
                  · exact c3 ev h)
              s1 lg (u1 s1 rfl)
            refine ⟨b1, .unary level p :: (newu ++ newb), ?_, ?_⟩
            · rw [b2, u2]; simp
            · intro ev hev
              rcases List.mem_cons.1 hev with h | h
              · rw [h]; exact hunary level p hlo
              · rcases List.mem_append.1 h with h | h
                · exact u3 ev h
                · exact b3 ev h
        · simp only [hlt, if_false]
          exact ⟨by intro s2 h; simp only [Except.ok.injEq] at h; rw [← h]; exact hs,
            [], by simp, by simp⟩
      obtain ⟨_, newp, p2, p3⟩ := hproj
      generalize (if level < s.dim - 1 then
            match foldTr (fun st lg np => addToProjectionTr K k (level + 1) np n st lg)
                (K.projectUnary p (s.var (level + 1))) s (log ++ [.unary level p]) with
            | (.error e, lg) => (.error e, lg)
            | (.ok s1, lg) =>
              foldTr (fun st lg' it =>
                  foldTr (fun st' lg'' np =>
                      addToProjectionTr K k (level + 1) np (max n it.2) st' lg'')
                    (K.projectBinary p it.1 (s.var (level + 1))) st
                    (lg' ++ [.binary level p it.1]))
                l.mPolynomials s1 lg
          else (.ok s, log)) = res at p2 ⊢
      rcases res with ⟨r, lg⟩
      simp only at p2
      cases r with
      | error e => exact ⟨newp, p2, p3⟩
      | ok s2 =>
        simp only
        cases insertPolynomial s2 level p n with
        | error e => exact ⟨newp, p2, p3⟩
        | ok s3 =>
          refine ⟨newp ++ [.insert level p n], ?_, ?_⟩
          · simp only [p2, List.append_assoc]
          · intro ev hev
            rcases List.mem_append.1 hev with h | h
            · exact p3 ev h
            · simp only [List.mem_singleton] at h
              rw [h]; exact hinsert level p hlo

/-- Effect of `insertPolynomial` on the stored lists. -/
theorem insertPolynomial_polys {s s' : Projection UPoly} {L : Nat} {p : UPoly} {o : Nat}
    (h : insertPolynomial s L p o = .ok s') :
    s'.mVars = s.mVars ∧
    ∀ L', s'.polys L' = if L = L' then s.polys L ++ [(p, o)] else s.polys L' := by
  unfold insertPolynomial at h
  cases hl : s.level L with
  | error e => rw [hl] at h; simp at h
  | ok l =>
    rw [hl] at h
    have hget := (level_ok_iff s L l).1 hl
    have hlt : L < s.levels.length := by
      rcases List.getElem?_eq_some.1 hget with ⟨h1, _⟩; exact h1
    simp only [Except.ok.injEq] at h
    rw [← h]
    refine ⟨rfl, fun L' => ?_⟩
    rw [polys_setLevel _ _ _ _ hlt, polys_of_get s L l hget]

theorem aux_storedOK (K : Kernel UPoly) :
    ∀ (k level : Nat) (p : UPoly) (o : Nat) (s s' : Projection UPoly),
      StoredOK K s → addToProjectionAux K k level p o s = .ok s' →
      StoredOK K s' ∧ s'.mVars = s.mVars := by
  intro k
  induction k with
  | zero =>
    intro level p o s s' hs h
    simp only [addToProjectionAux] at h
    split at h
    · simp only [Except.ok.injEq] at h
      subst h
      exact ⟨hs, rfl⟩
    · simp at h
  | succ k ih =>
    intro level p o s s' hs h
    have horig := h
    simp only [addToProjectionAux] at h
    split at h
    · simp only [Except.ok.injEq] at h
      subst h
      exact ⟨hs, rfl⟩
    split at h
    · exact ih _ _ _ _ _ hs h
    split at h
    · simp at h
    split at h
    · simp at h
    split at h
    · simp at h
    rename_i hp hf hd hv _ l hl
    split at h
    · have hss : s' = s := by
        split at h
        · split at h
          · simp at h
          · split at h
            · simp only [Except.ok.injEq] at h; exact h.symm
            · simp at h
        · simp only [Except.ok.injEq] at h; exact h.symm
      subst hss
      exact ⟨hs, rfl⟩
    · rename_i hn
      have hget := (level_ok_iff s level l).1 hl
      have hp' : canBePurged K p = false := by simpa using hp
      have hd' : level < s.dim := by simpa using hd
      have hv' : K.mainVar p = s.var level := by simpa using hv
      rw [aux_new_eq K k level p o s l hp' hf hd' hv' hget hn] at horig
      generalize (if level = 0 then l.mPolynomials.length else o) = o' at horig
      have hfold : ∀ s2, (if level < s.dim - 1 then
            foldE (fun st c => addToProjectionAux K k (level + 1) c.1 c.2 st)
              (handedOn K (s.var (level + 1)) p o' l.mPolynomials) s
          else .ok s) = .ok s2 → (StoredOK K s2 ∧ s2.mVars = s.mVars) ∧ True := by
        intro s2 h2
        split at h2
        · refine foldE_inv _ (fun st => StoredOK K st ∧ st.mVars = s.mVars)
            (fun _ _ => True) (fun _ => trivial) (fun _ _ _ _ _ => trivial) _ ?_ s s2
            ⟨hs, rfl⟩ h2
          intro c _ st st' hst hstep
          obtain ⟨a, b⟩ := ih (level + 1) c.1 c.2 st st' hst.1 hstep
          exact ⟨⟨a, b.trans hst.2⟩, trivial⟩
        · simp only [Except.ok.injEq] at h2
          subst h2
          exact ⟨⟨hs, rfl⟩, trivial⟩
      cases h2 : (if level < s.dim - 1 then
            foldE (fun st c => addToProjectionAux K k (level + 1) c.1 c.2 st)
              (handedOn K (s.var (level + 1)) p o' l.mPolynomials) s
          else .ok s) with
      | error e => rw [h2] at horig; simp at horig
      | ok s2 =>
        rw [h2] at horig
        simp only at horig
        obtain ⟨⟨hok2, hv2⟩, _⟩ := hfold s2 h2
        obtain ⟨hv3, hp3⟩ := insertPolynomial_polys horig
        have hvars : s'.mVars = s.mVars := hv3.trans hv2
        refine ⟨?_, hvars⟩
        intro L e he
        have hvarL : s'.var L = s2.var L := by unfold Projection.var; rw [hv3]
        have hdim : s'.dim = s2.dim := by unfold Projection.dim; rw [hv3]
        rw [hp3 L] at he
        by_cases hL : level = L
        · subst hL
          rw [if_pos rfl] at he
          rcases List.mem_append.1 he with h' | h'
          · rw [hvarL, hdim]; exact hok2 level e h'
          · simp only [List.mem_singleton] at h'
            subst h'
            have hvar : s'.var level = s.var level := by unfold Projection.var; rw [hvars]
            have hdim' : s'.dim = s.dim := by unfold Projection.dim; rw [hvars]
            refine ⟨hp', by rw [hvar]; exact hv', ?_⟩
            intro h0 h1
            rw [hdim'] at h1
            by_contra hc
            exact hf ⟨h0, h1, by simpa using hc⟩
        · rw [if_neg hL] at he
          rw [hvarL, hdim]; exact hok2 L e he

theorem polys_reset (vars : List Variable) (L : Nat) :
    (reset vars : Projection UPoly).polys L = [] := by
  unfold Projection.polys reset
  simp only [List.getElem?_replicate]
  by_cases h : L < vars.length
  · simp [h, Level.nil]
  · simp [h]

theorem storedOK_reset (K : Kernel UPoly) (vars : List Variable) :
    StoredOK K (reset vars : Projection UPoly) := by
  intro L e he
  rw [polys_reset] at he
  simp at he

/-- Every reachable state satisfies `StoredOK`. -/
theorem Reachable.storedOK {K : Kernel UPoly} {s : Projection UPoly} (h : Reachable K s) :
    StoredOK K s := by
  induction h with
  | reset vars => exact storedOK_reset K vars
  | @add s s' p cid _ hadd ih =>
    unfold addPolynomial at hadd
    split at hadd
    · simp at hadd
    · split at hadd
      · simp at hadd
      · exact (aux_storedOK K _ 0 p cid s s' ih hadd).1
  | @remove s s' p cid log hr hrem ih =>
    obtain ⟨init, h0, _, _, _, hv, hp0, hL, _⟩ := removePolynomial_spec hr.inv hrem
    intro L e he
    have hvar : s'.var L = s.var L := by unfold Projection.var; rw [hv]
    have hdim : s'.dim = s.dim := by unfold Projection.dim; rw [hv]
    have hmem : e ∈ s.polys L := by
      by_cases hL0 : L = 0
      · subst hL0
        rw [hp0] at he
        rw [h0]
        exact List.mem_append_left _ he
      · rw [(hL L (by omega)).1] at he
        exact (strip_sublist cid _).subset he
    rw [hvar, hdim]
    exact ih L e hmem

/-- Every state in which `addToProjection` is called is well formed with origins bounded by
`n`, and satisfies `StoredOK`. -/
theorem CallState.facts {K : Kernel UPoly} {n : Nat} {s : Projection UPoly}
    (h : CallState K n s) : Bounded n s ∧ StoredOK K s := by
  induction h with
  | start hr hn => rw [hn]; exact ⟨hr.inv.bounded, hr.storedOK⟩
  | step k level p _ hlev hstep ih =>
    exact ⟨(aux_sound K n k level p n _ _ ih.1 (by omega) (fun _ => rfl) hstep).1,
      (aux_storedOK K k level p n _ _ ih.2 hstep).1⟩

theorem eq_of_nodup_keys {xs : List (UPoly × Nat)} (hnd : (xs.map Prod.fst).Nodup)
    {e e' : UPoly × Nat} (he : e ∈ xs) (he' : e' ∈ xs) (h : e.1 = e'.1) : e = e' := by
  induction xs with
  | nil => simp at he
  | cons x rest ih =>
    simp only [List.map_cons, List.nodup_cons] at hnd
    rcases List.mem_cons.1 he with h1 | h1 <;> rcases List.mem_cons.1 he' with h2 | h2
    · rw [h1, h2]
    · exfalso
      apply hnd.1
      rw [← h1, h]
      exact List.mem_map_of_mem _ h2
    · exfalso
      apply hnd.1
      rw [← h2, ← h]
      exact List.mem_map_of_mem _ h1
    · exact ih hnd.2 h1 h2

/-! ## Lemmas for `getPolyForLifting` -/

theorem scanQueue_skip (polys : List (UPoly × Nat)) (slw : Bitset) :
    ∀ (pre rest : List Nat), (∀ i ∈ pre, i ∈ slw) →
      scanQueue polys (pre ++ rest) slw = scanQueue polys rest slw := by
  intro pre
  induction pre with
  | nil => intro rest _; rfl
  | cons a pre ih =>
    intro rest h
    have ha : a ∈ slw := h a (List.mem_cons_self _ _)
    simp only [List.cons_append, scanQueue, ha, not_true_eq_false, if_false]
    exact ih rest (fun i hi => h i (List.mem_cons_of_mem _ hi))

theorem scanQueue_none (polys : List (UPoly × Nat)) (slw : Bitset) (q : List Nat)
    (h : ∀ i ∈ q, i ∈ slw) : scanQueue polys q slw = .ok (none, slw) := by
  have := scanQueue_skip polys slw q [] h
  simpa [scanQueue] using this

theorem scanQueue_first (polys : List (UPoly × Nat)) (slw : Bitset) (pre post : List Nat)
    (pid : Nat) (e : UPoly × Nat) (h : ∀ i ∈ pre, i ∈ slw) (hp : pid ∉ slw)
    (he : polys[pid]? = some e) :
    scanQueue polys (pre ++ pid :: post) slw = .ok (some e.1, insert pid slw) := by
  rw [scanQueue_skip polys slw pre _ h]
  simp only [scanQueue, hp, not_false_eq_true, if_true, he]

theorem liftingQueue_of_good {s : Projection UPoly} (hg : Good s) (level : Nat) :
    s.liftingQueue level = List.range (s.polys level).length := by
  unfold Projection.liftingQueue Projection.polys
  cases h : s.levels[level]? with
  | none => rfl
  | some l =>
    have hw := hg.wf h
    simp only
    conv_lhs => rw [hw.1]
    rfl

/-! ## Lemmas for forwarding -/

theorem forwardTarget_le (K : Kernel UPoly) (s : Projection UPoly) :
    ∀ (k level : Nat) (p : UPoly), level ≤ (forwardTarget K s k level p).1 := by
  intro k
  induction k with
  | zero => intro level p; simp [forwardTarget]
  | succ k ih =>
    intro level p
    simp only [forwardTarget]
    split
    · exact Nat.le_refl _
    · split
      · exact Nat.le_trans (Nat.le_succ _) (ih _ _)
      · exact Nat.le_refl _

theorem aux_forward_eq (K : Kernel UPoly) (s : Projection UPoly) (o : Nat) :
    ∀ (k level : Nat) (p : UPoly),
      addToProjectionAux K k level p o s =
        addToProjectionAux K (k - ((forwardTarget K s k level p).1 - level))
          (forwardTarget K s k level p).1 (forwardTarget K s k level p).2 o s := by
  intro k
  induction k with
  | zero => intro level p; simp [forwardTarget]
  | succ k ih =>
    intro level p
    by_cases hp : canBePurged K p = true
    · simp [forwardTarget, hp]
    · by_cases hf : 0 < level ∧ level < s.dim - 1 ∧ canBeForwarded K level p = true
      · have hle := forwardTarget_le K s k (level + 1) (K.switchVariable p (s.var (level + 1)))
        have h1 : addToProjectionAux K (k + 1) level p o s =
            addToProjectionAux K k (level + 1) (K.switchVariable p (s.var (level + 1))) o s := by
          simp only [addToProjectionAux, hp, hf]
          simp
        have h2 : forwardTarget K s (k + 1) level p =
            forwardTarget K s k (level + 1) (K.switchVariable p (s.var (level + 1))) := by
          simp only [forwardTarget, hp, hf]
          simp
        rw [h1, h2, ih]
        congr 1
        omega
      · have h2 : forwardTarget K s (k + 1) level p = (level, p) := by
          simp only [forwardTarget, hp, hf]
          simp
        rw [h2]
        simp

theorem forwardTarget_stop (K : Kernel UPoly) (s : Projection UPoly) :
    ∀ (k level : Nat) (p : UPoly), 0 < level → level ≤ s.dim - 1 → s.dim - 1 ≤ level + k →
      1 ≤ k →
      (forwardTarget K s k level p).1 ≤ s.dim - 1 ∧
      (canBePurged K (forwardTarget K s k level p).2 = true ∨
        (forwardTarget K s k level p).1 = s.dim - 1 ∨
        canBeForwarded K (forwardTarget K s k level p).1 (forwardTarget K s k level p).2
          = false) := by
  intro k
  induction k with
  | zero => intro level p _ _ _ h; omega
  | succ k ih =>
    intro level p h0 h1 h2 _
    by_cases hp : canBePurged K p = true
    · have : forwardTarget K s (k + 1) level p = (level, p) := by
        simp only [forwardTarget, hp]
        simp
      rw [this]
      exact ⟨h1, Or.inl hp⟩
    · by_cases hf : 0 < level ∧ level < s.dim - 1 ∧ canBeForwarded K level p = true
      · have h3 : forwardTarget K s (k + 1) level p =
            forwardTarget K s k (level + 1) (K.switchVariable p (s.var (level + 1))) := by
          simp only [forwardTarget, hp, hf]
          simp
        rw [h3]
        by_cases hk : 1 ≤ k
        · exact ih (level + 1) _ (by omega) (by omega) (by omega) hk
        · have hk0 : k = 0 := by omega
          subst hk0
          simp only [forwardTarget]
          exact ⟨by omega, Or.inr (Or.inl (by omega))⟩
      · have h3 : forwardTarget K s (k + 1) level p = (level, p) := by
          simp only [forwardTarget, hp, hf]
          simp
        rw [h3]
        refine ⟨h1, ?_⟩
        by_cases hl : level = s.dim - 1
        · exact Or.inr (Or.inl hl)
        · right; right
          have : level < s.dim - 1 := by omega
          cases hc : canBeForwarded K level p with
          | false => rfl
          | true => exact absurd ⟨h0, this, hc⟩ hf

theorem forwardTarget_mid (K : Kernel UPoly) (s : Projection UPoly) :
    ∀ (j k level : Nat) (p : UPoly), level + j < (forwardTarget K s k level p).1 →
      (forwardTarget K s j level p).1 = level + j ∧
      canBePurged K (forwardTarget K s j level p).2 = false ∧
      0 < level + j ∧ level + j < s.dim - 1 ∧
      canBeForwarded K (level + j) (forwardTarget K s j level p).2 = true := by
  have key : ∀ (k level : Nat) (p : UPoly), level < (forwardTarget K s k level p).1 →
      ∃ k', k = k' + 1 ∧ canBePurged K p = false ∧
        (0 < level ∧ level < s.dim - 1 ∧ canBeForwarded K level p = true) ∧
        forwardTarget K s k level p =
          forwardTarget K s k' (level + 1) (K.switchVariable p (s.var (level + 1))) := by
    intro k level p h
    cases k with
    | zero => simp [forwardTarget] at h
    | succ k =>
      by_cases hp : canBePurged K p = true
      · simp [forwardTarget, hp] at h
      · by_cases hf : 0 < level ∧ level < s.dim - 1 ∧ canBeForwarded K level p = true
        · refine ⟨k, rfl, by simpa using hp, hf, ?_⟩
          simp only [forwardTarget, hp, hf]
          simp
        · have : forwardTarget K s (k + 1) level p = (level, p) := by
            simp only [forwardTarget, hp, hf]
            simp
          rw [this] at h
          simp at h
  intro j
  induction j with
  | zero =>
    intro k level p h
    obtain ⟨k', _, hp, hf, _⟩ := key k level p (by simpa using h)
    simp only [forwardTarget, Nat.add_zero]
    exact ⟨trivial, hp, hf.1, hf.2.1, hf.2.2⟩
  | succ j ih =>
    intro k level p h
    obtain ⟨k', _, hp, hf, heq⟩ := key k level p (by omega)
    rw [heq] at h
    have := ih k' (level + 1) (K.switchVariable p (s.var (level + 1))) (by omega)
    have h2 : forwardTarget K s (j + 1) level p =
        forwardTarget K s j (level + 1) (K.switchVariable p (s.var (level + 1))) := by
      simp only [forwardTarget, hp, hf]
      simp
    rw [h2]
    have e : level + (j + 1) = level + 1 + j := by omega
    rw [e]
    exact this

theorem pK_disciplined : Disciplined pK := by
  refine ⟨?_, ?_, ?_⟩
  · intro p v np h
    obtain ⟨nm, w⟩ := p
    cases nm <;> simp [pK] at h
    rcases h with h | h <;> subst h <;> simp [canBePurged, pK]
  · intro p q v np h
    simp [pK] at h
  · intro p v
    right
    rfl

theorem exParam_add :
    addPolynomial pK ((PName.xa, 0) : PPoly) 0 (reset [0, 1, 2]) = .ok exParam := by
  rfl

theorem exParam_reachable : Reachable pK exParam :=
  Reachable.add (PName.xa, 0) 0 (Reachable.reset [0, 1, 2]) exParam_add

theorem aux_purged (K : Kernel UPoly) (k level : Nat) (p : UPoly) (o : Nat)
    (s : Projection UPoly) (hp : canBePurged K p = true) :
    addToProjectionAux K k level p o s = .ok s := by
  cases k <;> simp [addToProjectionAux, hp]

/-! ## Lemmas for the control loops -/

theorem record_proj {P T It : Type} (w : World P T It UPoly) (c : Call It UPoly)
    (p : P) (t : T) : (w.record c p t).proj = p := rfl

theorem record_tree {P T It : Type} (w : World P T It UPoly) (c : Call It UPoly)
    (p : P) (t : T) : (w.record c p t).tree = t := rfl

theorem fetchStep_cases {P T It : Type} (ops : CADOps P T It UPoly) (w : World P T It UPoly) :
    (¬ ops.depth w.tree (ops.getNextSample w.tree) < ops.dim ∧
      ∃ w1, fetchStep ops w = .inl (.done (.error Fault.assertion) w1) ∧
        w1.proj = w.proj ∧ w1.tree = w.tree) ∨
    (ops.depth w.tree (ops.getNextSample w.tree) < ops.dim ∧
      ops.hasConflictWithConstraint w.tree (ops.getNextSample w.tree) = true ∧
      ∃ w1, fetchStep ops w = .inl (.next w1) ∧
        w1.proj = w.proj ∧ w1.tree = ops.removeNextSample w.tree) ∨
    (ops.depth w.tree (ops.getNextSample w.tree) < ops.dim ∧
      ¬ ops.hasConflictWithConstraint w.tree (ops.getNextSample w.tree) = true ∧
      ∃ w1, fetchStep ops w = .inr (ops.getNextSample w.tree, w1) ∧
        w1.proj = w.proj ∧ w1.tree = w.tree) := by
  unfold fetchStep
  simp only [record_proj, record_tree]
  by_cases hd : ops.depth w.tree (ops.getNextSample w.tree) < ops.dim
  · by_cases hc : ops.hasConflictWithConstraint w.tree (ops.getNextSample w.tree) = true
    · right; left
      refine ⟨hd, hc, ?_⟩
      simp only [hd, hc, not_true_eq_false, if_false, if_true]
      exact ⟨_, rfl, rfl, rfl⟩
    · right; right
      refine ⟨hd, hc, ?_⟩
      simp only [hd, hc, not_true_eq_false, if_false]
      exact ⟨_, rfl, rfl, rfl⟩
  · left
    refine ⟨hd, ?_⟩
    simp only [hd, not_false_eq_true, if_true]
    exact ⟨_, rfl, rfl, rfl⟩

theorem liftStep_cases {P T It : Type} (ops : CADOps P T It UPoly) (it : It)
    (w : World P T It UPoly) :
    (∃ id w1, (ops.getPolyForLifting w.proj (ops.idLP (ops.depth w.tree it + 1)) w.tree it).1
        = some id ∧ liftStep ops it w = .inl w1 ∧
      w1.proj = (ops.getPolyForLifting w.proj (ops.idLP (ops.depth w.tree it + 1)) w.tree it).2.1 ∧
      w1.tree = ops.liftSample
        (ops.getPolyForLifting w.proj (ops.idLP (ops.depth w.tree it + 1)) w.tree it).2.2 it
        (ops.getPolynomialById
          (ops.getPolyForLifting w.proj (ops.idLP (ops.depth w.tree it + 1)) w.tree it).2.1
          (ops.idLP (ops.depth w.tree it + 1)) id) id) ∨
    (∃ w1, (ops.getPolyForLifting w.proj (ops.idLP (ops.depth w.tree it + 1)) w.tree it).1
        = none ∧ liftStep ops it w = .inr w1 ∧
      w1.proj = (ops.getPolyForLifting w.proj (ops.idLP (ops.depth w.tree it + 1)) w.tree it).2.1 ∧
      w1.tree =
        (ops.getPolyForLifting w.proj (ops.idLP (ops.depth w.tree it + 1)) w.tree it).2.2) := by
  unfold liftStep
  simp only [record_proj, record_tree]
  cases hg : (ops.getPolyForLifting w.proj (ops.idLP (ops.depth w.tree it + 1)) w.tree it).1 with
  | none =>
    right
    exact ⟨_, rfl, rfl, rfl, rfl⟩
  | some id =>
    left
    exact ⟨id, _, rfl, rfl, rfl, rfl⟩

theorem bySampleBody_states {P T It : Type} (ops : CADOps P T It UPoly)
    (w : World P T It UPoly) :
    (bySampleBody ops w).states = bySampleStates ops w.proj w.tree := by
  unfold bySampleBody bySampleStates
  simp only [checkStep, record_proj, record_tree]
  by_cases h1 : (ops.checkFullSamples w.proj w.tree).1 = Answer.SAT
  · simp only [h1, if_true]; rfl
  · simp only [h1, if_false]
    by_cases h2 : ops.hasNextSample (ops.checkFullSamples w.proj w.tree).2 = true
    · simp only [h2, not_true_eq_false, if_false]
      generalize hW : World.record (World.record w _ _ _) _ _ _ = W
      have hWp : W.proj = w.proj := by rw [← hW]; rfl
      have hWt : W.tree = (ops.checkFullSamples w.proj w.tree).2 := by rw [← hW]; rfl
      rw [← hWt, ← hWp]
      clear hW hWp hWt h1 h2
      rcases fetchStep_cases ops W with ⟨hd, w1, hf, hp, ht⟩ | ⟨hd, hc, w1, hf, hp, ht⟩ |
        ⟨hd, hc, w1, hf, hp, ht⟩
      · rw [hf]
        unfold fetchStates
        rw [if_pos hd]
        simp only [Pass.states, hp, ht]
      · rw [hf]
        unfold fetchStates
        rw [if_neg (not_not.2 hd), if_pos hc]
        simp only [Pass.states, hp, ht]
      · rw [hf]
        unfold fetchStates
        rw [if_neg (not_not.2 hd), if_neg hc]
        simp only []
        generalize ops.getNextSample W.tree = it
        rw [← hp, ← ht]
        clear hf hp ht hd hc
        rcases liftStep_cases ops it w1 with ⟨id, w2, hg, hl, hp, ht⟩ | ⟨w2, hg, hl, hp, ht⟩
        · rw [hl]
          unfold liftStates
          simp only [hg, Pass.states, hp, ht]
        · rw [hl]
          unfold liftStates
          simp only [hg]
          rw [← hp, ← ht]
          split_ifs <;> rfl
    · simp only [h2, not_false_eq_true, if_true]; rfl

theorem preferProjectionBody_states {P T It : Type} (ops : CADOps P T It UPoly)
    (w : World P T It UPoly) :
    (preferProjectionBody ops w).states = preferProjectionStates ops w.proj w.tree := by
  unfold preferProjectionBody preferProjectionStates
  simp only [checkStep, record_proj, record_tree]
  by_cases h1 : (ops.checkFullSamples w.proj w.tree).1 = Answer.SAT
  · simp only [h1, if_true]; rfl
  · simp only [h1, if_false]
    by_cases h2 : ops.hasNextSample (ops.checkFullSamples w.proj w.tree).2 = true
    · simp only [h2, not_true_eq_false, if_false]
      generalize hW : World.record (World.record w _ _ _) _ _ _ = W
      have hWp : W.proj = w.proj := by rw [← hW]; rfl
      have hWt : W.tree = (ops.checkFullSamples w.proj w.tree).2 := by rw [← hW]; rfl
      rw [← hWt, ← hWp]
      clear hW hWp hWt h1 h2
      rcases fetchStep_cases ops W with ⟨hd, w1, hf, hp, ht⟩ | ⟨hd, hc, w1, hf, hp, ht⟩ |
        ⟨hd, hc, w1, hf, hp, ht⟩
      · rw [hf]
        unfold fetchStates
        rw [if_pos hd]
        simp only [Pass.states, hp, ht]
      · rw [hf]
        unfold fetchStates
        rw [if_neg (not_not.2 hd), if_pos hc]
        simp only [Pass.states, hp, ht]
      · rw [hf]
        unfold fetchStates
        rw [if_neg (not_not.2 hd), if_neg hc]
        simp only []
        generalize ops.getNextSample W.tree = it
        rw [← hp, ← ht]
        clear hf hp ht hd hc
        rcases liftStep_cases ops it w1 with ⟨id, w2, hg, hl, hp, ht⟩ | ⟨w2, hg, hl, hp, ht⟩
        · rw [hl]
          unfold liftStates
          simp only [hg, Pass.states, hp, ht]
        · rw [hl]
          unfold liftStates
          simp only [hg]
          rw [← hp, ← ht]
          split_ifs <;> rfl
    · simp only [h2, not_false_eq_true, if_true]; rfl

theorem samplingCond_states {P T It : Type} (ops : CADOps P T It UPoly)
    (w : World P T It UPoly) :
    ((samplingCond ops w).1 = true ↔
      (ops.hasNextSample w.tree = true ∨ ops.hasFullSamples w.tree = true)) ∧
    (samplingCond ops w).2.proj = w.proj ∧ (samplingCond ops w).2.tree = w.tree := by
  unfold samplingCond
  simp only [record_proj, record_tree]
  by_cases hb : ops.hasNextSample w.tree = true
  · simp only [hb, if_true, true_or, record_proj, record_tree, and_self]
  · simp only [hb, if_false, false_or, record_proj, record_tree, and_self, Bool.false_eq_true]

theorem preferSamplingBody_states {P T It : Type} (ops : CADOps P T It UPoly)
    (w : World P T It UPoly) :
    (preferSamplingBody ops w).states = preferSamplingStates ops w.proj w.tree := by
  unfold preferSamplingBody preferSamplingStates
  obtain ⟨hc1, hc2, hc3⟩ := samplingCond_states ops w
  generalize samplingCond ops w = c at hc1 hc2 hc3
  obtain ⟨b, W0⟩ := c
  simp only at hc1 hc2 hc3
  simp only [checkStep, record_proj, record_tree]
  rw [← hc2, ← hc3]
  rw [← hc3] at hc1
  by_cases h0 : b = true
  · rw [if_pos h0, if_pos (hc1.1 h0)]
    by_cases h1 : (ops.checkFullSamples W0.proj W0.tree).1 = Answer.SAT
    · simp only [h1, if_true]; rfl
    · simp only [h1, if_false]
      generalize hW : World.record W0 _ _ _ = W
      have hWp : W.proj = W0.proj := by rw [← hW]; rfl
      have hWt : W.tree = (ops.checkFullSamples W0.proj W0.tree).2 := by rw [← hW]; rfl
      rw [← hWt, ← hWp]
      clear hW hWp hWt h1
      rcases fetchStep_cases ops W with ⟨hd, w1, hf, hp, ht⟩ | ⟨hd, hc, w1, hf, hp, ht⟩ |
        ⟨hd, hc, w1, hf, hp, ht⟩
      · rw [hf]
        unfold fetchStates
        rw [if_pos hd]
        simp only [Pass.states, hp, ht]
      · rw [hf]
        unfold fetchStates
        rw [if_neg (not_not.2 hd), if_pos hc]
        simp only [Pass.states, hp, ht]
      · rw [hf]
        unfold fetchStates
        rw [if_neg (not_not.2 hd), if_neg hc]
        simp only []
        generalize ops.getNextSample W.tree = it
        rw [← hp, ← ht]
        clear hf hp ht hd hc
        rcases liftStep_cases ops it w1 with ⟨id, w2, hg, hl, hp, ht⟩ | ⟨w2, hg, hl, hp, ht⟩
        · rw [hl]
          unfold liftStates
          simp only [hg, Pass.states, hp, ht]
        · rw [hl]
          unfold liftStates
          simp only [hg]
          rw [← hp, ← ht]
          split_ifs <;> rfl
  · rw [if_neg h0, if_neg (fun h => h0 (hc1.2 h))]
    split_ifs <;> rfl

theorem runLoop_states {P T It : Type} (b : World P T It UPoly → Pass P T It UPoly)
    (f : P → T → PassStates P T) (hb : ∀ w, (b w).states = f w.proj w.tree) :
    ∀ (fuel : Nat) (w : World P T It UPoly),
      outcome (runLoop b fuel w) = runStates f fuel w.proj w.tree := by
  intro fuel
  induction fuel with
  | zero => intro w; rfl
  | succ n ih =>
    intro w
    have h := hb w
    simp only [runLoop, runStates]
    cases h1 : b w with
    | done r w1 =>
      rw [h1] at h
      simp only [Pass.states] at h
      rw [← h]
      rfl
    | next w1 =>
      rw [h1] at h
      simp only [Pass.states] at h
      rw [← h]
      exact ih w1

theorem outcome_some {P T It : Type}
    (run : Option (Except Fault Answer × World P T It UPoly)) (r : Except Fault Answer)
    (p : P) (t : T) (h : outcome run = some (r, p, t)) :
    ∃ w, run = some (r, w) ∧ w.proj = p ∧ w.tree = t := by
  cases run with
  | none => simp [outcome] at h
  | some x =>
    obtain ⟨r', w⟩ := x
    simp only [outcome, Option.map_some', Option.some.injEq, Prod.mk.injEq] at h
    obtain ⟨h1, h2, h3⟩ := h
    subst h1
    exact ⟨w, rfl, h2, h3⟩

theorem bySample_outcome {P T It : Type} (ops : CADOps P T It UPoly) (fuel : Nat) (p : P)
    (t : T) :
    outcome (bySample ops fuel p t) =
      runStates (bySampleStates ops) fuel p
        (ops.restoreRemovedSamples (ops.resetFullSamples t)) :=
  runLoop_states (bySampleBody ops) (bySampleStates ops) (bySampleBody_states ops) fuel _

theorem preferProjection_outcome {P T It : Type} (ops : CADOps P T It UPoly) (fuel : Nat)
    (p : P) (t : T) :
    outcome (preferProjection ops fuel p t) =
      runStates (preferProjectionStates ops) fuel p
        (ops.restoreRemovedSamples (ops.resetFullSamples t)) :=
  runLoop_states (preferProjectionBody ops) (preferProjectionStates ops)
    (preferProjectionBody_states ops) fuel _

theorem preferSampling_outcome {P T It : Type} (ops : CADOps P T It UPoly) (fuel : Nat)
    (p : P) (t : T) :
    outcome (preferSampling ops fuel p t) =
      runStates (preferSamplingStates ops) fuel p
        (ops.restoreRemovedSamples (ops.resetFullSamples t)) :=
  runLoop_states (preferSamplingBody ops) (preferSamplingStates ops)
    (preferSamplingBody_states ops) fuel _

theorem check_unknown {P T It : Type} (ops : CADOps P T It UPoly) (p : P) (t : T) :
    ((ops.unknownAsUnsat.checkFullSamples p t).1 = Answer.SAT ↔
      (ops.checkFullSamples p t).1 = Answer.SAT) ∧
    (ops.unknownAsUnsat.checkFullSamples p t).2 = (ops.checkFullSamples p t).2 := by
  simp only [CADOps.unknownAsUnsat, and_true]
  cases (ops.checkFullSamples p t).1 <;> simp

theorem bySampleStates_unknown {P T It : Type} (ops : CADOps P T It UPoly) (p : P) (t : T) :
    bySampleStates ops.unknownAsUnsat p t = bySampleStates ops p t := by
  obtain ⟨h1, h2⟩ := check_unknown ops p t
  unfold bySampleStates
  rw [h2]
  by_cases h : (ops.checkFullSamples p t).1 = Answer.SAT
  · rw [if_pos h, if_pos (h1.2 h)]
  · rw [if_neg h, if_neg (fun h' => h (h1.1 h'))]
    rfl

theorem preferProjectionStates_unknown {P T It : Type} (ops : CADOps P T It UPoly) (p : P)
    (t : T) :
    preferProjectionStates ops.unknownAsUnsat p t = preferProjectionStates ops p t := by
  obtain ⟨h1, h2⟩ := check_unknown ops p t
  unfold preferProjectionStates
  rw [h2]
  by_cases h : (ops.checkFullSamples p t).1 = Answer.SAT
  · rw [if_pos h, if_pos (h1.2 h)]
  · rw [if_neg h, if_neg (fun h' => h (h1.1 h'))]
    rfl

theorem preferSamplingStates_unknown {P T It : Type} (ops : CADOps P T It UPoly) (p : P)
    (t : T) :
    preferSamplingStates ops.unknownAsUnsat p t = preferSamplingStates ops p t := by
  obtain ⟨h1, h2⟩ := check_unknown ops p t
  unfold preferSamplingStates
  rw [h2]
  by_cases h : (ops.checkFullSamples p t).1 = Answer.SAT
  · rw [if_pos h, if_pos (h1.2 h)]
    rfl
  · rw [if_neg h, if_neg (fun h' => h (h1.1 h'))]
    rfl

/-- The results with which the loop of `BySample` is left. -/
theorem bySample_result {P T It : Type} (ops : CADOps P T It UPoly) (fuel : Nat) (p : P)
    (t : T) (r : Except Fault Answer) (w : World P T It UPoly)
    (h : bySample ops fuel p t = some (r, w)) :
    r = .ok Answer.SAT ∨ r = .ok Answer.UNSAT ∨ r = .error Fault.assertion := by
  refine runLoop_done (bySampleBody ops)
    (fun r _ => r = .ok Answer.SAT ∨ r = .ok Answer.UNSAT ∨ r = .error Fault.assertion)
    ?_ fuel _ r w h
  intro w0 r w' hb
  rcases bySampleBody_done ops w0 r w' hb with h1 | h1 | h1
  · exact Or.inl h1.1
  · exact Or.inr (Or.inl h1.1)
  · exact Or.inr (Or.inr h1)

/-- The results with which the loop of `PreferProjection` is left. -/
theorem preferProjection_result {P T It : Type} (ops : CADOps P T It UPoly) (fuel : Nat)
    (p : P) (t : T) (r : Except Fault Answer) (w : World P T It UPoly)
    (h : preferProjection ops fuel p t = some (r, w)) :
    r = .ok Answer.SAT ∨ r = .ok Answer.UNSAT ∨ r = .error Fault.assertion := by
  refine runLoop_done (preferProjectionBody ops)
    (fun r _ => r = .ok Answer.SAT ∨ r = .ok Answer.UNSAT ∨ r = .error Fault.assertion)
    ?_ fuel _ r w h
  intro w0 r w' hb
  rcases preferProjectionBody_done ops w0 r w' hb with h1 | h1 | h1
  · exact Or.inl h1.1
  · exact Or.inr (Or.inl h1.1)
  · exact Or.inr (Or.inr h1)

/-- The results with which the loops of `PreferSampling` are left. -/
theorem preferSampling_result {P T It : Type} (ops : CADOps P T It UPoly) (fuel : Nat)
    (p : P) (t : T) (r : Except Fault Answer) (w : World P T It UPoly)
    (h : preferSampling ops fuel p t = some (r, w)) :
    r = .ok Answer.SAT ∨ r = .ok Answer.UNSAT ∨ r = .error Fault.assertion := by
  refine runLoop_done (preferSamplingBody ops)
    (fun r _ => r = .ok Answer.SAT ∨ r = .ok Answer.UNSAT ∨ r = .error Fault.assertion)
    ?_ fuel _ r w h
  intro w0 r w' hb
  rcases preferSamplingBody_done ops w0 r w' hb with h1 | h1 | h1
  · exact Or.inl h1.1
  · exact Or.inr (Or.inl h1.1)
  · exact Or.inr (Or.inr h1)

theorem scenarioA_bySample {P T It : Type} (ops : CADOps P T It UPoly) (p : P) (t0 t1 : T)
    (it : It) (id : Nat) (p2 : P) (t2 t3 : T) (h : ScenarioA ops p t0 t1 it id p2 t2 t3) :
    bySampleStates ops p t0 =
      (if (ops.checkFullSamples p t0).1 = Answer.SAT then .done (.ok Answer.SAT) p t1
        else .next p2 t3) ∧
    bySampleStates ops p2 t3 = .done (.ok Answer.SAT) p2 (ops.checkFullSamples p2 t3).2 := by
  constructor
  · unfold bySampleStates
    rw [h.first_check]
    by_cases hs : (ops.checkFullSamples p t0).1 = Answer.SAT
    · rw [if_pos hs, if_pos hs]
    · rw [if_neg hs, if_neg hs, if_neg (not_not.2 h.root_next)]
      simp [fetchStates, liftStates, h.root_is_next, h.root_depth, h.dim_one, h.root_free,
        h.poly_found, h.lifted]
  · unfold bySampleStates
    rw [if_pos h.full_sat]

theorem scenarioA_preferProjection {P T It : Type} (ops : CADOps P T It UPoly) (p : P)
    (t0 t1 : T) (it : It) (id : Nat) (p2 : P) (t2 t3 : T)
    (h : ScenarioA ops p t0 t1 it id p2 t2 t3) :
    preferProjectionStates ops p t0 =
      (if (ops.checkFullSamples p t0).1 = Answer.SAT then .done (.ok Answer.SAT) p t1
        else .next p2 t3) ∧
    preferProjectionStates ops p2 t3 =
      .done (.ok Answer.SAT) p2 (ops.checkFullSamples p2 t3).2 := by
  constructor
  · unfold preferProjectionStates
    rw [h.first_check]
    by_cases hs : (ops.checkFullSamples p t0).1 = Answer.SAT
    · rw [if_pos hs, if_pos hs]
    · rw [if_neg hs, if_neg hs, if_neg (not_not.2 h.root_next)]
      simp [fetchStates, liftStates, h.root_is_next, h.root_depth, h.dim_one, h.root_free,
        h.poly_found, h.lifted]
  · unfold preferProjectionStates
    rw [if_pos h.full_sat]

theorem scenarioA_preferSampling {P T It : Type} (ops : CADOps P T It UPoly) (p : P)
    (t0 t1 : T) (it : It) (id : Nat) (p2 : P) (t2 t3 : T)
    (h : ScenarioA ops p t0 t1 it id p2 t2 t3) :
    preferSamplingStates ops p t0 =
      (if (ops.checkFullSamples p t0).1 = Answer.SAT then .done (.ok Answer.SAT) p t1
        else .next p2 t3) ∧
    preferSamplingStates ops p2 t3 =
      .done (.ok Answer.SAT) p2 (ops.checkFullSamples p2 t3).2 := by
  constructor
  · unfold preferSamplingStates
    rw [h.first_check, if_pos (Or.inl h.root_pending)]
    by_cases hs : (ops.checkFullSamples p t0).1 = Answer.SAT
    · rw [if_pos hs, if_pos hs]
    · rw [if_neg hs, if_neg hs]
      simp [fetchStates, liftStates, h.root_is_next, h.root_depth, h.dim_one, h.root_free,
        h.poly_found, h.lifted]
  · unfold preferSamplingStates
    rw [if_pos (Or.inr h.full_exists), if_pos h.full_sat]

theorem runStates_scenarioA {P T : Type} (f : P → T → PassStates P T) (c : Prop)
    [Decidable c] (p p2 : P) (t0 t1 t3 t4 : T)
    (h1 : f p t0 = (if c then .done (.ok Answer.SAT) p t1 else .next p2 t3))
    (h2 : f p2 t3 = .done (.ok Answer.SAT) p2 t4) (fuel : Nat) :
    ∃ p' t', runStates f (fuel + 2) p t0 = some (.ok Answer.SAT, p', t') := by
  simp only [runStates, h1]
  by_cases hc : c
  · rw [if_pos hc]
    exact ⟨_, _, rfl⟩
  · rw [if_neg hc]
    simp only [h2]
    exact ⟨_, _, rfl⟩

/-! ## Lemmas for the reads of `removePolynomial` -/

theorem strip_eq_nil_iff (n : Nat) (xs : List (UPoly × Nat)) :
    strip n xs = [] ↔ ∀ e ∈ xs, e.2 = n := by
  unfold strip
  rw [List.rdropWhile_eq_nil_iff]
  simp

theorem levelOK_or_emptied (n : Nat) (xs : List (UPoly × Nat)) (hle : ∀ e ∈ xs, e.2 ≤ n) :
    LevelOK n xs ∨ (xs ≠ [] ∧ strip n xs = []) := by
  by_cases hx : xs = []
  · exact Or.inl (Or.inl hx)
  by_cases hs : strip n xs = []
  · exact Or.inr ⟨hx, hs⟩
  left; right
  have hlast := List.rdropWhile_last_not (fun e : UPoly × Nat => decide (e.2 = n)) xs hs
  refine ⟨(strip n xs).getLast hs, List.getLast?_eq_getLast _ hs, ?_⟩
  have hmem : (strip n xs).getLast hs ∈ xs :=
    (strip_sublist n xs).subset (List.getLast_mem hs)
  have h1 := hle _ hmem
  have h2 : ¬ ((strip n xs).getLast hs).2 = n := by simpa [strip] using hlast
  omega

theorem removeAtLevel_undefined {t : Projection UPoly} (ht : Good t) (n L : Nat)
    (log : List (Nat × Bitset)) (hL : L < t.dim) (hemp : t.polys L ≠ [])
    (hs : strip n (t.polys L) = []) :
    removeAtLevel n (t, log) L = .error Fault.undefined := by
  have hget := ht.get_of_lt hL
  have hl := (level_ok_iff t L _).2 hget
  unfold removeAtLevel
  simp only [hl, mkLevel_polys, List.isEmpty_eq_true, hemp, if_false]
  rw [removeWhile_eq L n _ t ∅ ht (Nat.lt_succ_self _)]
  simp only [hs, if_true]

/-- The loop over the levels of `removePolynomial` reads `back()` of an emptied level, if
every level is in order or emptied by the removal and some level is emptied. -/
theorem fold_remove_undefined (n : Nat) :
    ∀ (m a : Nat) (t : Projection UPoly) (log : List (Nat × Bitset)), Good t →
      a + m ≤ t.dim →
      (∀ L, a ≤ L → L < a + m →
        LevelOK n (t.polys L) ∨ (t.polys L ≠ [] ∧ strip n (t.polys L) = [])) →
      (∃ L, a ≤ L ∧ L < a + m ∧ t.polys L ≠ [] ∧ strip n (t.polys L) = []) →
      foldE (removeAtLevel n) (List.range' a m) (t, log) = .error Fault.undefined := by
  intro m
  induction m with
  | zero =>
    intro a t log _ _ _ h
    obtain ⟨L, h1, h2, _⟩ := h
    omega
  | succ m ih =>
    intro a t log ht hdim hall hex
    have hL : a < t.dim := by omega
    rw [List.range'_succ]
    simp only [foldE]
    rcases hall a (Nat.le_refl _) (by omega) with hok | ⟨hemp, hs⟩
    · rw [removeAtLevel_ok ht n a log hL hok]
      simp only
      have hlt' : a < t.levels.length := by rw [ht.1]; exact hL
      have ht1 : Good (t.setLevel a (mkLevel (strip n (t.polys a)))) :=
        good_setLevel ht a _ (nodup_strip_keys (ht.nodup a))
      have hp1' : ∀ L, a + 1 ≤ L →
          (t.setLevel a (mkLevel (strip n (t.polys a)))).polys L = t.polys L := by
        intro L hh
        rw [polys_setLevel _ _ _ _ hlt']
        have : ¬ a = L := by omega
        simp [this]
      apply ih (a + 1) _ _ ht1
        (by show a + 1 + m ≤ t.mVars.length; unfold Projection.dim at hdim; omega)
      · intro L h1 h2
        rw [hp1' L h1]
        exact hall L (by omega) (by omega)
      · obtain ⟨L, h1, h2, h3, h4⟩ := hex
        have hne : L ≠ a := by
          rintro rfl
          rcases hok with hok | ⟨e, he, _⟩
          · exact h3 hok
          · rw [h4] at he; simp at he
        refine ⟨L, by omega, by omega, ?_, ?_⟩
        · rw [hp1' L (by omega)]; exact h3
        · rw [hp1' L (by omega)]; exact h4
    · rw [removeAtLevel_undefined ht n a log hL hemp hs]

/-! ## Lemmas for successive `getPolyForLifting` calls -/

theorem getPolyForLifting_next {s : Projection UPoly} (hg : Good s) {level : Nat}
    (hl : level < s.dim) (j : Nat) (e : UPoly × Nat) (he : (s.polys level)[j]? = some e) :
    getPolyForLifting s level (Finset.range j) = .ok (some e.1, Finset.range (j + 1), s) := by
  have hget := hg.get_of_lt hl
  have hlev : s.level level = .ok (mkLevel (s.polys level)) := (level_ok_iff s level _).2 hget
  have hlt : j < (s.polys level).length := (List.getElem?_eq_some.1 he).1
  have hq : (mkLevel (s.polys level)).mLiftingQueue =
      List.range j ++ j :: List.range' (j + 1) ((s.polys level).length - (j + 1)) := by
    show List.range (s.polys level).length = _
    rw [List.range_eq_range', List.range_eq_range']
    have e1 : (s.polys level).length = (1 + ((s.polys level).length - (j + 1))) + j := by omega
    conv_lhs => rw [e1]
    rw [← List.range'_append_1 0 j (1 + ((s.polys level).length - (j + 1)))]
    simp only [Nat.zero_add]
    rw [Nat.add_comm 1, List.range'_succ]
  simp only [getPolyForLifting, hlev, hq, mkLevel_polys]
  rw [scanQueue_first _ (Finset.range j) (List.range j) _ j e
    (fun i hi => Finset.mem_range.2 (List.mem_range.1 hi)) (by simp) he]
  simp only [Finset.range_succ]

theorem getPolyForLifting_done {s : Projection UPoly} (hg : Good s) {level : Nat}
    (hl : level < s.dim) :
    getPolyForLifting s level (Finset.range (s.polys level).length) =
      .ok (none, Finset.range (s.polys level).length, s) := by
  have hget := hg.get_of_lt hl
  have hlev : s.level level = .ok (mkLevel (s.polys level)) := (level_ok_iff s level _).2 hget
  simp only [getPolyForLifting, hlev, mkLevel_polys]
  rw [scanQueue_none _ _ _ (by
    intro i hi
    have : i ∈ List.range (s.polys level).length := hi
    exact Finset.mem_range.2 (List.mem_range.1 this))]

theorem liftingCalls_run {s : Projection UPoly} (hg : Good s) {level : Nat}
    (hl : level < s.dim) :
    ∀ (m j : Nat), j + m ≤ (s.polys level).length →
      liftingCalls s level m (Finset.range j) =
        .ok ((((s.polys level).drop j).take m).map (fun e => some e.1),
          Finset.range (j + m)) := by
  intro m
  induction m with
  | zero => intro j _; simp [liftingCalls]
  | succ m ih =>
    intro j hj
    have hlt : j < (s.polys level).length := by omega
    have he : (s.polys level)[j]? = some ((s.polys level)[j]) := List.getElem?_eq_getElem hlt
    simp only [liftingCalls]
    rw [getPolyForLifting_next hg hl j _ he]
    simp only
    rw [ih (j + 1) (by omega)]
    simp only
    rw [List.drop_eq_getElem_cons hlt, List.take_succ_cons, List.map_cons]
    congr 3
    omega

theorem liftingCalls_append (s : Projection UPoly) (level : Nat) :
    ∀ (m n : Nat) (slw : Bitset) (r : List (Option UPoly) × Bitset),
      liftingCalls s level m slw = .ok r →
      liftingCalls s level (m + n) slw =
        match liftingCalls s level n r.2 with
        | .error e => .error e
        | .ok rest => .ok (r.1 ++ rest.1, rest.2) := by
  intro m
  induction m with
  | zero =>
    intro n slw r h
    simp only [liftingCalls, Except.ok.injEq] at h
    subst h
    simp only [Nat.zero_add, List.nil_append]
    cases liftingCalls s level n slw <;> rfl
  | succ m ih =>
    intro n slw r h
    have e : m + 1 + n = (m + n) + 1 := by omega
    rw [e]
    simp only [liftingCalls] at h ⊢
    cases hg : getPolyForLifting s level slw with
    | error e => rw [hg] at h; simp at h
    | ok g =>
      rw [hg] at h
      simp only at h ⊢
      cases hr : liftingCalls s level m g.2.1 with
      | error e => rw [hr] at h; simp at h
      | ok rest =>
        rw [hr] at h
        simp only [Except.ok.injEq] at h
        subst h
        rw [ih n g.2.1 rest hr]
        simp only
        cases liftingCalls s level n rest.2 <;> rfl

/-! ## Lemmas for the order of the events of `addToProjection` -/

/-- A run of `addToProjection` for a level only appends events, and all of them take place
at that level or at a later one. -/
theorem tr_levels (K : Kernel UPoly) :
    ∀ (k level : Nat) (p : UPoly) (o : Nat) (s : Projection UPoly)
      (log : List (ProjEvent UPoly)),
      ∃ new, (addToProjectionTr K k level p o s log).2 = log ++ new ∧
        ∀ ev ∈ new, level ≤ ev.level := by
  intro k
  induction k with
  | zero =>
    intro level p o s log
    simp only [addToProjectionTr]
    split
    · exact ⟨[.purge level p], rfl, by simp [ProjEvent.level]⟩
    · exact ⟨[], by simp, by simp⟩
  | succ k ih =>
    intro level p o s log
    simp only [addToProjectionTr]
    split
    · exact ⟨[.purge level p], rfl, by simp [ProjEvent.level]⟩
    split
    · obtain ⟨new, g1, g2⟩ := ih (level + 1) (K.switchVariable p (s.var (level + 1))) o s
        (log ++ [.forward level p])
      refine ⟨.forward level p :: new, ?_, ?_⟩
      · rw [g1]; simp
      · intro ev hev
        rcases List.mem_cons.1 hev with h | h
        · rw [h]; simp [ProjEvent.level]
        · exact Nat.le_trans (Nat.le_succ _) (g2 ev h)
    split
    · exact ⟨[], by simp, by simp⟩
    split
    · exact ⟨[], by simp, by simp⟩
    split
    · exact ⟨[], by simp, by simp⟩
    rename_i l hl
    split
    · split
      · split
        · exact ⟨[.duplicate level p], rfl, by simp [ProjEvent.level]⟩
        · split
          · exact ⟨_, rfl, by simp [ProjEvent.level]⟩
          · exact ⟨_, rfl, by simp [ProjEvent.level]⟩
      · exact ⟨[.duplicate level p], rfl, by simp [ProjEvent.level]⟩
    · have hstep : ∀ (og : Nat) (np : UPoly) (st : Projection UPoly)
          (lg : List (ProjEvent UPoly)), True →
          (∀ s', (addToProjectionTr K k (level + 1) np og st lg).1 = .ok s' → True) ∧
          ∃ new, (addToProjectionTr K k (level + 1) np og st lg).2 = lg ++ new ∧
            ∀ ev ∈ new, level ≤ ev.level := by
        intro og np st lg _
        obtain ⟨new, g1, g2⟩ := ih (level + 1) np og st lg
        exact ⟨fun _ _ => trivial, new, g1, fun ev hev => Nat.le_trans (Nat.le_succ _) (g2 ev hev)⟩
      generalize (if level = 0 then l.mPolynomials.length else o) = n
      have hproj : ∃ new, (if level < s.dim - 1 then
            match foldTr (fun st lg np => addToProjectionTr K k (level + 1) np n st lg)
                (K.projectUnary p (s.var (level + 1))) s (log ++ [.unary level p]) with
            | (.error e, lg) => (.error e, lg)
            | (.ok s1, lg) =>
              foldTr (fun st lg' it =>
                  foldTr (fun st' lg'' np =>
                      addToProjectionTr K k (level + 1) np (max n it.2) st' lg'')
                    (K.projectBinary p it.1 (s.var (level + 1))) st
                    (lg' ++ [.binary level p it.1]))
                l.mPolynomials s1 lg
          else (.ok s, log)).2 = log ++ new ∧ ∀ ev ∈ new, level ≤ ev.level := by
        by_cases hlt : level < s.dim - 1
        · simp only [hlt, if_true]
          obtain ⟨_, newu, u2, u3⟩ := foldTr_inv
            (fun st lg np => addToProjectionTr K k (level + 1) np n st lg) (fun _ => True)
            (fun ev => level ≤ ev.level)
            (K.projectUnary p (s.var (level + 1))) (fun np _ st lg hst => hstep n np st lg hst)
            s (log ++ [.unary level p]) trivial
          rcases hfu : foldTr (fun st lg np => addToProjectionTr K k (level + 1) np n st lg)
            (K.projectUnary p (s.var (level + 1))) s (log ++ [ProjEvent.unary level p])
            with ⟨r, lg⟩
          rw [hfu] at u2
          simp only at u2
          have hAu : ∀ ev ∈ ProjEvent.unary level p :: newu, level ≤ ev.level := by
            intro ev hev
            rcases List.mem_cons.1 hev with h | h
            · rw [h]; simp [ProjEvent.level]
            · exact u3 ev h
          cases r with
          | error e =>
            refine ⟨.unary level p :: newu, ?_, hAu⟩
            simp only [u2]; simp
          | ok s1 =>
            simp only
            obtain ⟨_, newb, b2, b3⟩ := foldTr_inv
              (fun st lg' (it : UPoly × Nat) =>
                foldTr (fun st' lg'' np =>
                    addToProjectionTr K k (level + 1) np (max n it.2) st' lg'')
                  (K.projectBinary p it.1 (s.var (level + 1))) st
                  (lg' ++ [.binary level p it.1])) (fun _ => True)
              (fun ev => level ≤ ev.level) l.mPolynomials
              (by
                intro it _ st lg' _
                beta_reduce
                obtain ⟨_, newc, c2, c3⟩ := foldTr_inv
                  (fun st' lg'' np => addToProjectionTr K k (level + 1) np (max n it.2) st' lg'')
                  (fun _ => True) (fun ev => level ≤ ev.level)
                  (K.projectBinary p it.1 (s.var (level + 1)))
                  (fun np _ st' lg'' hst' => hstep (max n it.2) np st' lg'' hst')
                  st (lg' ++ [.binary level p it.1]) trivial
                refine ⟨fun _ _ => trivial, .binary level p it.1 :: newc, ?_, ?_⟩
                · rw [c2]; simp
                · intro ev hev
                  rcases List.mem_cons.1 hev with h | h
                  · rw [h]; simp [ProjEvent.level]
                  · exact c3 ev h)
              s1 lg trivial
            refine ⟨.unary level p :: (newu ++ newb), ?_, ?_⟩
            · rw [b2, u2]; simp
            · intro ev hev
              rcases List.mem_cons.1 hev with h | h
              · rw [h]; simp [ProjEvent.level]
              · rcases List.mem_append.1 h with h | h
                · exact u3 ev h
                · exact b3 ev h
        · simp only [hlt, if_false]
          exact ⟨[], by simp, by simp⟩
      obtain ⟨newp, p2, p3⟩ := hproj
      generalize (if level < s.dim - 1 then
            match foldTr (fun st lg np => addToProjectionTr K k (level + 1) np n st lg)
                (K.projectUnary p (s.var (level + 1))) s (log ++ [.unary level p]) with
            | (.error e, lg) => (.error e, lg)
            | (.ok s1, lg) =>
              foldTr (fun st lg' it =>
                  foldTr (fun st' lg'' np =>
                      addToProjectionTr K k (level + 1) np (max n it.2) st' lg'')
                    (K.projectBinary p it.1 (s.var (level + 1))) st
                    (lg' ++ [.binary level p it.1]))
                l.mPolynomials s1 lg
          else (.ok s, log)) = res at p2 ⊢
      rcases res with ⟨r, lg⟩
      simp only at p2
      cases r with
      | error e => exact ⟨newp, p2, p3⟩
      | ok s2 =>
        simp only
        cases insertPolynomial s2 level p n with
        | error e => exact ⟨newp, p2, p3⟩
        | ok s3 =>
          refine ⟨newp ++ [.insert level p n], ?_, ?_⟩
          · simp only [p2, List.append_assoc]
          · intro ev hev
            rcases List.mem_append.1 hev with h | h
            · exact p3 ev h
            · simp only [List.mem_singleton] at h
              rw [h]; simp [ProjEvent.level]

theorem eventsAt_append (L : Nat) (a b : List (ProjEvent UPoly)) :
    eventsAt L (a ++ b) = eventsAt L a ++ eventsAt L b := by
  simp [eventsAt]

theorem eventsAt_of_later (L : Nat) (new : List (ProjEvent UPoly))
    (h : ∀ ev ∈ new, L + 1 ≤ ev.level) : eventsAt L new = [] := by
  unfold eventsAt
  rw [List.filter_eq_nil_iff]
  intro ev hev
  have := h ev hev
  simp only [decide_eq_true_eq]
  omega

/-- A call for the next level does not add events at the level. -/
theorem tr_eventsAt (K : Kernel UPoly) (L k : Nat) (p : UPoly) (o : Nat)
    (s : Projection UPoly) (log : List (ProjEvent UPoly)) :
    eventsAt L (addToProjectionTr K k (L + 1) p o s log).2 = eventsAt L log := by
  obtain ⟨new, h1, h2⟩ := tr_levels K k (L + 1) p o s log
  rw [h1, eventsAt_append, eventsAt_of_later L new h2, List.append_nil]

theorem foldTr_eventsAt_same {σ α : Type}
    (f : σ → List (ProjEvent UPoly) → α → Except Fault σ × List (ProjEvent UPoly)) (L : Nat)
    (l : List α) (hstep : ∀ a s log, eventsAt L (f s log a).2 = eventsAt L log) :
    ∀ s log, eventsAt L (foldTr f l s log).2 = eventsAt L log := by
  induction l with
  | nil => intro s log; rfl
  | cons a rest ih =>
    intro s log
    have ha := hstep a s log
    simp only [foldTr]
    rcases hf : f s log a with ⟨r, lg⟩
    rw [hf] at ha
    simp only at ha
    cases r with
    | error e => exact ha
    | ok s' => simp only; rw [ih s' lg, ha]

theorem foldTr_eventsAt_ok {σ α : Type}
    (f : σ → List (ProjEvent UPoly) → α → Except Fault σ × List (ProjEvent UPoly)) (L : Nat)
    (h : α → List (ProjEvent UPoly)) (l : List α)
    (hstep : ∀ a s log, eventsAt L (f s log a).2 = eventsAt L log ++ h a) :
    ∀ s log s', (foldTr f l s log).1 = .ok s' →
      eventsAt L (foldTr f l s log).2 = eventsAt L log ++ (l.map h).flatten := by
  induction l with
  | nil => intro s log s' _; simp [foldTr]
  | cons a rest ih =>
    intro s log s' hok
    have ha := hstep a s log
    simp only [foldTr] at hok ⊢
    rcases hf : f s log a with ⟨r, lg⟩
    rw [hf] at ha hok
    simp only at ha
    cases r with
    | error e => simp at hok
    | ok s1 =>
      simp only at hok ⊢
      rw [ih s1 lg s' hok, ha]
      simp

theorem foldTr_appends {σ α : Type}
    (f : σ → List (ProjEvent UPoly) → α → Except Fault σ × List (ProjEvent UPoly))
    (l : List α) (hstep : ∀ a s log, ∃ new, (f s log a).2 = log ++ new) :
    ∀ s log, ∃ new, (foldTr f l s log).2 = log ++ new := by
  intro s log
  obtain ⟨_, new, h, _⟩ := foldTr_inv f (fun _ => True) (fun _ => True) l
    (fun a _ s log _ => ⟨fun _ _ => trivial, by
      obtain ⟨new, h⟩ := hstep a s log
      exact ⟨new, h, fun _ _ => trivial⟩⟩) s log trivial
  exact ⟨new, h⟩

/-- The events of a call of `addToProjection` that inserts a new polynomial at a level
below the last one: the unary projection, then the events of the calls for the next level
interleaved with one binary projection per stored polynomial, in order, then the
insertion. -/
theorem tr_new_run (K : Kernel UPoly) (k L : Nat) (p : UPoly) (o : Nat)
    (s s' : Projection UPoly) (log log' : List (ProjEvent UPoly)) (l : Level UPoly)
    (hp : canBePurged K p = false)
    (hf : ¬ (0 < L ∧ L < s.dim - 1 ∧ canBeForwarded K L p = true))
    (hlt : L < s.dim - 1) (hv : K.mainVar p = s.var L)
    (hl : s.levels[L]? = some l) (hn : mapFind l.mPolynomialIDs p = none)
    (h : addToProjectionTr K (k + 1) L p o s log = (.ok s', log')) :
    ∃ mid, log' = log ++ (.unary L p :: mid ++
        [.insert L p (if L = 0 then l.mPolynomials.length else o)]) ∧
      eventsAt L mid = l.mPolynomials.map (fun it => ProjEvent.binary L p it.1) := by
  have hl' := (level_ok_iff s L l).2 hl
  have hd : L < s.dim := by omega
  have hf2 : ¬ (0 < L ∧ canBeForwarded K L p = true) := fun hc => hf ⟨hc.1, hlt, hc.2⟩
  simp only [addToProjectionTr, hp, hf2, hd, hv, hl', hn, hlt, if_true, if_false,
    not_true_eq_false, ne_eq, Bool.false_eq_true, true_and] at h
  generalize (if L = 0 then l.mPolynomials.length else o) = n at h ⊢
  -- the unary projection
  obtain ⟨newu, hu⟩ := foldTr_appends
    (fun st lg np => addToProjectionTr K k (L + 1) np n st lg)
    (K.projectUnary p (s.var (L + 1)))
    (fun np st lg => by
      obtain ⟨new, h1, _⟩ := tr_levels K k (L + 1) np n st lg
      exact ⟨new, h1⟩) s (log ++ [.unary L p])
  have hue := foldTr_eventsAt_same
    (fun st lg np => addToProjectionTr K k (L + 1) np n st lg) L
    (K.projectUnary p (s.var (L + 1)))
    (fun np st lg => tr_eventsAt K L k np n st lg) s (log ++ [.unary L p])
  rcases hfu : foldTr (fun st lg np => addToProjectionTr K k (L + 1) np n st lg)
    (K.projectUnary p (s.var (L + 1))) s (log ++ [ProjEvent.unary L p]) with ⟨r, lg1⟩
  rw [hfu] at h hu hue
  simp only at hu hue
  cases r with
  | error e => simp at h
  | ok s1 =>
    simp only at h
    -- the binary projections
    have hbstep : ∀ (it : UPoly × Nat) (st : Projection UPoly) (lg' : List (ProjEvent UPoly)),
        (∃ new, (foldTr (fun st' lg'' np =>
            addToProjectionTr K k (L + 1) np (max n it.2) st' lg'')
          (K.projectBinary p it.1 (s.var (L + 1))) st (lg' ++ [.binary L p it.1])).2
            = lg' ++ new) ∧
        eventsAt L (foldTr (fun st' lg'' np =>
            addToProjectionTr K k (L + 1) np (max n it.2) st' lg'')
          (K.projectBinary p it.1 (s.var (L + 1))) st (lg' ++ [.binary L p it.1])).2
            = eventsAt L lg' ++ [.binary L p it.1] := by
      intro it st lg'
      constructor
      · obtain ⟨new, hnew⟩ := foldTr_appends
          (fun st' lg'' np => addToProjectionTr K k (L + 1) np (max n it.2) st' lg'')
          (K.projectBinary p it.1 (s.var (L + 1)))
          (fun np st lg => by
            obtain ⟨new, h1, _⟩ := tr_levels K k (L + 1) np (max n it.2) st lg
            exact ⟨new, h1⟩) st (lg' ++ [.binary L p it.1])
        exact ⟨.binary L p it.1 :: new, by rw [hnew]; simp⟩
      · rw [foldTr_eventsAt_same
          (fun st' lg'' np => addToProjectionTr K k (L + 1) np (max n it.2) st' lg'') L
          (K.projectBinary p it.1 (s.var (L + 1)))
          (fun np st lg => tr_eventsAt K L k np (max n it.2) st lg), eventsAt_append]
        simp [eventsAt, ProjEvent.level]
    obtain ⟨newb, hb⟩ := foldTr_appends
      (fun st lg' (it : UPoly × Nat) =>
        foldTr (fun st' lg'' np => addToProjectionTr K k (L + 1) np (max n it.2) st' lg'')
          (K.projectBinary p it.1 (s.var (L + 1))) st (lg' ++ [.binary L p it.1]))
      l.mPolynomials (fun it st lg' => (hbstep it st lg').1) s1 lg1
    rcases hfb : foldTr (fun st lg' (it : UPoly × Nat) =>
        foldTr (fun st' lg'' np => addToProjectionTr K k (L + 1) np (max n it.2) st' lg'')
          (K.projectBinary p it.1 (s.var (L + 1))) st (lg' ++ [.binary L p it.1]))
      l.mPolynomials s1 lg1 with ⟨r2, lg2⟩
    have hbe := foldTr_eventsAt_ok
      (fun st lg' (it : UPoly × Nat) =>
        foldTr (fun st' lg'' np => addToProjectionTr K k (L + 1) np (max n it.2) st' lg'')
          (K.projectBinary p it.1 (s.var (L + 1))) st (lg' ++ [.binary L p it.1])) L
      (fun it => [ProjEvent.binary L p it.1])
      l.mPolynomials (fun it st lg' => (hbstep it st lg').2) s1 lg1
    rw [hfb] at h hb hbe
    simp only at hb hbe
    cases r2 with
    | error e => simp at h
    | ok s2 =>
      simp only at h
      cases hins : insertPolynomial s2 L p n with
      | error e => rw [hins] at h; simp at h
      | ok s3 =>
        rw [hins] at h
        simp only [Prod.mk.injEq, Except.ok.injEq] at h
        obtain ⟨_, hlog⟩ := h
        have hbe' := hbe s2 rfl
        refine ⟨newu ++ newb, ?_, ?_⟩
        · rw [← hlog, hb, hu]; simp
        · rw [hb, hu] at hbe'
          rw [hu] at hue
          simp only [eventsAt_append] at hbe' hue
          have hu0 : eventsAt L newu = [] := by
            have := hue
            simpa using this
          rw [eventsAt_append, hu0, List.nil_append]
          rw [hu0, List.append_nil] at hbe'
          have := List.append_cancel_left hbe'
          rw [this]
          induction l.mPolynomials with
          | nil => rfl
          | cons a rest ih => simp [ih]

/-! ## Lemmas for a pass with a conflicting sample -/

theorem fetchStep_conflict {P T It : Type} (ops : CADOps P T It UPoly) (w : World P T It UPoly)
    (hd : ops.depth w.tree (ops.getNextSample w.tree) < ops.dim)
    (hc : ops.hasConflictWithConstraint w.tree (ops.getNextSample w.tree) = true) :
    fetchStep ops w = .inl (.next ⟨w.proj, ops.removeNextSample w.tree,
      w.history ++ [⟨w.proj, w.tree, .getNextSample (ops.getNextSample w.tree)⟩,
        ⟨w.proj, w.tree, .hasConflictWithConstraint (ops.getNextSample w.tree) true⟩,
        ⟨w.proj, w.tree, .removeNextSample⟩]⟩) := by
  unfold fetchStep
  simp only [World.record]
  rw [if_neg (not_not.2 hd), if_pos hc, hc]
  simp

theorem bySampleBody_conflict {P T It : Type} (ops : CADOps P T It UPoly)
    (w : World P T It UPoly)
    (hs : (ops.checkFullSamples w.proj w.tree).1 ≠ Answer.SAT)
    (hn : ops.hasNextSample (ops.checkFullSamples w.proj w.tree).2 = true)
    (hd : ops.depth (ops.checkFullSamples w.proj w.tree).2
      (ops.getNextSample (ops.checkFullSamples w.proj w.tree).2) < ops.dim)
    (hc : ops.hasConflictWithConstraint (ops.checkFullSamples w.proj w.tree).2
      (ops.getNextSample (ops.checkFullSamples w.proj w.tree).2) = true) :
    bySampleBody ops w = .next ⟨w.proj,
      ops.removeNextSample (ops.checkFullSamples w.proj w.tree).2,
      w.history ++ [⟨w.proj, w.tree, .checkFullSamples (ops.checkFullSamples w.proj w.tree).1⟩,
        ⟨w.proj, (ops.checkFullSamples w.proj w.tree).2, .hasNextSample true⟩,
        ⟨w.proj, (ops.checkFullSamples w.proj w.tree).2,
          .getNextSample (ops.getNextSample (ops.checkFullSamples w.proj w.tree).2)⟩,
        ⟨w.proj, (ops.checkFullSamples w.proj w.tree).2,
          .hasConflictWithConstraint
            (ops.getNextSample (ops.checkFullSamples w.proj w.tree).2) true⟩,
        ⟨w.proj, (ops.checkFullSamples w.proj w.tree).2, .removeNextSample⟩]⟩ := by
  unfold bySampleBody
  simp only [checkStep]
  rw [if_neg hs]
  simp only [World.record]
  rw [if_neg (not_not.2 hn), hn]
  rw [fetchStep_conflict ops _ hd hc]
  simp

theorem preferProjectionBody_conflict {P T It : Type} (ops : CADOps P T It UPoly)
    (w : World P T It UPoly)
    (hs : (ops.checkFullSamples w.proj w.tree).1 ≠ Answer.SAT)
    (hn : ops.hasNextSample (ops.checkFullSamples w.proj w.tree).2 = true)
    (hd : ops.depth (ops.checkFullSamples w.proj w.tree).2
      (ops.getNextSample (ops.checkFullSamples w.proj w.tree).2) < ops.dim)
    (hc : ops.hasConflictWithConstraint (ops.checkFullSamples w.proj w.tree).2
      (ops.getNextSample (ops.checkFullSamples w.proj w.tree).2) = true) :
    preferProjectionBody ops w = .next ⟨w.proj,
      ops.removeNextSample (ops.checkFullSamples w.proj w.tree).2,
      w.history ++ [⟨w.proj, w.tree, .checkFullSamples (ops.checkFullSamples w.proj w.tree).1⟩,
        ⟨w.proj, (ops.checkFullSamples w.proj w.tree).2, .hasNextSample true⟩,
        ⟨w.proj, (ops.checkFullSamples w.proj w.tree).2,
          .getNextSample (ops.getNextSample (ops.checkFullSamples w.proj w.tree).2)⟩,
        ⟨w.proj, (ops.checkFullSamples w.proj w.tree).2,
          .hasConflictWithConstraint
            (ops.getNextSample (ops.checkFullSamples w.proj w.tree).2) true⟩,
        ⟨w.proj, (ops.checkFullSamples w.proj w.tree).2, .removeNextSample⟩]⟩ := by
  unfold preferProjectionBody
  simp only [checkStep]
  rw [if_neg hs]
  simp only [World.record]
  rw [if_neg (not_not.2 hn), hn]
  rw [fetchStep_conflict ops _ hd hc]
  simp

theorem preferSamplingBody_conflict {P T It : Type} (ops : CADOps P T It UPoly)
    (w : World P T It UPoly)
    (hcond : (samplingCond ops w).1 = true)
    (hs : (ops.checkFullSamples w.proj w.tree).1 ≠ Answer.SAT)
    (hd : ops.depth (ops.checkFullSamples w.proj w.tree).2
      (ops.getNextSample (ops.checkFullSamples w.proj w.tree).2) < ops.dim)
    (hc : ops.hasConflictWithConstraint (ops.checkFullSamples w.proj w.tree).2
      (ops.getNextSample (ops.checkFullSamples w.proj w.tree).2) = true) :
    preferSamplingBody ops w = .next ⟨w.proj,
      ops.removeNextSample (ops.checkFullSamples w.proj w.tree).2,
      (samplingCond ops w).2.history ++
        [⟨w.proj, w.tree, .checkFullSamples (ops.checkFullSamples w.proj w.tree).1⟩,
        ⟨w.proj, (ops.checkFullSamples w.proj w.tree).2,
          .getNextSample (ops.getNextSample (ops.checkFullSamples w.proj w.tree).2)⟩,
        ⟨w.proj, (ops.checkFullSamples w.proj w.tree).2,
          .hasConflictWithConstraint
            (ops.getNextSample (ops.checkFullSamples w.proj w.tree).2) true⟩,
        ⟨w.proj, (ops.checkFullSamples w.proj w.tree).2, .removeNextSample⟩]⟩ := by
  obtain ⟨_, h2, h3⟩ := samplingCond_states ops w
  unfold preferSamplingBody
  simp only
  rw [if_pos hcond]
  simp only [checkStep]
  generalize samplingCond ops w = c at h2 h3 ⊢
  obtain ⟨b, W0⟩ := c
  simp only at h2 h3 ⊢
  rw [← h2, ← h3] at hs hd hc ⊢
  rw [if_neg hs]
  rw [fetchStep_conflict ops _ hd hc]
  simp [World.record]

/-! ## Lemmas for the frame of `addPolynomial` -/

theorem idOf_of_get {s : Projection UPoly} (hg : Good s) (L i : Nat) (e : UPoly × Nat)
    (h : (s.polys L)[i]? = some e) : s.idOf L e.1 = some i := by
  have hlt : L < s.dim := by
    by_contra hc
    rw [polys_eq_nil_of_ge hg (Nat.le_of_not_lt hc)] at h
    simp at h
  unfold Projection.idOf
  rw [hg.get_of_lt hlt]
  have := mapFind_idsFrom_of_get 0 (s.polys L) (hg.nodup L) i e h
  simpa [mkLevel] using this

theorem ext_get {n lo : Nat} {s t : Projection UPoly} (h : Ext n lo s t) (L i : Nat)
    (e : UPoly × Nat) (he : (s.polys L)[i]? = some e) : (t.polys L)[i]? = some e := by
  obtain ⟨ext, h1, _⟩ := h.2.2 L
  rw [h1, List.getElem?_append_left (List.getElem?_eq_some.1 he).1]
  exact he

theorem ext_levels_below {n lo : Nat} {s t : Projection UPoly} (hs : Good s) (ht : Good t)
    (h : Ext n lo s t) (M : Nat) (hM : M < lo) : t.levels[M]? = s.levels[M]? := by
  have hp := h.polys_below hM
  have hd : t.dim = s.dim := h.dim
  by_cases hlt : M < s.dim
  · rw [hs.get_of_lt hlt, ht.get_of_lt (by rw [hd]; exact hlt), hp]
  · rw [List.getElem?_eq_none (by rw [ht.1]; show t.dim ≤ M; rw [hd]; exact Nat.le_of_not_lt hlt),
      List.getElem?_eq_none (by rw [hs.1]; exact Nat.le_of_not_lt hlt)]

theorem record_history {P T It : Type} (w : World P T It UPoly) (c : Call It UPoly)
    (p : P) (t : T) : (w.record c p t).history = w.history ++ [⟨w.proj, w.tree, c⟩] := rfl

theorem fetchStep_trace {P T It : Type} (ops : CADOps P T It UPoly) (w : World P T It UPoly) :
    (∃ pass, fetchStep ops w = .inl pass ∧
      ∀ k, pass.world.history = w.history ++ fetchTrace ops w.proj w.tree k) ∨
    (∃ w1, fetchStep ops w = .inr (ops.getNextSample w.tree, w1) ∧
      w1.proj = w.proj ∧ w1.tree = w.tree ∧
      ∀ k, w.history ++ fetchTrace ops w.proj w.tree k =
        w1.history ++ k (ops.getNextSample w.tree)) := by
  unfold fetchStep fetchTrace
  simp only [record_proj, record_tree]
  by_cases hd : ops.depth w.tree (ops.getNextSample w.tree) < ops.dim
  · by_cases hc : ops.hasConflictWithConstraint w.tree (ops.getNextSample w.tree) = true
    · left
      simp only [hd, hc, not_true_eq_false, if_false, if_true]
      exact ⟨_, rfl, fun _ => by simp [Pass.world, record_history, record_proj, record_tree]⟩
    · right
      simp only [hd, hc, not_true_eq_false, if_false]
      exact ⟨_, rfl, rfl, rfl, fun _ => by simp [record_history, record_proj, record_tree]⟩
  · left
    simp only [hd, not_false_eq_true, if_true]
    exact ⟨_, rfl, fun _ => by simp [Pass.world, record_history, record_proj, record_tree]⟩

theorem liftStep_trace {P T It : Type} (ops : CADOps P T It UPoly) (it : It)
    (w : World P T It UPoly) :
    (∃ w1, liftStep ops it w = .inl w1 ∧
      ∀ k, w1.history = w.history ++ liftTrace ops w.proj w.tree it k) ∨
    (∃ w1, liftStep ops it w = .inr w1 ∧
      w1.proj = (ops.getPolyForLifting w.proj (ops.idLP (ops.depth w.tree it + 1)) w.tree it).2.1 ∧
      w1.tree = (ops.getPolyForLifting w.proj (ops.idLP (ops.depth w.tree it + 1)) w.tree it).2.2 ∧
      ∀ k, w.history ++ liftTrace ops w.proj w.tree it k = w1.history ++ k w1.proj w1.tree) := by
  unfold liftStep liftTrace
  simp only [record_proj, record_tree]
  cases hg : (ops.getPolyForLifting w.proj (ops.idLP (ops.depth w.tree it + 1)) w.tree it).1 with
  | none =>
    right
    exact ⟨_, rfl, rfl, rfl, fun _ => by simp [record_history, record_proj, record_tree, hg]⟩
  | some id =>
    left
    exact ⟨_, rfl, fun _ => by simp [record_history, record_proj, record_tree, hg]⟩

theorem bySampleBody_trace {P T It : Type} (ops : CADOps P T It UPoly)
    (w : World P T It UPoly) :
    (bySampleBody ops w).world.history = w.history ++ bySampleTrace ops w.proj w.tree := by
  unfold bySampleBody bySampleTrace
  simp only [checkStep, record_proj, record_tree]
  by_cases h1 : (ops.checkFullSamples w.proj w.tree).1 = Answer.SAT
  · simp only [h1, if_true]; rfl
  · simp only [h1, if_false]
    by_cases h2 : ops.hasNextSample (ops.checkFullSamples w.proj w.tree).2 = true
    · simp only [h2, not_true_eq_false, if_false]
      generalize hW : World.record (World.record w _ _ _) _ _ _ = W
      have hWp : W.proj = w.proj := by rw [← hW]; rfl
      have hWt : W.tree = (ops.checkFullSamples w.proj w.tree).2 := by rw [← hW]; rfl
      have hWh : W.history = w.history ++
          [⟨w.proj, w.tree, .checkFullSamples (ops.checkFullSamples w.proj w.tree).1⟩] ++
          [⟨w.proj, (ops.checkFullSamples w.proj w.tree).2, .hasNextSample true⟩] := by
        rw [← hW]; rfl
      rw [List.append_cons w.history, List.append_cons (w.history ++ [_]), ← hWh, ← hWt, ← hWp]
      clear hW hWp hWt hWh h1 h2
      rcases fetchStep_trace ops W with ⟨pass, hf, hh⟩ | ⟨w1, hf, hp, ht, hh⟩
      · rw [hf]
        exact hh _
      · rw [hf, hh]
        simp only []
        generalize ops.getNextSample W.tree = it
        rw [← hp, ← ht]
        clear hf hp ht hh
        rcases liftStep_trace ops it w1 with ⟨w2, hl, hh⟩ | ⟨w2, hl, hp, ht, hh⟩
        · rw [hl]
          exact hh _
        · rw [hl, hh]
          simp only [record_proj, record_tree]
          split_ifs <;> simp [Pass.world, record_history, record_proj, record_tree]
    · simp only [h2, not_false_eq_true, if_true]
      simp [Pass.world, record_history, record_proj, record_tree, h2]

theorem preferProjectionBody_trace {P T It : Type} (ops : CADOps P T It UPoly)
    (w : World P T It UPoly) :
    (preferProjectionBody ops w).world.history =
      w.history ++ preferProjectionTrace ops w.proj w.tree := by
  unfold preferProjectionBody preferProjectionTrace
  simp only [checkStep, record_proj, record_tree]
  by_cases h1 : (ops.checkFullSamples w.proj w.tree).1 = Answer.SAT
  · simp only [h1, if_true]; rfl
  · simp only [h1, if_false]
    by_cases h2 : ops.hasNextSample (ops.checkFullSamples w.proj w.tree).2 = true
    · simp only [h2, not_true_eq_false, if_false]
      generalize hW : World.record (World.record w _ _ _) _ _ _ = W
      have hWp : W.proj = w.proj := by rw [← hW]; rfl
      have hWt : W.tree = (ops.checkFullSamples w.proj w.tree).2 := by rw [← hW]; rfl
      have hWh : W.history = w.history ++
          [⟨w.proj, w.tree, .checkFullSamples (ops.checkFullSamples w.proj w.tree).1⟩] ++
          [⟨w.proj, (ops.checkFullSamples w.proj w.tree).2, .hasNextSample true⟩] := by
        rw [← hW]; rfl
      rw [List.append_cons w.history, List.append_cons (w.history ++ [_]), ← hWh, ← hWt, ← hWp]
      clear hW hWp hWt hWh h1 h2
      rcases fetchStep_trace ops W with ⟨pass, hf, hh⟩ | ⟨w1, hf, hp, ht, hh⟩
      · rw [hf]
        exact hh _
      · rw [hf, hh]
        simp only []
        generalize ops.getNextSample W.tree = it
        rw [← hp, ← ht]
        clear hf hp ht hh
        rcases liftStep_trace ops it w1 with ⟨w2, hl, hh⟩ | ⟨w2, hl, hp, ht, hh⟩
        · rw [hl]
          exact hh _
        · rw [hl, hh]
          simp only [record_proj, record_tree]
          split_ifs <;> simp [Pass.world, record_history, record_proj, record_tree]
    · simp only [h2, not_false_eq_true, if_true]
      simp [Pass.world, record_history, record_proj, record_tree, h2]

theorem samplingCond_trace {P T It : Type} (ops : CADOps P T It UPoly)
    (w : World P T It UPoly) :
    (samplingCond ops w).2.history = w.history ++ samplingCondTrace ops w.proj w.tree := by
  unfold samplingCond samplingCondTrace
  simp only [record_proj, record_tree]
  by_cases hb : ops.hasNextSample w.tree = true
  · simp [hb, record_history]
  · simp [hb, record_history, record_proj, record_tree]

theorem preferSamplingBody_trace {P T It : Type} (ops : CADOps P T It UPoly)
    (w : World P T It UPoly) :
    (preferSamplingBody ops w).world.history =
      w.history ++ preferSamplingTrace ops w.proj w.tree := by
  unfold preferSamplingBody preferSamplingTrace
  rw [← List.append_assoc, ← samplingCond_trace]
  obtain ⟨hc1, hc2, hc3⟩ := samplingCond_states ops w
  generalize samplingCond ops w = c at hc1 hc2 hc3
  obtain ⟨b, W0⟩ := c
  simp only at hc1 hc2 hc3
  simp only [checkStep, record_proj, record_tree]
  rw [← hc2, ← hc3]
  rw [← hc3] at hc1
  by_cases h0 : b = true
  · rw [if_pos h0, if_pos (hc1.1 h0)]
    by_cases h1 : (ops.checkFullSamples W0.proj W0.tree).1 = Answer.SAT
    · simp only [h1, if_true]; rfl
    · simp only [h1, if_false]
      generalize hW : World.record W0 _ _ _ = W
      have hWp : W.proj = W0.proj := by rw [← hW]; rfl
      have hWt : W.tree = (ops.checkFullSamples W0.proj W0.tree).2 := by rw [← hW]; rfl
      have hWh : W.history = W0.history ++
          [⟨W0.proj, W0.tree, .checkFullSamples (ops.checkFullSamples W0.proj W0.tree).1⟩] := by
        rw [← hW]; rfl
      rw [List.append_cons W0.history, ← hWh, ← hWt, ← hWp]
      clear hW hWp hWt hWh h1
      rcases fetchStep_trace ops W with ⟨pass, hf, hh⟩ | ⟨w1, hf, hp, ht, hh⟩
      · rw [hf]
        exact hh _
      · rw [hf, hh]
        simp only []
        generalize ops.getNextSample W.tree = it
        rw [← hp, ← ht]
        clear hf hp ht hh
        rcases liftStep_trace ops it w1 with ⟨w2, hl, hh⟩ | ⟨w2, hl, hp, ht, hh⟩
        · rw [hl]
          exact hh _
        · rw [hl, hh]
          simp only [record_proj, record_tree]
          split_ifs <;> simp [Pass.world, record_history, record_proj, record_tree]
  · rw [if_neg h0, if_neg (fun h => h0 (hc1.2 h))]
    split_ifs <;> simp [Pass.world, record_history, record_proj, record_tree]
theorem eachFrom_nil {σ : Type} (ok : List σ → σ → Prop) (h : List σ) : EachFrom ok h [] := by
  intro pre st post he
  simp at he

theorem eachFrom_cons {σ : Type} (ok : List σ → σ → Prop) (h : List σ) (a : σ) (ext : List σ) :
    EachFrom ok h (a :: ext) ↔ ok h a ∧ EachFrom ok (h ++ [a]) ext := by
  constructor
  · intro hf
    refine ⟨by simpa using hf [] a ext rfl, ?_⟩
    intro pre st post he
    have := hf (a :: pre) st post (by rw [he]; rfl)
    simpa using this
  · rintro ⟨ha, hf⟩ pre st post he
    cases pre with
    | nil =>
      simp only [List.nil_append, List.cons.injEq] at he
      rw [← he.1]
      simpa using ha
    | cons b pre' =>
      simp only [List.cons_append, List.cons.injEq] at he
      have := hf pre' st post he.2
      rw [← he.1]
      simpa using this

theorem eachFrom_append {σ : Type} (ok : List σ → σ → Prop) (h e1 e2 : List σ) :
    EachFrom ok h (e1 ++ e2) ↔ EachFrom ok h e1 ∧ EachFrom ok (h ++ e1) e2 := by
  induction e1 generalizing h with
  | nil => simp [eachFrom_nil]
  | cons a e1 ih =>
    rw [List.cons_append, eachFrom_cons, eachFrom_cons, ih]
    simp [and_assoc]

theorem eachCall_iff {σ : Type} (ok : List σ → σ → Prop) (h : List σ) :
    EachCall ok h ↔ EachFrom ok [] h := by
  unfold EachCall EachFrom
  simp

theorem eachCall_append {σ : Type} (ok : List σ → σ → Prop) (h ext : List σ) :
    EachCall ok (h ++ ext) ↔ EachCall ok h ∧ EachFrom ok h ext := by
  rw [eachCall_iff, eachCall_iff, eachFrom_append]
  simp

theorem worldAfter_runLoop {P T It : Type} (body : World P T It UPoly → Pass P T It UPoly) :
    ∀ (fuel : Nat) (w : World P T It UPoly) (r : Except Fault Answer) (w' : World P T It UPoly),
      runLoop body fuel w = some (r, w') → w' = worldAfter body fuel w := by
  intro fuel
  induction fuel with
  | zero => intro w r w' h; simp [runLoop] at h
  | succ n ih =>
    intro w r w' h
    simp only [runLoop, worldAfter] at h ⊢
    cases hb : body w with
    | done res w1 =>
      rw [hb] at h
      simp only [Option.some.injEq, Prod.mk.injEq] at h
      exact h.2.symm
    | next w1 =>
      rw [hb] at h
      exact ih w1 r w' h

/-- Induction along the passes of a loop: `I` holds while the loop runs, `J` in every world
reached. -/
theorem worldAfter_inv {P T It : Type} (body : World P T It UPoly → Pass P T It UPoly)
    (I J : World P T It UPoly → Prop) (hIJ : ∀ w, I w → J w)
    (hnext : ∀ w w', I w → body w = .next w' → I w')
    (hdone : ∀ w r w', I w → body w = .done r w' → J w') :
    ∀ (n : Nat) (w : World P T It UPoly), I w → J (worldAfter body n w) := by
  intro n
  induction n with
  | zero => intro w hw; exact hIJ w hw
  | succ n ih =>
    intro w hw
    simp only [worldAfter]
    cases hb : body w with
    | done res w1 => exact hdone w res w1 hw hb
    | next w1 => exact ih w1 (hnext w w1 hw hb)

theorem worldAfter_inv1 {P T It : Type} (body : World P T It UPoly → Pass P T It UPoly)
    (I : World P T It UPoly → Prop) (hpass : ∀ w, I w → I (body w).world) :
    ∀ (n : Nat) (w : World P T It UPoly), I w → I (worldAfter body n w) :=
  worldAfter_inv body I I (fun _ h => h)
    (fun w w' hw hb => by have := hpass w hw; rw [hb] at this; exact this)
    (fun w r w' hw hb => by have := hpass w hw; rw [hb] at this; exact this)
theorem eachFrom_fetchTrace {P T It : Type} (ops : CADOps P T It UPoly)
    (ok : List (Step P T It UPoly) → Step P T It UPoly → Prop)
    (h : List (Step P T It UPoly)) (p : P) (t : T) (k : It → List (Step P T It UPoly))
    (h1 : ok h ⟨p, t, .getNextSample (ops.getNextSample t)⟩)
    (h2 : ok (h ++ [⟨p, t, .getNextSample (ops.getNextSample t)⟩])
      ⟨p, t, .hasConflictWithConstraint (ops.getNextSample t)
        (ops.hasConflictWithConstraint t (ops.getNextSample t))⟩)
    (h3 : ok (h ++ [⟨p, t, .getNextSample (ops.getNextSample t)⟩] ++
        [⟨p, t, .hasConflictWithConstraint (ops.getNextSample t)
          (ops.hasConflictWithConstraint t (ops.getNextSample t))⟩])
      ⟨p, t, .removeNextSample⟩)
    (h4 : EachFrom ok (h ++ [⟨p, t, .getNextSample (ops.getNextSample t)⟩] ++
        [⟨p, t, .hasConflictWithConstraint (ops.getNextSample t)
          (ops.hasConflictWithConstraint t (ops.getNextSample t))⟩]) (k (ops.getNextSample t))) :
    EachFrom ok h (fetchTrace ops p t k) := by
  unfold fetchTrace
  rw [eachFrom_cons]
  refine ⟨h1, ?_⟩
  by_cases hd : ops.depth t (ops.getNextSample t) < ops.dim
  · rw [if_neg (not_not.2 hd), eachFrom_cons]
    refine ⟨h2, ?_⟩
    by_cases hc : ops.hasConflictWithConstraint t (ops.getNextSample t) = true
    · rw [if_pos hc, eachFrom_cons]
      exact ⟨h3, eachFrom_nil _ _⟩
    · rw [if_neg hc]
      exact h4
  · rw [if_pos hd]
    exact eachFrom_nil _ _

theorem eachFrom_liftTrace {P T It : Type} (ops : CADOps P T It UPoly)
    (ok : List (Step P T It UPoly) → Step P T It UPoly → Prop)
    (h : List (Step P T It UPoly)) (p : P) (t : T) (it : It)
    (k : P → T → List (Step P T It UPoly))
    (h1 : ok h ⟨p, t, .getPolyForLifting (ops.idLP (ops.depth t it + 1)) it
      (ops.getPolyForLifting p (ops.idLP (ops.depth t it + 1)) t it).1⟩)
    (h2 : ∀ id, (ops.getPolyForLifting p (ops.idLP (ops.depth t it + 1)) t it).1 = some id →
      ok (h ++ [⟨p, t, .getPolyForLifting (ops.idLP (ops.depth t it + 1)) it (some id)⟩])
        ⟨(ops.getPolyForLifting p (ops.idLP (ops.depth t it + 1)) t it).2.1,
          (ops.getPolyForLifting p (ops.idLP (ops.depth t it + 1)) t it).2.2,
          .getPolynomialById (ops.idLP (ops.depth t it + 1)) id⟩ ∧
      ok (h ++ [⟨p, t, .getPolyForLifting (ops.idLP (ops.depth t it + 1)) it (some id)⟩] ++
          [⟨(ops.getPolyForLifting p (ops.idLP (ops.depth t it + 1)) t it).2.1,
            (ops.getPolyForLifting p (ops.idLP (ops.depth t it + 1)) t it).2.2,
            .getPolynomialById (ops.idLP (ops.depth t it + 1)) id⟩])
        ⟨(ops.getPolyForLifting p (ops.idLP (ops.depth t it + 1)) t it).2.1,
          (ops.getPolyForLifting p (ops.idLP (ops.depth t it + 1)) t it).2.2,
          .liftSample it
            (ops.getPolynomialById
              (ops.getPolyForLifting p (ops.idLP (ops.depth t it + 1)) t it).2.1
              (ops.idLP (ops.depth t it + 1)) id) id⟩)
    (h3 : (ops.getPolyForLifting p (ops.idLP (ops.depth t it + 1)) t it).1 = none →
      EachFrom ok (h ++ [⟨p, t, .getPolyForLifting (ops.idLP (ops.depth t it + 1)) it none⟩])
        (k (ops.getPolyForLifting p (ops.idLP (ops.depth t it + 1)) t it).2.1
          (ops.getPolyForLifting p (ops.idLP (ops.depth t it + 1)) t it).2.2)) :
    EachFrom ok h (liftTrace ops p t it k) := by
  unfold liftTrace
  rw [eachFrom_cons]
  refine ⟨h1, ?_⟩
  cases hg : (ops.getPolyForLifting p (ops.idLP (ops.depth t it + 1)) t it).1 with
  | none =>
    simp only []
    exact h3 hg
  | some id =>
    simp only []
    rw [eachFrom_cons, eachFrom_cons]
    exact ⟨(h2 id hg).1, (h2 id hg).2, eachFrom_nil _ _⟩

theorem liftOk_liftTrace {P T It : Type} (ops : CADOps P T It UPoly)
    (h : List (Step P T It UPoly)) (p : P) (t : T) (it : It)
    (k : P → T → List (Step P T It UPoly))
    (hk : ∀ h' p' t', EachFrom (LiftOk ops) h' (k p' t')) :
    EachFrom (LiftOk ops) h (liftTrace ops p t it k) := by
  apply eachFrom_liftTrace
  · intro it' poly id hc; simp at hc
  · intro id hg
    constructor
    · intro it' poly id' hc; simp at hc
    · intro it' poly id' hc
      simp only [Call.liftSample.injEq] at hc
      obtain ⟨rfl, rfl, rfl⟩ := hc
      refine ⟨h, p, t, by simp, ?_, rfl⟩
      rw [← hg]
  · intro _
    exact hk _ _ _

theorem liftOk_fetchTrace {P T It : Type} (ops : CADOps P T It UPoly)
    (h : List (Step P T It UPoly)) (p : P) (t : T) (k : It → List (Step P T It UPoly))
    (hk : ∀ h' it, EachFrom (LiftOk ops) h' (k it)) :
    EachFrom (LiftOk ops) h (fetchTrace ops p t k) := by
  apply eachFrom_fetchTrace
  · intro it' poly id hc; simp at hc
  · intro it' poly id hc; simp at hc
  · intro it' poly id hc; simp at hc
  · exact hk _ _

theorem liftOk_bySampleTrace {P T It : Type} (ops : CADOps P T It UPoly)
    (h : List (Step P T It UPoly)) (p : P) (t : T) :
    EachFrom (LiftOk ops) h (bySampleTrace ops p t) := by
  unfold bySampleTrace
  rw [eachFrom_cons]
  refine ⟨fun it' poly id hc => by simp at hc, ?_⟩
  by_cases h1 : (ops.checkFullSamples p t).1 = Answer.SAT
  · rw [if_pos h1]; exact eachFrom_nil _ _
  rw [if_neg h1, eachFrom_cons]
  refine ⟨fun it' poly id hc => by simp at hc, ?_⟩
  by_cases h2 : ops.hasNextSample (ops.checkFullSamples p t).2 = true
  swap
  · rw [if_pos h2]; exact eachFrom_nil _ _
  rw [if_neg (not_not.2 h2)]
  apply liftOk_fetchTrace
  intro h' it
  apply liftOk_liftTrace
  intro h'' p' t'
  rw [eachFrom_cons, eachFrom_cons]
  refine ⟨fun it' poly id hc => by simp at hc, fun it' poly id hc => by simp at hc, ?_⟩
  by_cases h3 : ops.hasNextSample (ops.removeNextSample t') = true
  · rw [if_neg (not_not.2 h3)]; exact eachFrom_nil _ _
  rw [if_pos h3, eachFrom_cons]
  refine ⟨fun it' poly id hc => by simp at hc, ?_⟩
  by_cases h4 : (ops.projectNewPolynomial p').1.Nonempty
  · rw [if_pos h4, eachFrom_cons]
    exact ⟨fun it' poly id hc => by simp at hc, eachFrom_nil _ _⟩
  · rw [if_neg h4]; exact eachFrom_nil _ _
theorem bySampleOk_bySampleTrace {P T It : Type} (ops : CADOps P T It UPoly)
    (h : List (Step P T It UPoly)) (p : P) (t : T) :
    EachFrom (BySampleOk ops) h (bySampleTrace ops p t) := by
  unfold bySampleTrace
  rw [eachFrom_cons]
  refine ⟨by simp [BySampleOk, NextOk, BySampleProjectOk, RestoreOk], ?_⟩
  by_cases h1 : (ops.checkFullSamples p t).1 = Answer.SAT
  · rw [if_pos h1]; exact eachFrom_nil _ _
  rw [if_neg h1, eachFrom_cons]
  refine ⟨by simp [BySampleOk, NextOk, BySampleProjectOk, RestoreOk], ?_⟩
  by_cases h2 : ops.hasNextSample (ops.checkFullSamples p t).2 = true
  swap
  · rw [if_pos h2]; exact eachFrom_nil _ _
  rw [if_neg (not_not.2 h2)]
  apply eachFrom_fetchTrace
  · simp [BySampleOk, NextOk, BySampleProjectOk, RestoreOk, h2]
  · simp [BySampleOk, NextOk, BySampleProjectOk, RestoreOk]
  · simp [BySampleOk, NextOk, BySampleProjectOk, RestoreOk]
  apply eachFrom_liftTrace
  · simp [BySampleOk, NextOk, BySampleProjectOk, RestoreOk]
  · intro id _
    simp [BySampleOk, NextOk, BySampleProjectOk, RestoreOk]
  intro hg
  rw [eachFrom_cons, eachFrom_cons]
  refine ⟨by simp [BySampleOk, NextOk, BySampleProjectOk, RestoreOk],
    by simp [BySampleOk, NextOk, BySampleProjectOk, RestoreOk], ?_⟩
  by_cases h3 : ops.hasNextSample (ops.removeNextSample
      (ops.getPolyForLifting p (ops.idLP (ops.depth (ops.checkFullSamples p t).2
        (ops.getNextSample (ops.checkFullSamples p t).2) + 1)) (ops.checkFullSamples p t).2
        (ops.getNextSample (ops.checkFullSamples p t).2)).2.2) = true
  · rw [if_neg (not_not.2 h3)]; exact eachFrom_nil _ _
  rw [if_pos h3, eachFrom_cons]
  refine ⟨by simp [BySampleOk, NextOk, BySampleProjectOk, RestoreOk, h3], ?_⟩
  split_ifs with h4
  · rw [eachFrom_cons]
    exact ⟨by simp [BySampleOk, NextOk, BySampleProjectOk, RestoreOk, h4], eachFrom_nil _ _⟩
  · exact eachFrom_nil _ _
theorem fetch_joint {P T It : Type} (ops : CADOps P T It UPoly)
    (R : List (Step P T It UPoly) → PassStates P T → Prop)
    (pre : List (Step P T It UPoly)) (p : P) (t : T)
    (k : It → List (Step P T It UPoly)) (ks : It → PassStates P T)
    (h1 : ¬ ops.depth t (ops.getNextSample t) < ops.dim →
      R (pre ++ [⟨p, t, .getNextSample (ops.getNextSample t)⟩])
        (.done (.error Fault.assertion) p t))
    (h2 : ops.depth t (ops.getNextSample t) < ops.dim →
      ops.hasConflictWithConstraint t (ops.getNextSample t) = true →
      R (pre ++ [⟨p, t, .getNextSample (ops.getNextSample t)⟩,
          ⟨p, t, .hasConflictWithConstraint (ops.getNextSample t) true⟩,
          ⟨p, t, .removeNextSample⟩])
        (.next p (ops.removeNextSample t)))
    (h3 : ops.depth t (ops.getNextSample t) < ops.dim →
      ops.hasConflictWithConstraint t (ops.getNextSample t) = false →
      R (pre ++ [⟨p, t, .getNextSample (ops.getNextSample t)⟩,
          ⟨p, t, .hasConflictWithConstraint (ops.getNextSample t) false⟩] ++
            k (ops.getNextSample t))
        (ks (ops.getNextSample t))) :
    R (pre ++ fetchTrace ops p t k) (fetchStates ops p t ks) := by
  unfold fetchTrace fetchStates
  by_cases hd : ops.depth t (ops.getNextSample t) < ops.dim
  · rw [if_neg (not_not.2 hd), if_neg (not_not.2 hd)]
    by_cases hc : ops.hasConflictWithConstraint t (ops.getNextSample t) = true
    · rw [if_pos hc, if_pos hc, hc]
      exact h2 hd hc
    · rw [if_neg hc, if_neg hc]
      have hc' : ops.hasConflictWithConstraint t (ops.getNextSample t) = false := by
        simpa using hc
      rw [hc']
      have := h3 hd hc'
      simpa using this
  · rw [if_pos hd, if_pos hd]
    exact h1 hd

theorem lift_joint {P T It : Type} (ops : CADOps P T It UPoly)
    (R : List (Step P T It UPoly) → PassStates P T → Prop)
    (pre : List (Step P T It UPoly)) (p : P) (t : T) (it : It)
    (k : P → T → List (Step P T It UPoly)) (ks : P → T → PassStates P T)
    (h1 : ∀ id, (ops.getPolyForLifting p (ops.idLP (ops.depth t it + 1)) t it).1 = some id →
      R (pre ++ [⟨p, t, .getPolyForLifting (ops.idLP (ops.depth t it + 1)) it (some id)⟩,
          ⟨(ops.getPolyForLifting p (ops.idLP (ops.depth t it + 1)) t it).2.1,
            (ops.getPolyForLifting p (ops.idLP (ops.depth t it + 1)) t it).2.2,
            .getPolynomialById (ops.idLP (ops.depth t it + 1)) id⟩,
          ⟨(ops.getPolyForLifting p (ops.idLP (ops.depth t it + 1)) t it).2.1,
            (ops.getPolyForLifting p (ops.idLP (ops.depth t it + 1)) t it).2.2,
            .liftSample it
              (ops.getPolynomialById
                (ops.getPolyForLifting p (ops.idLP (ops.depth t it + 1)) t it).2.1
                (ops.idLP (ops.depth t it + 1)) id) id⟩])
        (.next (ops.getPolyForLifting p (ops.idLP (ops.depth t it + 1)) t it).2.1
          (ops.liftSample (ops.getPolyForLifting p (ops.idLP (ops.depth t it + 1)) t it).2.2 it
            (ops.getPolynomialById
              (ops.getPolyForLifting p (ops.idLP (ops.depth t it + 1)) t it).2.1
              (ops.idLP (ops.depth t it + 1)) id) id)))
    (h2 : (ops.getPolyForLifting p (ops.idLP (ops.depth t it + 1)) t it).1 = none →
      R (pre ++ [⟨p, t, .getPolyForLifting (ops.idLP (ops.depth t it + 1)) it none⟩] ++
          k (ops.getPolyForLifting p (ops.idLP (ops.depth t it + 1)) t it).2.1
            (ops.getPolyForLifting p (ops.idLP (ops.depth t it + 1)) t it).2.2)
        (ks (ops.getPolyForLifting p (ops.idLP (ops.depth t it + 1)) t it).2.1
          (ops.getPolyForLifting p (ops.idLP (ops.depth t it + 1)) t it).2.2)) :
    R (pre ++ liftTrace ops p t it k) (liftStates ops p t it ks) := by
  unfold liftTrace liftStates
  cases hg : (ops.getPolyForLifting p (ops.idLP (ops.depth t it + 1)) t it).1 with
  | none =>
    simp only []
    have := h2 hg
    simpa using this
  | some id =>
    simp only []
    exact h1 id hg
theorem liftCalls_append {P T It : Type} (a b : List (Step P T It UPoly)) :
    liftCalls (a ++ b) = liftCalls a ++ liftCalls b := by
  simp [liftCalls]

/-- The part of a pass that the three loop bodies share, from `getNextSample` on. -/
theorem passLifts_core {P T It : Type} (ops : CADOps P T It UPoly) (lw : T → It → Bitset)
    (hlw : LiftedWith ops lw) (p : P) (t0 t1 : T) (hc : ∀ it, lw t0 it ⊆ lw t1 it)
    (pre : List (Step P T It UPoly)) (hpre : liftCalls pre = [])
    (k : It → P → T → List (Step P T It UPoly)) (ks : It → P → T → PassStates P T)
    (hk : ∀ it p2 t2, (∀ it', lw t0 it' ⊆ lw t2 it') →
      (∀ it', lw t0 it' ⊆ lw (ks it p2 t2).tree it') ∧ liftCalls (k it p2 t2) = []) :
    PassLifts lw t0 (pre ++ fetchTrace ops p t1 (fun it => liftTrace ops p t1 it (k it)))
      (fetchStates ops p t1 (fun it => liftStates ops p t1 it (ks it))) := by
  apply fetch_joint ops (PassLifts lw t0)
  · intro _
    exact ⟨hc, Or.inl (by simp only [liftCalls_append, hpre, List.nil_append]; simp [liftCalls])⟩
  · intro _ _
    exact ⟨fun it => (hc it).trans (hlw.remove_mono t1 it),
      Or.inl (by simp only [liftCalls_append, hpre, List.nil_append]; simp [liftCalls])⟩
  intro _ _
  generalize ops.getNextSample t1 = it
  apply lift_joint ops (PassLifts lw t0)
  · intro id hg
    constructor
    · intro it'
      exact ((hc it').trans (hlw.get_mono _ _ _ _ _)).trans (hlw.lift_mono _ _ _ _ _)
    · right
      refine ⟨it, id, by simp only [liftCalls_append, hpre, List.nil_append]; simp [liftCalls], ?_, ?_⟩
      · exact fun hmem => (hlw.get_some _ _ _ _ _ hg).1 (hc it hmem)
      · exact hlw.lift_mono _ _ _ _ _ (hlw.get_some _ _ _ _ _ hg).2
  · intro hg
    have hgm := fun it' => (hc it').trans (hlw.get_mono p
      (ops.idLP (ops.depth t1 it + 1)) t1 it it')
    obtain ⟨hm, hl⟩ := hk it _ _ hgm
    exact ⟨hm, Or.inl (by simp only [liftCalls_append, hpre, hl, List.nil_append]; simp [liftCalls])⟩

theorem passLifts_bySample {P T It : Type} (ops : CADOps P T It UPoly) (lw : T → It → Bitset)
    (hlw : LiftedWith ops lw) (p : P) (t : T) :
    PassLifts lw t (bySampleTrace ops p t) (bySampleStates ops p t) := by
  unfold bySampleTrace bySampleStates
  by_cases h1 : (ops.checkFullSamples p t).1 = Answer.SAT
  · rw [if_pos h1, if_pos h1]
    exact ⟨fun it => hlw.check_mono p t it, Or.inl (by simp [liftCalls])⟩
  rw [if_neg h1, if_neg h1]
  by_cases h2 : ops.hasNextSample (ops.checkFullSamples p t).2 = true
  swap
  · rw [if_pos h2, if_pos h2]
    exact ⟨fun it => hlw.check_mono p t it, Or.inl (by simp [liftCalls])⟩
  rw [if_neg (not_not.2 h2), if_neg (not_not.2 h2)]
  rw [← List.singleton_append, ← List.singleton_append (l := fetchTrace _ _ _ _),
    ← List.append_assoc]
  apply passLifts_core ops lw hlw p t _ (fun it => hlw.check_mono p t it) _
    (by simp [liftCalls])
  intro it p2 t2 hm
  have hr := fun it' => (hm it').trans (hlw.remove_mono t2 it')
  constructor
  · intro it'
    split_ifs
    · exact hr it'
    · exact (hr it').trans (hlw.restore_mono _ it')
    · exact hr it'
  · split_ifs <;> simp [liftCalls]

theorem passLifts_preferProjection {P T It : Type} (ops : CADOps P T It UPoly)
    (lw : T → It → Bitset) (hlw : LiftedWith ops lw) (p : P) (t : T) :
    PassLifts lw t (preferProjectionTrace ops p t) (preferProjectionStates ops p t) := by
  unfold preferProjectionTrace preferProjectionStates
  by_cases h1 : (ops.checkFullSamples p t).1 = Answer.SAT
  · rw [if_pos h1, if_pos h1]
    exact ⟨fun it => hlw.check_mono p t it, Or.inl (by simp [liftCalls])⟩
  rw [if_neg h1, if_neg h1]
  by_cases h2 : ops.hasNextSample (ops.checkFullSamples p t).2 = true
  swap
  · rw [if_pos h2, if_pos h2]
    exact ⟨fun it => hlw.check_mono p t it, Or.inl (by simp [liftCalls])⟩
  rw [if_neg (not_not.2 h2), if_neg (not_not.2 h2)]
  rw [← List.singleton_append, ← List.singleton_append (l := fetchTrace _ _ _ _),
    ← List.append_assoc]
  apply passLifts_core ops lw hlw p t _ (fun it => hlw.check_mono p t it) _
    (by simp [liftCalls])
  intro it p2 t2 hm
  constructor
  · intro it'
    split_ifs
    · exact (hm it').trans (hlw.restore_mono _ it')
    · exact (hm it').trans (hlw.trivial_mono _ _ it')
    · exact ((hm it').trans (hlw.trivial_mono _ _ it')).trans (hlw.remove_mono _ it')
    · exact (hm it').trans (hlw.remove_mono _ it')
  · split_ifs <;> simp [liftCalls]

theorem passLifts_preferSampling {P T It : Type} (ops : CADOps P T It UPoly)
    (lw : T → It → Bitset) (hlw : LiftedWith ops lw) (p : P) (t : T) :
    PassLifts lw t (preferSamplingTrace ops p t) (preferSamplingStates ops p t) := by
  unfold preferSamplingTrace preferSamplingStates
  have hcond : liftCalls (samplingCondTrace ops p t) = [] := by
    unfold samplingCondTrace
    split_ifs <;> simp [liftCalls]
  by_cases h0 : ops.hasNextSample t = true ∨ ops.hasFullSamples t = true
  · rw [if_pos h0, if_pos h0]
    by_cases h1 : (ops.checkFullSamples p t).1 = Answer.SAT
    · rw [if_pos h1, if_pos h1]
      exact ⟨fun it => hlw.check_mono p t it,
        Or.inl (by simp only [liftCalls_append, hcond, List.nil_append]; simp [liftCalls])⟩
    rw [if_neg h1, if_neg h1]
    rw [← List.singleton_append (l := fetchTrace _ _ _ _), ← List.append_assoc]
    apply passLifts_core ops lw hlw p t _ (fun it => hlw.check_mono p t it) _
      (by simp only [liftCalls_append, hcond, List.nil_append]; simp [liftCalls])
    intro it p2 t2 hm
    constructor
    · intro it'
      split_ifs
      · exact (hm it').trans (hlw.trivial_mono _ _ it')
      · exact ((hm it').trans (hlw.trivial_mono _ _ it')).trans (hlw.remove_mono _ it')
    · split_ifs <;> simp [liftCalls]
  · rw [if_neg h0, if_neg h0]
    constructor
    · intro it'
      split_ifs
      · exact Finset.Subset.refl _
      · exact hlw.restore_mono _ it'
    · left
      rw [liftCalls_append, hcond]
      split_ifs <;> simp [liftCalls]
theorem liftOk_single {P T It : Type} (ops : CADOps P T It UPoly)
    (h : List (Step P T It UPoly)) (st : Step P T It UPoly)
    (hst : ∀ it poly id, st.call ≠ .liftSample it poly id) : LiftOk ops h st :=
  fun it poly id hc => absurd hc (hst it poly id)

theorem liftOk_preferProjectionTrace {P T It : Type} (ops : CADOps P T It UPoly)
    (h : List (Step P T It UPoly)) (p : P) (t : T) :
    EachFrom (LiftOk ops) h (preferProjectionTrace ops p t) := by
  unfold preferProjectionTrace
  rw [eachFrom_cons]
  refine ⟨liftOk_single _ _ _ (by simp), ?_⟩
  by_cases h1 : (ops.checkFullSamples p t).1 = Answer.SAT
  · rw [if_pos h1]; exact eachFrom_nil _ _
  rw [if_neg h1, eachFrom_cons]
  refine ⟨liftOk_single _ _ _ (by simp), ?_⟩
  by_cases h2 : ops.hasNextSample (ops.checkFullSamples p t).2 = true
  swap
  · rw [if_pos h2]; exact eachFrom_nil _ _
  rw [if_neg (not_not.2 h2)]
  apply liftOk_fetchTrace
  intro h' it
  apply liftOk_liftTrace
  intro h'' p' t'
  rw [eachFrom_cons]
  refine ⟨liftOk_single _ _ _ (by simp), ?_⟩
  by_cases h3 : (ops.projectNewPolynomial p').1.Nonempty
  · rw [if_pos h3, eachFrom_cons]
    exact ⟨liftOk_single _ _ _ (by simp), eachFrom_nil _ _⟩
  rw [if_neg h3, eachFrom_cons]
  refine ⟨liftOk_single _ _ _ (by simp), ?_⟩
  by_cases h4 : ops.empty (ops.projectNewPolynomial p').2 (ops.idLP (ops.depth t' it + 1)) = true
  · rw [if_pos h4, eachFrom_cons]
    refine ⟨liftOk_single _ _ _ (by simp), ?_⟩
    by_cases h5 : (ops.addTrivialSample t' it).1 = true
    · rw [if_neg (not_not.2 h5)]; exact eachFrom_nil _ _
    · rw [if_pos h5, eachFrom_cons]
      exact ⟨liftOk_single _ _ _ (by simp), eachFrom_nil _ _⟩
  · rw [if_neg h4, eachFrom_cons]
    exact ⟨liftOk_single _ _ _ (by simp), eachFrom_nil _ _⟩

theorem liftOk_preferSamplingTrace {P T It : Type} (ops : CADOps P T It UPoly)
    (h : List (Step P T It UPoly)) (p : P) (t : T) :
    EachFrom (LiftOk ops) h (preferSamplingTrace ops p t) := by
  unfold preferSamplingTrace
  rw [eachFrom_append]
  constructor
  · unfold samplingCondTrace
    rw [eachFrom_cons]
    refine ⟨liftOk_single _ _ _ (by simp), ?_⟩
    split_ifs
    · exact eachFrom_nil _ _
    · rw [eachFrom_cons]
      exact ⟨liftOk_single _ _ _ (by simp), eachFrom_nil _ _⟩
  generalize h ++ samplingCondTrace ops p t = h0
  by_cases h0c : ops.hasNextSample t = true ∨ ops.hasFullSamples t = true
  · rw [if_pos h0c, eachFrom_cons]
    refine ⟨liftOk_single _ _ _ (by simp), ?_⟩
    by_cases h1 : (ops.checkFullSamples p t).1 = Answer.SAT
    · rw [if_pos h1]; exact eachFrom_nil _ _
    rw [if_neg h1]
    apply liftOk_fetchTrace
    intro h' it
    apply liftOk_liftTrace
    intro h'' p' t'
    rw [eachFrom_cons]
    refine ⟨liftOk_single _ _ _ (by simp), ?_⟩
    by_cases h5 : (ops.addTrivialSample t' it).1 = true
    · rw [if_neg (not_not.2 h5)]; exact eachFrom_nil _ _
    · rw [if_pos h5, eachFrom_cons]
      exact ⟨liftOk_single _ _ _ (by simp), eachFrom_nil _ _⟩
  · rw [if_neg h0c, eachFrom_cons]
    refine ⟨liftOk_single _ _ _ (by simp), ?_⟩
    by_cases h3 : (ops.projectNewPolynomial p).1 = ∅
    · rw [if_pos h3]; exact eachFrom_nil _ _
    · rw [if_neg h3, eachFrom_cons]
      exact ⟨liftOk_single _ _ _ (by simp), eachFrom_nil _ _⟩

theorem nextOk_preferProjectionTrace {P T It : Type} (ops : CADOps P T It UPoly)
    (h : List (Step P T It UPoly)) (p : P) (t : T) :
    EachFrom (NextOk ops) h (preferProjectionTrace ops p t) := by
  unfold preferProjectionTrace
  rw [eachFrom_cons]
  refine ⟨by simp [NextOk], ?_⟩
  by_cases h1 : (ops.checkFullSamples p t).1 = Answer.SAT
  · rw [if_pos h1]; exact eachFrom_nil _ _
  rw [if_neg h1, eachFrom_cons]
  refine ⟨by simp [NextOk], ?_⟩
  by_cases h2 : ops.hasNextSample (ops.checkFullSamples p t).2 = true
  swap
  · rw [if_pos h2]; exact eachFrom_nil _ _
  rw [if_neg (not_not.2 h2)]
  apply eachFrom_fetchTrace
  · simp [NextOk, h2]
  · simp [NextOk]
  · simp [NextOk]
  apply eachFrom_liftTrace
  · simp [NextOk]
  · intro id _
    simp [NextOk]
  intro hg
  rw [eachFrom_cons]
  refine ⟨by simp [NextOk], ?_⟩
  split_ifs <;> simp [eachFrom_cons, eachFrom_nil, NextOk]
theorem eachCall_worldAfter {P T It : Type}
    (body : World P T It UPoly → Pass P T It UPoly)
    (trace : P → T → List (Step P T It UPoly))
    (htrace : ∀ w, (body w).world.history = w.history ++ trace w.proj w.tree)
    (ok : List (Step P T It UPoly) → Step P T It UPoly → Prop)
    (hok : ∀ h p t, EachFrom ok h (trace p t)) :
    ∀ (n : Nat) (w : World P T It UPoly), EachCall ok w.history →
      EachCall ok (worldAfter body n w).history := by
  apply worldAfter_inv1 body (fun w => EachCall ok w.history)
  intro w hw
  rw [htrace, eachCall_append]
  exact ⟨hw, hok _ _ _⟩

theorem init_history {P T It : Type} (ops : CADOps P T It UPoly) (p : P) (t : T) :
    (World.init ops p t : World P T It UPoly).history =
      [⟨p, t, .resetFullSamples⟩, ⟨p, ops.resetFullSamples t, .restoreRemovedSamples⟩] := rfl

theorem eachCall_init {P T It : Type} (ops : CADOps P T It UPoly) (p : P) (t : T)
    (ok : List (Step P T It UPoly) → Step P T It UPoly → Prop)
    (h1 : ok [] ⟨p, t, .resetFullSamples⟩)
    (h2 : ok [⟨p, t, .resetFullSamples⟩] ⟨p, ops.resetFullSamples t, .restoreRemovedSamples⟩) :
    EachCall ok (World.init ops p t : World P T It UPoly).history := by
  rw [init_history, eachCall_iff, eachFrom_cons, eachFrom_cons]
  exact ⟨h1, by simpa using h2, eachFrom_nil _ _⟩

theorem world_tree_states {P T It : Type} (pass : Pass P T It UPoly) :
    pass.world.tree = pass.states.tree ∧ pass.world.proj = pass.states.proj := by
  cases pass <;> exact ⟨rfl, rfl⟩

/-- No `liftSample` call of a run repeats an earlier one, and the ids of all of them are in
the `liftedWith` vectors of their samples. -/
theorem liftCalls_worldAfter {P T It : Type}
    (lw : T → It → Bitset) (body : World P T It UPoly → Pass P T It UPoly)
    (trace : P → T → List (Step P T It UPoly)) (states : P → T → PassStates P T)
    (htrace : ∀ w, (body w).world.history = w.history ++ trace w.proj w.tree)
    (hstates : ∀ w, (body w).states = states w.proj w.tree)
    (hpl : ∀ p t, PassLifts lw t (trace p t) (states p t)) :
    ∀ (n : Nat) (w : World P T It UPoly),
      ((liftCalls w.history).Nodup ∧ ∀ x ∈ liftCalls w.history, x.2 ∈ lw w.tree x.1) →
      (liftCalls (worldAfter body n w).history).Nodup ∧
        ∀ x ∈ liftCalls (worldAfter body n w).history, x.2 ∈ lw (worldAfter body n w).tree x.1 := by
  apply worldAfter_inv1 body (fun w => (liftCalls w.history).Nodup ∧
    ∀ x ∈ liftCalls w.history, x.2 ∈ lw w.tree x.1)
  intro w ⟨hnd, hmem⟩
  obtain ⟨hmono, hl⟩ := hpl w.proj w.tree
  rw [← hstates, ← (world_tree_states (body w)).1] at hmono hl
  rw [htrace, liftCalls_append]
  rcases hl with hl | ⟨it, id, hl, hnot, hin⟩
  · rw [hl, List.append_nil]
    exact ⟨hnd, fun x hx => hmono _ (hmem x hx)⟩
  · rw [hl]
    constructor
    · rw [List.nodup_append]
      refine ⟨hnd, List.nodup_singleton _, ?_⟩
      intro x hx hx'
      rw [List.mem_singleton] at hx'
      subst hx'
      exact hnot (hmem _ hx)
    · intro x hx
      rcases List.mem_append.mp hx with hx | hx
      · exact hmono _ (hmem x hx)
      · rw [List.mem_singleton] at hx
        subst hx
        exact hin

theorem liftCalls_explicit {P T It : Type} (h : List (Step P T It UPoly))
    (hnd : (liftCalls h).Nodup) (pre mid post : List (Step P T It UPoly))
    (st st' : Step P T It UPoly) (hh : h = pre ++ st :: (mid ++ st' :: post))
    (it : It) (poly poly' : UPoly) (id : Nat) (hst : st.call = .liftSample it poly id) :
    st'.call ≠ .liftSample it poly' id := by
  intro hst'
  rw [hh] at hnd
  have e1 : liftCalls [st] = [(it, id)] := by simp [liftCalls, hst]
  have e2 : liftCalls [st'] = [(it, id)] := by simp [liftCalls, hst']
  have : liftCalls (pre ++ st :: (mid ++ st' :: post)) =
      liftCalls pre ++ ((it, id) :: (liftCalls mid ++ ((it, id) :: liftCalls post))) := by
    rw [show pre ++ st :: (mid ++ st' :: post) = pre ++ ([st] ++ (mid ++ ([st'] ++ post))) by
      simp]
    simp only [liftCalls_append, e1, e2]
    simp
  rw [this] at hnd
  have h2 := (List.nodup_append.mp hnd).2.1
  rw [List.nodup_cons] at h2
  exact h2.1 (by simp)
theorem world_of_run {P T It : Type} (body : World P T It UPoly → Pass P T It UPoly)
    (n : Nat) (w0 w : World P T It UPoly)
    (hw : w = worldAfter body n w0 ∨ ∃ r, runLoop body n w0 = some (r, w)) :
    w = worldAfter body n w0 := by
  rcases hw with hw | ⟨r, hw⟩
  · exact hw
  · exact worldAfter_runLoop body n w0 r w hw

theorem scanQueue_result (polys : List (UPoly × Nat)) (slw : Bitset) :
    ∀ (q : List Nat) (r : Option UPoly × Bitset), scanQueue polys q slw = .ok r →
      (r.1 = none ∧ r.2 = slw) ∨
        ∃ pid e, pid ∈ q ∧ pid ∉ slw ∧ polys[pid]? = some e ∧ r = (some e.1, insert pid slw) := by
  intro q
  induction q with
  | nil =>
    intro r h
    simp only [scanQueue, Except.ok.injEq] at h
    left
    rw [← h]
    exact ⟨rfl, rfl⟩
  | cons pid rest ih =>
    intro r h
    by_cases hp : pid ∈ slw
    · simp only [scanQueue, hp, not_true_eq_false, if_false] at h
      rcases ih r h with h1 | ⟨pid', e, hm, h2⟩
      · exact Or.inl h1
      · exact Or.inr ⟨pid', e, List.mem_cons_of_mem _ hm, h2⟩
    · simp only [scanQueue, hp, not_false_eq_true, if_true] at h
      cases he : polys[pid]? with
      | none => rw [he] at h; simp at h
      | some e =>
        rw [he] at h
        simp only [Except.ok.injEq] at h
        exact Or.inr ⟨pid, e, List.mem_cons_self _ _, hp, he, h.symm⟩

theorem getPolyForLifting_result (s : Projection UPoly) (level : Nat) (slw : Bitset)
    (r : Option UPoly × Bitset × Projection UPoly) (h : getPolyForLifting s level slw = .ok r) :
    r.2.2 = s ∧
      ((r.1 = none ∧ r.2.1 = slw) ∨
        ∃ pid e, pid ∈ s.liftingQueue level ∧ pid ∉ slw ∧ (s.polys level)[pid]? = some e ∧
          r.1 = some e.1 ∧ r.2.1 = insert pid slw) := by
  unfold getPolyForLifting at h
  cases hl : s.level level with
  | error e => rw [hl] at h; simp at h
  | ok l =>
    rw [hl] at h
    simp only at h
    have hget : s.levels[level]? = some l := (level_ok_iff s level l).1 hl
    cases hs : scanQueue l.mPolynomials l.mLiftingQueue slw with
    | error e => rw [hs] at h; simp at h
    | ok r' =>
      rw [hs] at h
      simp only [Except.ok.injEq] at h
      rw [← h]
      refine ⟨rfl, ?_⟩
      rcases scanQueue_result _ _ _ _ hs with ⟨h1, h2⟩ | ⟨pid, e, hm, hp, he, hr⟩
      · exact Or.inl ⟨h1, h2⟩
      · right
        refine ⟨pid, e, ?_, hp, ?_, ?_, ?_⟩
        · simpa [Projection.liftingQueue, hget] using hm
        · simpa [Projection.polys, hget] using he
        · rw [hr]
        · rw [hr]

theorem plane_liftedWith : LiftedWith planeOps planeLiftedWith where
  get_some := by
    intro p level t it id h
    simp only [planeOps] at h ⊢
    cases hf : (p.liftingQueue level).find?
        (fun pid => decide (pid ∉ (if it then t.childLiftedWith else t.rootLiftedWith))) with
    | none => rw [hf] at h; simp at h
    | some pid =>
      rw [hf] at h
      simp only [Option.some.injEq] at h
      subst h
      have hn := List.find?_some hf
      simp only [decide_eq_true_eq] at hn
      cases it <;> simp_all [planeLiftedWith]
  get_mono := by
    intro p level t it it'
    simp only [planeOps]
    cases hf : (p.liftingQueue level).find?
        (fun pid => decide (pid ∉ (if it then t.childLiftedWith else t.rootLiftedWith))) with
    | none => simp
    | some pid =>
      cases it <;> cases it' <;> simp [planeLiftedWith, Finset.subset_insert]
  lift_mono := by
    intro t it poly id it'
    cases it <;> cases it' <;> simp [planeOps, planeLiftedWith]
  check_mono := by
    intro p t it'
    simp only [planeOps]
    split_ifs <;> cases it' <;> simp [planeLiftedWith]
  remove_mono := by
    intro t it'
    cases it' <;> simp [planeOps, planeLiftedWith]
  restore_mono := by
    intro t it'
    cases it' <;> simp [planeOps, planeLiftedWith]
  trivial_mono := by
    intro t it it'
    simp only [planeOps]
    split_ifs <;> cases it' <;> simp [planeLiftedWith]

theorem pass_next_eq {P T It : Type} (pass : Pass P T It UPoly) (p : P) (t : T)
    (h : List (Step P T It UPoly)) (hs : pass.states = .next p t)
    (hh : pass.world.history = h) : pass = .next ⟨p, t, h⟩ := by
  cases pass with
  | done r w => simp [Pass.states] at hs
  | next w =>
    obtain ⟨wp, wt, wh⟩ := w
    simp only [Pass.states, PassStates.next.injEq] at hs
    simp only [Pass.world] at hh
    rw [hs.1, hs.2, hh]

theorem keptCalls_append {P T It : Type} (a b : List (Step P T It UPoly)) :
    keptCalls (a ++ b) = keptCalls a ++ keptCalls b := by
  simp [keptCalls]

theorem fetchStates_congr {P T It : Type} (ops : CADOps P T It UPoly) (p : P) (t : T)
    (k1 k2 : It → PassStates P T)
    (h : ops.depth t (ops.getNextSample t) < ops.dim →
      ops.hasConflictWithConstraint t (ops.getNextSample t) = false →
      k1 (ops.getNextSample t) = k2 (ops.getNextSample t)) :
    fetchStates ops p t k1 = fetchStates ops p t k2 := by
  unfold fetchStates
  by_cases hd : ops.depth t (ops.getNextSample t) < ops.dim
  · rw [if_neg (not_not.2 hd), if_neg (not_not.2 hd)]
    by_cases hc : ops.hasConflictWithConstraint t (ops.getNextSample t) = true
    · rw [if_pos hc, if_pos hc]
    · rw [if_neg hc, if_neg hc]
      exact h hd (by simpa using hc)
  · rw [if_pos hd, if_pos hd]

theorem liftStates_congr {P T It : Type} (ops : CADOps P T It UPoly) (p : P) (t : T) (it : It)
    (k1 k2 : P → T → PassStates P T)
    (h : (ops.getPolyForLifting p (ops.idLP (ops.depth t it + 1)) t it).1 = none →
      k1 (ops.getPolyForLifting p (ops.idLP (ops.depth t it + 1)) t it).2.1
          (ops.getPolyForLifting p (ops.idLP (ops.depth t it + 1)) t it).2.2 =
        k2 (ops.getPolyForLifting p (ops.idLP (ops.depth t it + 1)) t it).2.1
          (ops.getPolyForLifting p (ops.idLP (ops.depth t it + 1)) t it).2.2) :
    liftStates ops p t it k1 = liftStates ops p t it k2 := by
  unfold liftStates
  cases hg : (ops.getPolyForLifting p (ops.idLP (ops.depth t it + 1)) t it).1 with
  | none => exact h hg
  | some id => rfl

theorem fetchTrace_congr {P T It : Type} (ops : CADOps P T It UPoly) (p : P) (t : T)
    (k1 k2 : It → List (Step P T It UPoly))
    (h : ops.depth t (ops.getNextSample t) < ops.dim →
      ops.hasConflictWithConstraint t (ops.getNextSample t) = false →
      keptCalls (k1 (ops.getNextSample t)) = keptCalls (k2 (ops.getNextSample t))) :
    keptCalls (fetchTrace ops p t k1) = keptCalls (fetchTrace ops p t k2) := by
  unfold fetchTrace
  by_cases hd : ops.depth t (ops.getNextSample t) < ops.dim
  · rw [if_neg (not_not.2 hd), if_neg (not_not.2 hd)]
    by_cases hc : ops.hasConflictWithConstraint t (ops.getNextSample t) = true
    · rw [if_pos hc, if_pos hc]
    · rw [if_neg hc, if_neg hc]
      have := h hd (by simpa using hc)
      simp only [keptCalls, List.filter_cons] at this ⊢
      rw [this]
  · rw [if_pos hd, if_pos hd]

theorem liftTrace_congr {P T It : Type} (ops : CADOps P T It UPoly) (p : P) (t : T) (it : It)
    (k1 k2 : P → T → List (Step P T It UPoly))
    (h : (ops.getPolyForLifting p (ops.idLP (ops.depth t it + 1)) t it).1 = none →
      keptCalls (k1 (ops.getPolyForLifting p (ops.idLP (ops.depth t it + 1)) t it).2.1
          (ops.getPolyForLifting p (ops.idLP (ops.depth t it + 1)) t it).2.2) =
        keptCalls (k2 (ops.getPolyForLifting p (ops.idLP (ops.depth t it + 1)) t it).2.1
          (ops.getPolyForLifting p (ops.idLP (ops.depth t it + 1)) t it).2.2)) :
    keptCalls (liftTrace ops p t it k1) = keptCalls (liftTrace ops p t it k2) := by
  unfold liftTrace
  cases hg : (ops.getPolyForLifting p (ops.idLP (ops.depth t it + 1)) t it).1 with
  | none =>
    have := h hg
    simp only [keptCalls, List.filter_cons] at this ⊢
    rw [this]
  | some id => rfl

/-- One pass of `BySample` and of `PreferProjection` from the same states, for a projection
that is not incremental and a sample whose level is not empty. -/
theorem pass_equiv {P T It : Type} (ops : CADOps P T It UPoly)
    (hproj : ∀ p, ops.projectNewPolynomial p = (∅, p)) (p : P) (t : T)
    (hne : ∀ st ∈ bySampleTrace ops p t, ∀ level it, st.call = .getPolyForLifting level it none →
      ops.empty (ops.getPolyForLifting st.proj level st.tree it).2.1
        (ops.idLP (ops.depth (ops.getPolyForLifting st.proj level st.tree it).2.2 it + 1))
        = false) :
    bySampleStates ops p t = preferProjectionStates ops p t ∧
      keptCalls (bySampleTrace ops p t) = keptCalls (preferProjectionTrace ops p t) := by
  unfold bySampleStates preferProjectionStates
  unfold bySampleTrace at hne
  unfold bySampleTrace preferProjectionTrace
  by_cases h1 : (ops.checkFullSamples p t).1 = Answer.SAT
  · simp only [if_pos h1, and_self]
  simp only [if_neg h1] at hne ⊢
  by_cases h2 : ops.hasNextSample (ops.checkFullSamples p t).2 = true
  swap
  · simp only [if_pos h2, and_self]
  simp only [if_neg (not_not.2 h2)] at hne ⊢
  have key : ops.depth (ops.checkFullSamples p t).2
        (ops.getNextSample (ops.checkFullSamples p t).2) < ops.dim →
      ops.hasConflictWithConstraint (ops.checkFullSamples p t).2
        (ops.getNextSample (ops.checkFullSamples p t).2) = false →
      (ops.getPolyForLifting p (ops.idLP (ops.depth (ops.checkFullSamples p t).2
        (ops.getNextSample (ops.checkFullSamples p t).2) + 1)) (ops.checkFullSamples p t).2
        (ops.getNextSample (ops.checkFullSamples p t).2)).1 = none →
      ops.empty (ops.getPolyForLifting p (ops.idLP (ops.depth (ops.checkFullSamples p t).2
          (ops.getNextSample (ops.checkFullSamples p t).2) + 1)) (ops.checkFullSamples p t).2
          (ops.getNextSample (ops.checkFullSamples p t).2)).2.1
        (ops.idLP (ops.depth (ops.getPolyForLifting p (ops.idLP (ops.depth
          (ops.checkFullSamples p t).2 (ops.getNextSample (ops.checkFullSamples p t).2) + 1))
          (ops.checkFullSamples p t).2 (ops.getNextSample (ops.checkFullSamples p t).2)).2.2
          (ops.getNextSample (ops.checkFullSamples p t).2) + 1)) = false := by
    intro hd hc hg
    refine hne ⟨p, (ops.checkFullSamples p t).2, .getPolyForLifting _ _ none⟩ ?_ _ _ rfl
    simp [fetchTrace, liftTrace, hd, hc, hg]
  clear hne
  generalize (ops.checkFullSamples p t).2 = t1 at key
  constructor
  · apply fetchStates_congr
    intro hd hc
    apply liftStates_congr
    intro hg
    have he := key hd hc hg
    simp only [hproj, he, Finset.not_nonempty_empty, if_false, Bool.false_eq_true]
    split_ifs <;> rfl
  · simp only [keptCalls, List.filter_cons]
    simp only [Call.isQuery, Bool.not_false, Bool.not_true, if_true, Bool.false_eq_true,
      if_false]
    congr 1
    apply fetchTrace_congr
    intro hd hc
    apply liftTrace_congr
    intro hg
    have he := key hd hc hg
    simp only [hproj, he, Finset.not_nonempty_empty, if_false, Bool.false_eq_true]
    split_ifs <;> simp [keptCalls, Call.isQuery]
theorem worldAfter_extends {P T It : Type} (body : World P T It UPoly → Pass P T It UPoly)
    (trace : P → T → List (Step P T It UPoly))
    (htrace : ∀ w, (body w).world.history = w.history ++ trace w.proj w.tree)
    (n : Nat) (w : World P T It UPoly) :
    ∃ ext, (worldAfter body n w).history = w.history ++ ext := by
  refine worldAfter_inv1 body (fun w' => ∃ ext, w'.history = w.history ++ ext) ?_ n w
    ⟨[], by simp⟩
  rintro w' ⟨ext, he⟩
  exact ⟨ext ++ trace w'.proj w'.tree, by rw [htrace, he, List.append_assoc]⟩

theorem run_equiv {P T It : Type} (ops : CADOps P T It UPoly)
    (hproj : ∀ p, ops.projectNewPolynomial p = (∅, p)) :
    ∀ (n : Nat) (wB wP : World P T It UPoly),
      wB.proj = wP.proj → wB.tree = wP.tree → keptCalls wB.history = keptCalls wP.history →
      (∀ st ∈ (worldAfter (bySampleBody ops) n wB).history, ∀ level it,
        st.call = .getPolyForLifting level it none →
        ops.empty (ops.getPolyForLifting st.proj level st.tree it).2.1
          (ops.idLP (ops.depth (ops.getPolyForLifting st.proj level st.tree it).2.2 it + 1))
          = false) →
      (worldAfter (bySampleBody ops) n wB).proj =
          (worldAfter (preferProjectionBody ops) n wP).proj ∧
        (worldAfter (bySampleBody ops) n wB).tree =
          (worldAfter (preferProjectionBody ops) n wP).tree ∧
        keptCalls (worldAfter (bySampleBody ops) n wB).history =
          keptCalls (worldAfter (preferProjectionBody ops) n wP).history ∧
        (runLoop (bySampleBody ops) n wB).map Prod.fst =
          (runLoop (preferProjectionBody ops) n wP).map Prod.fst := by
  intro n
  induction n with
  | zero =>
    intro wB wP hp ht hk _
    exact ⟨hp, ht, hk, rfl⟩
  | succ n ih =>
    intro wB wP hp ht hk hne
    have hsB := bySampleBody_states ops wB
    have hsP := preferProjectionBody_states ops wP
    have htB := bySampleBody_trace ops wB
    have htP := preferProjectionBody_trace ops wP
    have hpass : ∀ st ∈ bySampleTrace ops wB.proj wB.tree, ∀ level it,
        st.call = .getPolyForLifting level it none →
        ops.empty (ops.getPolyForLifting st.proj level st.tree it).2.1
          (ops.idLP (ops.depth (ops.getPolyForLifting st.proj level st.tree it).2.2 it + 1))
          = false := by
      intro st hst
      apply hne st
      simp only [worldAfter]
      cases hb : bySampleBody ops wB with
      | done r w1 =>
        rw [hb] at htB
        simp only [Pass.world] at htB
        simp only [htB]
        exact List.mem_append_right _ hst
      | next w1 =>
        rw [hb] at htB
        simp only [Pass.world] at htB
        obtain ⟨ext, he⟩ := worldAfter_extends (bySampleBody ops) (bySampleTrace ops)
          (bySampleBody_trace ops) n w1
        simp only [he, htB]
        exact List.mem_append_left _ (List.mem_append_right _ hst)
    obtain ⟨hst, hkt⟩ := pass_equiv ops hproj wB.proj wB.tree hpass
    rw [← hp, ← ht, ← hst, ← hsB] at hsP
    rw [← hp, ← ht] at htP
    simp only [worldAfter, runLoop] at hne ⊢
    cases hb : bySampleBody ops wB with
    | done r w1 =>
      cases hb' : preferProjectionBody ops wP with
      | done r' w1' =>
        rw [hb, hb'] at hsP
        rw [hb] at htB
        rw [hb'] at htP
        simp only [Pass.states, PassStates.done.injEq] at hsP
        simp only [Pass.world] at htB htP
        simp only [Option.map_some']
        refine ⟨hsP.2.1.symm, hsP.2.2.symm, ?_, by rw [hsP.1]⟩
        rw [htB, htP, keptCalls_append, keptCalls_append, hk, hkt]
      | next w1' =>
        rw [hb, hb'] at hsP
        simp [Pass.states] at hsP
    | next w1 =>
      cases hb' : preferProjectionBody ops wP with
      | done r' w1' =>
        rw [hb, hb'] at hsP
        simp [Pass.states] at hsP
      | next w1' =>
        rw [hb, hb'] at hsP
        rw [hb] at htB hne
        rw [hb'] at htP
        simp only [Pass.states, PassStates.next.injEq] at hsP
        simp only [Pass.world] at htB htP
        simp only at hne ⊢
        refine ih w1 w1' hsP.1.symm hsP.2.symm ?_ hne
        rw [htB, htP, keptCalls_append, keptCalls_append, hk, hkt]
theorem eachFrom_mem {σ : Type} (Q : σ → Prop) (h ext : List σ) :
    EachFrom (fun _ s => Q s) h ext ↔ ∀ s ∈ ext, Q s := by
  constructor
  · intro hf s hs
    obtain ⟨pre, post, rfl⟩ := List.append_of_mem hs
    exact hf pre s post rfl
  · intro hq pre st post he
    exact hq st (by rw [he]; simp)

/-- The calls of a pass of `PreferSampling` through the body of the inner loop. -/
theorem inner_preferSamplingTrace {P T It : Type} (ops : CADOps P T It UPoly) (p : P) (t : T)
    (hc : ops.hasNextSample t = true ∨ ops.hasFullSamples t = true) :
    ∀ s ∈ preferSamplingTrace ops p t,
      (∀ g, s.call ≠ .projectNewPolynomial g) ∧ s.call ≠ .restoreRemovedSamples := by
  refine (eachFrom_mem (fun s : Step P T It UPoly =>
    (∀ g, s.call ≠ Call.projectNewPolynomial g) ∧ s.call ≠ Call.restoreRemovedSamples)
    [] _).1 ?_
  unfold preferSamplingTrace
  rw [if_pos hc, eachFrom_append]
  constructor
  · unfold samplingCondTrace
    rw [eachFrom_cons]
    refine ⟨by simp, ?_⟩
    split_ifs
    · exact eachFrom_nil _ _
    · rw [eachFrom_cons]
      exact ⟨by simp, eachFrom_nil _ _⟩
  generalize [] ++ samplingCondTrace ops p t = h0
  rw [eachFrom_cons]
  refine ⟨by simp, ?_⟩
  by_cases h1 : (ops.checkFullSamples p t).1 = Answer.SAT
  · rw [if_pos h1]; exact eachFrom_nil _ _
  rw [if_neg h1]
  apply eachFrom_fetchTrace
  · simp
  · simp
  · simp
  apply eachFrom_liftTrace
  · simp
  · intro id _
    simp
  intro _
  rw [eachFrom_cons]
  refine ⟨by simp, ?_⟩
  split_ifs
  · exact eachFrom_nil _ _
  · rw [eachFrom_cons]
    exact ⟨by simp, eachFrom_nil _ _⟩

/-- The pass of `PreferSampling` in which the condition of the inner loop fails. -/
theorem outer_preferSampling {P T It : Type} (ops : CADOps P T It UPoly) (p : P) (t : T)
    (hc : ¬ (ops.hasNextSample t = true ∨ ops.hasFullSamples t = true)) :
    ops.hasNextSample t = false ∧ ops.hasFullSamples t = false ∧
    preferSamplingTrace ops p t =
      [⟨p, t, .hasNextSample false⟩, ⟨p, t, .hasFullSamples false⟩,
        ⟨p, t, .projectNewPolynomial (ops.projectNewPolynomial p).1⟩] ++
        (if (ops.projectNewPolynomial p).1 = ∅ then []
          else [⟨(ops.projectNewPolynomial p).2, t, .restoreRemovedSamples⟩]) ∧
    preferSamplingStates ops p t =
      if (ops.projectNewPolynomial p).1 = ∅ then
        .done (.ok Answer.UNSAT) (ops.projectNewPolynomial p).2 t
      else .next (ops.projectNewPolynomial p).2 (ops.restoreRemovedSamples t) := by
  have h1 : ops.hasNextSample t = false := by
    cases h : ops.hasNextSample t
    · rfl
    · exact absurd (Or.inl h) hc
  have h2 : ops.hasFullSamples t = false := by
    cases h : ops.hasFullSamples t
    · rfl
    · exact absurd (Or.inr h) hc
  refine ⟨h1, h2, ?_, ?_⟩
  · unfold preferSamplingTrace samplingCondTrace
    rw [if_neg hc]
    simp [h1, h2]
  · unfold preferSamplingStates
    rw [if_neg hc]

theorem noEnd_append {P T It : Type} (a b : List (Step P T It UPoly)) :
    NoEnd (a ++ b) ↔ NoEnd a ∧ NoEnd b := by
  unfold NoEnd
  simp only [List.mem_append]
  constructor
  · intro h
    exact ⟨fun s hs => h s (Or.inl hs), fun s hs => h s (Or.inr hs)⟩
  · rintro ⟨h1, h2⟩ s (hs | hs)
    · exact h1 s hs
    · exact h2 s hs

theorem restored_append {P T It : Type} (a b : List (Step P T It UPoly)) (ha : Restored a)
    (hb : ∀ s ∈ b, ∀ g, s.call ≠ .projectNewPolynomial g) : Restored (a ++ b) := by
  obtain ⟨pre, r, mid, h1, h2, h3⟩ := ha
  refine ⟨pre, r, mid ++ b, by rw [h1]; simp, h2, ?_⟩
  intro s hs
  rcases List.mem_append.mp hs with hs | hs
  · exact h3 s hs
  · exact hb s hs

/-- One pass of `PreferSampling` keeps the conditions on its calls. -/
theorem preferSamplingOk_pass {P T It : Type} (ops : CADOps P T It UPoly)
    (h : List (Step P T It UPoly)) (p : P) (t : T) (hr : Restored h) (hn : NoEnd h) :
    EachFrom (PreferSamplingOk ops) h (preferSamplingTrace ops p t) ∧
      ((∀ r p' t', preferSamplingStates ops p t ≠ .done r p' t') →
        Restored (h ++ preferSamplingTrace ops p t) ∧
          NoEnd (h ++ preferSamplingTrace ops p t)) ∧
      ((∃ s ∈ preferSamplingTrace ops p t, s.call = .projectNewPolynomial ∅) →
        ∃ p' t', preferSamplingStates ops p t = .done (.ok Answer.UNSAT) p' t') := by
  by_cases hc : ops.hasNextSample t = true ∨ ops.hasFullSamples t = true
  · have hin := inner_preferSamplingTrace ops p t hc
    refine ⟨?_, ?_, ?_⟩
    · intro pre st post he
      have hst : st ∈ preferSamplingTrace ops p t := by rw [he]; simp
      refine ⟨fun g hg => absurd hg ((hin st hst).1 g), ?_⟩
      rw [noEnd_append]
      refine ⟨hn, fun s hs => (hin s ?_).1 ∅⟩
      rw [he]
      exact List.mem_append_left _ hs
    · intro _
      refine ⟨restored_append _ _ hr (fun s hs => (hin s hs).1), ?_⟩
      rw [noEnd_append]
      exact ⟨hn, fun s hs => (hin s hs).1 ∅⟩
    · rintro ⟨s, hs, hcall⟩
      exact absurd hcall ((hin s hs).1 ∅)
  · obtain ⟨h1, h2, htr, hst⟩ := outer_preferSampling ops p t hc
    rw [htr, hst]
    have hmid : ∀ s ∈ [(⟨p, t, .hasNextSample false⟩ : Step P T It UPoly),
        ⟨p, t, .hasFullSamples false⟩], ∀ g, s.call ≠ .projectNewPolynomial g := by
      intro s hs g
      simp only [List.mem_cons, List.mem_singleton, List.not_mem_nil, or_false] at hs
      rcases hs with rfl | rfl <;> simp
    have hr2 := restored_append _ _ hr hmid
    have hn2 : NoEnd (h ++ [(⟨p, t, .hasNextSample false⟩ : Step P T It UPoly),
        ⟨p, t, .hasFullSamples false⟩]) := by
      rw [noEnd_append]
      exact ⟨hn, fun s hs => hmid s hs ∅⟩
    have hn1 : NoEnd (h ++ [(⟨p, t, .hasNextSample false⟩ : Step P T It UPoly)]) := by
      rw [noEnd_append]
      refine ⟨hn, fun s hs => ?_⟩
      simp only [List.mem_singleton] at hs
      rw [hs]; simp
    by_cases hg : (ops.projectNewPolynomial p).1 = ∅
    · rw [if_pos hg, if_pos hg, List.append_nil]
      refine ⟨?_, ?_, ?_⟩
      · rw [eachFrom_cons, eachFrom_cons, eachFrom_cons]
        refine ⟨⟨by simp, hn⟩, ⟨by simp, hn1⟩, ⟨?_, by simpa using hn2⟩, eachFrom_nil _ _⟩
        intro g _
        refine ⟨h1, h2, by simp, by simp, by simpa using hr2⟩
      · intro hnd
        exact absurd rfl (hnd _ _ _)
      · intro _
        exact ⟨_, _, rfl⟩
    · rw [if_neg hg, if_neg hg]
      refine ⟨?_, ?_, ?_⟩
      · simp only [List.cons_append, List.nil_append]
        rw [eachFrom_cons, eachFrom_cons, eachFrom_cons, eachFrom_cons]
        refine ⟨⟨by simp, hn⟩, ⟨by simp, hn1⟩, ⟨?_, by simpa using hn2⟩, ⟨by simp, ?_⟩,
          eachFrom_nil _ _⟩
        · intro g _
          exact ⟨h1, h2, by simp, by simp, by simpa using hr2⟩
        · have : NoEnd (h ++ [(⟨p, t, .hasNextSample false⟩ : Step P T It UPoly),
              ⟨p, t, .hasFullSamples false⟩] ++
              [⟨p, t, .projectNewPolynomial (ops.projectNewPolynomial p).1⟩]) := by
            rw [noEnd_append]
            refine ⟨hn2, fun s hs => ?_⟩
            simp only [List.mem_singleton] at hs
            rw [hs]
            simpa using hg
          simpa using this
      · intro _
        constructor
        · refine ⟨h ++ [⟨p, t, .hasNextSample false⟩, ⟨p, t, .hasFullSamples false⟩,
            ⟨p, t, .projectNewPolynomial (ops.projectNewPolynomial p).1⟩],
            ⟨(ops.projectNewPolynomial p).2, t, .restoreRemovedSamples⟩, [], by simp, rfl,
            by simp⟩
        · rw [noEnd_append]
          refine ⟨hn, fun s hs => ?_⟩
          simp only [List.cons_append, List.nil_append, List.mem_cons, List.mem_singleton,
            List.not_mem_nil, or_false] at hs
          rcases hs with rfl | rfl | rfl | rfl
          · simp
          · simp
          · simpa using hg
          · simp
      · rintro ⟨s, hs, hcall⟩
        simp only [List.cons_append, List.nil_append, List.mem_cons, List.mem_singleton,
          List.not_mem_nil, or_false] at hs
        rcases hs with rfl | rfl | rfl | rfl
        · simp at hcall
        · simp at hcall
        · simp only [Call.projectNewPolynomial.injEq] at hcall
          exact absurd hcall hg
        · simp at hcall
theorem preferSampling_run_ok {P T It : Type} (ops : CADOps P T It UPoly) :
    ∀ (n : Nat) (w : World P T It UPoly),
      (EachCall (PreferSamplingOk ops) w.history ∧ Restored w.history ∧ NoEnd w.history) →
      EachCall (PreferSamplingOk ops) (worldAfter (preferSamplingBody ops) n w).history := by
  apply worldAfter_inv (preferSamplingBody ops)
    (fun w => EachCall (PreferSamplingOk ops) w.history ∧ Restored w.history ∧ NoEnd w.history)
    (fun w => EachCall (PreferSamplingOk ops) w.history)
  · intro w hw
    exact hw.1
  · intro w w' ⟨h1, h2, h3⟩ hb
    have htr := preferSamplingBody_trace ops w
    have hst := preferSamplingBody_states ops w
    rw [hb] at htr hst
    simp only [Pass.world] at htr
    obtain ⟨ha, hb', _⟩ := preferSamplingOk_pass ops w.history w.proj w.tree h2 h3
    rw [htr, eachCall_append]
    refine ⟨⟨h1, ha⟩, hb' ?_⟩
    intro r p' t' hd
    rw [← hst] at hd
    simp [Pass.states] at hd
  · intro w r w' ⟨h1, h2, h3⟩ hb
    have htr := preferSamplingBody_trace ops w
    rw [hb] at htr
    simp only [Pass.world] at htr
    rw [htr, eachCall_append]
    exact ⟨h1, (preferSamplingOk_pass ops w.history w.proj w.tree h2 h3).1⟩

theorem preferSampling_run_end {P T It : Type} (ops : CADOps P T It UPoly) :
    ∀ (n : Nat) (w : World P T It UPoly), Restored w.history → NoEnd w.history →
      (∃ s ∈ (worldAfter (preferSamplingBody ops) n w).history,
        s.call = .projectNewPolynomial ∅) →
      runLoop (preferSamplingBody ops) n w =
        some (.ok Answer.UNSAT, worldAfter (preferSamplingBody ops) n w) := by
  intro n
  induction n with
  | zero =>
    rintro w _ hn ⟨s, hs, hc⟩
    exact absurd hc (hn s hs)
  | succ n ih =>
    rintro w hr hn ⟨s, hs, hc⟩
    have htr := preferSamplingBody_trace ops w
    have hst := preferSamplingBody_states ops w
    obtain ⟨_, hb', hc'⟩ := preferSamplingOk_pass ops w.history w.proj w.tree hr hn
    simp only [worldAfter, runLoop] at hs ⊢
    cases hb : preferSamplingBody ops w with
    | done r w1 =>
      rw [hb] at htr hst hs
      simp only [Pass.world] at htr
      simp only at hs ⊢
      rw [htr] at hs
      rcases List.mem_append.mp hs with hs | hs
      · exact absurd hc (hn s hs)
      · obtain ⟨p', t', hd⟩ := hc' ⟨s, hs, hc⟩
        rw [← hst] at hd
        simp only [Pass.states, PassStates.done.injEq] at hd
        rw [hd.1]
    | next w1 =>
      rw [hb] at htr hst hs
      simp only [Pass.world] at htr
      simp only at hs ⊢
      have h2 := hb' (by
        intro r p' t' hd
        rw [← hst] at hd
        simp [Pass.states] at hd)
      rw [← htr] at h2
      exact ih w1 h2.1 h2.2 ⟨s, hs, hc⟩

theorem init_restored {P T It : Type} (ops : CADOps P T It UPoly) (p : P) (t : T) :
    Restored (World.init ops p t : World P T It UPoly).history ∧
      NoEnd (World.init ops p t : World P T It UPoly).history ∧
      EachCall (PreferSamplingOk ops) (World.init ops p t : World P T It UPoly).history := by
  refine ⟨⟨[⟨p, t, .resetFullSamples⟩], ⟨p, ops.resetFullSamples t, .restoreRemovedSamples⟩,
    [], rfl, rfl, by simp⟩, ?_, ?_⟩
  · intro s hs
    rw [init_history] at hs
    simp only [List.mem_cons, List.mem_singleton, List.not_mem_nil, or_false] at hs
    rcases hs with rfl | rfl <;> simp
  · apply eachCall_init
    · exact ⟨by simp, by simp [NoEnd]⟩
    · exact ⟨by simp, by simp [NoEnd]⟩

/-! ## The claims -/

/-- C1 (as stated, refuted): after `reset([x])` the call `addPolynomial(x^2 + 1, 5)` stores
the polynomial with origin 0, so the following `removePolynomial(x^2 + 1, 5)` fails the
assertion on the origin instead of restoring the state. -/
theorem C1_counterexample :
    Reachable tK (reset [0] : Projection TPoly) ∧
    (reset [0] : Projection TPoly).mVars[0]? = some (tK.mainVar (TName.xsq, 0)) ∧
    addPolynomial tK ((TName.xsq, 0) : TPoly) 5 (reset [0]) = .ok exOne ∧
    removePolynomial ((TName.xsq, 0) : TPoly) 5 exOne = .error Fault.assertion :=
  ⟨Reachable.reset [0], rfl, rfl, rfl⟩

/-- C1 (amended): in a reachable state, for a polynomial `p` whose main variable is the
level-0 variable, that is not purgeable and not stored at level 0, and for `cid = size(0)`:
`addPolynomial(p, cid)` completes if the projection operator respects the main-variable
discipline, and whenever it completes and every level `L >= 1` that was empty before the call
is still empty, the following `removePolynomial(p, cid)` completes and restores `size(level)`
and the lifting queue of every level. -/
theorem C1_roundtrip (K : Kernel UPoly) (s : Projection UPoly) (p : UPoly) (cid : Nat)
    (hr : Reachable K s) (hv : s.mVars[0]? = some (K.mainVar p))
    (hp : canBePurged K p = false) (hnew : p ∉ (s.polys 0).map Prod.fst)
    (hcid : cid = s.size 0) :
    (Disciplined K → ∃ s', addPolynomial K p cid s = .ok s') ∧
    ∀ s', addPolynomial K p cid s = .ok s' →
      (∀ L, 1 ≤ L → s.size L = 0 → s'.size L = 0) →
      ∃ s'' log, removePolynomial p cid s' = .ok (s'', log) ∧
        ∀ L, s''.size L = s.size L ∧ s''.liftingQueue L = s.liftingQueue L := by
  refine ⟨fun hK => addPolynomial_total K hK hr.inv p cid hv, ?_⟩
  intro s' hadd hne
  subst hcid
  obtain ⟨log, hlog⟩ := roundtrip_state K hr.inv hp hnew hadd hne
  exact ⟨s, log, hlog, fun L => ⟨rfl, rfl⟩⟩

/-- Witness for C1: the line is added to the state that holds the circle and removed again. -/
theorem C1_roundtrip_witness :
    Reachable tK exCircle ∧
    exCircle.mVars[0]? = some (tK.mainVar (TName.line, 0)) ∧
    canBePurged tK ((TName.line, 0) : TPoly) = false ∧
    ((TName.line, 0) : TPoly) ∉ (exCircle.polys 0).map Prod.fst ∧
    1 = exCircle.size 0 ∧
    addPolynomial tK ((TName.line, 0) : TPoly) 1 exCircle = .ok exCircleLine ∧
    (∀ L, 1 ≤ L → exCircle.size L = 0 → exCircleLine.size L = 0) ∧
    ∃ s'' log, removePolynomial ((TName.line, 0) : TPoly) 1 exCircleLine = .ok (s'', log) ∧
      ∀ L, s''.size L = exCircle.size L ∧ s''.liftingQueue L = exCircle.liftingQueue L :=
  have hnew : ((TName.line, 0) : TPoly) ∉ (exCircle.polys 0).map Prod.fst := by decide
  have hne : ∀ L, 1 ≤ L → exCircle.size L = 0 → exCircleLine.size L = 0 := by
    intro L hL h
    match L, hL with
    | 1, _ => exact absurd h (by decide)
    | L + 2, _ => rfl
  ⟨exCircle_reachable, rfl, rfl, hnew, rfl, rfl, hne,
    (C1_roundtrip tK exCircle (TName.line, 0) 1 exCircle_reachable rfl rfl hnew rfl).2
      exCircleLine rfl hne⟩

/-- C2: if one of the three heuristics returns `SAT`, the last call of the run is a
`checkFullSamples` call, this call returned `SAT` (it is the answer of the oracle in the
states in which the call was made), and the run ends in the states this call produced: no
call, in particular no projection or lifting operation, lies between it and the return. -/
theorem C2_sat_sound {P T It : Type} (ops : CADOps P T It UPoly) (fuel : Nat) (p : P) (t : T)
    (w : World P T It UPoly)
    (h : bySample ops fuel p t = some (.ok Answer.SAT, w) ∨
      preferProjection ops fuel p t = some (.ok Answer.SAT, w) ∨
      preferSampling ops fuel p t = some (.ok Answer.SAT, w)) :
    ∃ st, w.history.getLast? = some st ∧ st.call = Call.checkFullSamples Answer.SAT ∧
      ops.checkFullSamples st.proj st.tree = (Answer.SAT, w.tree) ∧ w.proj = st.proj := by
  rcases h with h | h | h
  · refine sat_exit ops (bySampleBody ops) ?_ fuel _ w h
    intro w0 r w' hb
    rcases bySampleBody_done ops w0 r w' hb with h1 | ⟨h1, _⟩ | h1
    · exact Or.inl h1
    · right; rw [h1]; simp
    · right; rw [h1]; simp
  · refine sat_exit ops (preferProjectionBody ops) ?_ fuel _ w h
    intro w0 r w' hb
    rcases preferProjectionBody_done ops w0 r w' hb with h1 | ⟨h1, _⟩ | h1
    · exact Or.inl h1
    · right; rw [h1]; simp
    · right; rw [h1]; simp
  · refine sat_exit ops (preferSamplingBody ops) ?_ fuel _ w h
    intro w0 r w' hb
    rcases preferSamplingBody_done ops w0 r w' hb with h1 | ⟨h1, _⟩ | h1
    · exact Or.inl h1
    · right; rw [h1]; simp
    · right; rw [h1]; simp

/-- Witness for C2: the run of `BySample` on the worked example with an oracle that accepts
the full sample. -/
theorem C2_sat_sound_witness :
    bySample (toyOps Answer.SAT false) 2 () toyStart =
      some (.ok Answer.SAT, finalWorld (bySample (toyOps Answer.SAT false) 2 () toyStart)) ∧
    ∃ st, (finalWorld (bySample (toyOps Answer.SAT false) 2 () toyStart)).history.getLast? = some st ∧
      st.call = Call.checkFullSamples Answer.SAT ∧
      (toyOps Answer.SAT false).checkFullSamples st.proj st.tree =
        (Answer.SAT, (finalWorld (bySample (toyOps Answer.SAT false) 2 () toyStart)).tree) ∧
      (finalWorld (bySample (toyOps Answer.SAT false) 2 () toyStart)).proj = st.proj :=
  ⟨rfl, C2_sat_sound (toyOps Answer.SAT false) 2 () toyStart _ (Or.inl rfl)⟩

/-- C3 (as stated, refuted): on the worked example with a root sample that has a conflict,
`BySample` drops the sample and returns `UNSAT` without any `projectNewPolynomial` call; and
without the conflict, with an oracle that rejects the full sample, `PreferProjection` returns
`UNSAT` although its only `projectNewPolynomial` call precedes the `removeNextSample` call
that consumes the last pending sample. -/
theorem C3_counterexample :
    (bySample (toyOps Answer.UNSAT true) 2 () toyStart).map
        (fun r => (r.1, r.2.history.map Step.call)) =
      some (.ok Answer.UNSAT,
        [Call.resetFullSamples, Call.restoreRemovedSamples, Call.checkFullSamples Answer.UNSAT,
          Call.hasNextSample true, Call.getNextSample (),
          Call.hasConflictWithConstraint () true, Call.removeNextSample,
          Call.checkFullSamples Answer.UNSAT, Call.hasNextSample false]) ∧
    (preferProjection (toyOps Answer.UNSAT false) 3 () toyStart).map
        (fun r => (r.1, projectedNothingAfterLastRemoval (r.2.history.map Step.call))) =
      some (.ok Answer.UNSAT, false) :=
  ⟨rfl, rfl⟩

/-- C3 (amended): whenever one of the three heuristics returns `UNSAT`, `hasNextSample()` is
false in the final state.  For `BySample` and `PreferProjection` the last call of the run is
the `hasNextSample()` query that returned false (no `projectNewPolynomial` call is needed);
for `PreferSampling` also `hasFullSamples()` is false and the run ends with the calls
`hasNextSample()` (false), `hasFullSamples()` (false) and a `projectNewPolynomial` call that
reported nothing new. -/
theorem C3_unsat_exit {P T It : Type} (ops : CADOps P T It UPoly) (fuel : Nat) (p : P) (t : T)
    (w : World P T It UPoly) :
    ((bySample ops fuel p t = some (.ok Answer.UNSAT, w) ∨
        preferProjection ops fuel p t = some (.ok Answer.UNSAT, w)) →
      ops.hasNextSample w.tree = false ∧
      ∃ st, w.history.getLast? = some st ∧ st.call = Call.hasNextSample false ∧
        st.tree = w.tree) ∧
    (preferSampling ops fuel p t = some (.ok Answer.UNSAT, w) →
      ops.hasNextSample w.tree = false ∧ ops.hasFullSamples w.tree = false ∧
      ∃ pre st1 st2 st3, w.history = pre ++ [st1, st2, st3] ∧
        st1.call = Call.hasNextSample false ∧ st2.call = Call.hasFullSamples false ∧
        st3.call = Call.projectNewPolynomial ∅ ∧
        (ops.projectNewPolynomial st3.proj).1 = ∅ ∧
        st1.tree = w.tree ∧ st2.tree = w.tree ∧ st3.tree = w.tree) := by
  have hexit : ∀ (w' : World P T It UPoly),
      (∃ w1 : World P T It UPoly, ops.hasNextSample w1.tree = false ∧
        w' = w1.record (.hasNextSample false) w1.proj w1.tree) →
      ops.hasNextSample w'.tree = false ∧
      ∃ st, w'.history.getLast? = some st ∧ st.call = Call.hasNextSample false ∧
        st.tree = w'.tree := by
    intro w' ⟨w1, h1, h2⟩
    rw [h2]
    exact ⟨h1, ⟨w1.proj, w1.tree, .hasNextSample false⟩, getLast_record _ _ _ _, rfl, rfl⟩
  constructor
  · intro h
    rcases h with h | h
    · refine unsat_exit (bySampleBody ops) (fun w' => ops.hasNextSample w'.tree = false ∧
        ∃ st, w'.history.getLast? = some st ∧ st.call = Call.hasNextSample false ∧
          st.tree = w'.tree) ?_ fuel _ w h
      intro w0 r w' hb hr
      rcases bySampleBody_done ops w0 r w' hb with ⟨h1, _⟩ | ⟨_, h1⟩ | h1
      · rw [h1] at hr; simp at hr
      · exact hexit w' h1
      · rw [h1] at hr; simp at hr
    · refine unsat_exit (preferProjectionBody ops) (fun w' => ops.hasNextSample w'.tree = false ∧
        ∃ st, w'.history.getLast? = some st ∧ st.call = Call.hasNextSample false ∧
          st.tree = w'.tree) ?_ fuel _ w h
      intro w0 r w' hb hr
      rcases preferProjectionBody_done ops w0 r w' hb with ⟨h1, _⟩ | ⟨_, h1⟩ | h1
      · rw [h1] at hr; simp at hr
      · exact hexit w' h1
      · rw [h1] at hr; simp at hr
  · intro h
    refine unsat_exit (preferSamplingBody ops) (fun w' => ops.hasNextSample w'.tree = false ∧ ops.hasFullSamples w'.tree = false ∧
      ∃ pre st1 st2 st3, w'.history = pre ++ [st1, st2, st3] ∧
        st1.call = Call.hasNextSample false ∧ st2.call = Call.hasFullSamples false ∧
        st3.call = Call.projectNewPolynomial ∅ ∧
        (ops.projectNewPolynomial st3.proj).1 = ∅ ∧
        st1.tree = w'.tree ∧ st2.tree = w'.tree ∧ st3.tree = w'.tree) ?_ fuel _ w h
    intro w0 r w' hb hr
    rcases preferSamplingBody_done ops w0 r w' hb with ⟨h1, _⟩ | ⟨_, h1, h2, h3, h4⟩ | h1
    · rw [h1] at hr; simp at hr
    · rw [h4]
      refine ⟨h1, h2, w0.history, ⟨w0.proj, w0.tree, .hasNextSample false⟩,
        ⟨w0.proj, w0.tree, .hasFullSamples false⟩,
        ⟨w0.proj, w0.tree, .projectNewPolynomial ∅⟩, ?_, rfl, rfl, rfl, h3, rfl, rfl, rfl⟩
      simp [World.record]
    · rw [h1] at hr; simp at hr

/-- Witness for C3: the runs of `BySample` and of `PreferSampling` on the worked example with
an oracle that rejects the full sample. -/
theorem C3_unsat_exit_witness :
    (bySample (toyOps Answer.UNSAT false) 3 () toyStart =
        some (.ok Answer.UNSAT, finalWorld (bySample (toyOps Answer.UNSAT false) 3 () toyStart)) ∧
      (toyOps Answer.UNSAT false).hasNextSample
        (finalWorld (bySample (toyOps Answer.UNSAT false) 3 () toyStart)).tree = false) ∧
    (preferSampling (toyOps Answer.UNSAT false) 3 () toyStart =
        some (.ok Answer.UNSAT,
          finalWorld (preferSampling (toyOps Answer.UNSAT false) 3 () toyStart)) ∧
      (toyOps Answer.UNSAT false).hasFullSamples
        (finalWorld (preferSampling (toyOps Answer.UNSAT false) 3 () toyStart)).tree = false) :=
  ⟨⟨rfl, ((C3_unsat_exit (toyOps Answer.UNSAT false) 3 () toyStart _).1 (Or.inl rfl)).1⟩,
    ⟨rfl, ((C3_unsat_exit (toyOps Answer.UNSAT false) 3 () toyStart _).2 rfl).2.1⟩⟩

/-- C4 (code bug): whenever level 0 is not empty and its last entry is not `(p, cid)`,
`removePolynomial(p, cid)` fails the assertion of its precondition; no state is produced, so
no level is modified.  So it does after `addPolynomial(circle, 0)` and
`addPolynomial(line, 1)` for `removePolynomial(circle, 0)`.  On an empty level 0, as after
`reset([x])`, the pair `(x^2 + 1, 0)` is not the last entry either, but
`removePolynomial(x^2 + 1, 0)` does not fail the assertion: lines 110 and 111 read `back()`
of an empty vector. -/
theorem C4_empty_level_zero :
    (∀ (s : Projection UPoly) (p : UPoly) (cid : Nat) (init : List (UPoly × Nat))
        (e : UPoly × Nat), s.polys 0 = init ++ [e] → e ≠ (p, cid) →
      removePolynomial p cid s = .error Fault.assertion) ∧
    (addPolynomial tK ((TName.circle, 0) : TPoly) 0 (reset [0, 1]) = .ok exCircle ∧
      addPolynomial tK ((TName.line, 0) : TPoly) 1 exCircle = .ok exCircleLine ∧
      exCircleLine.polys 0 = [((TName.circle, 0), 0)] ++ [((TName.line, 0), 1)] ∧
      removePolynomial ((TName.circle, 0) : TPoly) 0 exCircleLine = .error Fault.assertion) ∧
    ((reset [0] : Projection TPoly).polys 0 = [] ∧
      ((reset [0] : Projection TPoly).polys 0).getLast? ≠ some ((TName.xsq, 0), 0) ∧
      removePolynomial ((TName.xsq, 0) : TPoly) 0 (reset [0]) = .error Fault.undefined) :=
  ⟨fun _ p cid init e h hne => removePolynomial_mismatch p cid init e h hne,
    ⟨rfl, rfl, rfl, rfl⟩, ⟨rfl, by decide, rfl⟩⟩

/-- C5 (code bug): after `reset([x, y]); addPolynomial(circle, 0)` the state is reachable,
`(circle, 0)` is the last entry of level 0 and has id 0, and level 1 holds only `y^2 - 1`
with origin 0.  `removePolynomial(circle, 0)` removes that entry and then evaluates the loop
condition `mPolynomials[1].back().second == origin` on the emptied vector: the call does not
complete. -/
theorem C5_removal_undefined :
    Reachable tK exCircle ∧
    exCircle.polys 0 = [((TName.circle, 0), 0)] ∧
    exCircle.polys 1 = [((TName.ysq, 1), 0)] ∧
    removePolynomial ((TName.circle, 0) : TPoly) 0 exCircle = .error Fault.undefined :=
  ⟨exCircle_reachable, rfl, rfl, rfl⟩

/-- The calls of the removal callback in a `removePolynomial(p, cid)` call that completes in
a reachable state: one for level 0 and one for every level `1 <= L < dim` that is not empty,
in increasing level order.  The removed level-0 polynomial has id `cid`, and the mask passed
for a level contains exactly the ids removed from that level: the ids `i` with
`size'(L) <= i < size(L)`, where `size'` is the size after the call. -/
theorem removePolynomial_callbacks (K : Kernel UPoly) (s s' : Projection UPoly) (p : UPoly)
    (cid : Nat) (log : List (Nat × Bitset)) (hr : Reachable K s)
    (h : removePolynomial p cid s = .ok (s', log)) :
    log.map Prod.fst = 0 :: (List.range' 1 (s.dim - 1)).filter (fun L => decide (s.size L ≠ 0)) ∧
    s.size 0 = cid + 1 ∧ s'.size 0 = cid ∧
    ∀ L mask, (L, mask) ∈ log → ∀ i, i ∈ mask ↔ s'.size L ≤ i ∧ i < s.size L := by
  obtain ⟨init, h0, hcid, _, _, _, hp0, hL, hlog⟩ := removePolynomial_spec hr.inv h
  have hsz0 : s.size 0 = cid + 1 := by rw [size_eq_length_polys, h0, hcid]; simp
  have hsz0' : s'.size 0 = cid := by rw [size_eq_length_polys, hp0, hcid]
  refine ⟨?_, hsz0, hsz0', ?_⟩
  · rw [hlog]
    simp only [List.map_cons, callbacks, List.map_map]
    congr 1
    have hfun : (Prod.fst ∘ fun L => (L, Finset.Ico (strip cid (s.polys L)).length
        (s.polys L).length)) = id := by
      funext L; rfl
    rw [hfun, List.map_id]
    apply List.filter_congr
    intro L _
    rw [size_eq_length_polys]
    simp
  · intro L mask hmem i
    rw [hlog] at hmem
    rcases List.mem_cons.1 hmem with hm | hm
    · simp only [Prod.mk.injEq] at hm
      obtain ⟨rfl, rfl⟩ := hm
      rw [hsz0, hsz0']
      simp only [Finset.mem_singleton]
      omega
    · unfold callbacks at hm
      obtain ⟨L', hL', heq⟩ := List.mem_map.1 hm
      simp only [Prod.mk.injEq] at heq
      obtain ⟨rfl, rfl⟩ := heq
      have h1 := (List.mem_range'_1.1 (List.mem_of_mem_filter hL')).1
      rw [size_eq_length_polys, size_eq_length_polys, (hL L' h1).1]
      simp only [Finset.mem_Ico]

/-- C6 (code bug): a `removePolynomial(p, cid)` call that completes in a reachable state
invokes the removal callback exactly once for level 0 and exactly once for every level
`1 <= L < dim` that is not empty, in increasing level order, with the mask of the ids removed
from that level (for level 0 the set that holds only `cid`; for a level from which nothing
was removed the empty mask); so it does when the line is removed from the state that holds
the circle and the line.  It does not invoke the callback for an empty level, although the
comment of the method says that the callback is called for every level: after
`reset([x, y]); addPolynomial(x, 0)` level 1 is empty, and `removePolynomial(x, 0)`
completes with the callback invoked for level 0 only (the loop skips level 1 with
`continue` on line 118). -/
theorem C6_callback_skips_empty_level :
    (∀ (K : Kernel UPoly) (s s' : Projection UPoly) (p : UPoly) (cid : Nat)
        (log : List (Nat × Bitset)), Reachable K s →
      removePolynomial p cid s = .ok (s', log) →
      log.map Prod.fst =
          0 :: (List.range' 1 (s.dim - 1)).filter (fun L => decide (s.size L ≠ 0)) ∧
        s.size 0 = cid + 1 ∧ s'.size 0 = cid ∧
        ∀ L mask, (L, mask) ∈ log → ∀ i, i ∈ mask ↔ s'.size L ≤ i ∧ i < s.size L) ∧
    (Reachable tK exCircleLine ∧
      removePolynomial ((TName.line, 0) : TPoly) 1 exCircleLine =
        .ok (exCircle, [(0, {1}), (1, {1, 2})])) ∧
    (Reachable tK exX ∧ exX.dim = 2 ∧ exX.polys 1 = [] ∧
      removePolynomial ((TName.xvar, 0) : TPoly) 0 exX = .ok (reset [0, 1], [(0, {0})])) :=
  ⟨fun K s s' p cid log hr h => removePolynomial_callbacks K s s' p cid log hr h,
    ⟨exCircleLine_reachable, rfl⟩, ⟨exX_reachable, rfl, rfl, rfl⟩⟩

/-- C7: in every reachable state, at every level, the stored polynomials are pairwise
distinct, the id map sends a polynomial to `i` exactly if it is the `i`-th stored polynomial
(so it is a bijection between the stored polynomials and the ids `0 .. size-1`, in insertion
order), the lifting queue holds exactly the ids `0 .. size-1`, and the last stored, that is
the most recently inserted, polynomial has the largest id `size - 1`. -/
theorem C7_dense_ids (K : Kernel UPoly) (s : Projection UPoly) (hr : Reachable K s)
    (L : Nat) (l : Level UPoly) (hl : s.levels[L]? = some l) :
    (l.mPolynomials.map Prod.fst).Nodup ∧
    (∀ p i, mapFind l.mPolynomialIDs p = some i ↔ ∃ o, l.mPolynomials[i]? = some (p, o)) ∧
    l.mLiftingQueue = List.range l.mPolynomials.length ∧
    (∀ i, i ∈ l.mLiftingQueue ↔ i < s.size L) ∧
    (∀ q o, l.mPolynomials.getLast? = some (q, o) →
      mapFind l.mPolynomialIDs q = some (l.mPolynomials.length - 1)) := by
  have hwf := hr.inv.1.wf hl
  have hids : l.mPolynomialIDs = idsFrom 0 l.mPolynomials := by
    conv_lhs => rw [hwf.1]
    rfl
  have hq : l.mLiftingQueue = List.range l.mPolynomials.length := by
    conv_lhs => rw [hwf.1]
    rfl
  have hfind : ∀ p i, mapFind l.mPolynomialIDs p = some i ↔
      ∃ o, l.mPolynomials[i]? = some (p, o) := by
    intro p i
    rw [hids]
    constructor
    · intro h
      obtain ⟨_, e, he1, he2⟩ := mapFind_idsFrom_some 0 _ p i h
      refine ⟨e.2, ?_⟩
      rw [Nat.sub_zero] at he1
      rw [he1, ← he2]
    · rintro ⟨o, ho⟩
      have := mapFind_idsFrom_of_get 0 _ hwf.2 i (p, o) ho
      rw [Nat.zero_add] at this
      exact this
  refine ⟨hwf.2, hfind, hq, ?_, ?_⟩
  · intro i
    rw [hq, List.mem_range, Projection.size, hl]
  · intro q o hlast
    rw [hfind]
    refine ⟨o, ?_⟩
    obtain ⟨ys, hys⟩ := List.getLast?_eq_some_iff.1 hlast
    rw [hys]
    simp

/-- Witness for C7: level 1 of the state that holds the circle and the line. -/
theorem C7_dense_ids_witness :
    Reachable tK exCircleLine ∧
    exCircleLine.levels[1]? =
      some (mkLevel [((TName.ysq, 1), 0), ((TName.yvar, 1), 1), ((TName.yres, 1), 1)]) ∧
    mapFind (mkLevel [((TName.ysq, 1), 0), ((TName.yvar, 1), 1),
      ((TName.yres, 1), 1)]).mPolynomialIDs ((TName.yres, 1) : TPoly) = some (3 - 1) :=
  ⟨exCircleLine_reachable, rfl,
    (C7_dense_ids tK exCircleLine exCircleLine_reachable 1 _ rfl).2.2.2.2 (TName.yres, 1) 1 rfl⟩

/-- C8 (amended): let `addToProjection` process, at a level `L < dim - 1`, a polynomial `p`
that is not purged.  If `p` is forwarded (interior level, constant in the level's variable),
it is handed to level `L + 1` with its origin `o` unchanged.  If `p` is new at the level, let `origin` be
the origin under which it is processed and stored (the argument `o`; at level 0 the index
assigned on line 69).  Then the recursive calls for level `L + 1` are exactly the calls for
the pairs of `handedOn`, made in order before `p` is inserted, and a pair is handed on exactly
if it is a result of the unary projection of `p` with origin `origin`, or a result of the
binary projection of `p` with a stored entry `(q, o_q)` with origin `max(origin, o_q)`. -/
theorem C8_handed_origins (K : Kernel UPoly) (k level : Nat) (p : UPoly) (o : Nat)
    (s : Projection UPoly) (l : Level UPoly) (hp : canBePurged K p = false)
    (hlt : level < s.dim - 1) (hl : s.levels[level]? = some l) :
    ((0 < level ∧ canBeForwarded K level p = true) →
      addToProjectionAux K (k + 1) level p o s =
        addToProjectionAux K k (level + 1) (K.switchVariable p (s.var (level + 1))) o s) ∧
    (¬ (0 < level ∧ canBeForwarded K level p = true) → K.mainVar p = s.var level →
      mapFind l.mPolynomialIDs p = none →
      ∀ origin, origin = (if level = 0 then l.mPolynomials.length else o) →
        addToProjectionAux K (k + 1) level p o s =
          (match foldE (fun st c => addToProjectionAux K k (level + 1) c.1 c.2 st)
              (handedOn K (s.var (level + 1)) p origin l.mPolynomials) s with
            | .error e => .error e
            | .ok s2 => insertPolynomial s2 level p origin) ∧
        (∀ c, c ∈ handedOn K (s.var (level + 1)) p origin l.mPolynomials ↔
          (c.1 ∈ K.projectUnary p (s.var (level + 1)) ∧ c.2 = origin) ∨
          ∃ q oq, (q, oq) ∈ l.mPolynomials ∧
            c.1 ∈ K.projectBinary p q (s.var (level + 1)) ∧ c.2 = max origin oq) ∧
        (0 < level → origin = o)) := by
  constructor
  · intro hf
    have hf' : 0 < level ∧ level < s.dim - 1 ∧ canBeForwarded K level p = true :=
      ⟨hf.1, hlt, hf.2⟩
    simp only [addToProjectionAux, hp, hf', Bool.false_eq_true, if_false, and_self, if_true]
  · intro hf hv hn origin horigin
    have hf' : ¬ (0 < level ∧ level < s.dim - 1 ∧ canBeForwarded K level p = true) :=
      fun hc => hf ⟨hc.1, hc.2.2⟩
    refine ⟨?_, mem_handedOn_iff K _ p origin _, ?_⟩
    · rw [aux_new_eq K k level p o s l hp hf' (by omega) hv hl hn, if_pos hlt, horigin]
    · intro h0
      rw [horigin, if_neg (by omega)]

/-- C8 (as stated, refuted): `addPolynomial(line, 7)` on the state that holds the circle
processes the line at level 0 with the origin argument 7.  The result `y` of its unary
projection is handed to level 1 and inserted there with origin 1, the index of the line at
level 0, not with origin 7; the resultant with the stored circle (origin 0) is handed on and
inserted with origin 1, not with `max(7, 0) = 7`. -/
theorem C8_counterexample :
    ((TName.yvar, 1) : TPoly) ∈ tK.projectUnary (TName.line, 0) (exCircle.var 1) ∧
    (((TName.circle, 0), 0) : TPoly × Nat) ∈ exCircle.polys 0 ∧
    ((TName.yres, 1) : TPoly) ∈
      tK.projectBinary (TName.line, 0) (TName.circle, 0) (exCircle.var 1) ∧
    addPolynomial tK ((TName.line, 0) : TPoly) 7 exCircle = .ok exCircleLine ∧
    ProjEvent.insert 1 ((TName.yvar, 1) : TPoly) 1 ∈
      (addPolynomialTr tK ((TName.line, 0) : TPoly) 7 exCircle).2 ∧
    ProjEvent.insert 1 ((TName.yvar, 1) : TPoly) 7 ∉
      (addPolynomialTr tK ((TName.line, 0) : TPoly) 7 exCircle).2 ∧
    ProjEvent.insert 1 ((TName.yres, 1) : TPoly) 1 ∈
      (addPolynomialTr tK ((TName.line, 0) : TPoly) 7 exCircle).2 ∧
    ProjEvent.insert 1 ((TName.yres, 1) : TPoly) (max 7 0) ∉
      (addPolynomialTr tK ((TName.line, 0) : TPoly) 7 exCircle).2 ∧
    (((TName.yvar, 1), 1) : TPoly × Nat) ∈ exCircleLine.polys 1 ∧
    (((TName.yres, 1), 1) : TPoly × Nat) ∈ exCircleLine.polys 1 :=
  ⟨by decide, by decide, by decide, rfl, by decide, by decide, by decide, by decide,
    by decide, by decide⟩

/-- Witness for C8: the line is added at level 0 of the state that holds the circle; the
results `1` and `y` of its unary projection and the resultant with the circle (origin 0) are
handed to level 1 with origin 1. -/
theorem C8_handed_origins_witness :
    canBePurged tK ((TName.line, 0) : TPoly) = false ∧ 0 < exCircle.dim - 1 ∧
    exCircle.levels[0]? = some (mkLevel [((TName.circle, 0), 0)]) ∧
    handedOn tK (exCircle.var 1) ((TName.line, 0) : TPoly) 1 [((TName.circle, 0), 0)] =
      [((TName.one, 1), 1), ((TName.yvar, 1), 1), ((TName.yres, 1), 1)] ∧
    addToProjectionAux tK (1 + 1) 0 ((TName.line, 0) : TPoly) 7 exCircle =
      (match foldE (fun st c => addToProjectionAux tK 1 (0 + 1) c.1 c.2 st)
          (handedOn tK (exCircle.var (0 + 1)) ((TName.line, 0) : TPoly) 1
            (mkLevel [((TName.circle, 0), 0)]).mPolynomials) exCircle with
        | .error e => .error e
        | .ok s2 => insertPolynomial s2 0 (TName.line, 0) 1) :=
  ⟨rfl, by decide, rfl, rfl,
    ((C8_handed_origins tK 1 0 (TName.line, 0) 7 exCircle _ rfl (by decide) rfl).2
      (by decide) rfl rfl 1 rfl).1⟩

/-- C9: in every reachable state the `i`-th entry of level 0 has origin `i`, whatever
constraint ids were passed to the `addPolynomial` calls. -/
theorem C9_level0_origin (K : Kernel UPoly) (s : Projection UPoly) (hr : Reachable K s)
    (i : Nat) (e : UPoly × Nat) (h : (s.polys 0)[i]? = some e) : e.2 = i := by
  have h1 : ((s.polys 0).map Prod.snd)[i]? = some e.2 := by
    rw [List.getElem?_map, h]; rfl
  rw [hr.inv.2.1] at h1
  obtain ⟨hlt, h2⟩ := List.getElem?_eq_some.1 h1
  rw [List.getElem_range] at h2
  exact h2.symm

/-- Witness for C9: the polynomial `x^2 + 1` was added with the constraint id 5 and is stored
with origin 0. -/
theorem C9_level0_origin_witness :
    Reachable tK exOne ∧ (exOne.polys 0)[0]? = some ((TName.xsq, 0), 0) ∧
    (((TName.xsq, 0), 0) : TPoly × Nat).2 = 0 :=
  ⟨exOne_reachable, rfl, C9_level0_origin tK exOne exOne_reachable 0 _ rfl⟩

/-- C10 (as stated, refuted): after `reset([x])` the polynomial `x^2 + 1` has main variable
`x`, is not purgeable and not stored; `addPolynomial(x^2 + 1, 5)` stores it with origin 0,
not with the constraint id 5. -/
theorem C10_counterexample :
    (reset [0] : Projection TPoly).mVars[0]? = some (tK.mainVar (TName.xsq, 0)) ∧
    canBePurged tK ((TName.xsq, 0) : TPoly) = false ∧
    ((TName.xsq, 0) : TPoly) ∉ ((reset [0] : Projection TPoly).polys 0).map Prod.fst ∧
    addPolynomial tK ((TName.xsq, 0) : TPoly) 5 (reset [0]) = .ok exOne ∧
    (exOne.polys 0).getLast? = some ((TName.xsq, 0), 0) ∧
    (exOne.polys 0).getLast? ≠ some ((TName.xsq, 0), 5) :=
  ⟨rfl, rfl, by decide, rfl, rfl, by decide⟩

/-- C10 (amended): in a reachable state, for a polynomial `p` with main variable `var(0)`
that is not purgeable and not stored at level 0, `addPolynomial(p, cid)` completes if the
projection operator respects the main-variable discipline, and whenever it completes the new
last entry of level 0 is `p`, stored with the previous `size(0)` (its own index) as origin;
this is the given constraint id exactly if `cid = size(0)`. -/
theorem C10_last_entry (K : Kernel UPoly) (s : Projection UPoly) (p : UPoly) (cid : Nat)
    (hr : Reachable K s) (hv : s.mVars[0]? = some (K.mainVar p))
    (hp : canBePurged K p = false) (hnew : p ∉ (s.polys 0).map Prod.fst) :
    (Disciplined K → ∃ s', addPolynomial K p cid s = .ok s') ∧
    ∀ s', addPolynomial K p cid s = .ok s' →
      (s'.polys 0).getLast? = some (p, s.size 0) ∧ s'.size 0 = s.size 0 + 1 ∧
      ((s'.polys 0).getLast? = some (p, cid) ↔ cid = s.size 0) := by
  refine ⟨fun hK => addPolynomial_total K hK hr.inv p cid hv, ?_⟩
  intro s' hadd
  obtain ⟨_, _, h0⟩ := addPolynomial_new_spec K hr.inv hp hnew hadd
  have hlast : (s'.polys 0).getLast? = some (p, s.size 0) := by
    rw [h0, List.getLast?_concat]
  refine ⟨hlast, ?_, ?_⟩
  · rw [size_eq_length_polys, h0, size_eq_length_polys]; simp
  · rw [hlast]
    simp only [Option.some.injEq, Prod.mk.injEq, true_and]
    exact eq_comm

/-- Witness for C10: the line is added with the constraint id 7 to the state that holds the
circle and is stored with origin 1. -/
theorem C10_last_entry_witness :
    Reachable tK exCircle ∧
    exCircle.mVars[0]? = some (tK.mainVar (TName.line, 0)) ∧
    canBePurged tK ((TName.line, 0) : TPoly) = false ∧
    ((TName.line, 0) : TPoly) ∉ (exCircle.polys 0).map Prod.fst ∧
    addPolynomial tK ((TName.line, 0) : TPoly) 7 exCircle = .ok exCircleLine ∧
    (exCircleLine.polys 0).getLast? = some ((TName.line, 0), exCircle.size 0) :=
  have hnew : ((TName.line, 0) : TPoly) ∉ (exCircle.polys 0).map Prod.fst := by decide
  ⟨exCircle_reachable, rfl, rfl, hnew, rfl,
    ((C10_last_entry tK exCircle (TName.line, 0) 7 exCircle_reachable rfl rfl hnew).2
      exCircleLine rfl).1⟩

/-- C11: in every reachable state no level stores a purgeable polynomial (one that is zero or
a number); every `addToProjection` call with a purgeable polynomial, at any level and in any
state, returns with the state unchanged and with the purge as its only event, so that the
projection operator is not invoked and nothing is inserted; and `addPolynomial` with a
purgeable polynomial whose main variable is `var(0)` does the same. -/
theorem C11_purged (K : Kernel UPoly) (s : Projection UPoly) (hr : Reachable K s) :
    (∀ L e, e ∈ s.polys L → canBePurged K e.1 = false) ∧
    (∀ (k level : Nat) (p : UPoly) (o : Nat) (t : Projection UPoly)
        (log : List (ProjEvent UPoly)), canBePurged K p = true →
      addToProjectionTr K k level p o t log = (.ok t, log ++ [.purge level p]) ∧
      addToProjectionAux K k level p o t = .ok t) ∧
    (∀ (p : UPoly) (cid : Nat), canBePurged K p = true →
      s.mVars[0]? = some (K.mainVar p) →
      addPolynomialTr K p cid s = (.ok s, [.purge 0 p]) ∧ addPolynomial K p cid s = .ok s) := by
  have haux : ∀ (k level : Nat) (p : UPoly) (o : Nat) (t : Projection UPoly)
      (log : List (ProjEvent UPoly)), canBePurged K p = true →
      addToProjectionTr K k level p o t log = (.ok t, log ++ [.purge level p]) ∧
      addToProjectionAux K k level p o t = .ok t := by
    intro k level p o t log hp
    cases k with
    | zero => simp [addToProjectionTr, addToProjectionAux, hp]
    | succ k => simp [addToProjectionTr, addToProjectionAux, hp]
  refine ⟨fun L e he => (hr.storedOK L e he).1, haux, ?_⟩
  intro p cid hp hv
  unfold addPolynomialTr addPolynomial addToProjection
  rw [hv]
  simp only [ne_eq, not_true_eq_false, if_false]
  obtain ⟨h1, h2⟩ := haux (s.dim - 0) 0 p cid s [] hp
  exact ⟨by simpa using h1, h2⟩

/-- Witness for C11: the state that holds the circle and the line stores no purgeable
polynomial, and adding the number 1 to it changes nothing. -/
theorem C11_purged_witness :
    Reachable tK exCircleLine ∧
    canBePurged tK ((TName.one, 0) : TPoly) = true ∧
    exCircleLine.mVars[0]? = some (tK.mainVar (TName.one, 0)) ∧
    addPolynomialTr tK ((TName.one, 0) : TPoly) 2 exCircleLine =
      (.ok exCircleLine, [.purge 0 (TName.one, 0)]) ∧
    addPolynomial tK ((TName.one, 0) : TPoly) 2 exCircleLine = .ok exCircleLine :=
  ⟨exCircleLine_reachable, rfl, rfl,
    (C11_purged tK exCircleLine exCircleLine_reachable).2.2 (TName.one, 0) 2 rfl rfl⟩

/-- In every state in which `addToProjection` is called during a run of `addPolynomial`, no
polynomial stored at an interior level `M` (`0 < M < dim-1`) is constant in the variable of
`M`.  With a disciplined operator, a call `addToProjection(L, p, n)` at an interior level `L`
returns, and with `(L', p')` the level and the form of the polynomial at which forwarding
stops: `L <= L' <= dim-1`; at every level `M` with `L <= M < L'` the polynomial is not purged
and is level-constant; at `L'` it is purged, or `L'` is the last level `dim-1`, or it is not
level-constant; no level below `L'` changes; if it is purged at `L'` the state is unchanged,
and otherwise it is stored at `L'`. -/
theorem forwarding_spec (K : Kernel UPoly) (hK : Disciplined K) (n : Nat)
    (s : Projection UPoly) (hs : CallState K n s) (L : Nat) (p : UPoly) (hL0 : 0 < L)
    (hL1 : L < s.dim - 1) (hv : canBePurged K p = true ∨ K.mainVar p = s.var L) :
    (∀ M e, 0 < M → M < s.dim - 1 → e ∈ s.polys M → canBeForwarded K M e.1 = false) ∧
    ∃ s' L' p', forwardTarget K s (s.dim - L) L p = (L', p') ∧
      addToProjection K L p n s = .ok s' ∧ L ≤ L' ∧ L' ≤ s.dim - 1 ∧
      (∀ M, L ≤ M → M < L' →
        (forwardTarget K s (M - L) L p).1 = M ∧
        canBePurged K (forwardTarget K s (M - L) L p).2 = false ∧
        canBeForwarded K M (forwardTarget K s (M - L) L p).2 = true) ∧
      (canBePurged K p' = true ∨ L' = s.dim - 1 ∨ canBeForwarded K L' p' = false) ∧
      (∀ M, M < L' → s'.polys M = s.polys M) ∧
      (canBePurged K p' = true → s' = s) ∧
      (canBePurged K p' = false → p' ∈ (s'.polys L').map Prod.fst) := by
  obtain ⟨hb, hok⟩ := hs.facts
  refine ⟨fun M e h0 h1 he => (hok M e he).2.2 h0 h1, ?_⟩
  obtain ⟨s', hs'⟩ := aux_total K hK n (s.dim - L) L p n s hb
    (fun h => absurd h (by omega)) (fun _ => rfl) (by omega) (Nat.le_refl _) hv
  have hle := forwardTarget_le K s (s.dim - L) L p
  obtain ⟨hup, hstop⟩ := forwardTarget_stop K s (s.dim - L) L p hL0 (by omega) (by omega)
    (by omega)
  have heq := aux_forward_eq K s n (s.dim - L) L p
  rw [hs'] at heq
  generalize htgt : forwardTarget K s (s.dim - L) L p = t at hle hup hstop heq
  obtain ⟨L', p'⟩ := t
  simp only at hle hup hstop heq
  have hsound := aux_sound K n _ L' p' n s s' hb (fun h => absurd h (by omega))
    (fun _ => rfl) heq.symm
  refine ⟨s', L', p', rfl, hs', hle, hup, ?_, hstop, ?_, ?_, ?_⟩
  · intro M hM1 hM2
    have hmid := forwardTarget_mid K s (M - L) (s.dim - L) L p (by rw [htgt]; simp; omega)
    have e : L + (M - L) = M := by omega
    rw [e] at hmid
    exact ⟨hmid.1, hmid.2.1, hmid.2.2.2.2⟩
  · intro M hM
    exact hsound.2.1.polys_below hM
  · intro hp
    rw [aux_purged K _ L' p' n s hp] at heq
    simpa using heq
  · intro hp
    have hf : ¬ (0 < L' ∧ L' < s.dim - 1 ∧ canBeForwarded K L' p' = true) := by
      rintro ⟨_, h2, h3⟩
      rcases hstop with h | h | h
      · rw [hp] at h; simp at h
      · omega
      · rw [h3] at h; simp at h
    by_cases hmem : p' ∈ (s.polys L').map Prod.fst
    · obtain ⟨ext, he, _⟩ := hsound.2.1.2.2 L'
      rw [he, List.map_append]
      exact List.mem_append_left _ hmem
    · obtain ⟨k', hk'⟩ : ∃ k', s.dim - L - (L' - L) = k' + 1 := ⟨s.dim - L' - 1, by omega⟩
      rw [hk'] at heq
      have hnew := aux_new_case K n k' (aux_sound K n k') L' p' n s s' hb
        (fun h => absurd h (by omega)) (fun _ => rfl) hp hf hmem heq.symm
      rw [hnew.2.2.1]
      simp

/-- C12: in every reachable state, and in every state in which `addToProjection` is called
during a run of `addPolynomial`, no polynomial stored at an interior level `M`
(`0 < M < dim-1`) is constant in the variable of `M`.  Let the operator be disciplined and let
`p` be handed to an interior level `L`, where `p` is a polynomial in the variables of the
ordering from level `L` on: if it is constant in every one of them, so that it is forwarded
up to the last level and is constant there as well, it is zero or a number (`hord`).  Then the
call `addToProjection(L, p, n)` returns, and with `(L', p')` the level and the form of the
polynomial at which forwarding stops: `L <= L' <= dim-1`; at every level `M` with
`L <= M < L'` the polynomial is not purged and is level-constant; at `L'` it is purged and the
state is unchanged, or it is not level-constant at `L'` and is stored there; no level below
`L'` changes.  So the polynomial is purged or stored only at the first level at or after `L`
at which it is no longer level-constant. -/
theorem C12_forwarded_while_constant (K : Kernel UPoly) (hK : Disciplined K) (n : Nat)
    (s : Projection UPoly) (hs : CallState K n s) (L : Nat) (p : UPoly) (hL0 : 0 < L)
    (hL1 : L < s.dim - 1) (hv : canBePurged K p = true ∨ K.mainVar p = s.var L)
    (hord : ∀ p', forwardTarget K s (s.dim - L) L p = (s.dim - 1, p') →
      canBeForwarded K (s.dim - 1) p' = true → canBePurged K p' = true) :
    (∀ t, Reachable K t → ∀ M e, 0 < M → M < t.dim - 1 → e ∈ t.polys M →
      canBeForwarded K M e.1 = false) ∧
    (∀ M e, 0 < M → M < s.dim - 1 → e ∈ s.polys M → canBeForwarded K M e.1 = false) ∧
    ∃ s' L' p', forwardTarget K s (s.dim - L) L p = (L', p') ∧
      addToProjection K L p n s = .ok s' ∧ L ≤ L' ∧ L' ≤ s.dim - 1 ∧
      (∀ M, L ≤ M → M < L' →
        (forwardTarget K s (M - L) L p).1 = M ∧
        canBePurged K (forwardTarget K s (M - L) L p).2 = false ∧
        canBeForwarded K M (forwardTarget K s (M - L) L p).2 = true) ∧
      (canBePurged K p' = true ∨ canBeForwarded K L' p' = false) ∧
      (∀ M, M < L' → s'.polys M = s.polys M) ∧
      (canBePurged K p' = true → s' = s) ∧
      (canBePurged K p' = false →
        canBeForwarded K L' p' = false ∧ p' ∈ (s'.polys L').map Prod.fst) := by
  obtain ⟨hint, s', L', p', ht, hadd, hle, hup, hmid, hstop, hbelow, hpurged, hstored⟩ :=
    forwarding_spec K hK n s hs L p hL0 hL1 hv
  have hstop' : canBePurged K p' = true ∨ canBeForwarded K L' p' = false := by
    rcases hstop with h | h | h
    · exact Or.inl h
    · subst h
      cases hc : canBeForwarded K (s.dim - 1) p' with
      | false => exact Or.inr rfl
      | true => exact Or.inl (hord p' ht hc)
    · exact Or.inr h
  refine ⟨fun t ht M e h0 h1 he => (ht.storedOK M e he).2.2 h0 h1, hint, s', L', p', ht, hadd,
    hle, hup, hmid, hstop', hbelow, hpurged, fun hp => ⟨?_, hstored hp⟩⟩
  rcases hstop' with h | h
  · rw [hp] at h
    exact absurd h (by simp)
  · exact h

/-- Witness for C12: after `reset([x, y, z])` the polynomial `z^2 - 2`, handed to the
interior level 1 with main variable `y`, is constant in `y` and forwarded to level 2, the
last level, where it is not level-constant, and stored there. -/
theorem C12_forwarded_while_constant_witness :
    Disciplined pK ∧ CallState pK 0 (reset [0, 1, 2] : Projection PPoly) ∧
    0 < 1 ∧ 1 < (reset [0, 1, 2] : Projection PPoly).dim - 1 ∧
    canBeForwarded pK 1 ((PName.zp, 1) : PPoly) = true ∧
    canBeForwarded pK 2 ((PName.zp, 2) : PPoly) = false ∧
    ∃ s', addToProjection pK 1 ((PName.zp, 1) : PPoly) 0 (reset [0, 1, 2]) = .ok s' ∧
      s'.polys 1 = [] ∧ ((PName.zp, 2) : PPoly) ∈ (s'.polys 2).map Prod.fst := by
  have hs : CallState pK 0 (reset [0, 1, 2] : Projection PPoly) :=
    CallState.start (Reachable.reset [0, 1, 2]) rfl
  have ht' : forwardTarget pK (reset [0, 1, 2] : Projection PPoly)
      ((reset [0, 1, 2] : Projection PPoly).dim - 1) 1 (PName.zp, 1) = (2, (PName.zp, 2)) := by
    rfl
  refine ⟨pK_disciplined, hs, by decide, by decide, rfl, rfl, ?_⟩
  obtain ⟨s', L', p', ht, hadd, _, _, _, _, hbelow, _, hst⟩ :=
    (C12_forwarded_while_constant pK pK_disciplined 0 (reset [0, 1, 2]) hs 1 (PName.zp, 1)
      (by decide) (by decide) (Or.inr rfl)
      (fun p' h hc => by
        rw [ht'] at h
        simp only [Prod.mk.injEq] at h
        obtain ⟨_, rfl⟩ := h
        exact absurd hc (by decide))).2.2
  rw [ht'] at ht
  simp only [Prod.mk.injEq] at ht
  obtain ⟨rfl, rfl⟩ := ht
  exact ⟨s', hadd, by rw [hbelow 1 (by decide)]; rfl, (hst rfl).2⟩

/-- The condition on the variables of the polynomial is needed: after `reset([x, y, z])`,
adding `x - a`, where `a` is a variable that is not in the ordering, hands the coefficient
`a` to the interior level 1; it is level-constant there and forwarded to level 2, the last
level, from which nothing is forwarded, and it is stored there although it is still
level-constant and not a number. -/
theorem forwarding_outside_ordering :
    addPolynomial pK ((PName.xa, 0) : PPoly) 0 (reset [0, 1, 2]) = .ok exParam ∧
    ProjEvent.forward 1 ((PName.par, 1) : PPoly) ∈
      (addPolynomialTr pK ((PName.xa, 0) : PPoly) 0 (reset [0, 1, 2])).2 ∧
    (((PName.par, 2), 0) : PPoly × Nat) ∈ exParam.polys 2 ∧
    canBePurged pK ((PName.par, 2) : PPoly) = false ∧
    canBeForwarded pK 2 ((PName.par, 2) : PPoly) = true :=
  ⟨rfl, by decide, by decide, rfl, rfl⟩

/-- C13: let `addToProjection(L, p, o)` be called in a state in which `addToProjection` is
called during a run of `addPolynomial` (see `CallState`; at a level `L >= 1` the origin
passed is `n`), with a polynomial `p` that is stored at `L` with origin `so`.  Then the
call returns with the state unchanged, so that no level, id map or lifting queue changes and
the stored origin `so` is kept; its only events are the detection of the duplicate and, at a
level `L >= 1`, the evaluation of the assertion on the origins, which holds: the projection
operator is not invoked. -/
theorem C13_duplicate_noop (K : Kernel UPoly) (n k L : Nat) (p : UPoly) (o so : Nat)
    (s : Projection UPoly) (log : List (ProjEvent UPoly)) (hs : CallState K n s)
    (ho : L ≠ 0 → o = n) (hst : (p, so) ∈ s.polys L) :
    addToProjectionTr K (k + 1) L p o s log =
      (.ok s, log ++ (.duplicate L p :: if 0 < L then [.originCheck L so o] else [])) ∧
    addToProjectionAux K (k + 1) L p o s = .ok s ∧ (0 < L → so ≤ o) := by
  obtain ⟨hb, hok⟩ := hs.facts
  obtain ⟨hp, hv, hnf⟩ := hok L (p, so) hst
  have hd : L < s.dim := by
    by_contra hc
    rw [polys_eq_nil_of_ge hb.1 (Nat.le_of_not_lt hc)] at hst
    simp at hst
  have hf : ¬ (0 < L ∧ L < s.dim - 1 ∧ canBeForwarded K L p = true) := by
    rintro ⟨h1, h2, h3⟩
    rw [hnf h1 h2] at h3
    simp at h3
  have hl := hb.1.get_of_lt hd
  have hl' := (level_ok_iff s L _).2 hl
  obtain ⟨i, hi⟩ := List.mem_iff_getElem?.1 hst
  have hfind : mapFind (mkLevel (s.polys L)).mPolynomialIDs p = some i := by
    have := mapFind_idsFrom_of_get 0 (s.polys L) (hb.1.nodup L) i (p, so) hi
    simpa [mkLevel] using this
  have hle : 0 < L → so ≤ o := by
    intro h0
    rw [ho (by omega)]
    exact hb.2 L (p, so) hst
  refine ⟨?_, ?_, hle⟩
  · simp only [addToProjectionTr, hp, hf, hd, hv, hl', hfind, mkLevel_polys, hi]
    by_cases h0 : 0 < L
    · simp [h0, hle h0]
    · simp [h0]
  · rw [aux_stored_eq K k L p o s _ i hp hf hd hv hl hfind, mkLevel_polys, hi]
    by_cases h0 : 0 < L
    · simp [h0, hle h0]
    · simp [h0]

/-- Witness for C13: in the state that holds the circle, `y^2 - 1` is stored at level 1 with
origin 0; a call for it with origin 1, as made while constraint 1 is added, changes
nothing. -/
theorem C13_duplicate_noop_witness :
    CallState tK 1 exCircle ∧
    (((TName.ysq, 1), 0) : TPoly × Nat) ∈ exCircle.polys 1 ∧
    addToProjectionTr tK (0 + 1) 1 ((TName.ysq, 1) : TPoly) 1 exCircle [] =
      (.ok exCircle, [.duplicate 1 (TName.ysq, 1), .originCheck 1 0 1]) :=
  have hst : (((TName.ysq, 1), 0) : TPoly × Nat) ∈ exCircle.polys 1 := by decide
  ⟨CallState.start exCircle_reachable rfl, hst,
    (C13_duplicate_noop tK 1 0 1 (TName.ysq, 1) 1 0 exCircle []
      (CallState.start exCircle_reachable rfl) (fun _ => rfl) hst).1⟩

/-- C14: for every projection operator, every reachable state and every `addPolynomial`
call on it: whenever the run evaluates the assertion of the duplicate branch (at a level
`L > 0`, events `originCheck`), the stored origin is less than or equal to the origin of the
new derivation, so this assertion does not fail; the new origin is the index `size(0)` of
the polynomial that is being added. -/
theorem C14_origin_assertion (K : Kernel UPoly) (s : Projection UPoly) (hr : Reachable K s)
    (p : UPoly) (cid : Nat) (L st og : Nat)
    (hev : ProjEvent.originCheck L st og ∈ (addPolynomialTr K p cid s).2) :
    st ≤ og ∧ og = s.size 0 ∧ 0 < L := by
  unfold addPolynomialTr at hev
  split at hev
  · simp at hev
  · split at hev
    · simp at hev
    · obtain ⟨new, h1, h2⟩ := tr_events K (s.size 0) 0
        (fun ev => ∀ L st og, ev = ProjEvent.originCheck L st og →
          st ≤ og ∧ og = s.size 0 ∧ 0 < L)
        (by intro _ _ _ _ _ _ h; cases h)
        (by intro _ _ _ _ _ _ h; cases h)
        (by intro _ _ _ _ _ _ h; cases h)
        (by
          intro level st' _ hz hle L' st'' og' h
          simp only [ProjEvent.originCheck.injEq] at h
          obtain ⟨rfl, rfl, rfl⟩ := h
          exact ⟨hle, rfl, hz⟩)
        (by intro _ _ _ _ _ _ h; cases h)
        (by intro _ _ _ _ _ _ _ h; cases h)
        (by intro _ _ _ _ _ _ h; cases h)
        (s.dim - 0) 0 p cid s [] (Nat.le_refl _) hr.inv.bounded (fun _ => rfl)
        (fun hc => absurd rfl hc)
      rw [h1, List.nil_append] at hev
      exact h2 _ hev L st og rfl

/-- Witness for C14: while the circle is added after `reset([x, y])`, its discriminant
re-derives the polynomial `y^2 - 1` that its trailing coefficient has stored at level 1
before; the assertion compares the stored origin 0 with the new origin 0. -/
theorem C14_origin_assertion_witness :
    Reachable tK (reset [0, 1] : Projection TPoly) ∧
    ProjEvent.originCheck 1 0 0 ∈
      (addPolynomialTr tK ((TName.circle, 0) : TPoly) 0 (reset [0, 1])).2 ∧
    0 ≤ 0 :=
  have hev : ProjEvent.originCheck 1 0 0 ∈
      (addPolynomialTr tK ((TName.circle, 0) : TPoly) 0 (reset [0, 1])).2 := by decide
  ⟨Reachable.reset [0, 1], hev,
    (C14_origin_assertion tK (reset [0, 1]) (Reachable.reset [0, 1]) (TName.circle, 0) 0 1 0 0
      hev).1⟩

/-- C15: in a reachable state and for a level below `dim()`, `getPolyForLifting(level,
liftedWith)` returns the polynomial of the first id, in the order of the lifting queue,
whose bit is not set in `liftedWith`, and sets exactly that bit; if the bit of every queued
id is set it returns none and leaves `liftedWith` as it is; in both cases the state (stored
polynomials, id maps, lifting queues) is unchanged; and one of the two cases applies. -/
theorem C15_getPolyForLifting (K : Kernel UPoly) (s : Projection UPoly) (hr : Reachable K s)
    (level : Nat) (hl : level < s.dim) (slw : Bitset) :
    (∀ pre pid post, s.liftingQueue level = pre ++ pid :: post → (∀ i ∈ pre, i ∈ slw) →
      pid ∉ slw →
      ∃ e, (s.polys level)[pid]? = some e ∧
        getPolyForLifting s level slw = .ok (some e.1, insert pid slw, s)) ∧
    ((∀ i ∈ s.liftingQueue level, i ∈ slw) →
      getPolyForLifting s level slw = .ok (none, slw, s)) ∧
    ((∃ pre pid post, s.liftingQueue level = pre ++ pid :: post ∧ (∀ i ∈ pre, i ∈ slw) ∧
      pid ∉ slw) ∨ (∀ i ∈ s.liftingQueue level, i ∈ slw)) := by
  have hg := hr.inv.1
  have hget := hg.get_of_lt hl
  have hlev : s.level level = .ok (mkLevel (s.polys level)) := (level_ok_iff s level _).2 hget
  have hq := liftingQueue_of_good hg level
  refine ⟨?_, ?_, ?_⟩
  · intro pre pid post hsplit hpre hpid
    have hmem : pid ∈ List.range (s.polys level).length := by
      rw [← hq, hsplit]; simp
    have hlt : pid < (s.polys level).length := List.mem_range.1 hmem
    refine ⟨(s.polys level)[pid], List.getElem?_eq_getElem hlt, ?_⟩
    have hq' : (mkLevel (s.polys level)).mLiftingQueue = pre ++ pid :: post := by
      rw [← hsplit, hq]; rfl
    simp only [getPolyForLifting, hlev, hq', mkLevel_polys]
    rw [scanQueue_first _ slw pre post pid _ hpre hpid (List.getElem?_eq_getElem hlt)]
  · intro hall
    have hq' : (mkLevel (s.polys level)).mLiftingQueue = s.liftingQueue level := by
      rw [hq]; rfl
    simp only [getPolyForLifting, hlev, hq', mkLevel_polys]
    rw [scanQueue_none _ slw _ hall]
  · generalize s.liftingQueue level = q
    induction q with
    | nil => right; simp
    | cons a q ih =>
      by_cases ha : a ∈ slw
      · rcases ih with ⟨pre, pid, post, h1, h2, h3⟩ | h
        · left
          refine ⟨a :: pre, pid, post, by rw [h1]; rfl, ?_, h3⟩
          intro i hi
          rcases List.mem_cons.1 hi with rfl | hi
          · exact ha
          · exact h2 i hi
        · right
          intro i hi
          rcases List.mem_cons.1 hi with rfl | hi
          · exact ha
          · exact h i hi
      · left
        exact ⟨[], a, q, rfl, by simp, ha⟩

/-- Witness for C15: in the state that holds the circle and the line, level 1 has the
lifting queue `[0, 1, 2]`; for a sample lifted with polynomial 0 the call returns polynomial
1, which is `y`, and sets bit 1. -/
theorem C15_getPolyForLifting_witness :
    Reachable tK exCircleLine ∧ 1 < exCircleLine.dim ∧
    exCircleLine.liftingQueue 1 = [0] ++ 1 :: [2] ∧
    ∃ e, (exCircleLine.polys 1)[1]? = some e ∧
      getPolyForLifting exCircleLine 1 {0} = .ok (some e.1, insert 1 {0}, exCircleLine) :=
  ⟨exCircleLine_reachable, by decide, rfl,
    (C15_getPolyForLifting tK exCircleLine exCircleLine_reachable 1 (by decide) {0}).1
      [0] 1 [2] rfl (by decide) (by decide)⟩

/-- C16: for the non-incremental projection with ordered backtracking,
`projectNewPolynomial` returns false (nothing new) for every level and every selection of
constraints, in every state, and leaves the state (every level, id map and lifting queue)
unchanged. -/
theorem C16_projectNewPolynomial (s : Projection UPoly) (level : Nat) (ps : Bitset) :
    projectNewPolynomial s level ps = (false, s) := rfl

/-- C18: none of the three heuristics returns `UNKNOWN`: whenever a run returns an answer,
it is `SAT` or `UNSAT`; and an answer `UNKNOWN` of `checkFullSamples` is handled exactly like
an answer `UNSAT`: replacing every `UNKNOWN` of the oracle by `UNSAT` changes neither the
result of a run nor the final states of the projection and of the sample tree. -/
theorem C18_no_unknown {P T It : Type} (ops : CADOps P T It UPoly) (fuel : Nat) (p : P)
    (t : T) :
    (∀ a w, (bySample ops fuel p t = some (.ok a, w) ∨
        preferProjection ops fuel p t = some (.ok a, w) ∨
        preferSampling ops fuel p t = some (.ok a, w)) →
      a = Answer.SAT ∨ a = Answer.UNSAT) ∧
    outcome (bySample ops.unknownAsUnsat fuel p t) = outcome (bySample ops fuel p t) ∧
    outcome (preferProjection ops.unknownAsUnsat fuel p t)
      = outcome (preferProjection ops fuel p t) ∧
    outcome (preferSampling ops.unknownAsUnsat fuel p t)
      = outcome (preferSampling ops fuel p t) := by
  refine ⟨?_, ?_, ?_, ?_⟩
  · intro a w h
    have key : ∀ r : Except Fault Answer,
        (r = .ok Answer.SAT ∨ r = .ok Answer.UNSAT ∨ r = .error Fault.assertion) →
        r = .ok a → a = Answer.SAT ∨ a = Answer.UNSAT := by
      intro r hr ha
      subst ha
      rcases hr with hr | hr | hr
      · left; simpa using hr
      · right; simpa using hr
      · simp at hr
    rcases h with h | h | h
    · exact key _ (bySample_result ops fuel p t _ w h) rfl
    · exact key _ (preferProjection_result ops fuel p t _ w h) rfl
    · exact key _ (preferSampling_result ops fuel p t _ w h) rfl
  · rw [bySample_outcome, bySample_outcome]
    have : bySampleStates ops.unknownAsUnsat = bySampleStates ops :=
      funext fun p => funext fun t => bySampleStates_unknown ops p t
    rw [this]
    rfl
  · rw [preferProjection_outcome, preferProjection_outcome]
    have : preferProjectionStates ops.unknownAsUnsat = preferProjectionStates ops :=
      funext fun p => funext fun t => preferProjectionStates_unknown ops p t
    rw [this]
    rfl
  · rw [preferSampling_outcome, preferSampling_outcome]
    have : preferSamplingStates ops.unknownAsUnsat = preferSamplingStates ops :=
      funext fun p => funext fun t => preferSamplingStates_unknown ops p t
    rw [this]
    rfl

/-- Witness for C18: in the worked example for the control loop with an oracle that answers
`UNKNOWN` for the full sample, `BySample` goes on with the next sample and returns `UNSAT` in
the third pass. -/
theorem C18_no_unknown_witness :
    bySample (toyOps Answer.UNKNOWN false) 3 () toyStart =
      some (.ok Answer.UNSAT, finalWorld (bySample (toyOps Answer.UNKNOWN false) 3 () toyStart)) ∧
    (Answer.UNSAT = Answer.SAT ∨ Answer.UNSAT = Answer.UNSAT) ∧
    outcome (bySample (toyOps Answer.UNKNOWN false).unknownAsUnsat 3 () toyStart)
      = outcome (bySample (toyOps Answer.UNKNOWN false) 3 () toyStart) :=
  ⟨rfl, (C18_no_unknown (toyOps Answer.UNKNOWN false) 3 () toyStart).1 _ _ (Or.inl rfl),
    (C18_no_unknown (toyOps Answer.UNKNOWN false) 3 () toyStart).2.1⟩

/-- C19 (refuted): the three heuristics are not interchangeable.  After `reset([x, y]);
addPolynomial(x, 0)` level 1 of the projection is empty.  Started from this projection, the
sample tree that holds only the root, and the same oracle, `BySample` finds no polynomial for
the root, removes it without adding a trivial sample and returns `UNSAT`, whereas
`PreferProjection` and `PreferSampling` add the trivial sample, lift it and return `SAT`. -/
theorem C19_heuristics_differ :
    addPolynomial tK ((TName.xvar, 0) : TPoly) 0 (reset [0, 1]) = .ok exX ∧
    exX.empty 1 = true ∧
    (bySample planeOps 2 exX planeStart).map Prod.fst = some (.ok Answer.UNSAT) ∧
    (preferProjection planeOps 3 exX planeStart).map Prod.fst = some (.ok Answer.SAT) ∧
    (preferSampling planeOps 3 exX planeStart).map Prod.fst = some (.ok Answer.SAT) :=
  ⟨rfl, rfl, rfl, rfl, rfl⟩

/-- C20: in the situation of the worked example with one variable (`ScenarioA`: `dim() = 1`,
the sample tree holds only the root sample, the level holds a polynomial the root has not
been lifted with, lifting the root with it creates a full sample, and `checkFullSamples`
answers `SAT` once that sample exists), each of the three heuristics returns `SAT`, within
two passes through its loop. -/
theorem C20_scenario_sat {P T It : Type} (ops : CADOps P T It UPoly) (p : P) (t t1 : T)
    (it : It) (id : Nat) (p2 : P) (t2 t3 : T)
    (h : ScenarioA ops p (ops.restoreRemovedSamples (ops.resetFullSamples t)) t1 it id p2 t2 t3)
    (fuel : Nat) :
    (∃ w, bySample ops (fuel + 2) p t = some (.ok Answer.SAT, w)) ∧
    (∃ w, preferProjection ops (fuel + 2) p t = some (.ok Answer.SAT, w)) ∧
    (∃ w, preferSampling ops (fuel + 2) p t = some (.ok Answer.SAT, w)) := by
  refine ⟨?_, ?_, ?_⟩
  · obtain ⟨h1, h2⟩ := scenarioA_bySample ops p _ t1 it id p2 t2 t3 h
    obtain ⟨p', t', hr⟩ := runStates_scenarioA (bySampleStates ops) _ p p2 _ t1 t3 _ h1 h2 fuel
    rw [← bySample_outcome] at hr
    obtain ⟨w, hw, _, _⟩ := outcome_some _ _ p' t' hr
    exact ⟨w, hw⟩
  · obtain ⟨h1, h2⟩ := scenarioA_preferProjection ops p _ t1 it id p2 t2 t3 h
    obtain ⟨p', t', hr⟩ :=
      runStates_scenarioA (preferProjectionStates ops) _ p p2 _ t1 t3 _ h1 h2 fuel
    rw [← preferProjection_outcome] at hr
    obtain ⟨w, hw, _, _⟩ := outcome_some _ _ p' t' hr
    exact ⟨w, hw⟩
  · obtain ⟨h1, h2⟩ := scenarioA_preferSampling ops p _ t1 it id p2 t2 t3 h
    obtain ⟨p', t', hr⟩ :=
      runStates_scenarioA (preferSamplingStates ops) _ p p2 _ t1 t3 _ h1 h2 fuel
    rw [← preferSampling_outcome] at hr
    obtain ⟨w, hw, _, _⟩ := outcome_some _ _ p' t' hr
    exact ⟨w, hw⟩

/-- Witness for C20: the worked example for the control loop (level 0 holds `x^2 + 1`, the
tree holds only the root, the oracle accepts the full sample). -/
theorem C20_scenario_sat_witness :
    ScenarioA (toyOps Answer.SAT false) ()
      ((toyOps Answer.SAT false).restoreRemovedSamples
        ((toyOps Answer.SAT false).resetFullSamples toyStart))
      toyStart () 0 () ⟨true, true, false⟩ ⟨true, true, true⟩ ∧
    (∃ w, bySample (toyOps Answer.SAT false) (0 + 2) () toyStart = some (.ok Answer.SAT, w)) ∧
    (∃ w, preferProjection (toyOps Answer.SAT false) (0 + 2) () toyStart
      = some (.ok Answer.SAT, w)) ∧
    (∃ w, preferSampling (toyOps Answer.SAT false) (0 + 2) () toyStart
      = some (.ok Answer.SAT, w)) :=
  have hs : ScenarioA (toyOps Answer.SAT false) ()
      ((toyOps Answer.SAT false).restoreRemovedSamples
        ((toyOps Answer.SAT false).resetFullSamples toyStart))
      toyStart () 0 () ⟨true, true, false⟩ ⟨true, true, true⟩ :=
    ⟨rfl, rfl, rfl, rfl, rfl, rfl, rfl, rfl, rfl, rfl, rfl⟩
  ⟨hs, C20_scenario_sat (toyOps Answer.SAT false) () toyStart toyStart () 0 ()
    ⟨true, true, false⟩ ⟨true, true, true⟩ hs 0⟩

/-- C21: in each of the three loops, a pass in which the sample returned by `getNextSample`
has a conflict with a constraint ends with `removeNextSample` and `continue`.  The calls of
the pass are `checkFullSamples`, `hasNextSample` (in `PreferSampling`: the loop condition
before `checkFullSamples`), `getNextSample`, `hasConflictWithConstraint` and
`removeNextSample`, in this order: neither `getPolyForLifting` nor `liftSample`,
`addTrivialSample` or `projectNewPolynomial` is called in it.  The projection is unchanged and
the sample tree is the one after `checkFullSamples` without the next sample. -/
theorem C21_conflict_pass {P T It : Type} (ops : CADOps P T It UPoly)
    (w : World P T It UPoly)
    (hs : (ops.checkFullSamples w.proj w.tree).1 ≠ Answer.SAT)
    (hd : ops.depth (ops.checkFullSamples w.proj w.tree).2
      (ops.getNextSample (ops.checkFullSamples w.proj w.tree).2) < ops.dim)
    (hc : ops.hasConflictWithConstraint (ops.checkFullSamples w.proj w.tree).2
      (ops.getNextSample (ops.checkFullSamples w.proj w.tree).2) = true) :
    (ops.hasNextSample (ops.checkFullSamples w.proj w.tree).2 = true →
      bySampleBody ops w = .next ⟨w.proj,
        ops.removeNextSample (ops.checkFullSamples w.proj w.tree).2,
        w.history ++
          [⟨w.proj, w.tree, .checkFullSamples (ops.checkFullSamples w.proj w.tree).1⟩,
          ⟨w.proj, (ops.checkFullSamples w.proj w.tree).2, .hasNextSample true⟩,
          ⟨w.proj, (ops.checkFullSamples w.proj w.tree).2,
            .getNextSample (ops.getNextSample (ops.checkFullSamples w.proj w.tree).2)⟩,
          ⟨w.proj, (ops.checkFullSamples w.proj w.tree).2,
            .hasConflictWithConstraint
              (ops.getNextSample (ops.checkFullSamples w.proj w.tree).2) true⟩,
          ⟨w.proj, (ops.checkFullSamples w.proj w.tree).2, .removeNextSample⟩]⟩) ∧
    (ops.hasNextSample (ops.checkFullSamples w.proj w.tree).2 = true →
      preferProjectionBody ops w = .next ⟨w.proj,
        ops.removeNextSample (ops.checkFullSamples w.proj w.tree).2,
        w.history ++
          [⟨w.proj, w.tree, .checkFullSamples (ops.checkFullSamples w.proj w.tree).1⟩,
          ⟨w.proj, (ops.checkFullSamples w.proj w.tree).2, .hasNextSample true⟩,
          ⟨w.proj, (ops.checkFullSamples w.proj w.tree).2,
            .getNextSample (ops.getNextSample (ops.checkFullSamples w.proj w.tree).2)⟩,
          ⟨w.proj, (ops.checkFullSamples w.proj w.tree).2,
            .hasConflictWithConstraint
              (ops.getNextSample (ops.checkFullSamples w.proj w.tree).2) true⟩,
          ⟨w.proj, (ops.checkFullSamples w.proj w.tree).2, .removeNextSample⟩]⟩) ∧
    ((ops.hasNextSample w.tree = true ∨ ops.hasFullSamples w.tree = true) →
      preferSamplingBody ops w = .next ⟨w.proj,
        ops.removeNextSample (ops.checkFullSamples w.proj w.tree).2,
        (samplingCond ops w).2.history ++
          [⟨w.proj, w.tree, .checkFullSamples (ops.checkFullSamples w.proj w.tree).1⟩,
          ⟨w.proj, (ops.checkFullSamples w.proj w.tree).2,
            .getNextSample (ops.getNextSample (ops.checkFullSamples w.proj w.tree).2)⟩,
          ⟨w.proj, (ops.checkFullSamples w.proj w.tree).2,
            .hasConflictWithConstraint
              (ops.getNextSample (ops.checkFullSamples w.proj w.tree).2) true⟩,
          ⟨w.proj, (ops.checkFullSamples w.proj w.tree).2, .removeNextSample⟩]⟩ ∧
      (samplingCond ops w).2.history.map Step.call =
        w.history.map Step.call ++
          (if ops.hasNextSample w.tree = true then [Call.hasNextSample true]
            else [Call.hasNextSample false, Call.hasFullSamples true])) :=
  ⟨fun hn => bySampleBody_conflict ops w hs hn hd hc,
    fun hn => preferProjectionBody_conflict ops w hs hn hd hc,
    fun hcond => ⟨preferSamplingBody_conflict ops w
        ((samplingCond_states ops w).1.2 hcond) hs hd hc, by
      unfold samplingCond
      by_cases hb : ops.hasNextSample w.tree = true
      · simp [hb, World.record]
      · have hf : ops.hasFullSamples w.tree = true := by
          rcases hcond with h | h
          · exact absurd h hb
          · exact h
        simp [hb, hf, World.record]⟩⟩

/-- Witness for C21: the worked example for the control loop with a root sample that has a
conflict; the first pass of `BySample` removes the root after five calls. -/
theorem C21_conflict_pass_witness :
    ((toyOps Answer.UNSAT true).checkFullSamples () toyStart).1 ≠ Answer.SAT ∧
    (toyOps Answer.UNSAT true).hasConflictWithConstraint toyStart () = true ∧
    bySampleBody (toyOps Answer.UNSAT true) (World.start () toyStart) =
      .next ⟨(), ⟨false, false, false⟩,
        [⟨(), toyStart, .checkFullSamples Answer.UNSAT⟩,
          ⟨(), toyStart, .hasNextSample true⟩,
          ⟨(), toyStart, .getNextSample ()⟩,
          ⟨(), toyStart, .hasConflictWithConstraint () true⟩,
          ⟨(), toyStart, .removeNextSample⟩]⟩ :=
  ⟨by decide, rfl,
    (C21_conflict_pass (toyOps Answer.UNSAT true) (World.start () toyStart) (by decide)
      (by decide) rfl).1 rfl⟩

/-- C25: in a reachable state, for a polynomial `p` with main variable `var(0)` that is not
purgeable and not stored at level 0, and with `cid = size(0)`: `addPolynomial(p, cid)`
completes if the projection operator respects the main-variable discipline, and whenever it
completes and every level `L >= 1` that was empty before the call is still empty after it
(so every level into which the call inserts was non-empty), the following
`removePolynomial(p, cid)` completes and returns the state before the `addPolynomial` call:
the stored lists, the id maps and the lifting queues of all levels. -/
theorem C25_roundtrip_state (K : Kernel UPoly) (s : Projection UPoly) (p : UPoly)
    (hr : Reachable K s) (hv : s.mVars[0]? = some (K.mainVar p))
    (hp : canBePurged K p = false) (hnew : p ∉ (s.polys 0).map Prod.fst) :
    (Disciplined K → ∃ s', addPolynomial K p (s.size 0) s = .ok s') ∧
    ∀ s', addPolynomial K p (s.size 0) s = .ok s' →
      (∀ L, 1 ≤ L → s.size L = 0 → s'.size L = 0) →
      ∃ s'' log, removePolynomial p (s.size 0) s' = .ok (s'', log) ∧ s'' = s ∧
        ∀ L : Nat, s''.levels[L]? = s.levels[L]? := by
  refine ⟨fun hK => addPolynomial_total K hK hr.inv p _ hv, ?_⟩
  intro s' hadd hne
  obtain ⟨log, hlog⟩ := roundtrip_state K hr.inv hp hnew hadd hne
  exact ⟨s, log, hlog, rfl, fun _ => rfl⟩

/-- Witness for C25: the line is added to the state that holds the circle, with
`cid = size(0) = 1`, and removed again; level 1 was not empty. -/
theorem C25_roundtrip_state_witness :
    Reachable tK exCircle ∧
    exCircle.mVars[0]? = some (tK.mainVar (TName.line, 0)) ∧
    canBePurged tK ((TName.line, 0) : TPoly) = false ∧
    ((TName.line, 0) : TPoly) ∉ (exCircle.polys 0).map Prod.fst ∧
    addPolynomial tK ((TName.line, 0) : TPoly) (exCircle.size 0) exCircle = .ok exCircleLine ∧
    (∀ L, 1 ≤ L → exCircle.size L = 0 → exCircleLine.size L = 0) ∧
    ∃ s'' log, removePolynomial ((TName.line, 0) : TPoly) (exCircle.size 0) exCircleLine
        = .ok (s'', log) ∧ s'' = exCircle ∧
      ∀ L : Nat, s''.levels[L]? = exCircle.levels[L]? :=
  have hnew : ((TName.line, 0) : TPoly) ∉ (exCircle.polys 0).map Prod.fst := by decide
  have hne : ∀ L, 1 ≤ L → exCircle.size L = 0 → exCircleLine.size L = 0 := by
    intro L hL h
    match L, hL with
    | 1, _ => exact absurd h (by decide)
    | L + 2, _ => rfl
  ⟨exCircle_reachable, rfl, rfl, hnew, rfl, hne,
    (C25_roundtrip_state tK exCircle (TName.line, 0) exCircle_reachable rfl rfl hnew).2
      exCircleLine rfl hne⟩

/-- C26: in every reachable state, for every projection operator, the origins stored at a
level are non-decreasing in insertion order and every stored origin is smaller than
`size(0)`; an `addPolynomial` call that completes only appends entries, each with the origin
`n = size(0)` at the start of the call, and if the polynomial is neither purged nor stored
at level 0 it gets the level-0 id `n` and is stored with origin `n`. -/
theorem C26_origins (K : Kernel UPoly) (s : Projection UPoly) (hr : Reachable K s) :
    (∀ L, ((s.polys L).map Prod.snd).Pairwise (· ≤ ·)) ∧
    (∀ L e, e ∈ s.polys L → e.2 < s.size 0) ∧
    (∀ p cid s', addPolynomial K p cid s = .ok s' →
      ∀ L, ∃ ext, s'.polys L = s.polys L ++ ext ∧ ∀ e ∈ ext, e.2 = s.size 0) ∧
    (∀ p cid s', canBePurged K p = false → p ∉ (s.polys 0).map Prod.fst →
      addPolynomial K p cid s = .ok s' →
      s'.polys 0 = s.polys 0 ++ [(p, s.size 0)] ∧ s'.idOf 0 p = some (s.size 0)) := by
  have hinv := hr.inv
  refine ⟨hinv.2.2.2, hinv.2.2.1, ?_, ?_⟩
  · intro p cid s' hadd L
    obtain ⟨_, hext, _⟩ := addPolynomial_spec K hinv hadd
    obtain ⟨ext, h1, h2, _⟩ := hext.2.2 L
    exact ⟨ext, h1, h2⟩
  · intro p cid s' hp hnew hadd
    obtain ⟨hb, _, h0⟩ := addPolynomial_new_spec K hinv hp hnew hadd
    refine ⟨h0, ?_⟩
    have hget : (s'.polys 0)[s.size 0]? = some (p, s.size 0) := by
      rw [h0, size_eq_length_polys]
      simp
    exact idOf_of_get hb.1 0 (s.size 0) (p, s.size 0) hget

/-- Witness for C26: adding the line to the state that holds the circle creates the level-0
id 1; the two polynomials that level 1 receives are stored with origin 1. -/
theorem C26_origins_witness :
    Reachable tK exCircle ∧
    addPolynomial tK ((TName.line, 0) : TPoly) 7 exCircle = .ok exCircleLine ∧
    ∃ ext, exCircleLine.polys 1 = exCircle.polys 1 ++ ext ∧ ∀ e ∈ ext, e.2 = exCircle.size 0 :=
  ⟨exCircle_reachable, rfl,
    (C26_origins tK exCircle exCircle_reachable).2.2.1 (TName.line, 0) 7 exCircleLine rfl 1⟩

/-- C27 (refuted): in a reachable state in which `(p, cid)` is the last entry of level 0 (the
LIFO precondition), with `n` its id, every level `L >= 1` is in order for the removal (it is
empty, or after the entries of origin `n` at its end an entry of smaller origin is left) or
all its entries have origin `n`.  If no non-empty level consists only of entries of origin
`n`, `removePolynomial(p, cid)` completes: every read of a last element is made on a
non-empty level and the final assertion holds.  But if some non-empty level `L >= 1` consists
only of entries of origin `n`, the loop removes all of them and reads `back()` of the emptied
level: the call does not complete. -/
theorem C27_read_of_emptied_level (K : Kernel UPoly) (s : Projection UPoly)
    (hr : Reachable K s) (p : UPoly) (cid : Nat) (init : List (UPoly × Nat))
    (h0 : s.polys 0 = init ++ [(p, cid)]) :
    (∀ L, 1 ≤ L → L < s.dim →
      LevelOK init.length (s.polys L) ∨
        (s.polys L ≠ [] ∧ ∀ e ∈ s.polys L, e.2 = init.length)) ∧
    ((∀ L, 1 ≤ L → L < s.dim → s.polys L ≠ [] → ∃ e ∈ s.polys L, e.2 ≠ init.length) →
      ∃ s' log, removePolynomial p cid s = .ok (s', log)) ∧
    ((∃ L, 1 ≤ L ∧ L < s.dim ∧ s.polys L ≠ [] ∧ ∀ e ∈ s.polys L, e.2 = init.length) →
      removePolynomial p cid s = .error Fault.undefined) := by
  have hinv := hr.inv
  have hsz : s.size 0 = init.length + 1 := by
    rw [size_eq_length_polys, h0]; simp
  have hle : ∀ L, ∀ e ∈ s.polys L, e.2 ≤ init.length := by
    intro L e he
    have := hinv.2.2.1 L e he
    omega
  have hcase : ∀ L, LevelOK init.length (s.polys L) ∨
      (s.polys L ≠ [] ∧ strip init.length (s.polys L) = []) :=
    fun L => levelOK_or_emptied init.length (s.polys L) (hle L)
  have hne0 : s.polys 0 ≠ [] := by rw [h0]; simp
  have hdim : 0 < s.dim := by
    by_contra hc
    exact hne0 (polys_eq_nil_of_ge hinv.1 (Nat.le_of_not_lt hc))
  have hlt0 : 0 < s.levels.length := by rw [hinv.1.1]; exact hdim
  have hnd : (init.map Prod.fst).Nodup := by
    have := hinv.1.nodup 0
    rw [h0, List.map_append, List.nodup_append] at this
    exact this.1
  have hgt : Good (s.setLevel 0 (mkLevel init)) := good_setLevel hinv.1 0 _ hnd
  have hpt : ∀ L, 1 ≤ L → (s.setLevel 0 (mkLevel init)).polys L = s.polys L := by
    intro L hL
    rw [polys_setLevel _ _ _ _ hlt0]
    have : ¬ 0 = L := by omega
    simp [this]
  have hdim' : 1 + (s.dim - 1) ≤ (s.setLevel 0 (mkLevel init)).dim := by
    show 1 + (s.dim - 1) ≤ s.mVars.length
    unfold Projection.dim at hdim ⊢
    omega
  rw [removePolynomial_match hinv.1 p cid init h0]
  refine ⟨?_, ?_, ?_⟩
  · intro L _ _
    rcases hcase L with h | ⟨h1, h2⟩
    · exact Or.inl h
    · exact Or.inr ⟨h1, (strip_eq_nil_iff _ _).1 h2⟩
  · intro hall
    obtain ⟨f1, _⟩ := fold_remove init.length (s.dim - 1) 1 (s.setLevel 0 (mkLevel init))
      [(0, {init.length})] hgt hdim'
    obtain ⟨t', g1, _⟩ := f1 (by
      intro L hL hL2
      rw [hpt L hL]
      rcases hcase L with h | ⟨h1, h2⟩
      · exact h
      · obtain ⟨e, he, hen⟩ := hall L hL (by omega) h1
        exact absurd ((strip_eq_nil_iff _ _).1 h2 e he) hen)
    exact ⟨t', _, g1⟩
  · rintro ⟨L, h1, h2, h3, h4⟩
    apply fold_remove_undefined init.length (s.dim - 1) 1 _ _ hgt hdim'
    · intro M hM _
      rw [hpt M hM]
      exact hcase M
    · exact ⟨L, h1, by omega, by rw [hpt L h1]; exact h3,
        by rw [hpt L h1]; exact (strip_eq_nil_iff _ _).2 h4⟩

/-- Witness for C27: after `reset([x, y, z]); addPolynomial(x - a, 0)` level 2 holds only the
coefficient `a` with origin 0; `removePolynomial(x - a, 0)` satisfies the LIFO precondition,
removes that entry and reads `back()` of the emptied level 2. -/
theorem C27_read_of_emptied_level_witness :
    Reachable pK exParam ∧ exParam.polys 0 = [] ++ [((PName.xa, 0), 0)] ∧
    exParam.polys 2 = [((PName.par, 2), 0)] ∧
    removePolynomial ((PName.xa, 0) : PPoly) 0 exParam = .error Fault.undefined :=
  ⟨exParam_reachable, rfl, rfl,
    (C27_read_of_emptied_level pK exParam exParam_reachable (PName.xa, 0) 0 [] rfl).2.2
      ⟨2, by decide, by decide, by decide, by decide⟩⟩

/-- C28: an `addPolynomial` call that completes in a reachable state only appends: every
entry stored at a level before the call is stored after it at the same level, at the same
position, with the same origin and the same id.  And a recursive `addToProjection` step at a
level `L >= 1` that completes leaves the data of every level below `L` (stored list, id map,
lifting queue) unchanged and keeps every stored entry of every level in place. -/
theorem C28_only_appends (K : Kernel UPoly) (s : Projection UPoly) (hr : Reachable K s) :
    (∀ p cid s', addPolynomial K p cid s = .ok s' →
      ∀ L i e, (s.polys L)[i]? = some e →
        (s'.polys L)[i]? = some e ∧ s.idOf L e.1 = some i ∧ s'.idOf L e.1 = some i) ∧
    (∀ n k L p t t', CallState K n t → 1 ≤ L → addToProjectionAux K k L p n t = .ok t' →
      (∀ M : Nat, M < L → t'.levels[M]? = t.levels[M]?) ∧
      ∀ M i e, (t.polys M)[i]? = some e →
        (t'.polys M)[i]? = some e ∧ t.idOf M e.1 = some i ∧ t'.idOf M e.1 = some i) := by
  constructor
  · intro p cid s' hadd L i e he
    obtain ⟨hb, hext, _⟩ := addPolynomial_spec K hr.inv hadd
    have he' := ext_get hext L i e he
    exact ⟨he', idOf_of_get hr.inv.1 L i e he, idOf_of_get hb.1 L i e he'⟩
  · intro n k L p t t' ht hL hstep
    obtain ⟨hb, _⟩ := ht.facts
    obtain ⟨hb', hext, _⟩ := aux_sound K n k L p n t t' hb (fun h => absurd h (by omega))
      (fun _ => rfl) hstep
    refine ⟨fun M hM => ext_levels_below hb.1 hb'.1 hext M hM, ?_⟩
    intro M i e he
    have he' := ext_get hext M i e he
    exact ⟨he', idOf_of_get hb.1 M i e he, idOf_of_get hb'.1 M i e he'⟩

/-- Witness for C28: adding the line to the state that holds the circle keeps `y^2 - 1` at
level 1 with id 0 and origin 0. -/
theorem C28_only_appends_witness :
    Reachable tK exCircle ∧
    addPolynomial tK ((TName.line, 0) : TPoly) 1 exCircle = .ok exCircleLine ∧
    (exCircle.polys 1)[0]? = some ((TName.ysq, 1), 0) ∧
    (exCircleLine.polys 1)[0]? = some ((TName.ysq, 1), 0) ∧
    exCircle.idOf 1 ((TName.ysq, 1) : TPoly) = some 0 ∧
    exCircleLine.idOf 1 ((TName.ysq, 1) : TPoly) = some 0 :=
  ⟨exCircle_reachable, rfl, rfl,
    (C28_only_appends tK exCircle exCircle_reachable).1 (TName.line, 0) 1 exCircleLine rfl
      1 0 ((TName.ysq, 1), 0) rfl⟩

/-- C29: let a call `addToProjection(L, p, o)` in a well-formed state insert a polynomial
`p` that is new at a level `L < dim-1`, and complete.  Then its first event is the invocation
of the unary projection operator on `p`, its last event is the insertion of `p` at `L`, and
the events at level `L` in between are exactly one invocation of the binary operator on `p`
and `q` for each polynomial `q` stored at `L` before the call, in insertion order; none of
them is on the pair `(p, p)`, and the operator is not invoked on `p` alone a second time.
All other events of the call belong to the calls for later levels. -/
theorem C29_projection_order (K : Kernel UPoly) (k L : Nat) (p : UPoly) (o : Nat)
    (s s' : Projection UPoly) (log log' : List (ProjEvent UPoly)) (l : Level UPoly)
    (hs : Good s) (hp : canBePurged K p = false)
    (hf : ¬ (0 < L ∧ L < s.dim - 1 ∧ canBeForwarded K L p = true))
    (hlt : L < s.dim - 1) (hv : K.mainVar p = s.var L)
    (hl : s.levels[L]? = some l) (hn : mapFind l.mPolynomialIDs p = none)
    (h : addToProjectionTr K (k + 1) L p o s log = (.ok s', log')) :
    addToProjectionAux K (k + 1) L p o s = .ok s' ∧
    ∃ mid, log' = log ++ (.unary L p :: mid ++
        [.insert L p (if L = 0 then l.mPolynomials.length else o)]) ∧
      eventsAt L mid = l.mPolynomials.map (fun it => ProjEvent.binary L p it.1) ∧
      (∀ ev ∈ mid, L ≤ ev.level) ∧
      ProjEvent.binary L p p ∉ mid ∧ ProjEvent.unary L p ∉ mid ∧
      (∀ og, ProjEvent.insert L p og ∉ mid) := by
  have herase := addToProjectionTr_fst K (k + 1) L p o s log
  rw [h] at herase
  refine ⟨herase.symm, ?_⟩
  obtain ⟨mid, h1, h2⟩ := tr_new_run K k L p o s s' log log' l hp hf hlt hv hl hn h
  have hat : ∀ ev ∈ mid, ev.level = L →
      ev ∈ l.mPolynomials.map (fun it => ProjEvent.binary L p it.1) := by
    intro ev hev hlev
    rw [← h2]
    exact List.mem_filter.2 ⟨hev, by simpa using hlev⟩
  have hnew : p ∉ l.mPolynomials.map Prod.fst := by
    have hw := (hs.wf hl).1
    have hids : l.mPolynomialIDs = idsFrom 0 l.mPolynomials := by
      conv_lhs => rw [hw]
      rfl
    rw [hids] at hn
    exact (mapFind_idsFrom_none 0 _ p).1 hn
  have hlev : ∀ ev ∈ mid, L ≤ ev.level := by
    obtain ⟨new, g1, g2⟩ := tr_levels K (k + 1) L p o s log
    rw [h] at g1
    simp only at g1
    rw [h1] at g1
    have hnew' := List.append_cancel_left g1
    intro ev hev
    apply g2 ev
    rw [← hnew']
    simp [hev]
  refine ⟨mid, h1, h2, hlev, ?_, ?_, ?_⟩
  · intro hc
    have := hat _ hc rfl
    simp only [List.mem_map, ProjEvent.binary.injEq, true_and] at this
    obtain ⟨it, hit, hq⟩ := this
    exact hnew (List.mem_map.2 ⟨it, hit, hq⟩)
  · intro hc
    have := hat _ hc rfl
    simp at this
  · intro og hc
    have := hat _ hc rfl
    simp at this

/-- Witness for C29: the line is added to the state that holds the circle: the unary
projection of the line, its binary projection with the circle, and then its insertion with
origin 1; the events at level 1 lie in between. -/
theorem C29_projection_order_witness :
    Good exCircle ∧
    addToProjectionTr tK (1 + 1) 0 ((TName.line, 0) : TPoly) 9 exCircle [] =
      (.ok exCircleLine,
        [.unary 0 (TName.line, 0), .purge 1 (TName.one, 1), .insert 1 (TName.yvar, 1) 1,
          .binary 0 (TName.line, 0) (TName.circle, 0), .insert 1 (TName.yres, 1) 1,
          .insert 0 (TName.line, 0) 1]) ∧
    ∃ mid, [ProjEvent.unary 0 ((TName.line, 0) : TPoly), .purge 1 (TName.one, 1),
          .insert 1 (TName.yvar, 1) 1, .binary 0 (TName.line, 0) (TName.circle, 0),
          .insert 1 (TName.yres, 1) 1, .insert 0 (TName.line, 0) 1] =
        [] ++ (.unary 0 (TName.line, 0) :: mid ++ [.insert 0 (TName.line, 0) 1]) ∧
      eventsAt 0 mid = [ProjEvent.binary 0 ((TName.line, 0) : TPoly) (TName.circle, 0)] :=
  have hrun : addToProjectionTr tK (1 + 1) 0 ((TName.line, 0) : TPoly) 9 exCircle [] =
      (.ok exCircleLine,
        [.unary 0 (TName.line, 0), .purge 1 (TName.one, 1), .insert 1 (TName.yvar, 1) 1,
          .binary 0 (TName.line, 0) (TName.circle, 0), .insert 1 (TName.yres, 1) 1,
          .insert 0 (TName.line, 0) 1]) := rfl
  ⟨exCircle_reachable.inv.1, hrun, by
    obtain ⟨mid, h1, h2, _⟩ := (C29_projection_order tK 1 0 (TName.line, 0) 9 exCircle
      exCircleLine [] _ (mkLevel [((TName.circle, 0), 0)]) exCircle_reachable.inv.1 rfl
      (by decide) (by decide) rfl rfl rfl hrun).2
    exact ⟨mid, h1, h2⟩⟩

/-- C30: in a reachable state, for a level below `dim()` with `size(level) = k`: starting
with an empty `liftedWith` vector, the first `k` successive calls
`getPolyForLifting(level, liftedWith)` return the polynomials stored at the level, each of
them once, in the order of the lifting queue (which is the order of insertion), and the
call after them returns none; the vector then holds the ids `0 .. k-1`. -/
theorem C30_lifting_enumerates (K : Kernel UPoly) (s : Projection UPoly) (hr : Reachable K s)
    (level : Nat) (hl : level < s.dim) :
    liftingCalls s level (s.size level) ∅ =
      .ok ((s.polys level).map (fun e => some e.1), Finset.range (s.size level)) ∧
    liftingCalls s level (s.size level + 1) ∅ =
      .ok ((s.polys level).map (fun e => some e.1) ++ [none],
        Finset.range (s.size level)) ∧
    ((s.polys level).map Prod.fst).Nodup ∧
    s.liftingQueue level = List.range (s.size level) := by
  have hg := hr.inv.1
  have hk := size_eq_length_polys s level
  have h1 : liftingCalls s level (s.size level) ∅ =
      .ok ((s.polys level).map (fun e => some e.1), Finset.range (s.size level)) := by
    have := liftingCalls_run hg hl (s.size level) 0 (by omega)
    rw [Finset.range_zero] at this
    rw [this, hk]
    simp
  refine ⟨h1, ?_, hg.nodup level, by rw [liftingQueue_of_good hg level, hk]⟩
  rw [liftingCalls_append s level (s.size level) 1 ∅ _ h1]
  simp only [liftingCalls]
  rw [hk, getPolyForLifting_done hg hl]

/-- Witness for C30: level 1 of the state that holds the circle and the line has three
polynomials; three calls return them in order and the fourth returns none. -/
theorem C30_lifting_enumerates_witness :
    Reachable tK exCircleLine ∧ 1 < exCircleLine.dim ∧ exCircleLine.size 1 = 3 ∧
    liftingCalls exCircleLine 1 (exCircleLine.size 1 + 1) ∅ =
      .ok ((exCircleLine.polys 1).map (fun e => some e.1) ++ [none],
        Finset.range (exCircleLine.size 1)) :=
  ⟨exCircleLine_reachable, by decide, rfl,
    (C30_lifting_enumerates tK exCircleLine exCircleLine_reachable 1 (by decide)).2.1⟩

/-- C31: in a run of any of the three heuristics (`w` is the world after `n` passes through
the loop, or the world in which the run ends), every `liftSample(it, poly, id)` call is made
right after the `getPolyForLifting` call for the sample `it` and the level
`idLP(it.depth() + 1)`, which returned `id`, and the `getPolynomialById` call that returned
`poly`.  If the `getPolyForLifting` calls mark the returned id in the `liftedWith` vector of
the sample and no operation clears a bit (`LiftedWith`), the vector did not contain `id`
before that call and contains it when `liftSample` is called, and no later call of the run
is a `liftSample` call for the same sample and id.  The method `getPolyForLifting` of the
projection marks the id of the polynomial it returns: the vector did not contain it before
the call and is the old vector with this id afterwards. -/
theorem C31_lift_once {P T It : Type} (ops : CADOps P T It UPoly) (lw : T → It → Bitset)
    (hlw : LiftedWith ops lw) (p : P) (t : T) (n : Nat) (w : World P T It UPoly)
    (hw : (w = worldAfter (bySampleBody ops) n (World.init ops p t) ∨
        ∃ r, bySample ops n p t = some (r, w)) ∨
      (w = worldAfter (preferProjectionBody ops) n (World.init ops p t) ∨
        ∃ r, preferProjection ops n p t = some (r, w)) ∨
      (w = worldAfter (preferSamplingBody ops) n (World.init ops p t) ∨
        ∃ r, preferSampling ops n p t = some (r, w)))
    (pre post : List (Step P T It UPoly)) (st : Step P T It UPoly)
    (hh : w.history = pre ++ st :: post) (it : It) (poly : UPoly) (id : Nat)
    (hst : st.call = .liftSample it poly id) :
    (∃ pre' p0 t0,
      pre = pre' ++
        [⟨p0, t0, .getPolyForLifting (ops.idLP (ops.depth t0 it + 1)) it (some id)⟩,
          ⟨st.proj, st.tree, .getPolynomialById (ops.idLP (ops.depth t0 it + 1)) id⟩] ∧
      ops.getPolyForLifting p0 (ops.idLP (ops.depth t0 it + 1)) t0 it =
        (some id, st.proj, st.tree) ∧
      poly = ops.getPolynomialById st.proj (ops.idLP (ops.depth t0 it + 1)) id ∧
      id ∉ lw t0 it ∧ id ∈ lw st.tree it) ∧
    (∀ st' ∈ post, ∀ poly', st'.call ≠ .liftSample it poly' id) ∧
    (∀ (s : Projection UPoly) (level : Nat) (slw : Bitset)
      (r : Option UPoly × Bitset × Projection UPoly) (q : UPoly),
      getPolyForLifting s level slw = .ok r → r.1 = some q →
      ∃ pid e, pid ∉ slw ∧ r.2.1 = insert pid slw ∧ (s.polys level)[pid]? = some e ∧
        e.1 = q) := by
  have hfacts : EachCall (LiftOk ops) w.history ∧ (liftCalls w.history).Nodup := by
    rcases hw with hw | hw | hw
    · have e := world_of_run (bySampleBody ops) n (World.init ops p t) w hw
      rw [e]
      exact ⟨eachCall_worldAfter (bySampleBody ops) (bySampleTrace ops)
          (bySampleBody_trace ops) (LiftOk ops) (liftOk_bySampleTrace ops) n _
          (eachCall_init ops p t _ (liftOk_single _ _ _ (by simp))
            (liftOk_single _ _ _ (by simp))),
        (liftCalls_worldAfter lw (bySampleBody ops) (bySampleTrace ops) (bySampleStates ops)
          (bySampleBody_trace ops) (bySampleBody_states ops) (passLifts_bySample ops lw hlw) n
          _ (by simp [init_history, liftCalls])).1⟩
    · have e := world_of_run (preferProjectionBody ops) n (World.init ops p t) w hw
      rw [e]
      exact ⟨eachCall_worldAfter (preferProjectionBody ops) (preferProjectionTrace ops)
          (preferProjectionBody_trace ops) (LiftOk ops) (liftOk_preferProjectionTrace ops) n _
          (eachCall_init ops p t _ (liftOk_single _ _ _ (by simp))
            (liftOk_single _ _ _ (by simp))),
        (liftCalls_worldAfter lw (preferProjectionBody ops) (preferProjectionTrace ops)
          (preferProjectionStates ops) (preferProjectionBody_trace ops)
          (preferProjectionBody_states ops) (passLifts_preferProjection ops lw hlw) n
          _ (by simp [init_history, liftCalls])).1⟩
    · have e := world_of_run (preferSamplingBody ops) n (World.init ops p t) w hw
      rw [e]
      exact ⟨eachCall_worldAfter (preferSamplingBody ops) (preferSamplingTrace ops)
          (preferSamplingBody_trace ops) (LiftOk ops) (liftOk_preferSamplingTrace ops) n _
          (eachCall_init ops p t _ (liftOk_single _ _ _ (by simp))
            (liftOk_single _ _ _ (by simp))),
        (liftCalls_worldAfter lw (preferSamplingBody ops) (preferSamplingTrace ops)
          (preferSamplingStates ops) (preferSamplingBody_trace ops)
          (preferSamplingBody_states ops) (passLifts_preferSampling ops lw hlw) n
          _ (by simp [init_history, liftCalls])).1⟩
  obtain ⟨hl, hnd⟩ := hfacts
  refine ⟨?_, ?_, ?_⟩
  · obtain ⟨pre', p0, t0, h1, h2, h3⟩ := hl pre st post hh it poly id hst
    have hg := hlw.get_some p0 (ops.idLP (ops.depth t0 it + 1)) t0 it id (by rw [h2])
    rw [h2] at hg
    exact ⟨pre', p0, t0, h1, h2, h3, hg.1, hg.2⟩
  · intro st' hst' poly'
    obtain ⟨mid, post', rfl⟩ := List.append_of_mem hst'
    exact liftCalls_explicit w.history hnd pre mid post' st st' hh it poly poly' id hst
  · intro s level slw r q hr hq
    obtain ⟨_, h | ⟨pid, e, _, hp, he, h1, h2⟩⟩ := getPolyForLifting_result s level slw r hr
    · rw [h.1] at hq; simp at hq
    · rw [h1] at hq
      simp only [Option.some.injEq] at hq
      exact ⟨pid, e, hp, h2, he, hq⟩

/-- Witness for C31: in the second pass of `PreferProjection` on the worked example with an
empty projection level, the trivial sample below the root is lifted with the polynomial `x`,
which has id 0 at level 0. -/
theorem C31_lift_once_witness :
    LiftedWith planeOps planeLiftedWith ∧
    (worldAfter (preferProjectionBody planeOps) 2 (World.init planeOps exX planeStart)).history =
      exPlaneRun.take 16 ++
        [⟨exX, ⟨[true, false], ∅, {0}, true, false⟩, .liftSample true (TName.xvar, 0) 0⟩] ∧
    ∃ pre' p0 t0,
      exPlaneRun.take 16 = pre' ++
        [⟨p0, t0, .getPolyForLifting (planeOps.idLP (planeOps.depth t0 true + 1)) true (some 0)⟩,
          ⟨exX, ⟨[true, false], ∅, {0}, true, false⟩,
            .getPolynomialById (planeOps.idLP (planeOps.depth t0 true + 1)) 0⟩] ∧
      planeOps.getPolyForLifting p0 (planeOps.idLP (planeOps.depth t0 true + 1)) t0 true =
        (some 0, exX, ⟨[true, false], ∅, {0}, true, false⟩) ∧
      (TName.xvar, 0) = planeOps.getPolynomialById exX
        (planeOps.idLP (planeOps.depth t0 true + 1)) 0 ∧
      0 ∉ planeLiftedWith t0 true ∧
      0 ∈ planeLiftedWith ⟨[true, false], ∅, {0}, true, false⟩ true :=
  ⟨plane_liftedWith, rfl,
    (C31_lift_once planeOps planeLiftedWith plane_liftedWith exX planeStart 2 _
      (Or.inr (Or.inl (Or.inl rfl))) (exPlaneRun.take 16) []
      ⟨exX, ⟨[true, false], ∅, {0}, true, false⟩, .liftSample true (TName.xvar, 0) 0⟩ rfl
      true (TName.xvar, 0) 0 rfl).1⟩
/-- C32: in a run of `BySample` (`w` is the world after `n` passes through the loop, or the
world in which the run ends), every `projectNewPolynomial` call is made in a state in which
`hasNextSample()` is false, right after a `getPolyForLifting` call that found nothing, the
`removeNextSample` call that dropped the sample and the `hasNextSample` call that returned
false; every `restoreRemovedSamples` call is the call of line 16 before the loop (the second
call of the run) or comes right after a `projectNewPolynomial` call that reported new
polynomials; and no call is an `addTrivialSample` call. -/
theorem C32_bySample_calls {P T It : Type} (ops : CADOps P T It UPoly) (p : P) (t : T)
    (n : Nat) (w : World P T It UPoly)
    (hw : w = worldAfter (bySampleBody ops) n (World.init ops p t) ∨
      ∃ r, bySample ops n p t = some (r, w))
    (pre post : List (Step P T It UPoly)) (st : Step P T It UPoly)
    (hh : w.history = pre ++ st :: post) :
    (∀ g, st.call = .projectNewPolynomial g →
      ops.hasNextSample st.tree = false ∧
      pre.getLast? = some ⟨st.proj, st.tree, .hasNextSample false⟩ ∧
      ∃ t', pre.dropLast.getLast? = some ⟨st.proj, t', .removeNextSample⟩ ∧
        st.tree = ops.removeNextSample t' ∧
        ∃ s level it, pre.dropLast.dropLast.getLast? = some s ∧
          s.call = .getPolyForLifting level it none) ∧
    (st.call = .restoreRemovedSamples →
      (∃ s, pre = [s] ∧ s.call = .resetFullSamples) ∨
        ∃ s g, pre.getLast? = some s ∧ s.call = .projectNewPolynomial g ∧ g.Nonempty) ∧
    (∀ it r, st.call ≠ .addTrivialSample it r) := by
  have e := world_of_run (bySampleBody ops) n (World.init ops p t) w hw
  rw [e] at hh
  have h := eachCall_worldAfter (bySampleBody ops) (bySampleTrace ops)
    (bySampleBody_trace ops) (BySampleOk ops) (bySampleOk_bySampleTrace ops) n
    (World.init ops p t)
    (eachCall_init ops p t _ (by simp [BySampleOk, NextOk, BySampleProjectOk, RestoreOk])
      (by simp [BySampleOk, NextOk, BySampleProjectOk, RestoreOk]))
  exact (h pre st post hh).2

/-- Witness for C32: the second pass of `BySample` on the worked example for the control
loop, with an oracle that rejects the full sample, drops the root and ends with a
`projectNewPolynomial` call. -/
theorem C32_bySample_calls_witness :
    (worldAfter (bySampleBody (toyOps Answer.UNSAT false)) 2
        (World.init (toyOps Answer.UNSAT false) () toyStart)).history =
      exToyRun.take 16 ++ [⟨(), ⟨false, true, false⟩, .projectNewPolynomial ∅⟩] ∧
    (toyOps Answer.UNSAT false).hasNextSample ⟨false, true, false⟩ = false ∧
    (exToyRun.take 16).getLast? = some ⟨(), ⟨false, true, false⟩, .hasNextSample false⟩ ∧
    ∃ t', (exToyRun.take 16).dropLast.getLast? = some ⟨(), t', .removeNextSample⟩ ∧
      (⟨false, true, false⟩ : ToyTree) = (toyOps Answer.UNSAT false).removeNextSample t' ∧
      ∃ s level it, (exToyRun.take 16).dropLast.dropLast.getLast? = some s ∧
        s.call = .getPolyForLifting level it none :=
  ⟨rfl,
    (C32_bySample_calls (toyOps Answer.UNSAT false) () toyStart 2 _ (Or.inl rfl)
      (exToyRun.take 16) [] ⟨(), ⟨false, true, false⟩, .projectNewPolynomial ∅⟩ rfl).1 ∅ rfl⟩

/-- C35 (refuted for `PreferSampling`): in a run of `BySample` or `PreferProjection` every
`getNextSample` call is made right after a `hasNextSample` call that returned true in the
same state of the sample tree.  `PreferSampling` enters its inner loop also when only full
samples are queued and then calls `getNextSample` without asking `hasNextSample` again: on
the worked example for the control loop, started with a tree in which only a full sample is
queued and an oracle that rejects it, the fifth call of the run is `checkFullSamples` and
the sixth is `getNextSample`, made in a state in which `hasNextSample()` is false. -/
theorem C35_getNextSample_guard :
    (∀ {P T It : Type} (ops : CADOps P T It UPoly) (p : P) (t : T) (n : Nat)
      (w : World P T It UPoly),
      ((w = worldAfter (bySampleBody ops) n (World.init ops p t) ∨
          ∃ r, bySample ops n p t = some (r, w)) ∨
        (w = worldAfter (preferProjectionBody ops) n (World.init ops p t) ∨
          ∃ r, preferProjection ops n p t = some (r, w))) →
      ∀ (pre post : List (Step P T It UPoly)) (st : Step P T It UPoly) (it : It),
        w.history = pre ++ st :: post → st.call = .getNextSample it →
        ops.hasNextSample st.tree = true ∧ it = ops.getNextSample st.tree ∧
          pre.getLast? = some ⟨st.proj, st.tree, .hasNextSample true⟩) ∧
    (∃ w : World Unit ToyTree Unit TPoly,
      preferSampling (toyOps Answer.UNSAT false) 2 () toyOnlyFull =
        some (.ok Answer.UNSAT, w) ∧
      ∃ (post : List (Step Unit ToyTree Unit TPoly)) (st : Step Unit ToyTree Unit TPoly),
        w.history =
          [⟨(), toyOnlyFull, .resetFullSamples⟩, ⟨(), toyOnlyFull, .restoreRemovedSamples⟩,
            ⟨(), toyOnlyFull, .hasNextSample false⟩, ⟨(), toyOnlyFull, .hasFullSamples true⟩,
            ⟨(), toyOnlyFull, .checkFullSamples Answer.UNSAT⟩] ++ st :: post ∧
        st.call = .getNextSample () ∧
        (toyOps Answer.UNSAT false).hasNextSample st.tree = false) := by
  constructor
  · intro P T It ops p t n w hw pre post st it hh hst
    rcases hw with hw | hw
    · have e := world_of_run (bySampleBody ops) n (World.init ops p t) w hw
      rw [e] at hh
      have h := eachCall_worldAfter (bySampleBody ops) (bySampleTrace ops)
        (bySampleBody_trace ops) (BySampleOk ops) (bySampleOk_bySampleTrace ops) n
        (World.init ops p t)
        (eachCall_init ops p t _ (by simp [BySampleOk, NextOk, BySampleProjectOk, RestoreOk])
          (by simp [BySampleOk, NextOk, BySampleProjectOk, RestoreOk]))
      exact (h pre st post hh).1 it hst
    · have e := world_of_run (preferProjectionBody ops) n (World.init ops p t) w hw
      rw [e] at hh
      have h := eachCall_worldAfter (preferProjectionBody ops) (preferProjectionTrace ops)
        (preferProjectionBody_trace ops) (NextOk ops) (nextOk_preferProjectionTrace ops) n
        (World.init ops p t)
        (eachCall_init ops p t _ (by simp [NextOk]) (by simp [NextOk]))
      exact h pre st post hh it hst
  · exact ⟨(worldAfter (preferSamplingBody (toyOps Answer.UNSAT false)) 2
        (World.init (toyOps Answer.UNSAT false) () toyOnlyFull)), rfl, _, _, rfl, rfl, rfl⟩

/-- C33: a pass through the loop body of `PreferProjection` in which `getPolyForLifting`
returns none for the next sample `it` calls `projectNewPolynomial` next.  If that reports
new polynomials, the pass ends with `restoreRemovedSamples` and the sample is kept.
Otherwise `empty(idLP(it.depth() + 1))` is asked: if the level is empty,
`addTrivialSample(it)` is called and the sample is dropped (`removeNextSample`) exactly if
that returns false; if the level is not empty, `addTrivialSample` is not called and the
sample is dropped. -/
theorem C33_shortage {P T It : Type} (ops : CADOps P T It UPoly) (w : World P T It UPoly)
    (res : Answer) (t1 : T) (it : It) (p2 : P) (t2 : T) (g : Bitset) (p3 : P)
    (hcheck : ops.checkFullSamples w.proj w.tree = (res, t1)) (hs : res ≠ Answer.SAT)
    (hn : ops.hasNextSample t1 = true) (hit : ops.getNextSample t1 = it)
    (hd : ops.depth t1 it < ops.dim) (hc : ops.hasConflictWithConstraint t1 it = false)
    (hg : ops.getPolyForLifting w.proj (ops.idLP (ops.depth t1 it + 1)) t1 it = (none, p2, t2))
    (hp : ops.projectNewPolynomial p2 = (g, p3)) :
    (g.Nonempty →
      preferProjectionBody ops w = .next ⟨p3, ops.restoreRemovedSamples t2,
        w.history ++ shortageCalls ops w res t1 it p2 t2 g ++
          [⟨p3, t2, .restoreRemovedSamples⟩]⟩) ∧
    (¬ g.Nonempty → ops.empty p3 (ops.idLP (ops.depth t2 it + 1)) = true →
      (ops.addTrivialSample t2 it).1 = true →
      preferProjectionBody ops w = .next ⟨p3, (ops.addTrivialSample t2 it).2,
        w.history ++ shortageCalls ops w res t1 it p2 t2 g ++
          [⟨p3, t2, .empty (ops.idLP (ops.depth t2 it + 1)) true⟩,
            ⟨p3, t2, .addTrivialSample it true⟩]⟩) ∧
    (¬ g.Nonempty → ops.empty p3 (ops.idLP (ops.depth t2 it + 1)) = true →
      (ops.addTrivialSample t2 it).1 = false →
      preferProjectionBody ops w = .next ⟨p3,
        ops.removeNextSample (ops.addTrivialSample t2 it).2,
        w.history ++ shortageCalls ops w res t1 it p2 t2 g ++
          [⟨p3, t2, .empty (ops.idLP (ops.depth t2 it + 1)) true⟩,
            ⟨p3, t2, .addTrivialSample it false⟩,
            ⟨p3, (ops.addTrivialSample t2 it).2, .removeNextSample⟩]⟩) ∧
    (¬ g.Nonempty → ops.empty p3 (ops.idLP (ops.depth t2 it + 1)) = false →
      preferProjectionBody ops w = .next ⟨p3, ops.removeNextSample t2,
        w.history ++ shortageCalls ops w res t1 it p2 t2 g ++
          [⟨p3, t2, .empty (ops.idLP (ops.depth t2 it + 1)) false⟩,
            ⟨p3, t2, .removeNextSample⟩]⟩) := by
  have hst := preferProjectionBody_states ops w
  have htr := preferProjectionBody_trace ops w
  have h1 : (ops.checkFullSamples w.proj w.tree).1 = res := by rw [hcheck]
  have h2 : (ops.checkFullSamples w.proj w.tree).2 = t1 := by rw [hcheck]
  have hs' : ¬ res = Answer.SAT := hs
  have hd' : ¬ ¬ ops.depth t1 it < ops.dim := not_not.2 hd
  have hg1 : (ops.getPolyForLifting w.proj (ops.idLP (ops.depth t1 it + 1)) t1 it).1 = none := by
    rw [hg]
  have hg2 : (ops.getPolyForLifting w.proj (ops.idLP (ops.depth t1 it + 1)) t1 it).2.1 = p2 := by
    rw [hg]
  have hg3 : (ops.getPolyForLifting w.proj (ops.idLP (ops.depth t1 it + 1)) t1 it).2.2 = t2 := by
    rw [hg]
  have hp1 : (ops.projectNewPolynomial p2).1 = g := by rw [hp]
  have hp2 : (ops.projectNewPolynomial p2).2 = p3 := by rw [hp]
  unfold preferProjectionStates fetchStates liftStates at hst
  unfold preferProjectionTrace fetchTrace liftTrace at htr
  simp only [h1, h2, hs', hn, hit, hd', hc, hg1, hg2, hg3, hp1, hp2, if_false, if_true,
    not_true_eq_false, Bool.false_eq_true] at hst htr
  refine ⟨?_, ?_, ?_, ?_⟩
  · intro hne
    simp only [hne, if_true] at hst htr
    exact pass_next_eq _ _ _ _ hst (by rw [htr]; simp [shortageCalls])
  · intro hne he ha
    simp only [hne, he, ha, if_false, if_true, not_true_eq_false] at hst htr
    exact pass_next_eq _ _ _ _ hst (by rw [htr]; simp [shortageCalls])
  · intro hne he ha
    simp only [hne, he, ha, if_false, if_true, not_false_eq_true, Bool.false_eq_true]
      at hst htr
    exact pass_next_eq _ _ _ _ hst (by rw [htr]; simp [shortageCalls])
  · intro hne he
    simp only [hne, he, if_false, Bool.false_eq_true] at hst htr
    exact pass_next_eq _ _ _ _ hst (by rw [htr]; simp [shortageCalls])
/-- C34: in a run of `PreferSampling` (`w` is the world after `n` evaluations of the
condition of the inner loop, or the world in which the run ends), every
`projectNewPolynomial` call is made in a state in which `hasNextSample()` and
`hasFullSamples()` are false, right after the two queries of the loop condition, and it is
preceded by a `restoreRemovedSamples` call with no `projectNewPolynomial` call in between
(the call that begins the same outer iteration).  If it reports nothing new, it is the last
call and the run returns `UNSAT`; and a run that returns `UNSAT` ends with a
`projectNewPolynomial` call that reported nothing new. -/
theorem C34_preferSampling_calls {P T It : Type} (ops : CADOps P T It UPoly) (p : P) (t : T)
    (n : Nat) (w : World P T It UPoly)
    (hw : w = worldAfter (preferSamplingBody ops) n (World.init ops p t) ∨
      ∃ r, preferSampling ops n p t = some (r, w))
    (pre post : List (Step P T It UPoly)) (st : Step P T It UPoly)
    (hh : w.history = pre ++ st :: post) (g : Bitset)
    (hst : st.call = .projectNewPolynomial g) :
    ops.hasNextSample st.tree = false ∧ ops.hasFullSamples st.tree = false ∧
    pre.getLast? = some ⟨st.proj, st.tree, .hasFullSamples false⟩ ∧
    pre.dropLast.getLast? = some ⟨st.proj, st.tree, .hasNextSample false⟩ ∧
    (∃ pre1 r mid, pre = pre1 ++ r :: mid ∧ r.call = .restoreRemovedSamples ∧
      ∀ s ∈ mid, ∀ g', s.call ≠ .projectNewPolynomial g') ∧
    (g = ∅ → post = [] ∧ preferSampling ops n p t = some (.ok Answer.UNSAT, w)) ∧
    (∀ w', preferSampling ops n p t = some (.ok Answer.UNSAT, w') →
      ∃ pre' s, w'.history = pre' ++ [s] ∧ s.call = .projectNewPolynomial ∅ ∧
        (ops.projectNewPolynomial s.proj).1 = ∅) := by
  have e := world_of_run (preferSamplingBody ops) n (World.init ops p t) w hw
  obtain ⟨hir, hin, hie⟩ := init_restored ops p t
  have hok := preferSampling_run_ok ops n (World.init ops p t) ⟨hie, hir, hin⟩
  rw [← e] at hok
  obtain ⟨hproj, _⟩ := hok pre st post hh
  obtain ⟨h1, h2, h3, h4, h5⟩ := hproj g hst
  refine ⟨h1, h2, h3, h4, h5, ?_, ?_⟩
  · intro hg
    constructor
    · cases post with
      | nil => rfl
      | cons s' post' =>
        have := (hok (pre ++ [st]) s' post' (by rw [hh]; simp)).2
        exact absurd (by rw [hst, hg]) (this st (by simp))
    · have := preferSampling_run_end ops n (World.init ops p t) hir hin
        ⟨st, by rw [← e, hh]; simp, by rw [hst, hg]⟩
      rw [← e] at this
      exact this
  · intro w' hrun
    refine unsat_exit (preferSamplingBody ops) (fun w' =>
      ∃ pre' s, w'.history = pre' ++ [s] ∧ s.call = .projectNewPolynomial ∅ ∧
        (ops.projectNewPolynomial s.proj).1 = ∅) ?_ n _ w' hrun
    intro w0 r w1 hb hr
    rcases preferSamplingBody_done ops w0 r w1 hb with ⟨h1, _⟩ | ⟨_, _, _, h3, h4⟩ | h1
    · rw [h1] at hr; simp at hr
    · rw [h4]
      exact ⟨_, ⟨w0.proj, w0.tree, .projectNewPolynomial ∅⟩, rfl, rfl, h3⟩
    · rw [h1] at hr; simp at hr
/-- Witness for C33: in the first pass of `PreferProjection` on the worked example with an
empty projection level no polynomial is found for the root, nothing new is projected, the
level is empty and a trivial sample is added; the root is kept. -/
theorem C33_shortage_witness :
    planeOps.checkFullSamples exX planeStart = (Answer.UNSAT, planeStart) ∧
    planeOps.getPolyForLifting exX (planeOps.idLP (planeOps.depth planeStart false + 1))
      planeStart false = (none, exX, planeStart) ∧
    planeOps.empty exX (planeOps.idLP (planeOps.depth planeStart false + 1)) = true ∧
    (planeOps.addTrivialSample planeStart false).1 = true ∧
    preferProjectionBody planeOps (World.init planeOps exX planeStart) =
      .next ⟨exX, (planeOps.addTrivialSample planeStart false).2,
        (World.init planeOps exX planeStart).history ++
          shortageCalls planeOps (World.init planeOps exX planeStart) Answer.UNSAT planeStart
            false exX planeStart ∅ ++
          [⟨exX, planeStart,
              .empty (planeOps.idLP (planeOps.depth planeStart false + 1)) true⟩,
            ⟨exX, planeStart, .addTrivialSample false true⟩]⟩ :=
  ⟨rfl, rfl, rfl, rfl,
    (C33_shortage planeOps (World.init planeOps exX planeStart) Answer.UNSAT planeStart false
      exX planeStart ∅ exX rfl (by decide) rfl rfl (by decide) rfl rfl rfl).2.1
      (by simp) rfl rfl⟩

/-- Witness for C34: the run of `PreferSampling` on the worked example for the control loop,
with an oracle that rejects the full sample, ends with a `projectNewPolynomial` call that
reports nothing new, made when neither a next sample nor a full sample is left, and returns
`UNSAT`. -/
theorem C34_preferSampling_calls_witness :
    (worldAfter (preferSamplingBody (toyOps Answer.UNSAT false)) 3
        (World.init (toyOps Answer.UNSAT false) () toyStart)).history =
      exSamplingRun.take 18 ++ [⟨(), ⟨false, true, false⟩, .projectNewPolynomial ∅⟩] ∧
    (toyOps Answer.UNSAT false).hasNextSample ⟨false, true, false⟩ = false ∧
    (toyOps Answer.UNSAT false).hasFullSamples ⟨false, true, false⟩ = false ∧
    preferSampling (toyOps Answer.UNSAT false) 3 () toyStart =
      some (.ok Answer.UNSAT, worldAfter (preferSamplingBody (toyOps Answer.UNSAT false)) 3
        (World.init (toyOps Answer.UNSAT false) () toyStart)) :=
  have h := C34_preferSampling_calls (toyOps Answer.UNSAT false) () toyStart 3 _ (Or.inl rfl)
    (exSamplingRun.take 18) [] ⟨(), ⟨false, true, false⟩, .projectNewPolynomial ∅⟩ rfl ∅ rfl
  ⟨rfl, h.1, h.2.1, (h.2.2.2.2.2.1 rfl).2⟩

/-- C36: let `projectNewPolynomial` report nothing new and change nothing, and let the level
for `depth + 1` be non-empty for every sample that a run of `BySample` visits without
finding a polynomial for it (the level that `PreferProjection` asks `empty` about).  Then
after any number `n` of passes `BySample` and `PreferProjection` have left the same states
of the projection and of the sample tree, they have made the same calls in the same states
apart from the `hasNextSample`, `empty` and `projectNewPolynomial` queries (in particular the
same `getNextSample`, `liftSample`, `removeNextSample` and `checkFullSamples` calls in the
same order), and with the limit of `n` passes either both return, with the same answer, or
none does. -/
theorem C36_same_sampling {P T It : Type} (ops : CADOps P T It UPoly)
    (hproj : ∀ p, ops.projectNewPolynomial p = (∅, p)) (p : P) (t : T) (n : Nat)
    (hne : ∀ st ∈ (worldAfter (bySampleBody ops) n (World.init ops p t)).history,
      ∀ level it, st.call = .getPolyForLifting level it none →
      ops.empty (ops.getPolyForLifting st.proj level st.tree it).2.1
        (ops.idLP (ops.depth (ops.getPolyForLifting st.proj level st.tree it).2.2 it + 1))
        = false) :
    (worldAfter (bySampleBody ops) n (World.init ops p t)).proj =
        (worldAfter (preferProjectionBody ops) n (World.init ops p t)).proj ∧
    (worldAfter (bySampleBody ops) n (World.init ops p t)).tree =
        (worldAfter (preferProjectionBody ops) n (World.init ops p t)).tree ∧
    keptCalls (worldAfter (bySampleBody ops) n (World.init ops p t)).history =
        keptCalls (worldAfter (preferProjectionBody ops) n (World.init ops p t)).history ∧
    (bySample ops n p t).map Prod.fst = (preferProjection ops n p t).map Prod.fst :=
  run_equiv ops hproj n (World.init ops p t) (World.init ops p t) rfl rfl rfl hne

/-- Witness for C36: on the worked example for the control loop, whose projection is not
incremental and whose level is not empty, with an oracle that rejects the full sample, both
heuristics return `UNSAT` in the third pass. -/
theorem C36_same_sampling_witness :
    (∀ p, (toyOps Answer.UNSAT false).projectNewPolynomial p = (∅, p)) ∧
    bySample (toyOps Answer.UNSAT false) 3 () toyStart =
      some (.ok Answer.UNSAT, worldAfter (bySampleBody (toyOps Answer.UNSAT false)) 3
        (World.init (toyOps Answer.UNSAT false) () toyStart)) ∧
    keptCalls (worldAfter (bySampleBody (toyOps Answer.UNSAT false)) 3
        (World.init (toyOps Answer.UNSAT false) () toyStart)).history =
      keptCalls (worldAfter (preferProjectionBody (toyOps Answer.UNSAT false)) 3
        (World.init (toyOps Answer.UNSAT false) () toyStart)).history ∧
    (bySample (toyOps Answer.UNSAT false) 3 () toyStart).map Prod.fst =
      (preferProjection (toyOps Answer.UNSAT false) 3 () toyStart).map Prod.fst :=
  have h := C36_same_sampling (toyOps Answer.UNSAT false) (fun _ => rfl) () toyStart 3
    (fun _ _ _ _ _ => rfl)
  ⟨fun _ => rfl, rfl, h.2.2.1, h.2.2.2⟩

end Development

end cad

/-!
## The simplification of a disjunction of conjunctions
-/

namespace vs

variable {C : Type}

theorem scan_ok (isC : C → Nat) :
    ∀ (conj kept : List C), noInconsistent isC conj = true →
      scanConjunction isC kept conj = (false, kept ++ dropConsistent isC conj) := by
  intro conj
  induction conj with
  | nil => intro kept _; simp [scanConjunction, dropConsistent]
  | cons c rest ih =>
    intro kept h
    have h0 : isC c ≠ 0 ∧ noInconsistent isC rest = true := by
      simpa [noInconsistent] using h
    by_cases h1 : isC c = 1
    · simp [scanConjunction, h0.1, h1, ih kept h0.2, dropConsistent]
    · simp [scanConjunction, h0.1, h1, ih _ h0.2, dropConsistent]

theorem scan_bad (isC : C → Nat) :
    ∀ (conj kept : List C), noInconsistent isC conj = false →
      (scanConjunction isC kept conj).1 = true ∧
        (scanConjunction isC kept conj).2.isEmpty = false := by
  intro conj
  induction conj with
  | nil => intro kept h; simp [noInconsistent] at h
  | cons c rest ih =>
    intro kept h
    by_cases h0 : isC c = 0
    · simp [scanConjunction, h0]
    · have hr : noInconsistent isC rest = false := by
        simpa [noInconsistent, h0] using h
      by_cases h1 : isC c = 1
      · simpa [scanConjunction, h0, h1] using ih kept hr
      · simpa [scanConjunction, h0, h1] using ih _ hr

/-- What the outer loop leaves of the simplified conjunctions that are still to come. -/
theorem simplifyLoop_eq (isC : C → Nat) :
    ∀ (D done : List (List C)) (flag : Bool),
      simplifyLoop isC flag done D =
        done ++ (if flag then
          ((D.filter (noInconsistent isC)).map (dropConsistent isC)).filter
            (fun d => !d.isEmpty)
          else keepFirstEmpty ((D.filter (noInconsistent isC)).map (dropConsistent isC))) := by
  intro D
  induction D with
  | nil => intro done flag; cases flag <;> simp [simplifyLoop, keepFirstEmpty]
  | cons conj rest ih =>
    intro done flag
    cases hn : noInconsistent isC conj
    · have hb := scan_bad isC conj [] hn
      simp only [simplifyLoop, hb.1, hb.2, ih, List.filter_cons, hn]
      cases flag <;> simp
    · have ho := scan_ok isC conj [] hn
      simp only [simplifyLoop, ho, ih, List.filter_cons, hn, List.nil_append]
      cases he : (dropConsistent isC conj).isEmpty <;> cases flag <;>
        simp [keepFirstEmpty, he]

theorem keepFirstEmpty_count (L : List (List C)) :
    ((keepFirstEmpty L).filter List.isEmpty).length = if L.any List.isEmpty then 1 else 0 := by
  induction L with
  | nil => simp [keepFirstEmpty]
  | cons c rest ih =>
    cases he : c.isEmpty
    · rw [keepFirstEmpty, if_neg (by rw [he]; decide), List.filter_cons, he, List.any_cons, he,
        Bool.false_or]
      simpa using ih
    · simp [keepFirstEmpty, he, List.filter_filter]

theorem keepFirstEmpty_mem (L : List (List C)) (r : List C) (h : r ∈ keepFirstEmpty L) :
    r ∈ L := by
  induction L with
  | nil => simp [keepFirstEmpty] at h
  | cons c rest ih =>
    cases he : c.isEmpty
    · rw [keepFirstEmpty, if_neg (by rw [he]; decide)] at h
      rcases List.mem_cons.mp h with h1 | h1
      · exact h1 ▸ List.mem_cons_self _ _
      · exact List.mem_cons_of_mem _ (ih h1)
    · rw [keepFirstEmpty, if_pos he] at h
      rcases List.mem_cons.mp h with h1 | h1
      · exact h1 ▸ List.mem_cons_self _ _
      · exact List.mem_cons_of_mem _ (List.mem_filter.mp h1).1

theorem all_consistent_iff (isC : C → Nat) (conj : List C) :
    (noInconsistent isC conj && (dropConsistent isC conj).isEmpty) =
      conj.all (fun c => decide (isC c = 1)) := by
  induction conj with
  | nil => rfl
  | cons c cs ihc =>
    by_cases h0 : isC c = 0
    · simp [noInconsistent, h0]
    · by_cases h1 : isC c = 1
      · simpa [noInconsistent, dropConsistent, h0, h1] using ihc
      · simp [noInconsistent, dropConsistent, h0, h1]

theorem any_empty_iff (isC : C → Nat) (D : List (List C)) :
    ((D.filter (noInconsistent isC)).map (dropConsistent isC)).any List.isEmpty =
      D.any (fun conj => conj.all (fun c => decide (isC c = 1))) := by
  rw [List.any_map, List.any_filter]
  congr 1
  funext conj
  exact all_consistent_iff isC conj

theorem dropConsistent_eq (isC : C → Nat) (hr : ∀ c, isC c ≤ 2) (conj : List C)
    (h : noInconsistent isC conj = true) :
    dropConsistent isC conj = conj.filter (fun c => decide (isC c = 2)) := by
  unfold dropConsistent
  apply List.filter_congr
  intro c hc
  have h0 : isC c ≠ 0 := by
    have := List.all_eq_true.mp h c hc
    simpa using this
  have := hr c
  by_cases h2 : isC c = 2
  · simp [h2]
  · have : isC c = 1 := by omega
    simp [this]

/-- Claim C22.  For a constraint type whose `isConsistent()` has the values 0, 1 and 2,
`simplify` deletes every conjunction that contains an inconsistent constraint (value 0),
keeps of every remaining conjunction, in order, exactly the constraints with the value 2,
and keeps of the conjunctions that became empty only the first one; so the result has
exactly one empty conjunction if some conjunction of the input consists only of consistent
constraints (value 1), and none otherwise. -/
theorem C22_simplify (isConsistent : C → Nat) (hr : ∀ c, isConsistent c ≤ 2)
    (D : List (List C)) :
    simplify isConsistent D =
        keepFirstEmpty ((D.filter (noInconsistent isConsistent)).map
          (fun conj => conj.filter (fun c => decide (isConsistent c = 2)))) ∧
      (∀ conj ∈ simplify isConsistent D, ∀ c ∈ conj, isConsistent c = 2) ∧
      ((simplify isConsistent D).filter List.isEmpty).length =
        if D.any (fun conj => conj.all (fun c => decide (isConsistent c = 1))) then 1 else 0 := by
  have hmap : (D.filter (noInconsistent isConsistent)).map
        (fun conj => conj.filter (fun c => decide (isConsistent c = 2))) =
      (D.filter (noInconsistent isConsistent)).map (dropConsistent isConsistent) := by
    apply List.map_congr_left
    intro conj hc
    exact (dropConsistent_eq isConsistent hr conj (List.mem_filter.mp hc).2).symm
  have hs : simplify isConsistent D =
      keepFirstEmpty ((D.filter (noInconsistent isConsistent)).map
        (dropConsistent isConsistent)) := by
    simp [simplify, simplifyLoop_eq]
  refine ⟨by rw [hmap]; exact hs, ?_, ?_⟩
  · intro conj hconj c hc
    rw [hs] at hconj
    have hm := keepFirstEmpty_mem _ conj hconj
    obtain ⟨conj0, h0, rfl⟩ := List.mem_map.mp hm
    rw [dropConsistent_eq isConsistent hr conj0 (List.mem_filter.mp h0).2] at hc
    simpa using (List.mem_filter.mp hc).2
  · rw [hs, keepFirstEmpty_count, any_empty_iff]

/-- Claim C22 on a disjunction of four conjunctions over constraints that are their own
consistency value: the second conjunction is deleted, the third and the fourth become
empty and only one of them is kept. -/
theorem C22_simplify_witness :
    (∀ c, exConsistency c ≤ 2) ∧
      (simplify exConsistency exDisjunction =
          keepFirstEmpty ((exDisjunction.filter (noInconsistent exConsistency)).map
            (fun conj => conj.filter (fun c => decide (exConsistency c = 2)))) ∧
        (∀ conj ∈ simplify exConsistency exDisjunction, ∀ c ∈ conj, exConsistency c = 2) ∧
        ((simplify exConsistency exDisjunction).filter List.isEmpty).length =
          if exDisjunction.any
            (fun conj => conj.all (fun c => decide (exConsistency c = 1))) then 1 else 0) :=
  ⟨fun c => Nat.le_of_lt_succ c.isLt,
    C22_simplify exConsistency (fun c => Nat.le_of_lt_succ c.isLt) exDisjunction⟩

end vs

/-!
## The order of the bounds and the conflict flag of the variable bounds
-/

namespace vb

theorem lt_upper (a b : Bound) (ha : a.isUpperBound = true) (hb : b.isUpperBound = true) :
    ∃ r, a.lt b = .ok r ∧
      (r = true ↔ a.mpLimit ≠ none ∧ (b.mpLimit = none ∨
        ∃ la lb, a.mpLimit = some la ∧ b.mpLimit = some lb ∧
          (la < lb ∨ (la = lb ∧ upperRank a.mType < upperRank b.mType)))) := by
  obtain ⟨ta, la, va, oa⟩ := a
  obtain ⟨tb, lb, vb, ob⟩ := b
  cases la with
  | none => exact ⟨false, by simp [Bound.lt, ha, hb, Bound.isInfinite], by simp⟩
  | some la =>
    cases lb with
    | none => exact ⟨true, by simp [Bound.lt, ha, hb, Bound.isInfinite], by simp⟩
    | some lb =>
      rcases lt_trichotomy la lb with hlt | heq | hgt
      · exact ⟨true, by simp [Bound.lt, ha, hb, Bound.isInfinite, hlt], by simp [hlt]⟩
      · subst heq
        cases ta <;> cases tb <;>
          simp [Bound.lt, Bound.isUpperBound, Bound.isInfinite, BoundType.toNat, upperRank]
            at ha hb ⊢
      · have h1 : ¬ la < lb := not_lt.mpr hgt.le
        have h2 : ¬ la = lb := ne_of_gt hgt
        exact ⟨false, by simp [Bound.lt, ha, hb, Bound.isInfinite, h1, h2], by simp [h1, h2]⟩

theorem lt_lower (a b : Bound) (hu : ¬ (a.isUpperBound = true ∧ b.isUpperBound = true))
    (ha : a.isLowerBound = true) (hb : b.isLowerBound = true) :
    ∃ r, a.lt b = .ok r ∧
      (r = true ↔ b.mpLimit ≠ none ∧ (a.mpLimit = none ∨
        ∃ la lb, a.mpLimit = some la ∧ b.mpLimit = some lb ∧
          (la < lb ∨ (la = lb ∧ lowerRank a.mType < lowerRank b.mType)))) := by
  have hu2 : (a.isUpperBound && b.isUpperBound) = false := by
    simpa using hu
  obtain ⟨ta, la, va, oa⟩ := a
  obtain ⟨tb, lb, vb, ob⟩ := b
  cases lb with
  | none => exact ⟨false, by simp [Bound.lt, hu2, ha, hb, Bound.isInfinite], by simp⟩
  | some lb =>
    cases la with
    | none => exact ⟨true, by simp [Bound.lt, hu2, ha, hb, Bound.isInfinite], by simp⟩
    | some la =>
      rcases lt_trichotomy la lb with hlt | heq | hgt
      · exact ⟨true, by simp [Bound.lt, hu2, ha, hb, Bound.isInfinite, hlt], by simp [hlt]⟩
      · subst heq
        cases ta <;> cases tb <;>
          simp [Bound.lt, Bound.isUpperBound, Bound.isLowerBound, Bound.isInfinite,
            BoundType.toNat, lowerRank] at hu ha hb ⊢
      · have h1 : ¬ la < lb := not_lt.mpr hgt.le
        have h2 : ¬ la = lb := ne_of_gt hgt
        exact ⟨false, by simp [Bound.lt, hu2, ha, hb, Bound.isInfinite, h1, h2],
          by simp [h1, h2]⟩

/-- Claim C23 (the code at the failing input).  After `addBound( x - 1 >= 0 )`,
`addBound( x <= 0 )`, `addBound( y - 5 <= 0 )` the object reports a conflict; after the
matching `removeBound( y - 5 <= 0 )` all four calls have completed, `isConflicting()` is
false, and a variable (`x`, with the supremum 0 and the infimum 1) is still conflicting. -/
theorem C23_conflict_flag_lost :
    (∃ st, run (exCalls.take 3) VariableBounds.create = .ok st ∧
        st.isConflicting = true ∧ st.someConflicting = true) ∧
      ∃ st, run exCalls VariableBounds.create = .ok st ∧
        st.isConflicting = false ∧ st.someConflicting = true := by
  refine ⟨⟨exAfterAdds, ?_, ?_, ?_⟩, exFinal, ?_, ?_, ?_⟩ <;> with_unfolding_all rfl

/-- Claim C24 (as stated) fails.  The equal bound 3 is not smaller than the strict upper
bound 3 although it is an equal bound and the other is not; the strict upper bound 3 is
smaller than the weak upper bound 3 although it is not an equal bound; and the finite lower
bound 2 is not smaller than the infinite lower bound, which is smaller than it. -/
theorem C24_counterexample :
    (exEqualThree.isUpperBound = true ∧ exStrictUpperThree.isUpperBound = true ∧
        exEqualThree.lt exStrictUpperThree = .ok false ∧
        docLess exEqualThree exStrictUpperThree = true) ∧
      (exStrictUpperThree.isUpperBound = true ∧ exWeakUpperThree.isUpperBound = true ∧
        exStrictUpperThree.lt exWeakUpperThree = .ok true ∧
        docLess exStrictUpperThree exWeakUpperThree = false) ∧
      (exWeakLowerTwo.isLowerBound = true ∧ exMinusInfinity.isLowerBound = true ∧
        exWeakLowerTwo.lt exMinusInfinity = .ok false ∧
        docLess exWeakLowerTwo exMinusInfinity = true ∧
        exMinusInfinity.lt exWeakLowerTwo = .ok true) := by
  refine ⟨⟨?_, ?_, ?_, ?_⟩, ⟨?_, ?_, ?_, ?_⟩, ?_, ?_, ?_, ?_, ?_⟩ <;> with_unfolding_all rfl

/-- Claim C24 (amended).  For two comparable bounds A and B the comparison returns a
result.  If both are upper bounds, A < B exactly when A is finite and B is infinite, or
both are finite and the limit of A is smaller, or the limits are equal and the type of A
comes first in the order strict, equal, weak.  Otherwise (both are lower bounds), A < B
exactly when B is finite and A is infinite, or both are finite and the limit of A is
smaller, or the limits are equal and the type of A comes first in the order weak, equal,
strict. -/
theorem C24_bound_order (a b : Bound)
    (h : (a.isUpperBound = true ∧ b.isUpperBound = true) ∨
      (a.isLowerBound = true ∧ b.isLowerBound = true)) :
    ∃ r, a.lt b = .ok r ∧
      ((a.isUpperBound = true ∧ b.isUpperBound = true) →
        (r = true ↔ a.mpLimit ≠ none ∧ (b.mpLimit = none ∨
          ∃ la lb, a.mpLimit = some la ∧ b.mpLimit = some lb ∧
            (la < lb ∨ (la = lb ∧ upperRank a.mType < upperRank b.mType))))) ∧
      (¬ (a.isUpperBound = true ∧ b.isUpperBound = true) →
        (r = true ↔ b.mpLimit ≠ none ∧ (a.mpLimit = none ∨
          ∃ la lb, a.mpLimit = some la ∧ b.mpLimit = some lb ∧
            (la < lb ∨ (la = lb ∧ lowerRank a.mType < lowerRank b.mType))))) := by
  by_cases hu : a.isUpperBound = true ∧ b.isUpperBound = true
  · obtain ⟨r, hr, hiff⟩ := lt_upper a b hu.1 hu.2
    exact ⟨r, hr, fun _ => hiff, fun hn => absurd hu hn⟩
  · have hl : a.isLowerBound = true ∧ b.isLowerBound = true := h.resolve_left hu
    obtain ⟨r, hr, hiff⟩ := lt_lower a b hu hl.1 hl.2
    exact ⟨r, hr, fun hp => absurd hp hu, fun _ => hiff⟩

/-- Claim C24 (amended) on the equal bound 3 and the weak upper bound 3. -/
theorem C24_bound_order_witness :
    ((exEqualThree.isUpperBound = true ∧ exWeakUpperThree.isUpperBound = true) ∨
        (exEqualThree.isLowerBound = true ∧ exWeakUpperThree.isLowerBound = true)) ∧
      ∃ r, exEqualThree.lt exWeakUpperThree = .ok r ∧
        ((exEqualThree.isUpperBound = true ∧ exWeakUpperThree.isUpperBound = true) →
          (r = true ↔ exEqualThree.mpLimit ≠ none ∧ (exWeakUpperThree.mpLimit = none ∨
            ∃ la lb, exEqualThree.mpLimit = some la ∧ exWeakUpperThree.mpLimit = some lb ∧
              (la < lb ∨ (la = lb ∧
                upperRank exEqualThree.mType < upperRank exWeakUpperThree.mType))))) ∧
        (¬ (exEqualThree.isUpperBound = true ∧ exWeakUpperThree.isUpperBound = true) →
          (r = true ↔ exWeakUpperThree.mpLimit ≠ none ∧ (exEqualThree.mpLimit = none ∨
            ∃ la lb, exEqualThree.mpLimit = some la ∧ exWeakUpperThree.mpLimit = some lb ∧
              (la < lb ∨ (la = lb ∧
                lowerRank exEqualThree.mType < lowerRank exWeakUpperThree.mType))))) :=
  ⟨Or.inl ⟨rfl, rfl⟩, C24_bound_order exEqualThree exWeakUpperThree (Or.inl ⟨rfl, rfl⟩)⟩

end vb



/-!
## The bit strings of odd and of even parity
-/

namespace vs

theorem mapFrom_append (v l : List Nat) (f : Nat → Nat) :
    mapFrom v.length f (v ++ l) = v ++ l.map f := by
  simp [mapFrom]

theorem mapFrom_append2 (v a b : List Nat) (f : Nat → Nat) (m k : Nat)
    (hm : m ≤ k) (hk : k = (v ++ a).length) :
    mapFrom (max m k) f (v ++ a ++ b) = v ++ a ++ b.map f := by
  rw [max_eq_right hm, hk, mapFrom_append]

theorem bitCount_zero (w : Nat) : bitCount w 0 = 0 := by
  induction w with
  | zero => rfl
  | succ w ih => simp [bitCount, ih]

theorem bitCount_mono (w k x : Nat) (hx : x < 2 ^ w) : bitCount (w + k) x = bitCount w x := by
  induction w generalizing x with
  | zero =>
    have : x = 0 := by simpa using hx
    subst this
    simp [bitCount_zero, bitCount]
  | succ w ih =>
    have h2 : x / 2 < 2 ^ w := by
      rw [Nat.div_lt_iff_lt_mul (by norm_num)]
      rw [pow_succ] at hx
      exact hx
    have : w + 1 + k = (w + k) + 1 := by omega
    rw [this]
    simp only [bitCount]
    rw [ih _ h2]

theorem bitCount_le (w N x : Nat) (hx : x < 2 ^ w) (h : w ≤ N) :
    bitCount N x = bitCount w x := by
  obtain ⟨k, rfl⟩ := Nat.exists_eq_add_of_le h
  exact bitCount_mono w k x hx

theorem bitCount_double (w x : Nat) : bitCount (w + 1) (2 * x) = bitCount w x := by
  simp [bitCount]

theorem bitCount_double_succ (w x : Nat) :
    bitCount (w + 1) (2 * x + 1) = 1 + bitCount w x := by
  have h1 : (2 * x + 1) % 2 = 1 := by omega
  have h2 : (2 * x + 1) / 2 = x := by omega
  simp [bitCount, h1, h2]

/-- The two lists of bit strings of length `k + 1`: the bits and the parity of every
element, the lengths, no repetitions, and every bit string of the length is in one of
them. -/
theorem parityStrings_spec (k : Nat) :
    (∀ x ∈ (parityStrings k).1, x < 2 ^ (k + 1) ∧ bitCount (k + 1) x % 2 = 1) ∧
    (∀ x ∈ (parityStrings k).2, x < 2 ^ (k + 1) ∧ bitCount (k + 1) x % 2 = 0) ∧
    (parityStrings k).1.length = 2 ^ k ∧ (parityStrings k).2.length = 2 ^ k ∧
    (parityStrings k).1.Nodup ∧ (parityStrings k).2.Nodup ∧
    (∀ x, x < 2 ^ (k + 1) → x ∈ (parityStrings k).1 ∨ x ∈ (parityStrings k).2) := by
  induction k with
  | zero =>
    refine ⟨?_, ?_, rfl, rfl, by simp [parityStrings], by simp [parityStrings], ?_⟩
    · intro x hx
      simp [parityStrings] at hx
      subst hx
      simp [bitCount]
    · intro x hx
      simp [parityStrings] at hx
      subst hx
      simp [bitCount]
    · intro x hx
      simp [parityStrings]
      omega
  | succ k ih =>
    obtain ⟨ho, he, hlo, hle, hno, hne, hall⟩ := ih
    have hinj1 : Function.Injective (fun x : Nat => 2 * x + 1) := by
      intro a b h
      simp at h
      exact h
    have hinj0 : Function.Injective (fun x : Nat => 2 * x) := by
      intro a b h
      simp at h
      exact h
    refine ⟨?_, ?_, ?_, ?_, ?_, ?_, ?_⟩
    · intro x hx
      simp only [parityStrings, List.mem_append, List.mem_map] at hx
      rcases hx with ⟨y, hy, rfl⟩ | ⟨y, hy, rfl⟩
      · have := he y hy
        rw [bitCount_double_succ]
        refine ⟨?_, ?_⟩
        · rw [pow_succ 2 (k + 1)]
          omega
        · omega
      · have := ho y hy
        rw [bitCount_double]
        refine ⟨?_, this.2⟩
        rw [pow_succ 2 (k + 1)]
        omega
    · intro x hx
      simp only [parityStrings, List.mem_append, List.mem_map] at hx
      rcases hx with ⟨y, hy, rfl⟩ | ⟨y, hy, rfl⟩
      · have := he y hy
        rw [bitCount_double]
        refine ⟨?_, this.2⟩
        rw [pow_succ 2 (k + 1)]
        omega
      · have := ho y hy
        rw [bitCount_double_succ]
        refine ⟨?_, ?_⟩
        · rw [pow_succ 2 (k + 1)]
          omega
        · omega
    · simp only [parityStrings, List.length_append, List.length_map, hlo, hle]
      rw [pow_succ]
      omega
    · simp only [parityStrings, List.length_append, List.length_map, hlo, hle]
      rw [pow_succ]
      omega
    · simp only [parityStrings]
      rw [List.nodup_append]
      refine ⟨hne.map hinj1, hno.map hinj0, ?_⟩
      intro a ha hb
      simp only [List.mem_map] at ha hb
      obtain ⟨y, _, rfl⟩ := ha
      obtain ⟨z, _, hz⟩ := hb
      omega
    · simp only [parityStrings]
      rw [List.nodup_append]
      refine ⟨hne.map hinj0, hno.map hinj1, ?_⟩
      intro a ha hb
      simp only [List.mem_map] at ha hb
      obtain ⟨y, _, rfl⟩ := ha
      obtain ⟨z, _, hz⟩ := hb
      omega
    · intro x hx
      have hy : x / 2 < 2 ^ (k + 1) := by
        rw [Nat.div_lt_iff_lt_mul (by norm_num)]
        rw [pow_succ 2 (k + 1)] at hx
        exact hx
      simp only [parityStrings, List.mem_append, List.mem_map]
      rcases Nat.mod_two_eq_zero_or_one x with h0 | h1
      · rcases hall _ hy with h | h
        · exact Or.inl (Or.inr ⟨x / 2, h, by omega⟩)
        · exact Or.inr (Or.inl ⟨x / 2, h, by omega⟩)
      · rcases hall _ hy with h | h
        · exact Or.inr (Or.inr ⟨x / 2, h, by omega⟩)
        · exact Or.inl (Or.inl ⟨x / 2, h, by omega⟩)

theorem shiftLeftOne_small (N k x : Nat) (hx : x < 2 ^ (k + 1)) (hk : k + 2 ≤ N) :
    shiftLeftOne N x = 2 * x := by
  unfold shiftLeftOne
  apply Nat.mod_eq_of_lt
  calc 2 * x < 2 ^ (k + 2) := by rw [pow_succ 2 (k + 1)]; omega
    _ ≤ 2 ^ N := Nat.pow_le_pow_right (by norm_num) hk

theorem flipZero_double (x : Nat) : flipZero (2 * x) = 2 * x + 1 := by
  simp [flipZero]

/-- Both functions return, and what they append are the two lists of `parityStrings`. -/
theorem getBitStrings_eq (N k : Nat) (hk : k + 1 ≤ N) (v : List Nat) :
    getOddBitStrings N (k + 1) v = .ok (v ++ (parityStrings k).1) ∧
    getEvenBitStrings N (k + 1) v = .ok (v ++ (parityStrings k).2) := by
  induction k generalizing v with
  | zero =>
    have h1 : 1 % 2 ^ N = 1 := by
      apply Nat.mod_eq_of_lt
      calc 1 < 2 ^ 1 := by norm_num
        _ ≤ 2 ^ N := Nat.pow_le_pow_right (by norm_num) hk
    constructor
    · simp [getOddBitStrings, parityStrings, h1]
    · simp [getEvenBitStrings, parityStrings]
  | succ k ih =>
    have ih1 := fun v => (ih (by omega) v).1
    have ih2 := fun v => (ih (by omega) v).2
    obtain ⟨ho, he, -⟩ := parityStrings_spec k
    have hs : ∀ l : List Nat, (∀ x ∈ l, x < 2 ^ (k + 1)) →
        l.map (shiftLeftOne N) = l.map (fun x => 2 * x) := by
      intro l hl
      apply List.map_congr_left
      intro x hx
      exact shiftLeftOne_small N k x (hl x hx) hk
    have hf : ∀ l : List Nat, (∀ x ∈ l, x < 2 ^ (k + 1)) →
        l.map (fun x => flipZero (shiftLeftOne N x)) = l.map (fun x => 2 * x + 1) := by
      intro l hl
      apply List.map_congr_left
      intro x hx
      simp only [shiftLeftOne_small N k x (hl x hx) hk, flipZero_double]
    constructor
    · rw [getOddBitStrings]
      simp only [ih2, mapFrom_append, ih1]
      rw [mapFrom_append2 _ _ _ _ _ _ (by simp) (by simp)]
      rw [hf _ (fun x hx => (he x hx).1), hs _ (fun x hx => (ho x hx).1)]
      simp [parityStrings]
    · rw [getEvenBitStrings]
      simp only [ih2, mapFrom_append, ih1]
      rw [mapFrom_append2 _ _ _ _ _ _ (by simp) (by simp)]
      rw [hf _ (fun x hx => (ho x hx).1), hs _ (fun x hx => (he x hx).1)]
      simp [parityStrings]

/-- Claim C37.  For every length `n` with `1 ≤ n ≤ N`, where `N` stands for
`MAX_PRODUCT_SPLIT_NUMBER`, and every vector `v`, `getOddBitStrings( n, v )` and
`getEvenBitStrings( n, v )` return, and the vectors after the calls are `v` followed by new
elements `o` and `e`: each of the two has `2 ^ (n - 1)` elements without repetition, every
element has its set bits among the positions `0 .. n - 1`, the number of set bits of an
element of `o` is odd and that of an element of `e` is even, and every bit string of length
`n` occurs exactly once in `o` and `e` together. -/
theorem C37_bit_strings (N n : Nat) (v : List Nat) (h1 : 1 ≤ n) (h2 : n ≤ N) :
    ∃ o e : List Nat,
      getOddBitStrings N n v = .ok (v ++ o) ∧ getEvenBitStrings N n v = .ok (v ++ e) ∧
      o.length = 2 ^ (n - 1) ∧ e.length = 2 ^ (n - 1) ∧ o.Nodup ∧ e.Nodup ∧
      (∀ x ∈ o, x < 2 ^ n ∧ bitCount N x % 2 = 1) ∧
      (∀ x ∈ e, x < 2 ^ n ∧ bitCount N x % 2 = 0) ∧
      (∀ x, x < 2 ^ n → (o ++ e).count x = 1) := by
  obtain ⟨k, rfl⟩ : ∃ k, n = k + 1 := ⟨n - 1, by omega⟩
  obtain ⟨ho, he, hlo, hle, hno, hne, hall⟩ := parityStrings_spec k
  obtain ⟨h3, h4⟩ := getBitStrings_eq N k h2 v
  refine ⟨(parityStrings k).1, (parityStrings k).2, h3, h4, hlo, hle, hno, hne, ?_, ?_, ?_⟩
  · intro x hx
    refine ⟨(ho x hx).1, ?_⟩
    rw [bitCount_le (k + 1) N x (ho x hx).1 h2]
    exact (ho x hx).2
  · intro x hx
    refine ⟨(he x hx).1, ?_⟩
    rw [bitCount_le (k + 1) N x (he x hx).1 h2]
    exact (he x hx).2
  · intro x hx
    apply List.count_eq_one_of_mem
    · rw [List.nodup_append]
      refine ⟨hno, hne, ?_⟩
      intro a ha hb
      have := (ho a ha).2
      have := (he a hb).2
      omega
    · exact List.mem_append.2 (hall x hx)

/-- Claim C37 for the length 3, bit sets of 8 positions and a vector that holds the bit
string 7. -/
theorem C37_bit_strings_witness :
    ∃ o e : List Nat,
      getOddBitStrings 8 3 [7] = .ok ([7] ++ o) ∧ getEvenBitStrings 8 3 [7] = .ok ([7] ++ e) ∧
      o.length = 2 ^ (3 - 1) ∧ e.length = 2 ^ (3 - 1) ∧ o.Nodup ∧ e.Nodup ∧
      (∀ x ∈ o, x < 2 ^ 3 ∧ bitCount 8 x % 2 = 1) ∧
      (∀ x ∈ e, x < 2 ^ 3 ∧ bitCount 8 x % 2 = 0) ∧
      (∀ x, x < 2 ^ 3 → (o ++ e).count x = 1) :=
  C37_bit_strings 8 3 [7] (by decide) (by decide)

end vs

/-!
## The order of the bounds of a variable
-/

namespace vb

/-- The comparison of two lower bounds in which an equal bound is finite returns, and its
result is the order `lowerLess`, also if both are equal bounds and the comparison takes the
branch of the upper bounds. -/
theorem lt_lower_all (a b : Bound) (ha : a.isLowerBound = true) (hb : b.isLowerBound = true)
    (hfa : a.equalIsFinite) (hfb : b.equalIsFinite) :
    ∃ r, a.lt b = .ok r ∧ (r = true ↔ lowerLess a b) := by
  by_cases hu : a.isUpperBound = true ∧ b.isUpperBound = true
  · obtain ⟨r, hr, hiff⟩ := lt_upper a b hu.1 hu.2
    refine ⟨r, hr, hiff.trans ?_⟩
    obtain ⟨ta, la, va, oa⟩ := a
    obtain ⟨tb, lb, vb, ob⟩ := b
    cases ta <;> cases tb <;>
      simp [Bound.isUpperBound, Bound.isLowerBound, BoundType.toNat] at ha hb hu
    have h1 : la ≠ none := hfa rfl
    have h2 : lb ≠ none := hfb rfl
    obtain ⟨la, rfl⟩ := Option.ne_none_iff_exists'.1 h1
    obtain ⟨lb, rfl⟩ := Option.ne_none_iff_exists'.1 h2
    simp [lowerLess, upperRank, lowerRank]
  · exact lt_lower a b hu ha hb

/-- The order of the upper bounds is the order of a key in a linear order. -/
theorem upperLess_key :
    ∃ key : Bound → WithTop (ℚ ×ₗ ℕ), ∀ a b, upperLess a b ↔ key a < key b := by
  refine ⟨fun b => match b.mpLimit with
    | none => ⊤
    | some l => ((toLex (l, upperRank b.mType) : ℚ ×ₗ ℕ) : WithTop (ℚ ×ₗ ℕ)), ?_⟩
  intro a b
  obtain ⟨ta, la, va, oa⟩ := a
  obtain ⟨tb, lb, vb, ob⟩ := b
  cases la <;> cases lb <;> simp [upperLess, Prod.Lex.lt_iff, WithTop.coe_lt_top]

/-- The order of the lower bounds is the order of a key in a linear order. -/
theorem lowerLess_key :
    ∃ key : Bound → WithBot (ℚ ×ₗ ℕ), ∀ a b, lowerLess a b ↔ key a < key b := by
  refine ⟨fun b => match b.mpLimit with
    | none => ⊥
    | some l => ((toLex (l, lowerRank b.mType) : ℚ ×ₗ ℕ) : WithBot (ℚ ×ₗ ℕ)), ?_⟩
  intro a b
  obtain ⟨ta, la, va, oa⟩ := a
  obtain ⟨tb, lb, vb, ob⟩ := b
  cases la <;> cases lb <;> simp [lowerLess, Prod.Lex.lt_iff, WithBot.bot_lt_coe]

/-- A comparison that returns the order of a key in a linear order is a strict weak
ordering. -/
theorem swo_of_key {K : Type} [LinearOrder K] (key : Bound → K) (a b c : Bound)
    (hk : ∀ x ∈ [a, b, c], ∀ y ∈ [a, b, c],
      ∃ r, x.lt y = .ok r ∧ (r = true ↔ key x < key y)) :
    (∀ x ∈ [a, b, c], ∀ y ∈ [a, b, c], ∃ r, x.lt y = .ok r) ∧
    a.lt a = .ok false ∧
    (a.lt b = .ok true → b.lt c = .ok true → a.lt c = .ok true) ∧
    (a.lt b = .ok false → b.lt a = .ok false → b.lt c = .ok false → c.lt b = .ok false →
      a.lt c = .ok false ∧ c.lt a = .ok false) := by
  have ht : ∀ x ∈ [a, b, c], ∀ y ∈ [a, b, c], (x.lt y = .ok true ↔ key x < key y) := by
    intro x hx y hy
    obtain ⟨r, hr, hiff⟩ := hk x hx y hy
    rw [hr, ← hiff]
    simp
  have hf : ∀ x ∈ [a, b, c], ∀ y ∈ [a, b, c], (x.lt y = .ok false ↔ ¬ key x < key y) := by
    intro x hx y hy
    obtain ⟨r, hr, hiff⟩ := hk x hx y hy
    rw [hr, ← hiff]
    simp
  have ma : a ∈ [a, b, c] := by simp
  have mb : b ∈ [a, b, c] := by simp
  have mc : c ∈ [a, b, c] := by simp
  refine ⟨fun x hx y hy => ?_, ?_, ?_, ?_⟩
  · obtain ⟨r, hr, -⟩ := hk x hx y hy
    exact ⟨r, hr⟩
  · rw [hf a ma a ma]
    exact lt_irrefl _
  · rw [ht a ma b mb, ht b mb c mc, ht a ma c mc]
    exact lt_trans
  · rw [hf a ma b mb, hf b mb a ma, hf b mb c mc, hf c mc b mb, hf a ma c mc, hf c mc a ma]
    intro h1 h2 h3 h4
    have e1 : key a = key b := le_antisymm (not_lt.1 h2) (not_lt.1 h1)
    have e2 : key b = key c := le_antisymm (not_lt.1 h4) (not_lt.1 h3)
    rw [e1, e2]
    exact ⟨lt_irrefl _, lt_irrefl _⟩

/-- The constructor of a variable puts no infinite equal bound on the heap. -/
theorem create_equalIsFinite (heap : List Bound) (this : Nat)
    (h : ∀ b ∈ heap, b.equalIsFinite) : ∀ b ∈ (Variable.create heap this).2, b.equalIsFinite := by
  intro b hb
  simp only [Variable.create, List.mem_append, List.mem_cons, List.mem_singleton,
    List.not_mem_nil, or_false] at hb
  rcases hb with hb | rfl | rfl
  · exact h b hb
  · intro h1
    simp [Bound.create] at h1
  · intro h1
    simp [Bound.create] at h1

/-- The method `addBound` of a variable puts no infinite equal bound on the heap. -/
theorem addBound_equalIsFinite (heap : List Bound) (this : Nat) (v : Variable)
    (c : Constraint) (var : Nat) (origin : Option Nat) (r : Nat × Variable × List Bound)
    (h : ∀ b ∈ heap, b.equalIsFinite)
    (hr : Variable.addBound heap this v c var origin = .ok r) :
    ∀ b ∈ r.2.2, b.equalIsFinite := by
  unfold Variable.addBound at hr
  split at hr
  · exact absurd hr (by simp)
  split at hr
  · exact absurd hr (by simp)
  rename_i type _
  have h1 : ∀ b ∈ heap ++ [Bound.create (some (-c.constantPart / c.coeff)) this type],
      b.equalIsFinite := by
    intro b hb
    rcases List.mem_append.1 hb with hb | hb
    · exact h b hb
    · rw [List.mem_singleton] at hb
      subst hb
      intro _
      simp [Bound.create]
  simp only at hr
  split at hr
  · exact absurd hr (by simp)
  rename_i res _
  split at hr
  · exact absurd hr (by simp)
  rename_i b0 hb0
  cases hr
  intro b hb
  have h2 : ∀ b ∈ (if res.2.1 = true then
      heap ++ [Bound.create (some (-c.constantPart / c.coeff)) this type] else heap),
      b.equalIsFinite := by
    split
    · exact h1
    · exact h
  rcases List.mem_or_eq_of_mem_set hb with hb | rfl
  · exact h2 b hb
  · have := h2 b0 (List.getElem?_mem hb0)
    intro ht
    exact this ht

/-- With an infinite equal bound among the lower bounds the order would not be transitive:
the infinite lower bound is smaller than the equal bound 3, the equal bound 3 is smaller
than the infinite equal bound (both are upper bounds as well), and the infinite lower bound
is not smaller than the infinite equal bound. -/
theorem lower_order_infinite_equal :
    exMinusInfinity.isLowerBound = true ∧ exEqualThree.isLowerBound = true ∧
      exInfiniteEqual.isLowerBound = true ∧
      exMinusInfinity.lt exEqualThree = .ok true ∧
      exEqualThree.lt exInfiniteEqual = .ok true ∧
      exMinusInfinity.lt exInfiniteEqual = .ok false := by
  refine ⟨?_, ?_, ?_, ?_, ?_, ?_⟩ <;> with_unfolding_all rfl

/-- Claim C38.  On three upper bounds (strict, equal or weak, finite or infinite), and on
three lower bounds as the class `Variable` creates them (an equal bound is finite),
`operator<` returns on every pair, no bound is smaller than itself, the order is
transitive, and so is incomparability. -/
theorem C38_strict_weak_order (a b c : Bound)
    (h : (a.isUpperBound = true ∧ b.isUpperBound = true ∧ c.isUpperBound = true) ∨
      (a.isLowerBound = true ∧ b.isLowerBound = true ∧ c.isLowerBound = true ∧
        a.equalIsFinite ∧ b.equalIsFinite ∧ c.equalIsFinite)) :
    (∀ x ∈ [a, b, c], ∀ y ∈ [a, b, c], ∃ r, x.lt y = .ok r) ∧
    a.lt a = .ok false ∧
    (a.lt b = .ok true → b.lt c = .ok true → a.lt c = .ok true) ∧
    (a.lt b = .ok false → b.lt a = .ok false → b.lt c = .ok false → c.lt b = .ok false →
      a.lt c = .ok false ∧ c.lt a = .ok false) := by
  rcases h with ⟨ha, hb, hc⟩ | ⟨ha, hb, hc, fa, fb, fc⟩
  · obtain ⟨key, hkey⟩ := upperLess_key
    apply swo_of_key key
    intro x hx y hy
    have ux : x.isUpperBound = true := by
      simp only [List.mem_cons, List.mem_singleton, List.not_mem_nil, or_false] at hx
      rcases hx with rfl | rfl | rfl <;> assumption
    have uy : y.isUpperBound = true := by
      simp only [List.mem_cons, List.mem_singleton, List.not_mem_nil, or_false] at hy
      rcases hy with rfl | rfl | rfl <;> assumption
    obtain ⟨r, hr, hiff⟩ := lt_upper x y ux uy
    exact ⟨r, hr, hiff.trans (hkey x y)⟩
  · obtain ⟨key, hkey⟩ := lowerLess_key
    apply swo_of_key key
    intro x hx y hy
    have ux : x.isLowerBound = true ∧ x.equalIsFinite := by
      simp only [List.mem_cons, List.mem_singleton, List.not_mem_nil, or_false] at hx
      rcases hx with rfl | rfl | rfl <;> exact ⟨by assumption, by assumption⟩
    have uy : y.isLowerBound = true ∧ y.equalIsFinite := by
      simp only [List.mem_cons, List.mem_singleton, List.not_mem_nil, or_false] at hy
      rcases hy with rfl | rfl | rfl <;> exact ⟨by assumption, by assumption⟩
    obtain ⟨r, hr, hiff⟩ := lt_lower_all x y ux.1 uy.1 ux.2 uy.2
    exact ⟨r, hr, hiff.trans (hkey x y)⟩

/-- Claim C38 on the strict upper bound 3, the equal bound 3 and the weak upper bound 3. -/
theorem C38_strict_weak_order_witness :
    (exStrictUpperThree.isUpperBound = true ∧ exEqualThree.isUpperBound = true ∧
      exWeakUpperThree.isUpperBound = true) ∧
    (∀ x ∈ [exStrictUpperThree, exEqualThree, exWeakUpperThree],
      ∀ y ∈ [exStrictUpperThree, exEqualThree, exWeakUpperThree], ∃ r, x.lt y = .ok r) ∧
    exStrictUpperThree.lt exStrictUpperThree = .ok false ∧
    (exStrictUpperThree.lt exEqualThree = .ok true →
      exEqualThree.lt exWeakUpperThree = .ok true →
      exStrictUpperThree.lt exWeakUpperThree = .ok true) ∧
    (exStrictUpperThree.lt exEqualThree = .ok false →
      exEqualThree.lt exStrictUpperThree = .ok false →
      exEqualThree.lt exWeakUpperThree = .ok false →
      exWeakUpperThree.lt exEqualThree = .ok false →
      exStrictUpperThree.lt exWeakUpperThree = .ok false ∧
        exWeakUpperThree.lt exStrictUpperThree = .ok false) :=
  ⟨⟨rfl, rfl, rfl⟩,
    C38_strict_weak_order exStrictUpperThree exEqualThree exWeakUpperThree
      (Or.inl ⟨rfl, rfl, rfl⟩)⟩

end vb

/-!
## The module for equalities between uninterpreted variables
-/

namespace uf

/-- Two variables that no asserted equality connects are connected only if they are the
same variable. -/
theorem eqvGen_none {V : Type} (asserted : List (UEquality V))
    (h : ∀ q ∈ asserted, q.negated = true) (x y : V)
    (hxy : Relation.EqvGen
      (fun x y => ∃ q ∈ asserted, q.negated = false ∧ q.lhs = x ∧ q.rhs = y) x y) :
    x = y := by
  induction hxy with
  | rel x y hrel =>
    obtain ⟨q, hq, hn, -⟩ := hrel
    rw [h q hq] at hn
    exact absurd hn (by simp)
  | refl x => rfl
  | symm x y _ ih => exact ih.symm
  | trans x y z _ _ ih1 ih2 => exact ih1.trans ih2

/-- Claim C39 fails.  Let the union-find structure be any structure in which, after
`merge( a, b )`, `find( a )` and then `find( b )` return the same representative, and let
`a` and `b` be two different variables.  On a new module, with either value of `reset`,
the calls `addCore( a = b )`, `addCore( a != b )` and `removeCore( a = b )` return and
leave the history `a != b`, in which no equality connects `a` and `b`, so the answer of
the claim is SAT; `checkCore` returns UNSAT, because `removeCore` only sets `reset` and
`checkCore` reads the structure in which `a` and `b` are still merged. -/
theorem C39_removed_equality_counts {UF V R : Type} [DecidableEq V] [DecidableEq R]
    (ops : UnionFindOps UF V R)
    (hfind : ∀ u a b,
      (ops.find (ops.find (ops.merge u a b) a).2 b).1 = (ops.find (ops.merge u a b) a).1)
    (u0 : UF) (reset0 : Bool) (a b : V) (hab : a ≠ b) :
    ∃ m, runCalls ops [.add ⟨a, b, false⟩, .add ⟨a, b, true⟩, .remove ⟨a, b, false⟩]
        (UnionFindModule.create u0 reset0) = .ok m ∧
      m.history = [⟨a, b, true⟩] ∧ m.reset = true ∧
      (checkCore ops m).1 = .UNSAT ∧ ¬ SpecUnsat m.history := by
  have hba : ¬ b = a := fun h => hab h.symm
  have hne : (⟨a, b, false⟩ : UEquality V) ≠ ⟨a, b, true⟩ := by simp
  have hspec : ¬ SpecUnsat [(⟨a, b, true⟩ : UEquality V)] := by
    rintro ⟨d, hd, -, hcon⟩
    rw [List.mem_singleton] at hd
    subst hd
    exact hab (eqvGen_none _ (by simp) _ _ hcon)
  cases reset0
  · refine ⟨⟨[a, b], ops.merge (ops.introduce_variable (ops.introduce_variable u0 a) b) a b,
      [⟨a, b, true⟩], true⟩, ?_, rfl, rfl, ?_, hspec⟩
    · simp [runCalls, addCore, removeCore, emplaceVariable, UnionFindModule.create, hba,
        List.erase_cons]
    · simp [checkCore, isConsistent, hfind]
  · refine ⟨⟨[a, b], ops.merge (ops.init
        (ops.introduce_variable (ops.introduce_variable u0 a) b) [a, b]) a b,
      [⟨a, b, true⟩], true⟩, ?_, rfl, rfl, ?_, hspec⟩
    · simp [runCalls, addCore, removeCore, emplaceVariable, UnionFindModule.create, hba,
        List.erase_cons, mergeHistory]
    · simp [checkCore, isConsistent, hfind]

/-- Claim C39 fails on the worked example: the variables 0 and 1 and the structure
`quickFind`. -/
theorem C39_removed_equality_counts_witness :
    (∀ (u : Nat → Nat) (a b : Nat),
      (quickFind.find (quickFind.find (quickFind.merge u a b) a).2 b).1 =
        (quickFind.find (quickFind.merge u a b) a).1) ∧ (0 : Nat) ≠ 1 ∧
    ∃ m, runCalls quickFind [.add ⟨0, 1, false⟩, .add ⟨0, 1, true⟩, .remove ⟨0, 1, false⟩]
        (UnionFindModule.create id true) = .ok m ∧
      m.history = [⟨0, 1, true⟩] ∧ m.reset = true ∧
      (checkCore quickFind m).1 = .UNSAT ∧ ¬ SpecUnsat m.history :=
  ⟨fun u a b => by simp [quickFind], by decide,
    C39_removed_equality_counts quickFind (fun u a b => by simp [quickFind]) id true 0 1
      (by decide)⟩

end uf

end smtrat
